import Mathlib

/-!
# Lzip family: shallow embedding of decoder, indexer and pax extended records

Machine integers are modelled as `Nat` (unsigned, reduced modulo `2^32` or
`2^64` wherever the source can wrap) and `Int` (C `int` values that never get
near the ends of their range).  Bytes are `Nat`s; memory blocks are `List Nat`.
-/

namespace Lzip

/-! ## Constants of the LZMA coder -/

/-- Modelled from the spec: `lzip.h` is not among the sources; a bit model is a
2048-counter probability, so `bit_model_total_bits = 11`. -/
def bit_model_total_bits : Nat := 11

/-- Modelled from the spec: `bit_model_total = 1 << bit_model_total_bits`, the
2048 of the update rule `p += (2048 - p) >> 5`. -/
def bit_model_total : Int := 2048

/-- Modelled from the spec: the shift of the update rule `p -= p >> 5`. -/
def bit_model_move_bits : Nat := 5

/-- Modelled from the spec: `min_match_len = 2` (lengths are in `[2, 273]`). -/
def min_match_len : Nat := 2

/-- Modelled from the spec: the low choice of a length model codes 8 lengths. -/
def len_low_symbols : Nat := 8

/-- Modelled from the spec: the mid choice of a length model codes 8 lengths. -/
def len_mid_symbols : Nat := 8

/-- Modelled from the spec: a bit model holds one C `int` probability. -/
structure Bit_model where
  probability : Int
  deriving DecidableEq, Repr

/-- Modelled from the spec: a length model groups three bit-model arrays
(low/mid/high) plus two selector choices; `bm_low` and `bm_mid` have one row
per `pos_state`. -/
structure Len_model where
  choice1 : Bit_model
  choice2 : Bit_model
  bm_low : List (List Bit_model)
  bm_mid : List (List Bit_model)
  bm_high : List Bit_model
  deriving DecidableEq, Repr

/-- The `>>` of C on an `int`: an arithmetic shift right. -/
def asr (x : Int) (n : Nat) : Int := Int.shiftRight x n

/-- Element `i` of a bit-model array. -/
def bmAt (bm : List Bit_model) (i : Nat) : Bit_model := bm.getD i ⟨0⟩

/-- Row `i` of a two-dimensional bit-model array. -/
def rowAt (rows : List (List Bit_model)) (i : Nat) : List Bit_model := rows.getD i []

/-! ## Range decoder (lzip-1.25/decoder.h, lziprecover-1.25/decoder.cc) -/

/-- The `enum { buffer_size = 16384 }` of `Range_decoder`. -/
def Range_decoder.buffer_size : Nat := 16384

/-- State of `class Range_decoder`.  The input file descriptor is modelled by
the bytes of the file that have not been read yet. -/
structure Range_decoder where
  partial_member_pos : Nat
  buffer : List Nat
  pos : Nat
  stream_pos : Nat
  code : Nat
  range : Nat
  infd : List Nat
  at_stream_end : Bool
  deriving DecidableEq, Repr

namespace Range_decoder

/-- `Range_decoder::read_block`: refill the buffer from the file. -/
def read_block (rd : Range_decoder) : Bool × Range_decoder :=
  let rd1 : Range_decoder :=
    if !rd.at_stream_end then
      let blk := rd.infd.take buffer_size
      { rd with
        buffer := blk ++ rd.buffer.drop blk.length
        infd := rd.infd.drop buffer_size
        stream_pos := blk.length
        at_stream_end := decide (blk.length < buffer_size)
        partial_member_pos := (rd.partial_member_pos + rd.pos) % 2 ^ 64
        pos := 0 }
    else rd
  (decide (rd1.pos < rd1.stream_pos), rd1)

/-- `Range_decoder::finished`: `pos >= stream_pos && !read_block()`. -/
def finished (rd : Range_decoder) : Bool × Range_decoder :=
  if rd.pos ≥ rd.stream_pos then
    let r := rd.read_block
    (!r.1, r.2)
  else (false, rd)

/-- `Range_decoder::get_byte`: `0xFF` once the input is exhausted. -/
def get_byte (rd : Range_decoder) : Nat × Range_decoder :=
  let f := rd.finished
  if f.1 then (0xFF, f.2)
  else (f.2.buffer.getD f.2.pos 0, { f.2 with pos := f.2.pos + 1 })

/-- `Range_decoder::normalize`. -/
def normalize (rd : Range_decoder) : Range_decoder :=
  if rd.range ≤ 0x00FFFFFF then
    let g := rd.get_byte
    { g.2 with
      range := (rd.range <<< 8) % 2 ^ 32
      code := ((rd.code <<< 8) % 2 ^ 32) ||| g.1 }
  else rd

/-- The `bound` of `decode_bit`: `( range >> bit_model_total_bits ) *
bm.probability` in 32-bit unsigned arithmetic. -/
def bound (rd : Range_decoder) (bm : Bit_model) : Nat :=
  ((rd.range >>> bit_model_total_bits) * (bm.probability % 2 ^ 32).toNat) % 2 ^ 32

/-- The update of a bit model after a 0 bit: `bm.probability +=
( bit_model_total - bm.probability ) >> bit_model_move_bits`. -/
def update0 (bm : Bit_model) : Bit_model :=
  ⟨bm.probability + asr (bit_model_total - bm.probability) bit_model_move_bits⟩

/-- The update of a bit model after a 1 bit: `bm.probability -=
bm.probability >> bit_model_move_bits`. -/
def update1 (bm : Bit_model) : Bit_model :=
  ⟨bm.probability - asr bm.probability bit_model_move_bits⟩

/-- `Range_decoder::decode_bit`: returns the bit, the updated bit model and the
new decoder state. -/
def decode_bit (rd : Range_decoder) (bm : Bit_model) : Nat × Bit_model × Range_decoder :=
  let rd1 := rd.normalize
  let bound := rd1.bound bm
  if rd1.code < bound then
    (0, update0 bm, { rd1 with range := bound })
  else
    (1, update1 bm,
      { rd1 with
        code := (rd1.code + 2 ^ 32 - bound) % 2 ^ 32
        range := (rd1.range + 2 ^ 32 - bound) % 2 ^ 32 })

/-- `Range_decoder::decode_symbol_bit`: returns the updated bit model, the new
symbol and the new decoder state. -/
def decode_symbol_bit (rd : Range_decoder) (bm : Bit_model) (symbol : Nat) :
    Bit_model × Nat × Range_decoder :=
  let rd1 := rd.normalize
  let symbol1 := (symbol <<< 1) % 2 ^ 32
  let bound := rd1.bound bm
  if rd1.code < bound then
    (update0 bm, symbol1, { rd1 with range := bound })
  else
    (update1 bm, symbol1 ||| 1,
      { rd1 with
        code := (rd1.code + 2 ^ 32 - bound) % 2 ^ 32
        range := (rd1.range + 2 ^ 32 - bound) % 2 ^ 32 })

/-- The call `decode_symbol_bit( bm[symbol], symbol )` on an array `bm`. -/
def decode_symbol_bit_at (rd : Range_decoder) (bm : List Bit_model) (symbol : Nat) :
    List Bit_model × Nat × Range_decoder :=
  let r := rd.decode_symbol_bit (bmAt bm symbol) symbol
  (bm.set symbol r.1, r.2.1, r.2.2)

/-- The three calls after the label `len3` of `decode_len`. -/
def decode_len3 (rd : Range_decoder) (bm : List Bit_model) (symbol : Nat) :
    List Bit_model × Nat × Range_decoder :=
  let r1 := rd.decode_symbol_bit_at bm symbol
  let r2 := r1.2.2.decode_symbol_bit_at r1.1 r1.2.1
  r2.2.2.decode_symbol_bit_at r2.1 r2.2.1

/-- `Range_decoder::decode_len`: returns the length, the updated length model
and the new decoder state. -/
def decode_len (rd : Range_decoder) (lm : Len_model) (pos_state : Nat) :
    Nat × Len_model × Range_decoder :=
  let c1 := rd.decode_bit lm.choice1
  let lm1 := { lm with choice1 := c1.2.1 }
  if c1.1 = 0 then
    let r := c1.2.2.decode_len3 (rowAt lm1.bm_low pos_state) 1
    ((r.2.1 &&& 7) + min_match_len + 0,
      { lm1 with bm_low := lm1.bm_low.set pos_state r.1 }, r.2.2)
  else
    let c2 := c1.2.2.decode_bit lm1.choice2
    let lm2 := { lm1 with choice2 := c2.2.1 }
    if c2.1 = 0 then
      let r := c2.2.2.decode_len3 (rowAt lm2.bm_mid pos_state) 1
      ((r.2.1 &&& 7) + min_match_len + len_low_symbols,
        { lm2 with bm_mid := lm2.bm_mid.set pos_state r.1 }, r.2.2)
    else
      let h1 := c2.2.2.decode_symbol_bit_at lm2.bm_high 1
      let h2 := h1.2.2.decode_symbol_bit_at h1.1 h1.2.1
      let h3 := h2.2.2.decode_symbol_bit_at h2.1 h2.2.1
      let h4 := h3.2.2.decode_symbol_bit_at h3.1 h3.2.1
      let h5 := h4.2.2.decode_symbol_bit_at h4.1 h4.2.1
      let r := h5.2.2.decode_len3 h5.1 h5.2.1
      ((r.2.1 &&& 0xFF) + min_match_len + (len_low_symbols + len_mid_symbols),
        { lm2 with bm_high := r.1 }, r.2.2)

end Range_decoder

/-! ## CRC32 (tarlz-0.29/tarlz.h) -/

/-- The `class CRC32`: only the choice of polynomial is state, the table
`data[256]` is computed from it. -/
structure CRC32 where
  castagnoli : Bool
  deriving DecidableEq, Repr

namespace CRC32

/-- One round of the table construction:
`if( c & 1 ) c = poly ^ ( c >> 1 ); else c >>= 1;`. -/
def round (poly c : Nat) : Nat :=
  if c &&& 1 ≠ 0 then poly ^^^ (c >>> 1) else c >>> 1

/-- The polynomial chosen by the constructor. -/
def poly (t : CRC32) : Nat := if t.castagnoli then 0x82F63B78 else 0xEDB88320

/-- Table entry `data[n]`, as filled in by the constructor (8 rounds). -/
def data (t : CRC32) (n : Nat) : Nat :=
  round t.poly (round t.poly (round t.poly (round t.poly
    (round t.poly (round t.poly (round t.poly (round t.poly n)))))))

/-- `CRC32::update_byte`. -/
def update_byte (t : CRC32) (crc byte : Nat) : Nat :=
  t.data ((crc ^^^ byte) &&& 0xFF) ^^^ (crc >>> 8)

/-- `CRC32::update_buf` over the bytes `buffer[0 .. size)`. -/
def update_buf (t : CRC32) (crc : Nat) (buffer : List Nat) : Nat :=
  buffer.foldl t.update_byte crc

/-- `CRC32::compute_crc`. -/
def compute_crc (t : CRC32) (buffer : List Nat) : Nat :=
  t.update_buf 0xFFFFFFFF buffer ^^^ 0xFFFFFFFF

/-- `CRC32::windowed_crc`: the crc of `size` bytes except a window of 8 bytes
at `pos`. -/
def windowed_crc (t : CRC32) (buffer : List Nat) (pos size : Nat) : Nat :=
  let crc := t.update_buf 0xFFFFFFFF (buffer.take pos)
  t.update_buf crc ((buffer.drop (pos + 8)).take (size - pos - 8)) ^^^ 0xFFFFFFFF

end CRC32

/-- The global `const CRC32 crc32;` of decoder.cc. -/
def crc32 : CRC32 := ⟨false⟩

/-- The global `const CRC32 crc32c( true );` of extended.cc. -/
def crc32c : CRC32 := ⟨true⟩

/-! ## LZ decoder (lzip-1.25/decoder.h, lziprecover-1.25/decoder.cc) -/

/-- Subtraction of two `unsigned` values (32 bits, wrapping). -/
def usub32 (a b : Nat) : Nat := (a + 2 ^ 32 - b % 2 ^ 32) % 2 ^ 32

/-- Modelled from the spec: `positive_diff` is declared in a header that is not
among the sources; by its name and use it is `x - y` when `x > y`, else 0. -/
def positive_diff (x y : Nat) : Nat := if x > y then x - y else 0

/-- State of `class LZ_decoder`.  The reference to the range decoder is left
out (none of the dictionary operations touches it); the output file is the list
`outfile` of the bytes written to `outfd` so far, and writes to it succeed.
`outskip` and `outend` are the output window of lziprecover's `flush_data`. -/
structure LZ_decoder where
  partial_data_pos : Nat
  dictionary_size : Nat
  buffer : List Nat
  pos : Nat
  stream_pos : Nat
  crc_ : Nat
  outfd : Int
  pos_wrapped : Bool
  outskip : Nat
  outend : Nat
  outfile : List Nat
  deriving DecidableEq, Repr

namespace LZ_decoder

/-- The constructor `LZ_decoder( rde, dict_size, ofd )`: `mem` is the content
of the freshly allocated (uninitialized) buffer, whose last byte is set to 0. -/
def new (dict_size : Nat) (ofd : Int) (mem : List Nat) (outskip outend : Nat) : LZ_decoder :=
  { partial_data_pos := 0
    dictionary_size := dict_size
    buffer := mem.set (dict_size - 1) 0
    pos := 0
    stream_pos := 0
    crc_ := 0xFFFFFFFF
    outfd := ofd
    pos_wrapped := false
    outskip := outskip
    outend := outend
    outfile := [] }

/-- Modelled from the spec: `stream_position()` is declared in a header that is
not among the sources; it is the file position of the first byte not yet
written, `partial_data_pos + stream_pos`. -/
def stream_position (d : LZ_decoder) : Nat := (d.partial_data_pos + d.stream_pos) % 2 ^ 64

/-- `LZ_decoder::flush_data` (lziprecover-1.25/decoder.cc). -/
def flush_data (d : LZ_decoder) : LZ_decoder :=
  if d.pos > d.stream_pos then
    let size := d.pos - d.stream_pos
    let crc := crc32.update_buf d.crc_ ((d.buffer.drop d.stream_pos).take size)
    let outfile :=
      if d.outfd ≥ 0 then
        let sp := d.stream_position
        let i := positive_diff d.outskip sp
        let s : Int := (min (positive_diff d.outend sp) size : Nat) - (i : Int)
        if s > 0 then d.outfile ++ (d.buffer.drop (d.stream_pos + i)).take s.toNat
        else d.outfile
      else d.outfile
    let d1 := { d with crc_ := crc, outfile := outfile }
    let d2 :=
      if d1.pos ≥ d1.dictionary_size then
        { d1 with
          partial_data_pos := (d1.partial_data_pos + d1.pos) % 2 ^ 64
          pos := 0
          pos_wrapped := true }
      else d1
    { d2 with stream_pos := d2.pos }
  else d

/-- `LZ_decoder::peek_prev`. -/
def peek_prev (d : LZ_decoder) : Nat :=
  d.buffer.getD (usub32 (if d.pos > 0 then d.pos else d.dictionary_size) 1) 0

/-- `LZ_decoder::peek`. -/
def peek (d : LZ_decoder) (distance : Nat) : Nat :=
  let i := usub32 (usub32 (((if d.pos > distance then 0 else d.dictionary_size) + d.pos) % 2 ^ 32)
    distance) 1
  d.buffer.getD i 0

/-- `LZ_decoder::put_byte`. -/
def put_byte (d : LZ_decoder) (b : Nat) : LZ_decoder :=
  let d1 := { d with buffer := d.buffer.set d.pos b, pos := (d.pos + 1) % 2 ^ 32 }
  if d1.pos ≥ d1.dictionary_size then d1.flush_data else d1

/-- `std::memcpy( buffer + dst, buffer + src, len )` inside one buffer: all
source bytes are read before any is written. -/
def memcpy (buffer : List Nat) (dst src len : Nat) : List Nat :=
  buffer.take dst ++ ((buffer.drop src).take len ++ buffer.drop (dst + len))

/-- The loop `for( ; len > 0; --len ) buffer[lpos++] = buffer[i++];`. -/
def copy_forward (buffer : List Nat) (lpos i : Nat) : Nat → List Nat
  | 0 => buffer
  | len + 1 =>
    copy_forward (buffer.set lpos (buffer.getD i 0)) ((lpos + 1) % 2 ^ 32) ((i + 1) % 2 ^ 32) len

/-- The wrapping loop of `copy_block`:
`for( ; len > 0; --len ) { buffer[pos] = buffer[i];
if( ++pos >= dictionary_size ) flush_data();
if( ++i >= dictionary_size ) i = 0; }`. -/
def copy_wrap (d : LZ_decoder) (i : Nat) : Nat → LZ_decoder
  | 0 => d
  | len + 1 =>
    let d1 := { d with buffer := d.buffer.set d.pos (d.buffer.getD i 0), pos := (d.pos + 1) % 2 ^ 32 }
    let d2 := if d1.pos ≥ d1.dictionary_size then d1.flush_data else d1
    let i1 := (i + 1) % 2 ^ 32
    copy_wrap d2 (if i1 ≥ d2.dictionary_size then 0 else i1) len

/-- `LZ_decoder::copy_block`. -/
def copy_block (d : LZ_decoder) (distance len : Nat) : LZ_decoder :=
  let lpos := d.pos
  let i0 := usub32 (usub32 lpos distance) 1
  let i := if lpos > distance then i0 else (i0 + d.dictionary_size) % 2 ^ 32
  let fast :=
    if lpos > distance then decide (len < usub32 d.dictionary_size lpos)
    else decide (len < usub32 d.dictionary_size i)
  let fast2 :=
    if lpos > distance then fast && decide (len ≤ usub32 lpos i)
    else fast && decide (len ≤ usub32 i lpos)
  if fast then
    let d1 := { d with pos := (d.pos + len) % 2 ^ 32 }
    if fast2 then { d1 with buffer := memcpy d.buffer lpos i len }
    else { d1 with buffer := copy_forward d.buffer lpos i len }
  else copy_wrap d i len

/-- The byte-at-a-time definition of a match copy: `put_byte( peek( distance ) )`
executed `len` times. -/
def copy_bytewise (d : LZ_decoder) (distance : Nat) : Nat → LZ_decoder
  | 0 => d
  | len + 1 => copy_bytewise (d.put_byte (d.peek distance)) distance len

end LZ_decoder

/-! ## Lzip header (tarlz-0.29/tarlz.h) -/

def min_dictionary_bits : Nat := 12
def min_dictionary_size : Nat := 1 <<< min_dictionary_bits
def max_dictionary_bits : Nat := 29
def max_dictionary_size : Nat := 1 <<< max_dictionary_bits
def min_member_size : Nat := 36

/-- `isvalid_ds`. -/
def isvalid_ds (dictionary_size : Nat) : Bool :=
  decide (dictionary_size ≥ min_dictionary_size) && decide (dictionary_size ≤ max_dictionary_size)

/-- The bytes `"LZIP"`. -/
def lzip_magic : List Nat := [0x4C, 0x5A, 0x49, 0x50]

/-- The `data[size]` array of `struct Lzip_header`. -/
structure Lzip_header where
  data : List Nat
  deriving DecidableEq, Repr

namespace Lzip_header

def size : Nat := 6

/-- Byte `data[i]`. -/
def byte (h : Lzip_header) (i : Nat) : Nat := h.data.getD i 0

/-- `Lzip_header::check_magic`: `memcmp( data, lzip_magic, 4 ) == 0`. -/
def check_magic (h : Lzip_header) : Bool := h.data.take 4 == lzip_magic

def version (h : Lzip_header) : Nat := h.byte 4

/-- `Lzip_header::check_version`. -/
def check_version (h : Lzip_header) : Bool := h.byte 4 == 1

/-- `Lzip_header::dictionary_size`, in 32-bit unsigned arithmetic. -/
def dictionary_size (h : Lzip_header) : Nat :=
  let sz := (1 <<< (h.byte 5 &&& 0x1F)) % 2 ^ 32
  if sz > min_dictionary_size then
    (sz + 2 ^ 32 - ((sz / 16) * ((h.byte 5 >>> 5) &&& 7)) % 2 ^ 32) % 2 ^ 32
  else sz

/-- `Lzip_header::check`. -/
def check (h : Lzip_header) : Bool :=
  h.check_magic && h.check_version && isvalid_ds h.dictionary_size

end Lzip_header

/-! ## Lzip trailer (tarlz-0.29/tarlz.h) -/

/-- The loops `for( int i = hi; i >= lo; --i ) { tmp <<= 8; tmp += data[i]; }`
of the little-endian field readers, on a `w`-bit unsigned `tmp`; `n` counts the
bytes still to be read, the next one being `data[lo + n - 1]`. -/
def le_loop (w : Nat) (data : List Nat) (lo : Nat) : Nat → Nat → Nat
  | 0, tmp => tmp
  | n + 1, tmp => le_loop w data lo n ((((tmp <<< 8) % 2 ^ w) + data.getD (lo + n) 0) % 2 ^ w)

/-- The `data[size]` array of `struct Lzip_trailer`. -/
structure Lzip_trailer where
  data : List Nat
  deriving DecidableEq, Repr

namespace Lzip_trailer

def size : Nat := 20

/-- `Lzip_trailer::data_crc` (bytes 0-3, `unsigned`). -/
def data_crc (t : Lzip_trailer) : Nat := le_loop 32 t.data 0 4 0

/-- `Lzip_trailer::data_size` (bytes 4-11, `unsigned long long`). -/
def data_size (t : Lzip_trailer) : Nat := le_loop 64 t.data 4 8 0

/-- `Lzip_trailer::member_size` (bytes 12-19, `unsigned long long`). -/
def member_size (t : Lzip_trailer) : Nat := le_loop 64 t.data 12 8 0

/-- `Lzip_trailer::check_consistency`, in 64-bit unsigned arithmetic. -/
def check_consistency (t : Lzip_trailer) : Bool :=
  let crc := t.data_crc
  let dsize := t.data_size
  if decide (crc = 0) != decide (dsize = 0) then false
  else
    let msize := t.member_size
    if msize < min_member_size then false
    else
      let mlimit := (((9 * dsize) % 2 ^ 64 + 7) % 2 ^ 64 / 8 + min_member_size) % 2 ^ 64
      if mlimit > dsize ∧ msize > mlimit then false
      else
        let dlimit := ((7090 * ((msize + 2 ^ 64 - 26) % 2 ^ 64)) % 2 ^ 64 + 2 ^ 64 - 1) % 2 ^ 64
        if dlimit > msize ∧ dsize > dlimit then false
        else true

end Lzip_trailer

namespace Lzip_header

/-- `Lzip_header::check_prefix`: detect a (truncated) header; the loop
`for( int i = 0; i < sz && i < 4; ++i ) if( data[i] != lzip_magic[i] ) return false;`
then `return sz > 0;`. -/
def check_prefix (h : Lzip_header) (sz : Nat) : Bool :=
  (List.range (min sz 4)).all (fun i => h.byte i == lzip_magic.getD i 0) && decide (sz > 0)

/-- `Lzip_header::check_corrupt`: `matches > 1 && matches < 4`. -/
def check_corrupt (h : Lzip_header) : Bool :=
  let matches_ := ((List.range 4).filter (fun i => h.byte i == lzip_magic.getD i 0)).length
  decide (matches_ > 1) && decide (matches_ < 4)

end Lzip_header

/-! ## Lzip index (tarlz-0.29/lzip_index.cc)

The input file is the list of its bytes; seeking and reading it never fail.
Values of type `long long` are kept as their 64-bit two's-complement patterns,
so that `x < 0` reads `x ≥ 2 ^ 63`. -/

/-- `seek_read`: the bytes read, at most `size` of them, from offset `pos`. -/
def seek_read (file : List Nat) (size pos : Nat) : List Nat := (file.drop pos).take size

/-- The bytes `"TDATABOX"`. -/
def box_magic : List Nat := [0x54, 0x44, 0x41, 0x54, 0x41, 0x42, 0x4F, 0x58]

/-- The `data[8]` array of `struct Box_trailer`. -/
structure Box_trailer where
  data : List Nat
  deriving DecidableEq, Repr

/-- `Box_trailer::box_size`. -/
def Box_trailer.box_size (t : Box_trailer) : Nat := le_loop 64 t.data 0 8 0

/-- One iteration of the loop `while( pos >= 16 )` of `skip_box`; `continue_`
stands for the rest of the loop.  The result is the value returned: the
position after skipping trailing databoxes, or -1 on a read error. -/
def skip_box_body (file : List Nat) (continue_ : Nat → Option Int) (pos : Nat) : Option Int :=
  if pos ≥ 16 then
    let trailer := seek_read file 8 (pos - 8)
    if trailer.length ≠ 8 then some (-1)
    else
      let box_size := Box_trailer.box_size ⟨trailer⟩
      if box_size > pos ∨ box_size < 16 then some (pos : Int)
      else
        let bheader := seek_read file 8 (pos - box_size)
        if bheader.length ≠ 8 then some (-1)
        else if bheader ≠ box_magic then some (pos : Int)
        else continue_ (pos - box_size)
  else some (pos : Int)

/-- The function `skip_box`, with a bound on the number of iterations of its
loop; `none` only if that fuel runs out. -/
def skip_box (file : List Nat) : Nat → Nat → Option Int
  | 0, _ => none
  | fuel + 1, pos => skip_box_body file (fun p => skip_box file fuel p) pos

/-- Modelled from the spec: `lzip_index.h` is not among the sources; a block is
`{pos, size}`, both `long long`. -/
structure Block where
  pos : Nat
  size : Nat
  deriving DecidableEq, Repr

/-- Modelled from the spec: the end of a block, `pos + size` as a `long long`. -/
def Block.end_ (b : Block) : Nat := (b.pos + b.size) % 2 ^ 64

/-- Modelled from the spec: `lzip_index.h` is not among the sources; a member is
`Member{ dblock{pos,size}, mblock{pos,size}, dict }`. -/
structure Member where
  dblock : Block
  mblock : Block
  dictionary_size : Nat
  deriving DecidableEq, Repr

/-- The constructor call `Member( dpos, dsize, mpos, msize, dict_size )`. -/
def Member.new (dpos dsize mpos msize dict_size : Nat) : Member :=
  ⟨⟨dpos % 2 ^ 64, dsize % 2 ^ 64⟩, ⟨mpos % 2 ^ 64, msize % 2 ^ 64⟩, dict_size⟩

/-- State of `class Lzip_index` (its declaration is in the absent
`lzip_index.h`): the fields the constructor assigns.  `error_num` is the number
that `set_num_error` formats into the message. -/
structure Lzip_index where
  member_vector : List Member
  error_ : String
  error_num : Option Nat
  retval_ : Int
  dictionary_size_ : Nat
  good_magic_ : Bool
  deriving DecidableEq, Repr

def bad_magic_msg : String := "Bad magic number (file not in lzip format)."
def bad_dict_msg : String := "Invalid dictionary size in member header."
def corrupt_mm_msg : String := "Corrupt header in multimember file."

namespace Lzip_index

/-- `Lzip_index::check_header`. -/
def check_header (x : Lzip_index) (header : Lzip_header) (first : Bool) : Bool × Lzip_index :=
  if !header.check_magic then (false, { x with error_ := bad_magic_msg, retval_ := 2 })
  else
    let x1 := if first then { x with good_magic_ := true } else x
    if !header.check_version then
      (false, { x1 with error_ := "Version member format not supported.",
                        error_num := some header.version, retval_ := 2 })
    else if !isvalid_ds header.dictionary_size then
      (false, { x1 with error_ := bad_dict_msg, retval_ := 2 })
    else (true, x1)

/-- `Lzip_index::set_errno_error` (the text of `strerror` is left out). -/
def set_errno_error (x : Lzip_index) (msg : String) : Lzip_index :=
  { x with error_ := msg, retval_ := 1 }

/-- `Lzip_index::set_num_error`. -/
def set_num_error (x : Lzip_index) (msg : String) (num : Nat) : Lzip_index :=
  { x with error_ := msg, error_num := some num, retval_ := 2 }

/-- `Lzip_index::read_header`: the header read at `pos`, if all of it could be
read. -/
def read_header (x : Lzip_index) (file : List Nat) (pos : Nat) :
    Option Lzip_header × Lzip_index :=
  let data := seek_read file Lzip_header.size pos
  if data.length ≠ Lzip_header.size then
    (none, x.set_errno_error "Error reading member header: ")
  else (some ⟨data⟩, x)

/-- The statements that index a good member: raise `dictionary_size_` and
`member_vector.push_back( Member( 0, trailer.data_size(), pos, member_size,
dictionary_size ) )`. -/
def push_member (x : Lzip_index) (trailer : Lzip_trailer) (header : Lzip_header)
    (pos member_size : Nat) : Lzip_index :=
  let dictionary_size := header.dictionary_size
  let x1 := if x.dictionary_size_ < dictionary_size then
      { x with dictionary_size_ := dictionary_size } else x
  { x1 with member_vector :=
      x1.member_vector ++ [Member.new 0 trailer.data_size pos member_size dictionary_size] }

def block_size : Nat := 16384

/-- The `buffer_size` of `skip_trailing_data`. -/
def buffer_size : Nat := block_size + Lzip_trailer.size - 1 + Lzip_header.size

/-- The loop `while( i > trailer.size && buffer[i-9] == 0 ) --i;`. -/
def skip_zeros (buffer : List Nat) : Nat → Nat
  | 0 => 0
  | i + 1 =>
    if i + 1 > Lzip_trailer.size ∧ buffer.getD (i + 1 - 9) 0 = 0 then skip_zeros buffer i
    else i + 1

/-- Outcome of the `for` loop of `skip_trailing_data`: either the function
returns (`ret`, with the value returned, `pos` and the index), or the loop ends
without having found a trailer. -/
inductive Scan where
  | ret : Bool → Nat → Lzip_index → Scan
  | notfound : Scan
  deriving DecidableEq, Repr

/-- One iteration, at the value `i`, of the loop
`for( int i = search_size; i >= Lzip_trailer::size; --i )` of
`skip_trailing_data`; `continue_ j` stands for the rest of the loop from the
value `j`. -/
def scan_block_body (file buffer : List Nat) (bsize ipos max_msb pos : Nat) (x : Lzip_index)
    (continue_ : Nat → Option Scan) (i : Nat) : Option Scan :=
  if i ≥ Lzip_trailer.size then
    if buffer.getD (i - 1) 0 ≤ max_msb then
      let trailer : Lzip_trailer := ⟨(buffer.drop (i - Lzip_trailer.size)).take Lzip_trailer.size⟩
      let member_size := trailer.member_size
      if member_size = 0 then continue_ (skip_zeros buffer i - 1)
      else if member_size > ipos + i ∨ !trailer.check_consistency then continue_ (i - 1)
      else
        let r := x.read_header file (ipos + i - member_size)
        match r.1 with
        | none => some (Scan.ret false pos r.2)
        | some header =>
          if !header.check then continue_ (i - 1)
          else
            let header2 : Lzip_header := ⟨(buffer.drop i).take Lzip_header.size⟩
            let full_h2 := decide (bsize - i ≥ Lzip_header.size)
            if Lzip_header.check_prefix header2 (bsize - i) then
              let x2 :=
                if !full_h2 then
                  { r.2 with error_ := "Last member in input file is truncated." }
                else
                  let c := r.2.check_header header2 false
                  if c.1 then
                    { c.2 with error_ := "Last member in input file is truncated or corrupt." }
                  else c.2
              some (Scan.ret false pos { x2 with retval_ := 2 })
            else if full_h2 && header2.check_corrupt then
              some (Scan.ret false pos { r.2 with error_ := corrupt_mm_msg, retval_ := 2 })
            else
              let pos1 := ipos + i - member_size
              some (Scan.ret true pos1 (r.2.push_member trailer header pos1 member_size))
    else continue_ (i - 1)
  else some Scan.notfound

/-- The `for` loop of `skip_trailing_data` from the value `i`, with a bound on
the number of its iterations; `none` only if that fuel runs out. -/
def scan_block (file buffer : List Nat) (bsize ipos max_msb pos : Nat) (x : Lzip_index) :
    Nat → Nat → Option Scan
  | 0, _ => none
  | fuel + 1, i =>
    scan_block_body file buffer bsize ipos max_msb pos x
      (fun j => scan_block file buffer bsize ipos max_msb pos x fuel j) i

/-- One iteration of the loop `while( true )` of `skip_trailing_data`;
`continue_` stands for the rest of the loop.  The result is the value returned,
the new `pos` and the new state. -/
def scan_blocks_body (file : List Nat) (pos : Nat)
    (continue_ : List Nat → Nat → Nat → Nat → Nat → Option (Bool × Nat × Lzip_index))
    (x : Lzip_index) (buffer : List Nat) (bsize search_size rd_size ipos : Nat) :
    Option (Bool × Nat × Lzip_index) :=
  let rd := seek_read file rd_size ipos
  if rd.length ≠ rd_size then
    some (false, pos, x.set_errno_error "Error seeking member trailer: ")
  else
    let buffer1 := rd ++ buffer.drop rd_size
    let max_msb := ((ipos + search_size) >>> 56) % 256
    match scan_block file buffer1 bsize ipos max_msb pos x (search_size + 1) search_size with
    | none => none
    | some (Scan.ret b pos1 x1) => some (b, pos1, x1)
    | some Scan.notfound =>
      if ipos = 0 then
        some (false, pos, x.set_num_error "Bad trailer at pos" (pos - Lzip_trailer.size))
      else
        let buffer2 := LZ_decoder.memcpy buffer1 block_size 0 (buffer_size - block_size)
        continue_ buffer2 buffer_size (buffer_size - Lzip_header.size) block_size
          (ipos - block_size)

/-- The `while( true )` loop of `skip_trailing_data`, with a bound on the
number of its iterations; `none` only if that fuel runs out. -/
def scan_blocks (file : List Nat) (pos : Nat) (x : Lzip_index) :
    Nat → List Nat → Nat → Nat → Nat → Nat → Option (Bool × Nat × Lzip_index)
  | 0, _, _, _, _, _ => none
  | fuel + 1, buffer, bsize, search_size, rd_size, ipos =>
    scan_blocks_body file pos
      (fun b bs ss rs ip => scan_blocks file pos x fuel b bs ss rs ip)
      x buffer bsize search_size rd_size ipos

/-- `Lzip_index::skip_trailing_data`: returns the value returned, the new `pos`
and the new state (if successful, the last member is pushed and `pos` is set
to its header); `none` only if some loop runs out of fuel. -/
def skip_trailing_data (x : Lzip_index) (file : List Nat) (pos : Nat) :
    Option (Bool × Nat × Lzip_index) :=
  if pos < min_member_size then some (false, pos, x)
  else
    let bsize0 := pos % block_size
    let bsize := if bsize0 ≤ buffer_size - block_size then bsize0 + block_size else bsize0
    let ipos := (pos + 2 ^ 64 - bsize) % 2 ^ 64
    scan_blocks file pos x (ipos / block_size + 1) (List.replicate buffer_size 0) bsize bsize
      bsize ipos

/-- What the constructor does after a bad trailer or header was found at
`pos`: `if( member_vector.empty() ) { if( skip_trailing_data( infd, pos ) )
continue; return; }`, else `set_num_error( msg, num ); break;`. -/
def index_loop_bad (file : List Nat)
    (continue_ : Nat → Lzip_index → Option (Nat × Lzip_index × Bool))
    (pos : Nat) (x : Lzip_index) (msg : String) (num : Nat) : Option (Nat × Lzip_index × Bool) :=
  if x.member_vector.isEmpty then
    match x.skip_trailing_data file pos with
    | none => none
    | some s => if s.1 then continue_ s.2.1 s.2.2 else some (s.2.1, s.2.2, true)
  else some (pos, x.set_num_error msg num, false)

/-- One iteration of the loop `while( pos >= min_member_size )` of the
constructor; `continue_` stands for the rest of the loop.  The result is the
final `pos`, the state, and whether the constructor returned from inside the
loop. -/
def index_loop_body (file : List Nat)
    (continue_ : Nat → Lzip_index → Option (Nat × Lzip_index × Bool))
    (pos : Nat) (x : Lzip_index) : Option (Nat × Lzip_index × Bool) :=
  if pos ≥ min_member_size then
    let tdata := seek_read file Lzip_trailer.size (pos - Lzip_trailer.size)
    if tdata.length ≠ Lzip_trailer.size then
      some (pos, x.set_errno_error "Error reading member trailer: ", false)
    else
      let trailer : Lzip_trailer := ⟨tdata⟩
      let member_size := trailer.member_size
      if member_size > pos ∨ !trailer.check_consistency then
        index_loop_bad file continue_ pos x "Bad trailer at pos" (pos - Lzip_trailer.size)
      else
        let r := x.read_header file (pos - member_size)
        match r.1 with
        | none => some (pos, r.2, false)
        | some header =>
          if !header.check then
            index_loop_bad file continue_ pos r.2 "Bad header at pos" (pos - member_size)
          else
            let pos1 := pos - member_size
            continue_ pos1 (r.2.push_member trailer header pos1 member_size)
  else some (pos, x, false)

/-- The loop `while( pos >= min_member_size )` of the constructor, with a bound
on the number of its iterations; `none` only if that fuel runs out. -/
def index_loop (file : List Nat) : Nat → Nat → Lzip_index → Option (Nat × Lzip_index × Bool)
  | 0, _, _ => none
  | fuel + 1, pos, x => index_loop_body file (fun p y => index_loop file fuel p y) pos x

/-- The final loop of the constructor, which chains the data blocks: the head
of the list gets `dblock.pos = dpos`, its `dblock.end()` is checked
(`end < 0 || end > INT64_MAX`) and becomes the `dblock.pos` of the next
member.  `none` stands for the error "Data in input file is too long". -/
def chain_dblocks (dpos : Nat) : List Member → Option (List Member)
  | [] => some []
  | m :: rest =>
    let m1 : Member := { m with dblock := { m.dblock with pos := dpos } }
    let e := m1.dblock.end_
    if e ≥ 2 ^ 63 then none
    else (chain_dblocks e rest).map (fun l => m1 :: l)

/-- The state set up by the member initializers of the constructor. -/
def init : Lzip_index :=
  { member_vector := [], error_ := "", error_num := none, retval_ := 0,
    dictionary_size_ := 0, good_magic_ := false }

/-- The test `read_header( infd, header, 0 ) && check_header( header, true )`
on the first header of the file, and the state it leaves. -/
def read_first_header (file : List Nat) : Bool × Lzip_index :=
  let h := init.read_header file 0
  match h.1 with
  | none => (false, h.2)
  | some header => h.2.check_header header true

/-- The statements of the constructor after its loop, on the outcome of the
loop (`pos`, the state, and whether the constructor has already returned). -/
def finish (l : Nat × Lzip_index × Bool) : Lzip_index :=
  let x2 := l.2.1
  if l.2.2 then x2
  else if l.1 ≠ 0 ∨ x2.member_vector.isEmpty ∨ x2.retval_ ≠ 0 then
    if x2.retval_ = 0 then
      { x2 with member_vector := [], error_ := "Can't create file index.", retval_ := 2 }
    else { x2 with member_vector := [] }
  else
    let mv := x2.member_vector.reverse
    match chain_dblocks (mv.headD (Member.new 0 0 0 0 0)).dblock.pos mv with
    | none =>
      { x2 with member_vector := [],
                error_ := "Data in input file is too long (2^63 bytes or more).",
                retval_ := 2 }
    | some mv1 => { x2 with member_vector := mv1 }

/-- The constructor `Lzip_index::Lzip_index( infd )` on the file with the bytes
`file`; `none` only if some loop runs out of fuel. -/
def new (file : List Nat) : Option Lzip_index :=
  let insize := file.length
  let c := read_first_header file
  if insize ≥ Lzip_header.size ∧ c.1 = false then some c.2
  else
    let x1 := if insize ≥ Lzip_header.size then c.2 else init
    if insize < min_member_size then
      some { x1 with error_ := if insize ≠ 0 then "Input file is truncated."
                               else "Input file is empty.", retval_ := 2 }
    else if insize > 2 ^ 63 - 1 then
      some { x1 with error_ := "Input file is too long (2^63 bytes or more).", retval_ := 2 }
    else
      match skip_box file (insize + 1) insize with
      | none => none
      | some box_pos =>
        let pos := if box_pos ≥ 0 then box_pos.toNat else 0
        (index_loop file (pos + 1) pos x1).map finish

/-- Modelled from the spec: `members()`, the number of members indexed. -/
def members (x : Lzip_index) : Nat := x.member_vector.length

/-- Modelled from the spec: `mblock( i )`, the compressed extent of member `i`. -/
def mblock (x : Lzip_index) (i : Nat) : Block := (x.member_vector.getD i (Member.new 0 0 0 0 0)).mblock

/-- Modelled from the spec: `dblock( i )`, the uncompressed extent of member `i`. -/
def dblock (x : Lzip_index) (i : Nat) : Block := (x.member_vector.getD i (Member.new 0 0 0 0 0)).dblock

/-- Modelled from the spec: the size of the compressed portion of the file,
the end of the last member block (0 if there is none). -/
def cdata_size (x : Lzip_index) : Nat :=
  match x.member_vector.getLast? with
  | none => 0
  | some m => m.mblock.end_

/-- Modelled from the spec: the size of the uncompressed data, the end of the
last data block (0 if there is none). -/
def udata_size (x : Lzip_index) : Nat :=
  match x.member_vector.getLast? with
  | none => 0
  | some m => m.dblock.end_

end Lzip_index

/-- The member `m` of the index of a file `b`, as it appears in the index of
`a ++ b`: the member block is `moff` bytes further, the data block `doff`
bytes further. -/
def shift_member (moff doff : Nat) (m : Member) : Member :=
  { m with
    mblock := { m.mblock with pos := m.mblock.pos + moff }
    dblock := { m.dblock with pos := m.dblock.pos + doff } }

/-- The 8 bytes of `n` as a 64-bit little-endian number. -/
def le64 (n : Nat) : List Nat :=
  [n % 256, n / 256 % 256, n / 256 ^ 2 % 256, n / 256 ^ 3 % 256, n / 256 ^ 4 % 256,
   n / 256 ^ 5 % 256, n / 256 ^ 6 % 256, n / 256 ^ 7 % 256]

/-- The databox holding the trailing data `t`: `"TDATABOX"`, then `t`, then the
size of the whole box (`|t| + 16`) as a 64-bit little-endian number. -/
def databox_wrap (t : List Nat) : List Nat := box_magic ++ t ++ le64 (t.length + 16)

/-- The 44-byte lzip member `eoa_member` of create.cc (two zeroed tar blocks,
compressed). -/
def eoa_member : List Nat :=
  [0x4C, 0x5A, 0x49, 0x50, 0x01, 0x0C, 0x00, 0x00, 0x6F, 0xFD, 0xFF, 0xFF,
   0xA3, 0xB7, 0x80, 0x0C, 0x82, 0xDB, 0xFF, 0xFF, 0x9F, 0xF0, 0x00, 0x00,
   0x2E, 0xAF, 0xB5, 0xEF, 0x00, 0x04, 0x00, 0x00, 0x00, 0x00, 0x00, 0x00,
   0x2C, 0x00, 0x00, 0x00, 0x00, 0x00, 0x00, 0x00]

/-! ## Invariants used in the proofs about the LZ decoder -/

namespace LZ_decoder

/-- Invariants of a decoder between two operations. -/
structure WF (d : LZ_decoder) : Prop where
  hD : d.dictionary_size < 2 ^ 32
  hbuf : d.buffer.length = d.dictionary_size
  hpos : d.pos < d.dictionary_size
  hsp : d.stream_pos < d.dictionary_size

/-- The index read by `peek`. -/
def peekIdx (d : LZ_decoder) (distance : Nat) : Nat :=
  usub32 (usub32 (((if d.pos > distance then 0 else d.dictionary_size) + d.pos) % 2 ^ 32)
    distance) 1

/-- What the dictionary holds after the bytes `bs` have been put into it. -/
structure Holds (D : Nat) (bs : List Nat) (s : LZ_decoder) : Prop where
  wf : WF s
  hD : s.dictionary_size = D
  hpos : s.pos = bs.length % D
  hbytes : ∀ k, k < bs.length → bs.length ≤ k + D → s.buffer.getD (k % D) 0 = bs.getD k 0

end LZ_decoder

/-- A decoder with a 5-byte dictionary, cursor at 3, one byte not yet flushed. -/
def exampleDecoder : LZ_decoder :=
  { partial_data_pos := 0
    dictionary_size := 5
    buffer := [10, 11, 12, 13, 14]
    pos := 3
    stream_pos := 1
    crc_ := 0xFFFFFFFF
    outfd := 1
    pos_wrapped := false
    outskip := 0
    outend := 1000
    outfile := [] }

/-! ## Definitions used in the proofs about the index -/

namespace Lzip_index

/-- The test the constructor's loop makes at `pos = e`: the 20 bytes before
`e` are a consistent trailer whose member size does not exceed `e`, and the 6
bytes at `e - member_size` are a header that passes `check`. -/
def member_at (file : List Nat) (e : Nat) : Option (Lzip_trailer × Lzip_header) :=
  let tdata := seek_read file Lzip_trailer.size (e - Lzip_trailer.size)
  if tdata.length ≠ Lzip_trailer.size then none
  else if (⟨tdata⟩ : Lzip_trailer).member_size > e ∨ !(⟨tdata⟩ : Lzip_trailer).check_consistency then
    none
  else
    let hdata := seek_read file Lzip_header.size (e - (⟨tdata⟩ : Lzip_trailer).member_size)
    if hdata.length ≠ Lzip_header.size then none
    else if !(⟨hdata⟩ : Lzip_header).check then none
    else some (⟨tdata⟩, ⟨hdata⟩)

/-- The member pushed for the trailer `t` and header `h` of a member ending at `e`. -/
def raw_member (t : Lzip_trailer) (h : Lzip_header) (e : Nat) : Member :=
  Member.new 0 t.data_size (e - t.member_size) t.member_size h.dictionary_size

/-- The state after pushing the member `m`. -/
def push_one (x : Lzip_index) (m : Member) : Lzip_index :=
  let x1 := if x.dictionary_size_ < m.dictionary_size then
      { x with dictionary_size_ := m.dictionary_size } else x
  { x1 with member_vector := x1.member_vector ++ [m] }

/-- The state after pushing the members of `l`, in order. -/
def push_all (x : Lzip_index) (l : List Member) : Lzip_index := l.foldl push_one x

/-- The members `l` are those found, in this order, by going backwards from
`e` to `pos` through members that pass the test `member_at`. -/
def DirectRun (file : List Nat) : Nat → List Member → Nat → Prop
  | e, [], pos => pos = e
  | e, m :: l, pos =>
    ∃ t h, member_at file e = some (t, h) ∧ m = raw_member t h e ∧
      DirectRun file (e - t.member_size) l pos

/-- The member blocks of `l` tile `[s, e)` in order. -/
def Tiled : Nat → List Member → Nat → Prop
  | s, [], e => s = e
  | s, m :: l, e =>
    m.mblock.pos = s ∧ s + m.mblock.size < 2 ^ 64 ∧ Tiled (s + m.mblock.size) l e

/-- The data blocks of `l` tile `[s, e)` in order. -/
def DTiled : Nat → List Member → Nat → Prop
  | s, [], e => s = e
  | s, m :: l, e => m.dblock.pos = s ∧ DTiled m.dblock.end_ l e

/-- The member `m` of the index of `file` is backed by a real member: a good
header at `mblock.pos`, a consistent trailer ending at `mblock.end()`, whose
fields give the sizes of the two blocks. -/
def GoodMember (file : List Nat) (m : Member) : Prop :=
  (⟨seek_read file Lzip_header.size m.mblock.pos⟩ : Lzip_header).check = true ∧
  (seek_read file Lzip_header.size m.mblock.pos).length = Lzip_header.size ∧
  (seek_read file Lzip_trailer.size (m.mblock.end_ - Lzip_trailer.size)).length
    = Lzip_trailer.size ∧
  (⟨seek_read file Lzip_trailer.size (m.mblock.end_ - Lzip_trailer.size)⟩ :
    Lzip_trailer).check_consistency = true ∧
  (⟨seek_read file Lzip_trailer.size (m.mblock.end_ - Lzip_trailer.size)⟩ :
    Lzip_trailer).member_size = m.mblock.size ∧
  (⟨seek_read file Lzip_trailer.size (m.mblock.end_ - Lzip_trailer.size)⟩ :
    Lzip_trailer).data_size = m.dblock.size

end Lzip_index

namespace Lzip_index

/-- What an outcome of the `for` loop of `skip_trailing_data` means: a member
found ends at `ipos + j` for some `j ≤ i` and passes the test `member_at`; a
failure leaves `pos` and the members alone and sets `retval_`. -/
def ScanOk (file : List Nat) (ipos pos : Nat) (x : Lzip_index) (i : Nat) : Scan → Prop
  | Scan.ret true pos1 x1 =>
    ∃ j t h, j ≤ i ∧ member_at file (ipos + j) = some (t, h) ∧
      pos1 = ipos + j - t.member_size ∧ x1 = x.push_one (raw_member t h (ipos + j))
  | Scan.ret false pos1 x1 =>
    pos1 = pos ∧ x1.member_vector = x.member_vector ∧ x1.retval_ ≠ 0
  | Scan.notfound => True

/-- What a result of `skip_trailing_data` means: on success a member ending at
some `e ≤ pos` that passes the test `member_at` has been pushed and `pos` is at
its header; a failure leaves `pos` and the members alone and sets `retval_`. -/
def SkipOk (file : List Nat) (pos : Nat) (x : Lzip_index) (r : Bool × Nat × Lzip_index) : Prop :=
  if r.1 then
    ∃ e t h, e ≤ pos ∧ member_at file e = some (t, h) ∧
      r.2.1 = e - t.member_size ∧ r.2.2 = x.push_one (raw_member t h e)
  else r.2.1 = pos ∧ r.2.2.member_vector = x.member_vector ∧ r.2.2.retval_ ≠ 0

/-- Invariant of the `while( true )` loop of `skip_trailing_data` at the start
of an iteration: the part of the buffer that is kept, `[rd_size, bsize)`, holds
the bytes of the file from `ipos + rd_size` on. -/
structure BlockPre (file : List Nat) (pos : Nat) (buffer : List Nat)
    (bsize search_size rd_size ipos : Nat) : Prop where
  hlen : buffer.length = buffer_size
  hrd : rd_size ≤ bsize
  hbs : bsize ≤ buffer_size
  hbs25 : 25 ≤ bsize
  hss19 : 19 ≤ search_size
  hss : search_size ≤ bsize
  hfile : ipos + bsize ≤ file.length
  hpos : ipos + search_size ≤ pos
  halign : ipos % block_size = 0
  hkeep : ∀ j, rd_size ≤ j → j < bsize → buffer[j]? = file[ipos + j]?

end Lzip_index

namespace Lzip_index

/-- Invariant of the constructor's loop: `pos` is inside the file and the
members pushed so far were found by going backwards to `pos` through good
members, from some offset `e` of the file. -/
def Sound (file : List Nat) (pos : Nat) (x : Lzip_index) : Prop :=
  pos ≤ file.length ∧ ∃ e, e ≤ file.length ∧ DirectRun file e x.member_vector pos

/-- What the constructor's loop guarantees about its result `r`: the invariant
`Sound`, and an error code whenever the constructor returned from inside the
loop. -/
def LoopOk (file : List Nat) (r : Nat × Lzip_index × Bool) : Prop :=
  Sound file r.1 r.2.1 ∧ (r.2.2 = true → r.2.1.retval_ ≠ 0)

/-- The members `l1` are the members `l` with their data blocks chained: same
member block, same data size, same dictionary size. -/
def SameBlocks (l1 l : List Member) : Prop :=
  List.Forall₂ (fun m1 m => m1.mblock = m.mblock ∧ m1.dblock.size = m.dblock.size ∧
    m1.dictionary_size = m.dictionary_size) l1 l

end Lzip_index

namespace Lzip_index

/-- The files `f1` and `f2` give the same answer to every read that stays
below the offset `p`. -/
def Agree (f1 f2 : List Nat) (p : Nat) : Prop :=
  ∀ size pos, pos + size ≤ p → seek_read f1 size pos = seek_read f2 size pos

end Lzip_index

namespace Lzip_index

/-- The member `m` with its member block moved forward by `n` bytes. -/
def shift_mblock (n : Nat) (m : Member) : Member :=
  { m with mblock := { m.mblock with pos := m.mblock.pos + n } }

/-- The members of `l` with their data blocks laid one after the other from
the offset `d`. -/
def place (d : Nat) : List Member → List Member
  | [] => []
  | m :: l => { m with dblock := { m.dblock with pos := d } } :: place (d + m.dblock.size) l

/-- The sum of the data sizes of the members of `l`. -/
def data_sum (l : List Member) : Nat := (l.map (fun m => m.dblock.size)).sum

end Lzip_index

/-! ## Concrete files used to exercise the theorems about the index -/

/-- Two copies of `eoa_member`, one after the other. -/
def two_members : List Nat := eoa_member ++ eoa_member

/-- The index of `eoa_member`. -/
def one_member_index : Lzip_index :=
  { member_vector := [⟨⟨0, 1024⟩, ⟨0, 44⟩, 4096⟩]
    error_ := ""
    error_num := none
    retval_ := 0
    dictionary_size_ := 4096
    good_magic_ := true }

/-- The index of `two_members`. -/
def two_members_index : Lzip_index :=
  { member_vector := [⟨⟨0, 1024⟩, ⟨0, 44⟩, 4096⟩, ⟨⟨1024, 1024⟩, ⟨44, 44⟩, 4096⟩]
    error_ := ""
    error_num := none
    retval_ := 0
    dictionary_size_ := 4096
    good_magic_ := true }

/-- The file `eoa_member` followed by the 8 bytes of trailing data `"trailing"`. -/
def member_with_tdata : List Nat :=
  eoa_member ++ [0x74, 0x72, 0x61, 0x69, 0x6C, 0x69, 0x6E, 0x67]

/-! ## Pax extended records (tarlz-0.27.1/extended.cc, tarlz-0.29/tarlz.h, create.cc)

Strings and buffers are lists of bytes.  A function that prints into a buffer
returns the bytes it writes; a `const char *` into a buffer is the buffer and an
offset. -/

def header_size : Nat := 512

def size_o : Nat := 124
def chksum_o : Nat := 148
def typeflag_o : Nat := 156
def magic_o : Nat := 257
def version_o : Nat := 263
def size_l : Nat := 12
def chksum_l : Nat := 8
def magic_l : Nat := 6

/-- The typeflag `tf_extended = 'x'`. -/
def tf_extended : Nat := 0x78

/-- The bytes `"ustar\0"`. -/
def ustar_magic : List Nat := [0x75, 0x73, 0x74, 0x61, 0x72, 0]

/-- The buffer `buf` after `bytes` have been written at offset `off`. -/
def poke (buf : List Nat) (off : Nat) (bytes : List Nat) : List Nat :=
  buf.take off ++ (bytes ++ buf.drop (off + bytes.length))

/-- `init_tar_header`: a zeroed header with magic and version set. -/
def init_tar_header : List Nat :=
  poke (poke (List.replicate header_size 0) magic_o (ustar_magic.take (magic_l - 1)))
    version_o [0x30, 0x30]

/-- `print_octal`: the `size` octal digits written by
`while( --size >= 0 ) { buf[size] = num % 8 + '0'; num /= 8; }`. -/
def print_octal : Nat → Nat → List Nat
  | 0, _ => []
  | size + 1, num => print_octal size (num / 8) ++ [num % 8 + 0x30]

/-- `round_up`: round `size` to the next multiple of the header size. -/
def round_up (size : Nat) : Nat :=
  let padding := (header_size - size % header_size) % header_size
  size + padding

/-- The loop `while( value >= 10 ) { value /= 10; ++digits; }` of
`decimal_digits`. -/
def decimal_digits_loop : Nat → Nat → Nat → Nat
  | 0, _, digits => digits
  | fuel + 1, value, digits =>
    if value ≥ 10 then decimal_digits_loop fuel (value / 10) (digits + 1) else digits

/-- `decimal_digits`; the loop runs less than `value` times. -/
def decimal_digits (value : Nat) : Nat := decimal_digits_loop value value 1

/-- `ustar_chksum` (create.cc): the sum of the bytes of the header, the chksum
field counting as 8 spaces. -/
def ustar_chksum (header : List Nat) : Nat :=
  (chksum_l * 0x20 + (header.take chksum_o).sum +
    ((header.drop (chksum_o + chksum_l)).take (header_size - (chksum_o + chksum_l))).sum) % 2 ^ 32

/-- The C library's `isdigit` in the C locale. -/
def isdigit (c : Nat) : Bool := decide (0x30 ≤ c) && decide (c ≤ 0x39)

/-- The C library's `isspace` in the C locale. -/
def isspace (c : Nat) : Bool := decide (c = 0x20) || (decide (9 ≤ c) && decide (c ≤ 13))

def LLONG_MAX : Nat := 2 ^ 63 - 1

/-- The conversion of a `long long` to `unsigned long long`. -/
def to_ull (v : Int) : Nat := (v % 2 ^ 64).toNat

/-- `record_size`, in 32-bit `unsigned` arithmetic: length + ' ' + keyword + '='
+ value + '\n'. -/
def record_size (keyword_size value_size : Nat) : Nat :=
  let size := (1 + keyword_size + 1 + value_size + 1) % 2 ^ 32
  (size + decimal_digits ((decimal_digits size + size) % 2 ^ 32)) % 2 ^ 32

/-- The loop `while( i < size && std::isspace( ptr[i] ) ) ++i;` of
`parse_decimal`, with `ptr = buf + off`. -/
def skip_space (buf : List Nat) (off size : Nat) : Nat → Nat → Nat
  | 0, i => i
  | fuel + 1, i =>
    if i < size ∧ isspace (buf.getD (off + i) 0) = true then skip_space buf off size fuel (i + 1)
    else i

/-- The loop `for( ; i < size && std::isdigit( ptr[i] ); ++i )` of
`parse_decimal`, in 64-bit unsigned arithmetic; `none` stands for the overflow
exit, else the result and the final `i` are returned. -/
def parse_digits (buf : List Nat) (off size limit : Nat) : Nat → Nat → Nat → Option (Nat × Nat)
  | 0, i, result => some (result, i)
  | fuel + 1, i, result =>
    if i < size ∧ isdigit (buf.getD (off + i) 0) = true then
      let prev := result
      let result1 := ((result * 10) % 2 ^ 64 + (buf.getD (off + i) 0 - 0x30)) % 2 ^ 64
      if result1 < prev ∨ result1 > limit ∨ result1 > LLONG_MAX then none
      else parse_digits buf off size limit fuel (i + 1) result1
    else some (result, i)

/-- `parse_decimal( buf + off, &tail, size, limit )`: the value returned and
the offset in `buf` that `tail` points to. -/
def parse_decimal (buf : List Nat) (off size limit : Nat) : Int × Nat :=
  let i := skip_space buf off size size 0
  if !isdigit (buf.getD (off + i) 0) then (-1, off)
  else
    match parse_digits buf off size limit size i 0 with
    | none => (-1, off)
    | some r => ((r.1 : Int), off + r.2)

/-- One step of `parse_record_crc`: the value of a hexadecimal digit, if it is
one. -/
def hex_value (c : Nat) : Option Nat :=
  if 0x30 ≤ c ∧ c ≤ 0x39 then some (c - 0x30)
  else if 0x41 ≤ c ∧ c ≤ 0x46 then some (c + 10 - 0x41)
  else if 0x61 ≤ c ∧ c ≤ 0x66 then some (c + 10 - 0x61)
  else none

/-- The loop of `parse_record_crc` over the characters `cs`, in 32-bit
unsigned arithmetic; an invalid digit makes the result 0. -/
def parse_record_crc_loop : List Nat → Nat → Nat
  | [], crc => crc
  | c :: cs, crc =>
    match hex_value c with
    | some v => parse_record_crc_loop cs ((((crc <<< 4) % 2 ^ 32) + v) % 2 ^ 32)
    | none => 0

/-- `parse_record_crc( buf + off )`. -/
def parse_record_crc (buf : List Nat) (off : Nat) : Nat :=
  parse_record_crc_loop ((List.range 8).map (fun i => buf.getD (off + i) 0)) 0

/-- `xdigit`: the hexadecimal digit for `value`. -/
def xdigit (value : Nat) : Nat :=
  if value ≤ 9 then 0x30 + value
  else if value ≤ 15 then 0x41 + value - 10
  else 0

/-- `print_hex`: the `size` digits written by
`while( --size >= 0 ) { buf[size] = xdigit( num & 0x0F ); num >>= 4; }`. -/
def print_hex : Nat → Nat → List Nat
  | 0, _ => []
  | size + 1, num => print_hex size (num >>> 4) ++ [xdigit (num &&& 0x0F)]

/-- `print_decimal`: the `size` digits written by
`while( --size >= 0 ) { buf[size] = num % 10 + '0'; num /= 10; }`. -/
def print_decimal : Nat → Nat → List Nat
  | 0, _ => []
  | size + 1, num => print_decimal size (num / 10) ++ [num % 10 + 0x30]

/-- `print_size_keyword`: `"size keyword="`. -/
def print_size_keyword (size : Nat) (keyword : List Nat) : List Nat :=
  print_decimal (decimal_digits size) size ++ [0x20] ++ keyword ++ [0x3D]

/-- `inline bool time_in_ustar_range( const long long seconds )`. -/
def time_in_ustar_range (seconds : Int) : Bool := decide (seconds ≥ 0) && decide (seconds < 2 ^ 33)

/-- The `class Etime`: time since (or before) the epoch. -/
structure Etime where
  sec_ : Int
  nsec_ : Int
  deriving DecidableEq, Repr

namespace Etime

def isvalid (t : Etime) : Bool := decide (t.nsec_ ≥ 0) && decide (t.nsec_ ≤ 999999999)

def out_of_ustar_range (t : Etime) : Bool := t.isvalid && !time_in_ustar_range t.sec_

/-- The loop `for( long long n = sec_; n >= 10 || n <= -10; n /= 10 ) ++size;`. -/
def sec_size_loop : Nat → Int → Nat → Nat
  | 0, _, size => size
  | fuel + 1, n, size =>
    if n ≥ 10 ∨ n ≤ -10 then sec_size_loop fuel (Int.tdiv n 10) (size + 1) else size

/-- The loop `for( int n = nsec_; n >= 10; n /= 10 ) ++size;`. -/
def nsec_size_loop : Nat → Int → Nat → Nat
  | 0, _, size => size
  | fuel + 1, n, size => if n ≥ 10 then nsec_size_loop fuel (Int.tdiv n 10) (size + 1) else size

/-- `Etime::decimal_size`. -/
def decimal_size (t : Etime) : Nat :=
  let size := sec_size_loop t.sec_.natAbs t.sec_ (1 + (if t.sec_ < 0 then 1 else 0))
  if t.nsec_ > 0 ∧ t.nsec_ ≤ 999999999 then nsec_size_loop t.nsec_.natAbs t.nsec_ (size + 2)
  else size

/-- The loop `for( int n = nsec_; n > 0; n /= 10 ) buf[len++] = n % 10 + '0';`:
the bytes written, in the order in which they are written. -/
def nsec_digits : Nat → Int → List Nat
  | 0, _ => []
  | fuel + 1, n =>
    if n > 0 then (Int.tmod n 10 + 0x30).toNat :: nsec_digits fuel (Int.tdiv n 10) else []

/-- The loop `do { long long on = n; n /= 10; buf[len++] = llabs( on - 10 * n )
+ '0'; } while( n != 0 );`: the bytes written, in the order in which they are
written. -/
def sec_digits : Nat → Int → List Nat
  | 0, _ => []
  | fuel + 1, n =>
    ((n - 10 * Int.tdiv n 10).natAbs + 0x30) ::
      (if Int.tdiv n 10 ≠ 0 then sec_digits fuel (Int.tdiv n 10) else [])

/-- `Etime::print`: the bytes written (their number is the value returned). -/
def print (t : Etime) : List Nat :=
  let b1 := if t.nsec_ > 0 ∧ t.nsec_ ≤ 999999999 then
      nsec_digits (t.nsec_.natAbs + 1) t.nsec_ ++ [0x2E] else []
  let b2 := b1 ++ sec_digits (t.sec_.natAbs + 1) t.sec_
  let b3 := if t.sec_ < 0 then b2 ++ [0x2D] else b2
  b3.reverse

end Etime

/-- The digits consumed by `strtoll`: the offset after the last digit and the
value read, from the offset `i` and the value `acc`. -/
def strtoll_digits (buf : List Nat) : Nat → Nat → Nat → Nat × Nat
  | 0, i, acc => (i, acc)
  | fuel + 1, i, acc =>
    if isdigit (buf.getD i 0) = true then
      strtoll_digits buf fuel (i + 1) (acc * 10 + (buf.getD i 0 - 0x30))
    else (i, acc)

/-- The loop of `strtoll` that skips white space. -/
def strtoll_space (buf : List Nat) : Nat → Nat → Nat
  | 0, i => i
  | fuel + 1, i => if isspace (buf.getD i 0) = true then strtoll_space buf fuel (i + 1) else i

/-- The C library's `strtoll( buf + off, &tail, 10 )`: the value returned, the
offset in `buf` that `tail` points to, and whether `errno` is set (to
`ERANGE`).  The buffer ends with a null character. -/
def strtoll (buf : List Nat) (off : Nat) : Int × Nat × Bool :=
  let i0 := strtoll_space buf (buf.length - off) off
  let neg := decide (buf.getD i0 0 = 0x2D)
  let i1 := if buf.getD i0 0 = 0x2D ∨ buf.getD i0 0 = 0x2B then i0 + 1 else i0
  let r := strtoll_digits buf (buf.length - i1) i1 0
  if r.1 = i1 then (0, off, false)
  else if neg then
    if r.2 > 2 ^ 63 then (-(2 ^ 63 : Int), r.1, true) else (-(r.2 : Int), r.1, false)
  else if r.2 > 2 ^ 63 - 1 then ((2 ^ 63 - 1 : Int), r.1, true) else ((r.2 : Int), r.1, false)

namespace Etime

/-- The loop of `Etime::parse` that reads nanoseconds and any extra digits:
`for( int factor = 100000000; tail - ptr < size && std::isdigit( *tail );
++tail, factor /= 10 ) ns += factor * ( *tail - '0' );`. -/
def parse_nsec (buf : List Nat) (off size : Nat) : Nat → Nat → Int → Int → Nat × Int
  | 0, tail, _, ns => (tail, ns)
  | fuel + 1, tail, factor, ns =>
    if tail - off < size ∧ isdigit (buf.getD tail 0) = true then
      parse_nsec buf off size fuel (tail + 1) (Int.tdiv factor 10)
        (ns + factor * ((buf.getD tail 0 : Int) - 0x30))
    else (tail, ns)

/-- `Etime::parse( buf + off, &tail, size )`: the value returned, the new time
and the offset in `buf` that `tail` points to. -/
def parse (t : Etime) (buf : List Nat) (off size : Nat) : Bool × Etime × Nat :=
  let s := strtoll buf off
  let tail := s.2.1
  if tail = off ∨ tail - off > size ∨ s.2.2 = true ∨
      (buf.getD tail 0 ≠ 0 ∧ buf.getD tail 0 ≠ 0x0A ∧ buf.getD tail 0 ≠ 0x2E) then
    (false, t, off)
  else if buf.getD tail 0 = 0x2E then
    let tail1 := tail + 1
    if tail1 - off ≥ size ∨ !isdigit (buf.getD tail1 0) then (false, t, off)
    else
      let r := parse_nsec buf off size size tail1 100000000 0
      (true, ⟨s.1, r.2⟩, r.1)
  else (true, ⟨s.1, 0⟩, tail)

end Etime

/-- The string `s.c_str()` as C code sees it: up to the first null character. -/
def c_str (s : List Nat) : List Nat := s.takeWhile (fun c => c != 0)

/-- The loop `while( *p == '/' || ( *p == '.' && p[1] == '/' ) ) ++p;` of
`remove_leading_dotslash`. -/
def dotslash_loop (filename : List Nat) : Nat → Nat → Nat
  | 0, p => p
  | fuel + 1, p =>
    if filename.getD p 0 = 0x2F ∨ (filename.getD p 0 = 0x2E ∧ filename.getD (p + 1) 0 = 0x2F) then
      dotslash_loop filename fuel (p + 1)
    else p

/-- `remove_leading_dotslash( filename, &removed_prefix )` (create.cc, with
`dotdot` false) on a C string: the string returned and the removed prefix. -/
def remove_leading_dotslash (filename : List Nat) : List Nat × List Nat :=
  let p := dotslash_loop filename filename.length 0
  let removed_prefix := if p ≠ 0 then filename.take p else []
  if filename.getD p 0 = 0 ∧ filename.getD 0 0 ≠ 0 then ([0x2E], removed_prefix)
  else (filename.drop p, removed_prefix)

/-- The `class Extended`: metadata from/for extended records.  The static list
of unknown keywords already diagnosed is left out, with the diagnostics. -/
structure Extended where
  linkpath_ : List Nat
  path_ : List Nat
  file_size_ : Int
  uid_ : Int
  gid_ : Int
  atime_ : Etime
  mtime_ : Etime
  edsize_ : Nat
  padded_edsize_ : Nat
  full_size_ : Int
  linkpath_recsize_ : Nat
  path_recsize_ : Nat
  file_size_recsize_ : Nat
  uid_recsize_ : Nat
  gid_recsize_ : Nat
  atime_recsize_ : Nat
  mtime_recsize_ : Nat
  crc_present_ : Bool
  removed_prefix : List Nat
  deriving DecidableEq, Repr

namespace Extended

/-- The `enum { max_edata_size = ( 1 << 21 ) * header_size }` (1 GiB). -/
def max_edata_size : Nat := (1 <<< 21) * header_size

/-- The `enum { max_file_size = LLONG_MAX - header_size }`. -/
def max_file_size : Nat := LLONG_MAX - header_size

/-- The string `Extended::crc_record`, `"22 GNU.crc32=00000000\n"`. -/
def crc_record : List Nat :=
  [0x32, 0x32, 0x20, 0x47, 0x4E, 0x55, 0x2E, 0x63, 0x72, 0x63, 0x33, 0x32, 0x3D,
   0x30, 0x30, 0x30, 0x30, 0x30, 0x30, 0x30, 0x30, 0x0A]

def kw_path : List Nat := [0x70, 0x61, 0x74, 0x68]
def kw_linkpath : List Nat := [0x6C, 0x69, 0x6E, 0x6B, 0x70, 0x61, 0x74, 0x68]
def kw_size : List Nat := [0x73, 0x69, 0x7A, 0x65]
def kw_uid : List Nat := [0x75, 0x69, 0x64]
def kw_gid : List Nat := [0x67, 0x69, 0x64]
def kw_atime : List Nat := [0x61, 0x74, 0x69, 0x6D, 0x65]
def kw_mtime : List Nat := [0x6D, 0x74, 0x69, 0x6D, 0x65]
def kw_crc : List Nat := [0x47, 0x4E, 0x55, 0x2E, 0x63, 0x72, 0x63, 0x33, 0x32]
def kw_comment : List Nat := [0x63, 0x6F, 0x6D, 0x6D, 0x65, 0x6E, 0x74]

/-- The state set up by the constructor `Extended()`. -/
def init : Extended :=
  { linkpath_ := [], path_ := [], file_size_ := 0, uid_ := -1, gid_ := -1,
    atime_ := ⟨0, -1⟩, mtime_ := ⟨0, -1⟩, edsize_ := 0, padded_edsize_ := 0, full_size_ := 0,
    linkpath_recsize_ := 0, path_recsize_ := 0, file_size_recsize_ := 0, uid_recsize_ := 0,
    gid_recsize_ := 0, atime_recsize_ := 0, mtime_recsize_ := 0, crc_present_ := false,
    removed_prefix := [] }

/-- `Extended::reset`. -/
def reset (_ : Extended) : Extended := init

/-- `Extended::calculate_sizes`. -/
def calculate_sizes (x : Extended) : Extended :=
  if x.linkpath_.length > max_edata_size ∨ x.path_.length > max_edata_size then
    { x with full_size_ := -3 }
  else
    let x1 := { x with
      linkpath_recsize_ := if x.linkpath_.length ≠ 0 then record_size 8 x.linkpath_.length else 0
      path_recsize_ := if x.path_.length ≠ 0 then record_size 4 x.path_.length else 0
      file_size_recsize_ :=
        if x.file_size_ > 0 then record_size 4 (decimal_digits (to_ull x.file_size_)) else 0
      uid_recsize_ := if x.uid_ ≥ 0 then record_size 3 (decimal_digits (to_ull x.uid_)) else 0
      gid_recsize_ := if x.gid_ ≥ 0 then record_size 3 (decimal_digits (to_ull x.gid_)) else 0
      atime_recsize_ :=
        if x.atime_.out_of_ustar_range then record_size 5 x.atime_.decimal_size else 0
      mtime_recsize_ :=
        if x.mtime_.out_of_ustar_range then record_size 5 x.mtime_.decimal_size else 0 }
    let tmp := x1.linkpath_recsize_ + x1.path_recsize_ + x1.file_size_recsize_ +
      x1.uid_recsize_ + x1.gid_recsize_ + x1.atime_recsize_ + x1.mtime_recsize_ +
      crc_record.length
    if tmp > max_edata_size then { x1 with full_size_ := -3 }
    else
      let x2 := { x1 with edsize_ := tmp, padded_edsize_ := round_up tmp }
      if x2.padded_edsize_ > max_edata_size then { x2 with full_size_ := -3 }
      else { x2 with full_size_ := ((header_size + x2.padded_edsize_ : Nat) : Int) }

/-- `print_record`: the bytes written for the record `"size keyword=value\n"`
if the record has a size (`recsize != 0`) and the bytes written are `size` many
(`pos == size`); `none` if they are not. -/
def print_record (recsize : Nat) (keyword value : List Nat) : Option (List Nat) :=
  if recsize ≠ 0 then
    let b := print_size_keyword recsize keyword ++ value ++ [0x0A]
    if b.length = recsize then some b else none
  else some []

/-- The records that `format_block` prints before the CRC record, in the fixed
order path, linkpath, size, uid, gid, atime, mtime; `none` stands for
`return -1`. -/
def format_records (x : Extended) : Option (List Nat) :=
  match print_record x.path_recsize_ kw_path x.path_ with
  | none => none
  | some r1 =>
  match print_record x.linkpath_recsize_ kw_linkpath x.linkpath_ with
  | none => none
  | some r2 =>
  match print_record x.file_size_recsize_ kw_size
      (print_decimal (decimal_digits (to_ull x.file_size_)) (to_ull x.file_size_)) with
  | none => none
  | some r3 =>
  match print_record x.uid_recsize_ kw_uid
      (print_decimal (decimal_digits (to_ull x.uid_)) (to_ull x.uid_)) with
  | none => none
  | some r4 =>
  match print_record x.gid_recsize_ kw_gid
      (print_decimal (decimal_digits (to_ull x.gid_)) (to_ull x.gid_)) with
  | none => none
  | some r5 =>
  match print_record x.atime_recsize_ kw_atime x.atime_.print with
  | none => none
  | some r6 =>
  match print_record x.mtime_recsize_ kw_mtime x.mtime_.print with
  | none => none
  | some r7 => some (r1 ++ (r2 ++ (r3 ++ (r4 ++ (r5 ++ (r6 ++ r7))))))

/-- `Extended::format_block`: the value returned, the object afterwards (its
cached sizes and `crc_present_` are `mutable`) and, when the value is positive,
the first `bufsize` bytes of `rbuf`: the extended header, then the records
(`buf = rbuf() + header_size`), then the padding.  `mem_ok` tells whether
`rbuf.resize` succeeds. -/
def format_block (x : Extended) (mem_ok : Bool) : Int × Extended × List Nat :=
  let x1 := if x.full_size_ ≤ -4 then x.calculate_sizes else x
  let bufsize := x1.full_size_
  if bufsize ≤ 0 then (bufsize, x1, [])
  else if !mem_ok then (-2, x1, [])
  else
    let h1 := poke init_tar_header typeflag_o [tf_extended]
    let h2 := poke h1 size_o (print_octal (size_l - 1) x1.edsize_)
    let header := poke h2 chksum_o (print_octal (chksum_l - 1) (ustar_chksum h2))
    match x1.format_records with
    | none => (-1, x1, [])
    | some recs =>
      let buf0 := recs ++ crc_record
      if buf0.length ≠ x1.edsize_ then (-1, x1, [])
      else
        let crc := crc32c.windowed_crc buf0 (x1.edsize_ - 9) x1.edsize_
        let buf1 := poke buf0 (x1.edsize_ - 9) (print_hex 8 crc)
        let buf2 := buf1 ++ List.replicate (x1.padded_edsize_ - x1.edsize_) 0
        (bufsize, { x1 with crc_present_ := true }, header ++ buf2)

/-- `std::memcmp( buf + off, s, n ) == 0` for the `n` bytes of `s`. -/
def starts_with (buf : List Nat) (off : Nat) (s : List Nat) : Bool :=
  (buf.drop off).take s.length == s

/-- The loop `while( len > 1 && tail[k+len-1] == '/' ) --len;` that drops
trailing slashes; `off` is the offset of `tail + k`. -/
def strip_slashes (buf : List Nat) (off : Nat) : Nat → Nat
  | 0 => 0
  | len + 1 => if len + 1 > 1 ∧ buf.getD (off + (len + 1) - 1) 0 = 0x2F then strip_slashes buf off len
    else len + 1

/-- One iteration of the loop of `Extended::parse` at offset `pos`: whether the
loop goes on (`false` stands for `return false`), the new offset and the new
state. -/
def parse_step (x : Extended) (buf : List Nat) (edsize pos : Nat) (permissive : Bool) :
    Bool × Nat × Extended :=
  let pd := parse_decimal buf pos (edsize - pos) (edsize - pos)
  let rsize := pd.1
  if rsize ≤ 0 ∨ buf.getD pd.2 0 ≠ 0x20 ∨ buf.getD (pos + rsize.toNat - 1) 0 ≠ 0x0A then
    (false, pos, x)
  else
    let tail := pd.2 + 1
    let rend := pos + rsize.toNat - 1
    let rest : Int := (rend : Int) - (tail : Int)
    let next (y : Extended) : Bool × Nat × Extended := (true, pos + rsize.toNat, y)
    if rest > 5 ∧ starts_with buf tail (kw_path ++ [0x3D]) = true then
      if x.path_.length ≠ 0 ∧ !permissive then (false, pos, x)
      else
        let len := strip_slashes buf (tail + 5) (rest - 5).toNat
        let p := (buf.drop (tail + 5)).take len
        let r := remove_leading_dotslash (c_str p)
        next { x with path_ := r.1, removed_prefix := r.2 }
    else if rest > 9 ∧ starts_with buf tail (kw_linkpath ++ [0x3D]) = true then
      if x.linkpath_.length ≠ 0 ∧ !permissive then (false, pos, x)
      else
        let len := strip_slashes buf (tail + 9) (rest - 9).toNat
        next { x with linkpath_ := (buf.drop (tail + 9)).take len }
    else if rest > 5 ∧ starts_with buf tail (kw_size ++ [0x3D]) = true then
      if x.file_size_ ≠ 0 ∧ !permissive then (false, pos, x)
      else
        let v := parse_decimal buf (tail + 5) (rest - 5).toNat max_file_size
        if v.1 < 2 ^ 33 ∨ v.2 ≠ rend then (false, pos, { x with file_size_ := v.1 })
        else next { x with file_size_ := v.1 }
    else if rest > 4 ∧ starts_with buf tail (kw_uid ++ [0x3D]) = true then
      if x.uid_ ≥ 0 ∧ !permissive then (false, pos, x)
      else
        let v := parse_decimal buf (tail + 4) (rest - 4).toNat LLONG_MAX
        if v.1 < 2 ^ 21 ∨ v.2 ≠ rend then (false, pos, { x with uid_ := v.1 })
        else next { x with uid_ := v.1 }
    else if rest > 4 ∧ starts_with buf tail (kw_gid ++ [0x3D]) = true then
      if x.gid_ ≥ 0 ∧ !permissive then (false, pos, x)
      else
        let v := parse_decimal buf (tail + 4) (rest - 4).toNat LLONG_MAX
        if v.1 < 2 ^ 21 ∨ v.2 ≠ rend then (false, pos, { x with gid_ := v.1 })
        else next { x with gid_ := v.1 }
    else if rest > 6 ∧ starts_with buf tail (kw_atime ++ [0x3D]) = true then
      if x.atime_.isvalid ∧ !permissive then (false, pos, x)
      else
        let v := x.atime_.parse buf (tail + 6) (rest - 6).toNat
        if !v.1 ∨ v.2.2 ≠ rend then (false, pos, { x with atime_ := v.2.1 })
        else next { x with atime_ := v.2.1 }
    else if rest > 6 ∧ starts_with buf tail (kw_mtime ++ [0x3D]) = true then
      if x.mtime_.isvalid ∧ !permissive then (false, pos, x)
      else
        let v := x.mtime_.parse buf (tail + 6) (rest - 6).toNat
        if !v.1 ∨ v.2.2 ≠ rend then (false, pos, { x with mtime_ := v.2.1 })
        else next { x with mtime_ := v.2.1 }
    else if rest > 10 ∧ starts_with buf tail (kw_crc ++ [0x3D]) = true then
      if x.crc_present_ ∧ !permissive then (false, pos, x)
      else if rsize ≠ (crc_record.length : Int) then (false, pos, x)
      else
        let stored_crc := parse_record_crc buf (tail + 10)
        let computed_crc := crc32c.windowed_crc buf (pos + rsize.toNat - 9) edsize
        if stored_crc ≠ computed_crc then (false, pos, { x with crc_present_ := true })
        else next { x with crc_present_ := true }
    else next x

/-- The loop `for( int pos = 0; pos < edsize; )` of `Extended::parse`, with a
bound on the number of its iterations (every record is at least one byte long,
so `edsize` of them are enough): the value returned and the object
afterwards. -/
def parse_loop (buf : List Nat) (edsize : Nat) (permissive : Bool) :
    Nat → Nat → Extended → Bool × Extended
  | 0, _, x => (true, x)
  | fuel + 1, pos, x =>
    if pos < edsize then
      if (parse_step x buf edsize pos permissive).1 = true then
        parse_loop buf edsize permissive fuel (parse_step x buf edsize pos permissive).2.1
          (parse_step x buf edsize pos permissive).2.2
      else (false, (parse_step x buf edsize pos permissive).2.2)
    else (true, x)

/-- `Extended::parse( buf, edsize, permissive )`: the value returned and the
object afterwards.  The diagnostics (of a CRC mismatch, of an unknown keyword)
are left out. -/
def parse (x : Extended) (buf : List Nat) (edsize : Nat) (permissive : Bool) :
    Bool × Extended :=
  parse_loop buf edsize permissive edsize 0 { x.reset with full_size_ := -4 }

end Extended

/-! ## Definitions used in the proofs about the extended records -/

/-- The value of the decimal digits `ds` read after the value `r`. -/
def dval (ds : List Nat) (r : Nat) : Nat := ds.foldl (fun a c => a * 10 + (c - 0x30)) r

/-- Every byte of `ds` is a decimal digit. -/
def AllDigits (ds : List Nat) : Prop := ∀ c ∈ ds, 0x30 ≤ c ∧ c ≤ 0x39

/-- From any offset `pos` where the records `tl` (the last of them the CRC
record, ending at `edsize`) and then `pad` are found, and from any state
meeting `F`, the loop of `Extended::parse` runs to the end with `n` iterations
or more allowed, finds the CRC and leaves path and linkpath as they were. -/
def AcceptsFrom (buf : List Nat) (edsize n : Nat) (tl pad : List Nat)
    (F : Extended → Prop) : Prop :=
  ∀ fuel pos x, n ≤ fuel → buf.drop pos = tl ++ pad → pos + tl.length = edsize → F x →
    ∃ xf, Extended.parse_loop buf edsize false fuel pos x = (true, xf) ∧ xf.crc_present_ = true ∧
      xf.path_ = x.path_ ∧ xf.linkpath_ = x.linkpath_

/-- The outcome of `Extended::parse( buf, edsize, false )` on a fresh object,
for the record bytes `buf` and their size `edsize` as `format_block` leaves
them for `E`. -/
def reparse (E : Extended) : Bool × Extended :=
  Extended.init.parse ((E.format_block true).2.2.drop header_size)
    (E.format_block true).2.1.edsize_ false

/-- An `Extended` with the path `a` and the file size 5. -/
def small_size_extended : Extended :=
  { Extended.init with path_ := [0x61], file_size_ := 5, full_size_ := -4 }

/-- An `Extended` with the path `a` and the largest file size of a `long long`. -/
def huge_size_extended : Extended :=
  { Extended.init with path_ := [0x61], file_size_ := 2 ^ 63 - 1, full_size_ := -4 }

/-- An `Extended` with the path `a` and the user id 5. -/
def small_uid_extended : Extended :=
  { Extended.init with path_ := [0x61], uid_ := 5, full_size_ := -4 }

/-- An `Extended` with the path `a` and the group id 5. -/
def small_gid_extended : Extended :=
  { Extended.init with path_ := [0x61], gid_ := 5, full_size_ := -4 }

/-- An `Extended` with the path `a/`. -/
def slash_path_extended : Extended :=
  { Extended.init with path_ := [0x61, 0x2F], full_size_ := -4 }

/-- An `Extended` with the path `./a`. -/
def dotslash_path_extended : Extended :=
  { Extended.init with path_ := [0x2E, 0x2F, 0x61], full_size_ := -4 }

/-- An `Extended` with the path `/a`. -/
def rooted_path_extended : Extended :=
  { Extended.init with path_ := [0x2F, 0x61], full_size_ := -4 }

/-- An `Extended` whose path holds a null character between `a` and `b`. -/
def null_path_extended : Extended :=
  { Extended.init with path_ := [0x61, 0, 0x62], full_size_ := -4 }

/-- An `Extended` with the linkpath `a/`. -/
def slash_linkpath_extended : Extended :=
  { Extended.init with linkpath_ := [0x61, 0x2F], full_size_ := -4 }

/-- An `Extended` with path `dir/f`, linkpath `t/g`, and a size, a user id and
two times that do not fit in a ustar header. -/
def full_extended : Extended :=
  { Extended.init with
    path_ := [0x64, 0x69, 0x72, 0x2F, 0x66], linkpath_ := [0x74, 0x2F, 0x67],
    file_size_ := 2 ^ 33 + 5, uid_ := 2 ^ 21, atime_ := ⟨-17, 50⟩, mtime_ := ⟨2 ^ 34, 0⟩,
    full_size_ := -4 }

/-- The consistency band of a trailer as the specification words it, for the
stored CRC `crc`, data size `dsize` and member size `msize`: `crc` is zero
exactly when `dsize` is, `36 <= msize < 2^63`, `msize <= (9*dsize+7)/8 + 36`
unless computing that bound overflows 64 bits, and
`dsize <= 7090*(msize-26) - 1` unless computing that bound overflows. -/
def spec_consistency_band (crc dsize msize : Nat) : Prop :=
  (crc = 0 ↔ dsize = 0) ∧ 36 ≤ msize ∧ msize < 2 ^ 63 ∧
  (9 * dsize + 7 < 2 ^ 64 → msize ≤ (9 * dsize + 7) / 8 + 36) ∧
  (7090 * (msize - 26) < 2 ^ 64 → dsize ≤ 7090 * (msize - 26) - 1)

instance (crc dsize msize : Nat) : Decidable (spec_consistency_band crc dsize msize) := by
  unfold spec_consistency_band
  infer_instance

/-- The four bytes of `n` as a 32-bit little-endian number. -/
def le32 (n : Nat) : List Nat := [n % 256, n / 256 % 256, n / 256 ^ 2 % 256, n / 256 ^ 3 % 256]

/-- The trailer that stores the CRC `crc`, the data size `dsize` and the member
size `msize`. -/
def Lzip_trailer.of_values (crc dsize msize : Nat) : Lzip_trailer :=
  ⟨le32 crc ++ le64 dsize ++ le64 msize⟩

/-- A trailer with CRC 1 whose data size and member size are both `2^63`. -/
def huge_member_trailer : Lzip_trailer := Lzip_trailer.of_values 1 (2 ^ 63) (2 ^ 63)

/-- A trailer with CRC 1, data size `2^64 - 1` and member size
`2^65 / 7090 + 26`, for which `7090 * (msize - 26) - 1` wraps to a value just
below `2^64`. -/
def wrapped_limit_trailer : Lzip_trailer :=
  Lzip_trailer.of_values 1 (2 ^ 64 - 1) (2 ^ 65 / 7090 + 26)

/-- One conditional shift-right/XOR-polynomial step of the bit-by-bit CRC, as
the specification words it: shift right by one bit and, if the bit shifted out
was 1, XOR the polynomial. -/
def spec_crc_bit_step (poly c : Nat) : Nat :=
  if c % 2 = 1 then (c / 2) ^^^ poly else c / 2

/-- The bit-by-bit reflected CRC-32 of `bytes` as the specification words it:
initial value `0xFFFFFFFF`; per byte, XOR it into the low 8 bits and apply 8
steps; final XOR `0xFFFFFFFF`. -/
def spec_crc32 (poly : Nat) (bytes : List Nat) : Nat :=
  bytes.foldl (fun crc byte => (spec_crc_bit_step poly)^[8] (crc ^^^ byte)) 0xFFFFFFFF
    ^^^ 0xFFFFFFFF

/-- The record block `9 size=5\n`. -/
def small_size_record : List Nat := [0x39, 0x20, 0x73, 0x69, 0x7A, 0x65, 0x3D, 0x35, 0x0A]

/-- The record block `8 uid=5\n`. -/
def small_uid_record : List Nat := [0x38, 0x20, 0x75, 0x69, 0x64, 0x3D, 0x35, 0x0A]

/-- The record block `8 gid=5\n`. -/
def small_gid_record : List Nat := [0x38, 0x20, 0x67, 0x69, 0x64, 0x3D, 0x35, 0x0A]

/-- `check_ustar_magic`: `std::memcmp( header + magic_o, ustar_magic, magic_l ) == 0`. -/
def check_ustar_magic (header : List Nat) : Bool :=
  (header.drop magic_o).take magic_l == ustar_magic

/-- The loop `for( ; i < size && ptr[i] >= '0' && ptr[i] <= '7'; ++i )
{ result <<= 3; result += ptr[i] - '0'; }` of `parse_octal`, with
`ptr = buf + off`, in 64-bit unsigned arithmetic. -/
def parse_octal_digits (buf : List Nat) (off size : Nat) : Nat → Nat → Nat → Nat
  | 0, _, result => result
  | fuel + 1, i, result =>
    if i < size ∧ 0x30 ≤ buf.getD (off + i) 0 ∧ buf.getD (off + i) 0 ≤ 0x37 then
      parse_octal_digits buf off size fuel (i + 1)
        ((((result <<< 3) % 2 ^ 64) + (buf.getD (off + i) 0 - 0x30)) % 2 ^ 64)
    else result

/-- `parse_octal( buf + off, size )` (common.cc). -/
def parse_octal (buf : List Nat) (off size : Nat) : Nat :=
  let i := skip_space buf off size size 0
  parse_octal_digits buf off size size i 0

/-- `check_ustar_chksum` (create.cc). -/
def check_ustar_chksum (header : List Nat) : Bool :=
  check_ustar_magic header &&
    decide (ustar_chksum header = parse_octal header chksum_o chksum_l)

/-- The value of the octal digits `ds` read after the value `r`. -/
def oval (ds : List Nat) (r : Nat) : Nat := ds.foldl (fun a c => a * 8 + (c - 0x30)) r

/-- Every byte of `ds` is an octal digit. -/
def AllOctal (ds : List Nat) : Prop := ∀ c ∈ ds, 0x30 ≤ c ∧ c ≤ 0x37

/-- A ustar header for a regular file named `a`, with a zeroed checksum
field. -/
def sample_header : List Nat :=
  poke (poke init_tar_header 0 [0x61]) typeflag_o [0x30]

/-- The time 1 s and 50 ns. -/
def fifty_ns_time : Etime := ⟨1, 50⟩

/-- A file made of two databoxes, holding the bytes `A` and `B`. -/
def two_boxes : List Nat := databox_wrap [0x41] ++ databox_wrap [0x42]

/-! ## LZMA member decoder (lzip-1.25/decoder.h, lziprecover-1.25/decoder.cc) -/

/-- Modelled from the spec: `pos_state = data_position & 3`. -/
def pos_state_mask : Nat := 3

/-- Modelled from the spec: distance slots below 4 are the distance itself. -/
def start_dis_model : Nat := 4

/-- Modelled from the spec: slots from 14 on have raw direct bits and the
align tree. -/
def end_dis_model : Nat := 14

/-- Modelled from the spec: the reversed align tree has 4 bits. -/
def dis_align_bits : Nat := 4

/-- Modelled from the spec: `lzip.h` is not among the sources.  The spec names
but does not define the transitions of `class State` ("fixed tables for
literal, match, rep, short-rep"), the literal context ("selected from the
previous output byte's high bits") and the length state, nor does it give the
number of literal contexts and of length states; they are parameters of the
model.  `is_char_set_char` gives the value that `State::is_char_set_char`
returns and the state it leaves. -/
structure Lzma_decls where
  is_char_set_char : Nat → Bool × Nat
  set_match : Nat → Nat
  set_rep : Nat → Nat
  set_shortrep : Nat → Nat
  get_lit_state : Nat → Nat
  get_len_state : Nat → Nat
  literal_states : Nat
  len_states : Nat

/-- Modelled from the spec: a new bit model has the probability 1024
(`bit_model_total / 2`). -/
def Bit_model.new : Bit_model := ⟨1024⟩

/-- Modelled from the spec: a new length model; there are 4 values of
`pos_state`, 8 low and 8 mid symbols, and the high choice codes the other 256
lengths up to 273. -/
def Len_model.new : Len_model :=
  { choice1 := Bit_model.new
    choice2 := Bit_model.new
    bm_low := List.replicate 4 (List.replicate 8 Bit_model.new)
    bm_mid := List.replicate 4 (List.replicate 8 Bit_model.new)
    bm_high := List.replicate 256 Bit_model.new }

/-- Element `[i][j]` of a two-dimensional bit-model array. -/
def bm2At (rows : List (List Bit_model)) (i j : Nat) : Bit_model := bmAt (rowAt rows i) j

/-- The array `rows` after its element `[i][j]` was set to `b`. -/
def bm2Set (rows : List (List Bit_model)) (i j : Nat) (b : Bit_model) : List (List Bit_model) :=
  rows.set i ((rowAt rows i).set j b)

/-- The state `r` that an operation of the range decoder leaves, passed on to
the code `k` that follows it. -/
def seq1 {T : Type} (r : Range_decoder) (k : Range_decoder → T) : T := k r

/-- The result `r` of an operation of the range decoder, a value and the new
state, passed on to the code `k` that follows it. -/
def seq2 {α T : Type} (r : α × Range_decoder) (k : α → Range_decoder → T) : T := k r.1 r.2

/-- As `seq2`, for an operation that gives two values and the new state. -/
def seq3 {α β T : Type} (r : α × β × Range_decoder) (k : α → β → Range_decoder → T) : T :=
  k r.1 r.2.1 r.2.2

/-- As `seq2`, for an operation that gives three values and the new state. -/
def seq4 {α β γ T : Type} (r : α × β × γ × Range_decoder)
    (k : α → β → γ → Range_decoder → T) : T :=
  k r.1 r.2.1 r.2.2.1 r.2.2.2

namespace Range_decoder

/-- The constructor `Range_decoder( ifd )`: `file` is the content of the input
file from its current offset on, `mem` that of the freshly allocated buffer. -/
def new (file mem : List Nat) : Range_decoder :=
  { partial_member_pos := 0, buffer := mem, pos := 0, stream_pos := 0, code := 0,
    range := 0xFFFFFFFF, infd := file, at_stream_end := false }

/-- `Range_decoder::member_position`. -/
def member_position (rd : Range_decoder) : Nat := (rd.partial_member_pos + rd.pos) % 2 ^ 64

/-- The body of the loop of `Range_decoder::read_data` once `finished()` gave
false: the bytes copied and the new state. -/
def read_chunk (rd : Range_decoder) (n : Nat) : List Nat × Range_decoder :=
  ((rd.buffer.drop rd.pos).take (min n (rd.stream_pos - rd.pos)),
    { rd with pos := rd.pos + min n (rd.stream_pos - rd.pos) })

/-- The loop of `Range_decoder::read_data`: `out` holds the `sz` bytes copied
so far. -/
def read_data_loop (size : Nat) : Nat → List Nat → Range_decoder → List Nat × Range_decoder
  | 0, out, rd => (out, rd)
  | fuel + 1, out, rd =>
    if out.length < size then
      seq2 rd.finished fun fin rd1 =>
        if fin then (out, rd1)
        else seq2 (rd1.read_chunk (size - out.length)) fun blk rd2 =>
          read_data_loop size fuel (out ++ blk) rd2
    else (out, rd)

/-- `Range_decoder::read_data`: the bytes copied to `outbuf` (their number is
the value returned) and the new state.  Every iteration copies at least one
byte, so `size` iterations are enough. -/
def read_data (rd : Range_decoder) (size : Nat) : List Nat × Range_decoder :=
  read_data_loop size size [] rd

/-- The statement `code = ( code << 8 ) | get_byte();` of `load`. -/
def shift_in (rd : Range_decoder) : Range_decoder :=
  seq2 rd.get_byte fun b rd1 => { rd1 with code := ((rd1.code <<< 8) % 2 ^ 32) ||| b }

/-- Modelled from the spec: lziprecover's `decoder.h` is not among the sources;
this is `load` of lzip-1.25/decoder.h with the flag that `decode_member` passes
to it: the first byte of the LZMA stream must be zero unless `ignore_nonzero`,
then four bytes are read into `code`. -/
def load (rd : Range_decoder) (ignore_nonzero : Bool) : Bool × Range_decoder :=
  seq2 ({ rd with code := 0, range := 0xFFFFFFFF }).get_byte fun b rd1 =>
    if b ≠ 0 ∧ ignore_nonzero = false then (false, rd1)
    else (true, rd1.shift_in.shift_in.shift_in.shift_in)

/-- One iteration of the loop of `Range_decoder::decode`: the bit decoded and
the new state. -/
def decode_direct (rd : Range_decoder) : Nat × Range_decoder :=
  seq1 rd.normalize fun rd1 =>
    if rd1.code ≥ rd1.range >>> 1 then
      (1, { rd1 with range := rd1.range >>> 1
                     code := (rd1.code + 2 ^ 32 - (rd1.range >>> 1)) % 2 ^ 32 })
    else (0, { rd1 with range := rd1.range >>> 1 })

/-- The loop of `Range_decoder::decode`: `i` bits are still to be decoded. -/
def decode_loop : Nat → Nat → Range_decoder → Nat × Range_decoder
  | 0, symbol, rd => (symbol, rd)
  | i + 1, symbol, rd =>
    seq2 rd.decode_direct fun bit rd1 =>
      decode_loop i ((((symbol <<< 1) % 2 ^ 32) + bit) % 2 ^ 32) rd1

/-- `Range_decoder::decode`. -/
def decode (rd : Range_decoder) (num_bits : Nat) : Nat × Range_decoder :=
  decode_loop num_bits 0 rd

/-- `Range_decoder::decode_symbol_bit_reversed` called as
`decode_symbol_bit_reversed( bm[model], model, symbol, i )` on the array that
starts at `bm[base]`: the updated array, model and symbol and the new state. -/
def decode_symbol_bit_reversed_at (rd : Range_decoder) (bm : List Bit_model)
    (base model symbol i : Nat) : List Bit_model × Nat × Nat × Range_decoder :=
  seq1 rd.normalize fun rd1 =>
    if rd1.code < rd1.bound (bmAt bm (base + model)) then
      (bm.set (base + model) (update0 (bmAt bm (base + model))), (model <<< 1) % 2 ^ 32, symbol,
        { rd1 with range := rd1.bound (bmAt bm (base + model)) })
    else
      (bm.set (base + model) (update1 (bmAt bm (base + model))), ((model <<< 1) % 2 ^ 32) ||| 1,
        symbol ||| ((1 <<< i) % 2 ^ 32),
        { rd1 with
          code := (rd1.code + 2 ^ 32 - rd1.bound (bmAt bm (base + model))) % 2 ^ 32
          range := (rd1.range + 2 ^ 32 - rd1.bound (bmAt bm (base + model))) % 2 ^ 32 })

/-- `Range_decoder::decode_tree6`. -/
def decode_tree6 (rd : Range_decoder) (bm : List Bit_model) : List Bit_model × Nat × Range_decoder :=
  seq3 (rd.decode_symbol_bit_at bm 1) fun bm symbol rd =>
  seq3 (rd.decode_symbol_bit_at bm symbol) fun bm symbol rd =>
  seq3 (rd.decode_symbol_bit_at bm symbol) fun bm symbol rd =>
  seq3 (rd.decode_symbol_bit_at bm symbol) fun bm symbol rd =>
  seq3 (rd.decode_symbol_bit_at bm symbol) fun bm symbol rd =>
  seq3 (rd.decode_symbol_bit_at bm symbol) fun bm symbol rd =>
  (bm, symbol &&& 0x3F, rd)

/-- `Range_decoder::decode_tree8`. -/
def decode_tree8 (rd : Range_decoder) (bm : List Bit_model) : List Bit_model × Nat × Range_decoder :=
  seq3 (rd.decode_symbol_bit_at bm 1) fun bm symbol rd =>
  seq3 (rd.decode_symbol_bit_at bm symbol) fun bm symbol rd =>
  seq3 (rd.decode_symbol_bit_at bm symbol) fun bm symbol rd =>
  seq3 (rd.decode_symbol_bit_at bm symbol) fun bm symbol rd =>
  seq3 (rd.decode_symbol_bit_at bm symbol) fun bm symbol rd =>
  seq3 (rd.decode_symbol_bit_at bm symbol) fun bm symbol rd =>
  seq3 (rd.decode_symbol_bit_at bm symbol) fun bm symbol rd =>
  seq3 (rd.decode_symbol_bit_at bm symbol) fun bm symbol rd =>
  (bm, symbol &&& 0xFF, rd)

/-- The loop of `Range_decoder::decode_tree_reversed`, from the bit `i` on;
`n` bits are still to be decoded. -/
def decode_tree_reversed_loop (base : Nat) :
    Nat → Nat → List Bit_model → Nat → Nat → Range_decoder → List Bit_model × Nat × Range_decoder
  | 0, _, bm, _, symbol, rd => (bm, symbol, rd)
  | n + 1, i, bm, model, symbol, rd =>
    seq4 (rd.decode_symbol_bit_reversed_at bm base model symbol i) fun bm model symbol rd =>
      decode_tree_reversed_loop base n (i + 1) bm model symbol rd

/-- `Range_decoder::decode_tree_reversed( bm + base, num_bits )`. -/
def decode_tree_reversed (rd : Range_decoder) (bm : List Bit_model) (base num_bits : Nat) :
    List Bit_model × Nat × Range_decoder :=
  decode_tree_reversed_loop base num_bits 0 bm 1 0 rd

/-- `Range_decoder::decode_tree_reversed4`. -/
def decode_tree_reversed4 (rd : Range_decoder) (bm : List Bit_model) :
    List Bit_model × Nat × Range_decoder :=
  seq4 (rd.decode_symbol_bit_reversed_at bm 0 1 0 0) fun bm model symbol rd =>
  seq4 (rd.decode_symbol_bit_reversed_at bm 0 model symbol 1) fun bm model symbol rd =>
  seq4 (rd.decode_symbol_bit_reversed_at bm 0 model symbol 2) fun bm model symbol rd =>
  seq4 (rd.decode_symbol_bit_reversed_at bm 0 model symbol 3) fun bm _ symbol rd =>
  (bm, symbol, rd)

/-- The inner loop `while( symbol < 0x100 ) decode_symbol_bit( bm[symbol],
symbol );` of `decode_matched`. -/
def decode_matched_rest : Nat → List Bit_model → Nat → Range_decoder →
    List Bit_model × Nat × Range_decoder
  | 0, bm, symbol, rd => (bm, symbol, rd)
  | fuel + 1, bm, symbol, rd =>
    if symbol < 0x100 then
      seq3 (rd.decode_symbol_bit_at bm symbol) fun bm symbol rd =>
        decode_matched_rest fuel bm symbol rd
    else (bm, symbol, rd)

/-- The outer loop `while( symbol < 0x100 )` of `decode_matched`; `bm1` is
`bm + 0x100`. -/
def decode_matched_loop : Nat → List Bit_model → Nat → Nat → Range_decoder →
    List Bit_model × Nat × Range_decoder
  | 0, bm, _, symbol, rd => (bm, symbol, rd)
  | fuel + 1, bm, match_byte, symbol, rd =>
    if symbol < 0x100 then
      seq3 (rd.decode_bit (bmAt bm (0x100 + (symbol + (((match_byte <<< 1) % 2 ^ 32) &&& 0x100)))))
        fun bit b rd =>
          if (((match_byte <<< 1) % 2 ^ 32) &&& 0x100) >>> 8 ≠ bit then
            decode_matched_rest fuel
              (bm.set (0x100 + (symbol + (((match_byte <<< 1) % 2 ^ 32) &&& 0x100))) b)
              (((symbol <<< 1) % 2 ^ 32) ||| bit) rd
          else
            decode_matched_loop fuel
              (bm.set (0x100 + (symbol + (((match_byte <<< 1) % 2 ^ 32) &&& 0x100))) b)
              ((match_byte <<< 1) % 2 ^ 32) (((symbol <<< 1) % 2 ^ 32) ||| bit) rd
    else (bm, symbol, rd)

/-- `Range_decoder::decode_matched`; the symbol gains one bit per iteration, so
8 iterations are enough. -/
def decode_matched (rd : Range_decoder) (bm : List Bit_model) (match_byte : Nat) :
    List Bit_model × Nat × Range_decoder :=
  seq3 (decode_matched_loop 8 bm match_byte 1 rd) fun bm symbol rd => (bm, symbol &&& 0xFF, rd)

end Range_decoder

namespace LZ_decoder

/-- `LZ_decoder::crc`. -/
def crc (d : LZ_decoder) : Nat := d.crc_ ^^^ 0xFFFFFFFF

/-- `LZ_decoder::data_position`. -/
def data_position (d : LZ_decoder) : Nat := (d.partial_data_pos + d.pos) % 2 ^ 64

/-- `LZ_decoder::check_trailer` (lziprecover-1.25/decoder.cc), the diagnostics
left out: the value returned and the new state of the range decoder.  The
trailer is the `Lzip_trailer` of tarlz.h (lziprecover's `lzip.h` is not among
the sources). -/
def check_trailer (d : LZ_decoder) (rd : Range_decoder) : Bool × Range_decoder :=
  seq2 (rd.read_data Lzip_trailer.size) fun data rd1 =>
    let size := data.length
    let trailer : Lzip_trailer := ⟨data ++ List.replicate (Lzip_trailer.size - size) 0⟩
    let error :=
      decide (size < Lzip_trailer.size) || decide (trailer.data_crc ≠ d.crc) ||
      decide (trailer.data_size ≠ d.data_position) ||
      decide (trailer.member_size ≠ rd1.member_position)
    (!error, rd1)

end LZ_decoder

/-- The bit models declared at the start of `decode_member`. -/
structure Models where
  bm_literal : List (List Bit_model)
  bm_match : List (List Bit_model)
  bm_rep : List Bit_model
  bm_rep0 : List Bit_model
  bm_rep1 : List Bit_model
  bm_rep2 : List Bit_model
  bm_len : List (List Bit_model)
  bm_dis_slot : List (List Bit_model)
  bm_dis : List Bit_model
  bm_align : List Bit_model
  match_len_model : Len_model
  rep_len_model : Len_model
  deriving DecidableEq, Repr

/-- Modelled from the spec: the bit models as their constructors leave them.
The sizes of the arrays are constants of `lzip.h`, which is not among the
sources: 12 states, 4 values of `pos_state`, `0x300` models per literal
context, 64 distance slots per length state, 115 models of distances and 16 of
the align tree. -/
def Models.new (c : Lzma_decls) : Models :=
  { bm_literal := List.replicate c.literal_states (List.replicate 0x300 Bit_model.new)
    bm_match := List.replicate 12 (List.replicate 4 Bit_model.new)
    bm_rep := List.replicate 12 Bit_model.new
    bm_rep0 := List.replicate 12 Bit_model.new
    bm_rep1 := List.replicate 12 Bit_model.new
    bm_rep2 := List.replicate 12 Bit_model.new
    bm_len := List.replicate 12 (List.replicate 4 Bit_model.new)
    bm_dis_slot := List.replicate c.len_states (List.replicate 64 Bit_model.new)
    bm_dis := List.replicate 115 Bit_model.new
    bm_align := List.replicate 16 Bit_model.new
    match_len_model := Len_model.new
    rep_len_model := Len_model.new }

/-- The `LZ_decoder` object and the local variables of `decode_member`. -/
structure Decoder where
  lz : LZ_decoder
  m : Models
  rep0 : Nat
  rep1 : Nat
  rep2 : Nat
  rep3 : Nat
  state : Nat
  deriving DecidableEq, Repr

/-- How one iteration of the loop of `decode_member` ends: the loop goes on
(`again`), a marker was found (after `rdec.normalize(); flush_data();`), or a
distance beyond the data was found (after `flush_data();`, before
`return 1`). -/
inductive Iter where
  | again (d : Decoder)
  | marker (len : Nat) (lz : LZ_decoder)
  | error (lz : LZ_decoder)
  deriving DecidableEq, Repr

/-- The end of a match in `decode_member`: `state.set_match();`, the check of
the distance and `copy_block( rep0, len );`. -/
def match_end (c : Lzma_decls) (d : Decoder) (len : Nat) (rd : Range_decoder) :
    Iter × Range_decoder :=
  let d1 := { d with state := c.set_match d.state }
  if d1.rep0 ≥ d1.lz.dictionary_size ∨ (d1.rep0 ≥ d1.lz.pos ∧ d1.lz.pos_wrapped = false) then
    (Iter.error d1.lz.flush_data, rd)
  else (Iter.again { d1 with lz := d1.lz.copy_block d1.rep0 len }, rd)

/-- The distance of a match from its slot, in `decode_member`: the statement
`if( rep0 >= start_dis_model ) ...` to the end of the branch of a match. -/
def decode_distance (c : Lzma_decls) (d : Decoder) (len dis_slot : Nat) (rd : Range_decoder) :
    Iter × Range_decoder :=
  if dis_slot ≥ start_dis_model then
    let direct_bits := (dis_slot >>> 1) - 1
    let rep0 := ((2 ||| (dis_slot &&& 1)) <<< direct_bits) % 2 ^ 32
    if dis_slot < end_dis_model then
      seq3 (rd.decode_tree_reversed d.m.bm_dis (rep0 - dis_slot) direct_bits) fun bm symbol rd =>
        match_end c { d with m := { d.m with bm_dis := bm }, rep0 := (rep0 + symbol) % 2 ^ 32 }
          len rd
    else
      seq2 (rd.decode (direct_bits - dis_align_bits)) fun direct rd =>
      seq3 (rd.decode_tree_reversed4 d.m.bm_align) fun bm symbol rd =>
        let rep0b := ((rep0 + (direct <<< dis_align_bits) % 2 ^ 32) % 2 ^ 32 + symbol) % 2 ^ 32
        if rep0b = 0xFFFFFFFF then (Iter.marker len d.lz.flush_data, rd.normalize)
        else match_end c { d with m := { d.m with bm_align := bm }, rep0 := rep0b } len rd
  else match_end c { d with rep0 := dis_slot } len rd

/-- The branch `else // match` of `decode_member`. -/
def decode_match (c : Lzma_decls) (d : Decoder) (pos_state : Nat) (rd : Range_decoder) :
    Iter × Range_decoder :=
  seq3 (rd.decode_len d.m.match_len_model pos_state) fun len lm rd =>
  seq3 (rd.decode_tree6 (rowAt d.m.bm_dis_slot (c.get_len_state len))) fun bm dis_slot rd =>
    decode_distance c
      { d with
        rep3 := d.rep2, rep2 := d.rep1, rep1 := d.rep0
        m := { d.m with
          match_len_model := lm
          bm_dis_slot := d.m.bm_dis_slot.set (c.get_len_state len) bm } }
      len dis_slot rd

/-- The distance that `decode_distance` decodes from the slot `dis_slot` (the
value of `rep0` where the marker is tested, else where `state.set_match()` is
reached) and the state of the range decoder after it. -/
def slot_dis (d : Decoder) (dis_slot : Nat) (rd : Range_decoder) : Nat × Range_decoder :=
  if dis_slot ≥ start_dis_model then
    let direct_bits := (dis_slot >>> 1) - 1
    let rep0 := ((2 ||| (dis_slot &&& 1)) <<< direct_bits) % 2 ^ 32
    if dis_slot < end_dis_model then
      seq3 (rd.decode_tree_reversed d.m.bm_dis (rep0 - dis_slot) direct_bits) fun _ symbol rd =>
        ((rep0 + symbol) % 2 ^ 32, rd)
    else
      seq2 (rd.decode (direct_bits - dis_align_bits)) fun direct rd =>
      seq3 (rd.decode_tree_reversed4 d.m.bm_align) fun _ symbol rd =>
        (((rep0 + (direct <<< dis_align_bits) % 2 ^ 32) % 2 ^ 32 + symbol) % 2 ^ 32, rd)
  else (dis_slot, rd)

/-- The length and the distance that the branch `else // match` of
`decode_member` decodes, and the state of the range decoder after them. -/
def match_len_dis (c : Lzma_decls) (d : Decoder) (pos_state : Nat) (rd : Range_decoder) :
    Nat × Nat × Range_decoder :=
  seq3 (rd.decode_len d.m.match_len_model pos_state) fun len _ rd =>
  seq3 (rd.decode_tree6 (rowAt d.m.bm_dis_slot (c.get_len_state len))) fun _ dis_slot rd =>
  seq2 (slot_dis d dis_slot rd) fun dis rd => (len, dis, rd)

/-- The end of a repeated match: `state.set_rep(); len = rdec.decode_len(
rep_len_model, pos_state );` and `copy_block( rep0, len );`. -/
def rep_len (c : Lzma_decls) (d : Decoder) (pos_state : Nat) (rd : Range_decoder) :
    Iter × Range_decoder :=
  seq3 (rd.decode_len d.m.rep_len_model pos_state) fun len lm rd =>
    (Iter.again
      { d with
        state := c.set_rep d.state
        m := { d.m with rep_len_model := lm }
        lz := d.lz.copy_block d.rep0 len }, rd)

/-- The branch of `decode_member` after a 2nd bit 1: a repeated match. -/
def decode_rep (c : Lzma_decls) (d : Decoder) (pos_state : Nat) (rd : Range_decoder) :
    Iter × Range_decoder :=
  seq3 (rd.decode_bit (bmAt d.m.bm_rep0 d.state)) fun bit3 b3 rd =>
    let d3 := { d with m := { d.m with bm_rep0 := d.m.bm_rep0.set d.state b3 } }
    if bit3 = 0 then
      seq3 (rd.decode_bit (bm2At d3.m.bm_len d3.state pos_state)) fun bit4 b4 rd =>
        let d4 := { d3 with m := { d3.m with bm_len := bm2Set d3.m.bm_len d3.state pos_state b4 } }
        if bit4 = 0 then
          (Iter.again
            { d4 with
              state := c.set_shortrep d4.state
              lz := d4.lz.put_byte (d4.lz.peek d4.rep0) }, rd)
        else rep_len c d4 pos_state rd
    else
      seq3 (rd.decode_bit (bmAt d3.m.bm_rep1 d3.state)) fun bit4 b4 rd =>
        let d4 := { d3 with m := { d3.m with bm_rep1 := d3.m.bm_rep1.set d3.state b4 } }
        if bit4 = 0 then rep_len c { d4 with rep1 := d4.rep0, rep0 := d4.rep1 } pos_state rd
        else
          seq3 (rd.decode_bit (bmAt d4.m.bm_rep2 d4.state)) fun bit5 b5 rd =>
            let d5 := { d4 with m := { d4.m with bm_rep2 := d4.m.bm_rep2.set d4.state b5 } }
            if bit5 = 0 then
              rep_len c { d5 with rep2 := d5.rep1, rep1 := d5.rep0, rep0 := d5.rep2 } pos_state rd
            else
              rep_len c
                { d5 with rep3 := d5.rep2, rep2 := d5.rep1, rep1 := d5.rep0, rep0 := d5.rep3 }
                pos_state rd

/-- The branch of `decode_member` after a 1st bit 0: a literal byte. -/
def decode_literal (c : Lzma_decls) (d : Decoder) (rd : Range_decoder) : Iter × Range_decoder :=
  seq3
    (if (c.is_char_set_char d.state).1 then
      rd.decode_tree8 (rowAt d.m.bm_literal (c.get_lit_state d.lz.peek_prev))
    else
      rd.decode_matched (rowAt d.m.bm_literal (c.get_lit_state d.lz.peek_prev)) (d.lz.peek d.rep0))
    fun bm symbol rd =>
      (Iter.again
        { d with
          state := (c.is_char_set_char d.state).2
          m := { d.m with
            bm_literal := d.m.bm_literal.set (c.get_lit_state d.lz.peek_prev) bm }
          lz := d.lz.put_byte symbol }, rd)

/-- One iteration of the loop `while( !rdec.finished() )` of `decode_member`,
up to the point where the iteration ends. -/
def decode_iter (c : Lzma_decls) (d : Decoder) (rd : Range_decoder) : Iter × Range_decoder :=
  let pos_state := d.lz.data_position &&& pos_state_mask
  seq3 (rd.decode_bit (bm2At d.m.bm_match d.state pos_state)) fun bit1 b1 rd =>
    let d1 := { d with m := { d.m with bm_match := bm2Set d.m.bm_match d.state pos_state b1 } }
    if bit1 = 0 then decode_literal c d1 rd
    else
      seq3 (rd.decode_bit (bmAt d1.m.bm_rep d1.state)) fun bit2 b2 rd =>
        let d2 := { d1 with m := { d1.m with bm_rep := d1.m.bm_rep.set d1.state b2 } }
        if bit2 ≠ 0 then decode_rep c d2 pos_state rd
        else decode_match c d2 pos_state rd

/-- The statements of `decode_member` after a marker was found and
`rdec.normalize(); flush_data();` were done: a marker of length `min_match_len`
is the End Of Stream marker and the value returned is 0 or 3 as the trailer is
right or not; any other marker gives 4. -/
def decode_return (len : Nat) (lz : LZ_decoder) (rd : Range_decoder) :
    Int × LZ_decoder × Range_decoder :=
  if len = min_match_len then
    seq2 (lz.check_trailer rd) fun ok rd => if ok then (0, lz, rd) else (3, lz, rd)
  else (4, lz, rd)

/-- The loop `while( !rdec.finished() )` of `decode_member` and the two
statements after it; `none` when `fuel` iterations were not enough. -/
def decode_member_loop (c : Lzma_decls) : Nat → Decoder → Range_decoder →
    Option (Int × LZ_decoder × Range_decoder)
  | 0, _, _ => none
  | fuel + 1, d, rd =>
    seq2 rd.finished fun fin rd =>
      if fin then some (2, d.lz.flush_data, rd)
      else
        seq2 (decode_iter c d rd) fun it rd =>
          match it with
          | Iter.again d1 => decode_member_loop c fuel d1 rd
          | Iter.marker len lz => some (decode_return len lz rd)
          | Iter.error lz => some (1, lz, rd)

/-- The local variables of `decode_member` where its loop starts. -/
def Decoder.new (c : Lzma_decls) (lz : LZ_decoder) : Decoder :=
  { lz := lz, m := Models.new c, rep0 := 0, rep1 := 0, rep2 := 0, rep3 := 0, state := 0 }

/-- `LZ_decoder::decode_member` (lziprecover-1.25/decoder.cc): the value
returned and the final states of the LZ decoder and of the range decoder.
Return value: 0 = OK, 1 = decoder error, 2 = unexpected EOF, 3 = trailer error,
4 = unknown marker found, 5 = nonzero first LZMA byte found. -/
def decode_member (c : Lzma_decls) (fuel : Nat) (lz : LZ_decoder) (rd : Range_decoder)
    (ignore_nonzero : Bool) : Option (Int × LZ_decoder × Range_decoder) :=
  seq2 (rd.load ignore_nonzero) fun ok rd =>
    if ok = false then some (5, lz, rd)
    else decode_member_loop c fuel (Decoder.new c lz) rd

/-- One choice of the parameters `Lzma_decls`, used to run the model on
concrete members: 12 states of which the first 7 follow a literal, 8 literal
contexts chosen by the 3 high bits of the previous byte, 4 length states. -/
def sample_decls : Lzma_decls :=
  { is_char_set_char := fun st =>
      if st < 7 then (true, st - (if st < 4 then st else 3))
      else (false, st - (if st < 10 then 3 else 6))
    set_match := fun st => if st < 7 then 7 else 10
    set_rep := fun st => if st < 7 then 8 else 11
    set_shortrep := fun st => if st < 7 then 9 else 11
    get_lit_state := fun prev_byte => prev_byte >>> 5
    get_len_state := fun len => min (len - min_match_len) 3
    literal_states := 8
    len_states := 4 }

/-- A 36-byte lzip member of no data: the header, an LZMA stream that holds
only the End Of Stream marker, and the trailer. -/
def empty_member : List Nat :=
  [0x4C, 0x5A, 0x49, 0x50, 0x01, 0x0C, 0x00, 0x83, 0xFF, 0xFB, 0xFF, 0xFF, 0xC0, 0x00, 0x00, 0x00,
   0, 0, 0, 0, 0, 0, 0, 0, 0, 0, 0, 0, 0x24, 0, 0, 0, 0, 0, 0, 0]

/-- The range decoder on the file `M` once the 6 bytes of the header were read
with `read_data`; `mem` is the content of its freshly allocated buffer. -/
def after_header (M mem : List Nat) : Range_decoder :=
  ((Range_decoder.new M mem).read_data Lzip_header.size).2

/-- An LZ decoder with a dictionary of 4 KiB that starts zeroed, and no output
file. -/
def small_decoder : LZ_decoder := LZ_decoder.new 4096 (-1) (List.replicate 4096 0) 0 0

/-- The number of bytes of input that the range decoder has not consumed yet:
those left in its buffer and those left in the file. -/
def avail (rd : Range_decoder) : Nat := (rd.stream_pos - rd.pos) + rd.infd.length

/-- The state `rd2` is the state `rd` of a range decoder that reads the same
input without its last byte: either the last byte is still in the file, or the
file is exhausted and the buffer of `rd2` holds one byte less.  Both buffers
hold their `stream_pos` bytes. -/
structure Trunc (rd rd2 : Range_decoder) : Prop where
  code : rd2.code = rd.code
  range : rd2.range = rd.range
  pos : rd2.pos = rd.pos
  pmp : rd2.partial_member_pos = rd.partial_member_pos
  buf : rd.stream_pos ≤ rd.buffer.length
  buf2 : rd2.stream_pos ≤ rd2.buffer.length
  input :
    (rd.infd ≠ [] ∧ rd2.infd = rd.infd.dropLast ∧ rd2.buffer = rd.buffer ∧
      rd2.stream_pos = rd.stream_pos ∧ rd.at_stream_end = false ∧ rd2.at_stream_end = false) ∨
    (rd.infd = [] ∧ rd2.infd = [] ∧ rd2.stream_pos + 1 = rd.stream_pos ∧
      rd2.at_stream_end = true ∧
      ∀ i, i < rd2.stream_pos → rd2.buffer.getD i 0 = rd.buffer.getD i 0)

/-- The operation `f` of the range decoder, whose result `t` holds the values
`φ t` and the new state `ψ t`, consumes input only, and as long as it leaves
two bytes of input it does the same on an input without its last byte. -/
def SimG {T α : Type} (φ : T → α) (ψ : T → Range_decoder) (f : Range_decoder → T) : Prop :=
  ∀ rd, avail (ψ (f rd)) ≤ avail rd ∧
    ∀ rd2, Trunc rd rd2 → 2 ≤ avail (ψ (f rd)) →
      φ (f rd2) = φ (f rd) ∧ Trunc (ψ (f rd)) (ψ (f rd2))

/-- The state `b` differs from the state `a` in `code` and `range` only. -/
def Frame (a b : Range_decoder) : Prop :=
  b.pos = a.pos ∧ b.stream_pos = a.stream_pos ∧ b.infd = a.infd ∧ b.buffer = a.buffer ∧
    b.at_stream_end = a.at_stream_end ∧ b.partial_member_pos = a.partial_member_pos

/-- The values of a result of two values and a state. -/
def out3 {α β : Type} (t : α × β × Range_decoder) : α × β := (t.1, t.2.1)

/-- The state of a result of two values and a state. -/
def nxt3 {α β : Type} (t : α × β × Range_decoder) : Range_decoder := t.2.2

/-- The values of a result of three values and a state. -/
def out4 {α β γ : Type} (t : α × β × γ × Range_decoder) : α × β × γ := (t.1, t.2.1, t.2.2.1)

/-- The state of a result of three values and a state. -/
def nxt4 {α β γ : Type} (t : α × β × γ × Range_decoder) : Range_decoder := t.2.2.2

/-- `SimG` for an operation that gives a state only. -/
def Sim1 (f : Range_decoder → Range_decoder) : Prop := SimG (fun _ => ()) id f

/-- `SimG` for an operation that gives a value and a state. -/
def Sim2 {α : Type} (f : Range_decoder → α × Range_decoder) : Prop := SimG Prod.fst Prod.snd f

/-- `SimG` for an operation that gives two values and a state. -/
def Sim3 {α β : Type} (f : Range_decoder → α × β × Range_decoder) : Prop := SimG out3 nxt3 f

/-- `SimG` for an operation that gives three values and a state. -/
def Sim4 {α β γ : Type} (f : Range_decoder → α × β × γ × Range_decoder) : Prop :=
  SimG out4 nxt4 f

/-- The run of `decode_member` on `empty_member`. -/
def empty_member_run : Option (Int × LZ_decoder × Range_decoder) :=
  decode_member sample_decls 1 small_decoder (after_header empty_member []) false

/-- The number of bits that follow the slot `dis_slot` of a distance:
`direct_bits = ( dis_slot >> 1 ) - 1` in `decode_member`. -/
def direct_bits (dis_slot : Nat) : Nat := (dis_slot >>> 1) - 1

namespace Range_decoder

/-- The indexes of the elements of the array that the loop of
`decode_tree_reversed( bm + base, num_bits )` passes to
`decode_symbol_bit_reversed`, in order: the call of the iteration `i` is given
`bm[model]`, which is the element `base + model` of the array. -/
def decode_tree_reversed_indexes (base : Nat) :
    Nat → Nat → List Bit_model → Nat → Nat → Range_decoder → List Nat
  | 0, _, _, _, _, _ => []
  | n + 1, i, bm, model, symbol, rd =>
    (base + model) ::
      seq4 (rd.decode_symbol_bit_reversed_at bm base model symbol i) fun bm model symbol rd =>
        decode_tree_reversed_indexes base n (i + 1) bm model symbol rd

/-- The indexes `symbol` of the six elements `bm[symbol]` that `decode_tree6`
passes to `decode_symbol_bit`, in order. -/
def decode_tree6_indexes (rd : Range_decoder) (bm : List Bit_model) : List Nat :=
  seq3 (rd.decode_symbol_bit_at bm 1) fun bm s1 rd =>
  seq3 (rd.decode_symbol_bit_at bm s1) fun bm s2 rd =>
  seq3 (rd.decode_symbol_bit_at bm s2) fun bm s3 rd =>
  seq3 (rd.decode_symbol_bit_at bm s3) fun bm s4 rd =>
  seq3 (rd.decode_symbol_bit_at bm s4) fun _ s5 _ =>
  [1, s1, s2, s3, s4, s5]

end Range_decoder

/-- The indexes `symbol` of the elements `bm[symbol]` given to `n` successive
calls `decode_symbol_bit( bm[symbol], symbol )`. -/
def symbol_bit_indexes : Nat → List Bit_model → Nat → Range_decoder → List Nat
  | 0, _, _, _ => []
  | n + 1, bm, symbol, rd =>
    symbol :: seq3 (rd.decode_symbol_bit_at bm symbol) fun bm symbol rd =>
      symbol_bit_indexes n bm symbol rd

/-- `Etime::set`: `sec_ = s; nsec_ = 0;`. -/
def Etime.set (_ : Etime) (s : Int) : Etime := ⟨s, 0⟩

namespace Extended

/-- The setter `Extended::linkpath( lp )`. -/
def linkpath (x : Extended) (lp : List Nat) : Extended :=
  { x with linkpath_ := lp, full_size_ := -4 }

/-- The setter `Extended::path( p )`. -/
def path (x : Extended) (p : List Nat) : Extended :=
  { x with path_ := p, full_size_ := -4 }

/-- The setter `Extended::file_size( fs )`. -/
def file_size (x : Extended) (fs : Int) : Extended :=
  { x with
    full_size_ := -4
    file_size_ := if fs ≥ 0 ∧ fs ≤ (max_file_size : Int) then fs else 0 }

/-- `Extended::set_uid`: the value returned and the object afterwards. -/
def set_uid (x : Extended) (id : Int) : Bool × Extended :=
  (decide (id ≥ 0), if id ≥ 0 then { x with uid_ := id, full_size_ := -4 } else x)

/-- `Extended::set_gid`: the value returned and the object afterwards. -/
def set_gid (x : Extended) (id : Int) : Bool × Extended :=
  (decide (id ≥ 0), if id ≥ 0 then { x with gid_ := id, full_size_ := -4 } else x)

/-- `Extended::set_atime`. -/
def set_atime (x : Extended) (s : Int) : Extended :=
  { x with atime_ := x.atime_.set s, full_size_ := -4 }

/-- `Extended::set_mtime`. -/
def set_mtime (x : Extended) (s : Int) : Extended :=
  { x with mtime_ := x.mtime_.set s, full_size_ := -4 }

/-- `Extended::full_size`: the value returned and the object afterwards (the
cached sizes are `mutable`). -/
def full_size (x : Extended) : Int × Extended :=
  let x1 := if x.full_size_ ≤ -4 then x.calculate_sizes else x
  (x1.full_size_, x1)

/-- The metadata of the object are empty: no path, no linkpath, file size 0,
uid and gid unset, atime and mtime invalid. -/
def empty_metadata (x : Extended) : Bool :=
  x.path_.isEmpty && x.linkpath_.isEmpty && decide (x.file_size_ = 0) &&
    decide (x.uid_ = -1) && decide (x.gid_ = -1) && !x.atime_.isvalid && !x.mtime_.isvalid

end Extended

/-- The `class Name_monitor` of decode_lz.cc: the CRC and the name reserved by
each worker.  The mutex is left out: `reserve_name` runs under it from start to
end, so calls are sequential. -/
structure Name_monitor where
  crc_vector : List Nat
  name_vector : List (List Nat)
  deriving DecidableEq, Repr

namespace Name_monitor

/-- The constructor `Name_monitor( num_workers )`: `num_workers` zero CRCs and
empty names. -/
def new (num_workers : Nat) : Name_monitor :=
  ⟨List.replicate num_workers 0, List.replicate num_workers []⟩

/-- The loop of `reserve_name` from the index `i` on, with `n` indexes left:
true if it finds the name already reserved (`return false` in the code). -/
def reserved_loop (m : Name_monitor) (worker_id crc : Nat) (filename : List Nat) :
    Nat → Nat → Bool
  | 0, _ => false
  | n + 1, i =>
    if m.crc_vector.getD i 0 = crc ∧ crc ≠ 0 ∧ i ≠ worker_id ∧ m.name_vector.getD i [] = filename
    then true
    else reserved_loop m worker_id crc filename n (i + 1)

/-- `Name_monitor::reserve_name`: the value returned and the monitor
afterwards. -/
def reserve_name (m : Name_monitor) (worker_id : Nat) (filename : List Nat) :
    Bool × Name_monitor :=
  let crc := crc32c.compute_crc filename
  if m.reserved_loop worker_id crc filename m.crc_vector.length 0 then (false, m)
  else (true, ⟨m.crc_vector.set worker_id crc, m.name_vector.set worker_id filename⟩)

/-- The invariant of the class: as many names as CRCs, each CRC that of its
name. -/
def consistent (m : Name_monitor) : Prop :=
  m.name_vector.length = m.crc_vector.length ∧
  ∀ i, i < m.crc_vector.length →
    m.crc_vector.getD i 0 = crc32c.compute_crc (m.name_vector.getD i [])

/-- Some worker other than `worker_id` holds the name `filename`. -/
def held_by_other (m : Name_monitor) (worker_id : Nat) (filename : List Nat) : Prop :=
  ∃ i, i < m.name_vector.length ∧ i ≠ worker_id ∧ m.name_vector.getD i [] = filename

end Name_monitor

/-- The name `bbfsptr`, whose CRC32-C is 0. -/
def crc_zero_name : List Nat := [0x62, 0x62, 0x66, 0x73, 0x70, 0x74, 0x72]

/-- `dotdot_at_i( filename, i )` (tarlz.h) on a C string; the bytes from the
terminating NUL on read as 0. -/
def dotdot_at_i (filename : List Nat) (i : Nat) : Bool :=
  decide (filename.getD i 0 = 0x2E) && decide (filename.getD (i + 1) 0 = 0x2E) &&
    (decide (i = 0) || decide (filename.getD (i - 1) 0 = 0x2F)) &&
    (decide (filename.getD (i + 2) 0 = 0) || decide (filename.getD (i + 2) 0 = 0x2F))

/-- The loop of `contains_dotdot` from the index `i` on. -/
def contains_dotdot_loop (filename : List Nat) : Nat → Nat → Bool
  | 0, _ => false
  | fuel + 1, i =>
    if filename.getD i 0 = 0 then false
    else if dotdot_at_i filename i then true
    else contains_dotdot_loop filename fuel (i + 1)

/-- `contains_dotdot( filename )` (tarlz.h): the loop ends at the terminating
NUL, after at most `filename.length` iterations. -/
def contains_dotdot (filename : List Nat) : Bool :=
  contains_dotdot_loop filename filename.length 0

/-- The loop `for( int i = 0; filename[i]; ++i ) if( dotdot_at_i( filename, i )
) p = filename + i + 2;` of `remove_leading_dotslash`, from the index `i` on;
`p` is an offset in `filename`. -/
def dotdot_loop (filename : List Nat) : Nat → Nat → Nat → Nat
  | 0, _, p => p
  | fuel + 1, i, p =>
    if filename.getD i 0 = 0 then p
    else dotdot_loop filename fuel (i + 1) (if dotdot_at_i filename i then i + 2 else p)

/-- `remove_leading_dotslash( filename, &removed_prefix, dotdot )` (create.cc
of tarlz 0.29) on a C string: the string returned and the removed prefix. -/
def remove_leading_dotslash_dotdot (filename : List Nat) (dotdot : Bool) :
    List Nat × List Nat :=
  let p0 := if dotdot then dotdot_loop filename filename.length 0 0 else 0
  let p := dotslash_loop filename filename.length p0
  let removed_prefix := if p ≠ 0 then filename.take p else []
  if filename.getD p 0 = 0 ∧ filename.getD 0 0 ≠ 0 then ([0x2E], removed_prefix)
  else (filename.drop p, removed_prefix)

/-! ## Fec data (lziprecover-1.26/fec_repair.cc) -/

/-- What `fec.h` and `md5.h` declare, which are not among the sources, taken as
parameters: the constants and the inline accessors of `Chksum_packet` and
`Fec_packet` (functions of the packet image, the bytes from the start of the
packet on), `isvalid_fbs`, `fits_in_size_t`, the digest computed by `MD5SUM`
and the Reed-Solomon decoders. -/
structure Fec_decls where
  /-- The constant `fec_magic_l`. -/
  fec_magic_l : Nat
  /-- The byte `fec_magic[0]`. -/
  fec_magic0 : Nat
  /-- The function `check_fec_magic( image_buffer )`. -/
  check_fec_magic : List Nat → Bool
  /-- The test `std::memcmp( image_buffer, fec_packet_magic, fec_magic_l ) == 0`. -/
  check_fec_packet_magic : List Nat → Bool
  /-- The value of `Chksum_packet::min_packet_size()`. -/
  chksum_min_packet_size : Nat
  /-- The value of `Fec_packet::min_packet_size()`. -/
  fec_min_packet_size : Nat
  /-- The function `Chksum_packet::check_version( image_buffer )`. -/
  check_version : List Nat → Bool
  /-- The function `Chksum_packet::check_flags( image_buffer )`. -/
  check_flags : List Nat → Bool
  /-- The test `get_le( image_buffer + header_crc_o, crc32_l ) ==
  compute_header_crc( image_buffer )` of `Chksum_packet::check_image`. -/
  chksum_header_crc_ok : List Nat → Bool
  /-- The same test in `Fec_packet::check_image`. -/
  fec_header_crc_ok : List Nat → Bool
  /-- The constant `max_prodata_size`. -/
  max_prodata_size : Nat
  /-- The function `isvalid_fbs`. -/
  isvalid_fbs : Nat → Bool
  /-- The function `fits_in_size_t`. -/
  fits_in_size_t : Nat → Bool
  /-- The accessor `Chksum_packet::prodata_size()`. -/
  chksum_prodata_size : List Nat → Nat
  /-- The accessor `Chksum_packet::fec_block_size()`. -/
  chksum_fec_block_size : List Nat → Nat
  /-- The function `Chksum_packet::packet_size( prodata_size, fbs )`. -/
  chksum_packet_size : Nat → Nat → Nat
  /-- The function `Chksum_packet::prodata_blocks( prodata_size, fbs )`. -/
  chksum_prodata_blocks : Nat → Nat → Nat
  /-- The constant `header_size` of `Chksum_packet`. -/
  chksum_header_size : Nat
  /-- The constant `trailer_size` of `Chksum_packet`. -/
  chksum_trailer_size : Nat
  /-- The size `sizeof chksum_packet.crc_array()[0]` of an element of the
  array. -/
  elsize : Nat
  /-- The accessor `Chksum_packet::gf16()`. -/
  chksum_gf16 : List Nat → Bool
  /-- The accessor `Chksum_packet::prodata_md5()`. -/
  chksum_prodata_md5 : List Nat → List Nat
  /-- The function `Chksum_packet::check_payload_crc()`. -/
  check_payload_crc : List Nat → Bool
  /-- The accessor `Chksum_packet::is_crc_c()`. -/
  is_crc_c : List Nat → Bool
  /-- The values `crc_array()[i].val()` of the array of the packet. -/
  crc_array : List Nat → List Nat
  /-- The accessor `Fec_packet::fec_block_size()`. -/
  fec_fec_block_size : List Nat → Nat
  /-- The function `Fec_packet::packet_size( fbs )`. -/
  fec_packet_size : Nat → Nat
  /-- The constant `fec_block_o` of `Fec_packet`. -/
  fec_block_o : Nat
  /-- The value `get_le( image_buffer + payload_crc_o, crc32_l )` of
  `Fec_packet::check_image`, for the offset `payload_crc_o`. -/
  fec_payload_crc : List Nat → Nat → Nat
  /-- The accessor `Fec_packet::fec_block_number()`. -/
  fec_block_number : List Nat → Nat
  /-- The bytes at `Fec_packet::fec_block()`. -/
  fec_block : List Nat → List Nat
  /-- The digest that `MD5SUM` gives for the bytes it has been given. -/
  md5 : List Nat → List Nat
  /-- The buffer `dstbuf` that `rs16_decode` (`gf16` true) or `rs8_decode`
  fills, from `prodata`, `lastbuf`, `bb_vector`, `fbn_vector`, `fecbuf`, `fbs`
  and `prodata_blocks`. -/
  rs_decode : Bool → List Nat → List Nat → List Nat → List Nat → List Nat → Nat → Nat → List Nat
  /-- The buffer that `set_lastbuf( prodata, prodata_size, fbs,
  last_is_missing )` returns. -/
  set_lastbuf : List Nat → Nat → Nat → Bool → List Nat

/-- Modelled from the spec: the constant `max_k8` of `fec.h`, which is not
among the sources: `2^7` for GF(2^8). -/
def max_k8 : Nat := 2 ^ 7

/-- Modelled from the spec: the constant `max_k16` of `fec.h`: `2^15` for
GF(2^16). -/
def max_k16 : Nat := 2 ^ 15

/-- Modelled from the spec: `ceil_divide` of `fec.h`, the number of blocks of
`block_size` bytes needed for `size` bytes. -/
def ceil_divide (size block_size : Nat) : Nat := (size + block_size - 1) / block_size

/-- `Chksum_packet::check_image( image_buffer, max_size )`: 0 = bad magic, 1 =
bad size, 2 = bad crc, else the packet size; `none` stands for
`throw std::bad_alloc()`. -/
def Chksum_packet.check_image (c : Fec_decls) (image_buffer : List Nat) (max_size : Nat) :
    Option Nat :=
  if max_size < c.chksum_min_packet_size ∨ c.check_fec_magic image_buffer = false then some 0
  else if c.chksum_header_crc_ok image_buffer = false then some 2
  else if c.check_version image_buffer = false ∨ c.check_flags image_buffer = false then some 2
  else
    let prodata_size := c.chksum_prodata_size image_buffer
    let fbs := c.chksum_fec_block_size image_buffer
    if prodata_size > c.max_prodata_size ∨ c.isvalid_fbs fbs = false then some 1
    else
      let image_size := c.chksum_packet_size prodata_size fbs
      let max_k := if c.chksum_gf16 image_buffer then max_k16 else max_k8
      if image_size < c.chksum_min_packet_size ∨ image_size > max_size ∨
          image_size > c.chksum_header_size + (max_k * c.elsize) % 2 ^ 32 + c.chksum_trailer_size
      then some 1
      else
        let paysize :=
          (image_size + 2 ^ 64 - c.chksum_header_size % 2 ^ 64 + 2 ^ 64
            - c.chksum_trailer_size % 2 ^ 64) % 2 ^ 32
        let prodata_blocks := c.chksum_prodata_blocks prodata_size fbs
        if paysize % c.elsize ≠ 0 ∨ paysize / c.elsize ≠ prodata_blocks ∨
            prodata_blocks ≤ 0 ∨ prodata_blocks > max_k then some 1
        else if c.fits_in_size_t prodata_size = false ∨ c.fits_in_size_t fbs = false then none
        else some (image_size % 2 ^ 32)

/-- `Fec_packet::check_image( image_buffer, max_size )`: 0 = bad magic, 1 = bad
size, 2 = bad crc, else the packet size; `none` stands for
`throw std::bad_alloc()`. -/
def Fec_packet.check_image (c : Fec_decls) (image_buffer : List Nat) (max_size : Nat) :
    Option Nat :=
  if max_size < c.fec_min_packet_size ∨ c.check_fec_packet_magic image_buffer = false then some 0
  else if c.fec_header_crc_ok image_buffer = false then some 2
  else
    let fbs := c.fec_fec_block_size image_buffer
    let image_size := c.fec_packet_size fbs
    if c.isvalid_fbs fbs = false ∨ image_size < c.fec_min_packet_size ∨ image_size > max_size
    then some 1
    else
      let payload_crc_o := c.fec_block_o + fbs
      let payload_crc := c.fec_payload_crc image_buffer payload_crc_o
      if crc32.compute_crc ((image_buffer.drop c.fec_block_o).take fbs) ≠ payload_crc then some 2
      else if c.fits_in_size_t fbs = false then none
      else some image_size

/-- The `class Fec_index`.  The fec data are the list `fecdata_` (its length is
`fecdata_size_` but for one case of `read_fecfile`); a packet is kept as its
image, the bytes of `fecdata_` from the start of the packet on; a pointer to a
CRC array is the array, the null pointer `none`.  The message `error_` is left
out. -/
structure Fec_index where
  fecdata_ : List Nat
  crc_array_ : Option (List Nat)
  crcc_array_ : Option (List Nat)
  fec_vector : List (List Nat)
  fecdata_size_ : Nat
  fec_net_size_ : Nat
  fec_block_size_ : Nat
  prodata_size_ : Nat
  prodata_md5_ : List Nat
  retval_ : Int
  gf16_ : Bool
  is_lz_ : Bool
  deriving DecidableEq, Repr

namespace Fec_index

/-- `Fec_index::fec_blocks`: the size of the vector as an `unsigned`. -/
def fec_blocks (x : Fec_index) : Nat := x.fec_vector.length % 2 ^ 32

/-- `Fec_index::fbn( i )`. -/
def fbn (c : Fec_decls) (x : Fec_index) (i : Nat) : Nat :=
  c.fec_block_number (x.fec_vector.getD i [])

/-- `Fec_index::prodata_blocks`: the quotient as an `unsigned`. -/
def prodata_blocks (x : Fec_index) : Nat :=
  ceil_divide x.prodata_size_ x.fec_block_size_ % 2 ^ 32

/-- `Fec_index::has_array`. -/
def has_array (x : Fec_index) : Bool := x.crc_array_.isSome || x.crcc_array_.isSome

/-- `Fec_index::block_pos( i )`, for an `unsigned` `i`: the product is
computed in `unsigned long`. -/
def block_pos (x : Fec_index) (i : Nat) : Nat := (i * x.fec_block_size_) % 2 ^ 64

/-- `Fec_index::block_size( i )`. -/
def block_size (x : Fec_index) (i : Nat) : Nat :=
  let pos := (i * x.fec_block_size_) % 2 ^ 64
  if pos ≥ x.prodata_size_ then 0 else min x.fec_block_size_ (x.prodata_size_ - pos)

/-- `Fec_index::block_end( i )`: `i + 1` is computed in `unsigned`, the product
in `unsigned long`. -/
def block_end (x : Fec_index) (i : Nat) : Nat :=
  min ((((i + 1) % 2 ^ 32) * x.fec_block_size_) % 2 ^ 64) x.prodata_size_

/-- `Fec_index::prodata_match`, without the diagnostic. -/
def prodata_match (x : Fec_index) (computed_prodata_md5 : List Nat) : Bool :=
  decide (x.prodata_md5_ = computed_prodata_md5)

/-- The first statement of `parse_packet`, `if( prodata_size_ <= 0 ) ... else
...`, for the packet at `image`: `false` stands for `return false`. -/
def parse_size (c : Fec_decls) (x : Fec_index) (image : List Nat) : Bool × Fec_index :=
  if x.prodata_size_ ≤ 0 then
    if c.fits_in_size_t (c.chksum_prodata_size image) = false then (false, { x with retval_ := 1 })
    else (true, { x with
      prodata_size_ := c.chksum_prodata_size image
      prodata_md5_ := c.chksum_prodata_md5 image
      gf16_ := c.chksum_gf16 image })
  else if x.prodata_size_ ≠ c.chksum_prodata_size image then (false, { x with retval_ := 2 })
  else if x.prodata_md5_ ≠ c.chksum_prodata_md5 image then (false, { x with retval_ := 2 })
  else if x.gf16_ ≠ c.chksum_gf16 image then (false, { x with retval_ := 2 })
  else (true, x)

/-- The second statement of `parse_packet`, `if( !isvalid_fbs( fec_block_size_
) ) ... else if ...`. -/
def parse_fbs (c : Fec_decls) (x : Fec_index) (image : List Nat) : Bool × Fec_index :=
  if c.isvalid_fbs x.fec_block_size_ = false then
    (true, { x with fec_block_size_ := c.chksum_fec_block_size image })
  else if x.fec_block_size_ ≠ c.chksum_fec_block_size image then (false, { x with retval_ := 2 })
  else (true, x)

/-- The rest of `parse_packet`, from `if( !chksum_packet.check_payload_crc() )`
on: the value returned and the object afterwards. -/
def parse_array (c : Fec_decls) (x : Fec_index) (image : List Nat) (ignore_errors : Bool) :
    Bool × Fec_index :=
  if c.check_payload_crc image = false then
    if ignore_errors then (true, x) else (false, { x with retval_ := 2 })
  else if c.is_crc_c image = false then
    if x.crc_array_.isNone then (true, { x with crc_array_ := some (c.crc_array image) })
    else (false, { x with retval_ := 2 })
  else if x.crcc_array_.isNone then (true, { x with crcc_array_ := some (c.crc_array image) })
  else (false, { x with retval_ := 2 })

/-- `Fec_index::parse_packet( chksum_packet, ignore_errors )` for the packet at
`image`: the value returned and the object afterwards. -/
def parse_packet (c : Fec_decls) (x : Fec_index) (image : List Nat) (ignore_errors : Bool) :
    Bool × Fec_index :=
  if (x.parse_size c image).1 = false then x.parse_size c image
  else if ((x.parse_size c image).2.parse_fbs c image).1 = false then
    (x.parse_size c image).2.parse_fbs c image
  else ((x.parse_size c image).2.parse_fbs c image).2.parse_array c image ignore_errors

/-- The loop `while( ++pos < fecdata_size_ && fecdata_[pos] != fec_magic[0] )
{}` of the constructor: the value of `pos` after it. -/
def skip_loop (c : Fec_decls) (x : Fec_index) : Nat → Nat → Nat
  | 0, pos => pos
  | fuel + 1, pos =>
    if pos + 1 < x.fecdata_size_ ∧ x.fecdata_.getD (pos + 1) 0 ≠ c.fec_magic0 then
      skip_loop c x fuel (pos + 1)
    else pos + 1

/-- How one iteration of the loop of the constructor ends: the loop goes on at
`pos`, or the constructor returns. -/
inductive Scan where
  | next (pos : Nat) (x : Fec_index)
  | ret (x : Fec_index)
  deriving DecidableEq, Repr

/-- The second half of an iteration of the loop of the constructor, from the
call of `Fec_packet::check_image` on; `none` stands for an exception. -/
def scan_fec (c : Fec_decls) (ignore_errors : Bool) (pos : Nat) (x : Fec_index) : Option Scan :=
  match Fec_packet.check_image c (x.fecdata_.drop pos) (x.fecdata_size_ - pos) with
  | none => none
  | some image_size =>
    if image_size > 2 then
      let fec_packet := x.fecdata_.drop pos
      if c.isvalid_fbs x.fec_block_size_ = false then
        some (Scan.next (pos + image_size)
          { x with
            fec_block_size_ := c.fec_fec_block_size fec_packet
            fec_vector := x.fec_vector ++ [fec_packet]
            fec_net_size_ := (x.fec_net_size_ + image_size) % 2 ^ 64 })
      else if x.fec_block_size_ ≠ c.fec_fec_block_size fec_packet then
        some (Scan.ret { x with retval_ := 2 })
      else
        some (Scan.next (pos + image_size)
          { x with
            fec_vector := x.fec_vector ++ [fec_packet]
            fec_net_size_ := (x.fec_net_size_ + image_size) % 2 ^ 64 })
    else if image_size ≠ 0 ∧ ignore_errors = true then some (Scan.next (pos + 1) x)
    else if image_size = 1 then some (Scan.ret { x with retval_ := 2 })
    else if image_size = 2 then some (Scan.ret { x with retval_ := 2 })
    else if ignore_errors then
      some (Scan.next (skip_loop c x (x.fecdata_size_ - pos) pos) x)
    else some (Scan.ret { x with retval_ := 2 })

/-- One iteration of the loop `for( unsigned long pos = 0; pos <
fecdata_size_; )` of the constructor; `none` stands for an exception. -/
def scan_step (c : Fec_decls) (ignore_errors : Bool) (pos : Nat) (x : Fec_index) : Option Scan :=
  match Chksum_packet.check_image c (x.fecdata_.drop pos) (x.fecdata_size_ - pos) with
  | none => none
  | some image_size =>
    if image_size > 2 then
      if (x.parse_packet c (x.fecdata_.drop pos) ignore_errors).1 = false then
        some (Scan.ret (x.parse_packet c (x.fecdata_.drop pos) ignore_errors).2)
      else
        some (Scan.next (pos + image_size)
          { (x.parse_packet c (x.fecdata_.drop pos) ignore_errors).2 with
            fec_net_size_ :=
              ((x.parse_packet c (x.fecdata_.drop pos) ignore_errors).2.fec_net_size_
                + image_size) % 2 ^ 64 })
    else if image_size ≠ 0 ∧ ignore_errors = true then some (Scan.next (pos + 1) x)
    else if image_size = 1 then some (Scan.ret { x with retval_ := 2 })
    else if image_size = 2 then some (Scan.ret { x with retval_ := 2 })
    else scan_fec c ignore_errors pos x

/-- The loop of the constructor from `pos` on: whether it ran to its end
(`false`: the constructor returned from inside it) and the object; `none`
stands for an exception.  Every iteration moves `pos` forward, so
`fecdata_size_` iterations are enough. -/
def scan_loop (c : Fec_decls) (ignore_errors : Bool) : Nat → Nat → Fec_index →
    Option (Bool × Fec_index)
  | 0, _, x => some (true, x)
  | fuel + 1, pos, x =>
    if pos < x.fecdata_size_ then
      match scan_step c ignore_errors pos x with
      | none => none
      | some (Scan.ret x1) => some (false, x1)
      | some (Scan.next pos1 x1) => scan_loop c ignore_errors fuel pos1 x1
    else some (true, x)

/-- The loop over the fec packets at the end of the constructor, on the packets
still to be checked: `bv` after it, or `none` if it finds a block number that
is not below `max_k` or that `bv` has already. -/
def fbn_loop (c : Fec_decls) (max_k : Nat) : List (List Nat) → List Bool → Option (List Bool)
  | [], bv => some bv
  | p :: ps, bv =>
    if c.fec_block_number p ≥ max_k then none
    else if bv.getD (c.fec_block_number p) false then none
    else fbn_loop c max_k ps (bv.set (c.fec_block_number p) true)

/-- The checks of the constructor that follow the loop over the fec data;
`none` stands for `internal_error`, which ends the program. -/
def final_checks (c : Fec_decls) (ignore_errors : Bool) (x : Fec_index) : Option Fec_index :=
  if x.prodata_size_ ≤ 0 then some { x with retval_ := 2 }
  else if x.fec_blocks ≤ 0 ∧ ignore_errors = false then some { x with retval_ := 2 }
  else if x.has_array = false ∧ ignore_errors = false then some { x with retval_ := 2 }
  else if x.fec_blocks > x.prodata_blocks then some { x with retval_ := 2 }
  else if c.isvalid_fbs x.fec_block_size_ = false then none
  else
    let max_k := if x.gf16_ then max_k16 else max_k8
    match fbn_loop c max_k (x.fec_vector.take x.fec_blocks) (List.replicate max_k false) with
    | none => some { x with retval_ := 2 }
    | some _ => some x

/-- The member initializers of the constructor. -/
def init (is_lz : Bool) : Fec_index :=
  { fecdata_ := [], crc_array_ := none, crcc_array_ := none, fec_vector := [],
    fecdata_size_ := 0, fec_net_size_ := 0, fec_block_size_ := 0, prodata_size_ := 0,
    prodata_md5_ := [], retval_ := 0, gf16_ := false, is_lz_ := is_lz }

/-- The constructor `Fec_index( fec_filename, ignore_errors, is_lz )`.  What
`read_fecfile` gives is the argument `fecfile`: `none` if it fails or leaves
`fecdata_` null, else the data read, `fecdata_size_` being their length.  The
result `none` stands for an exception or `internal_error`. -/
def new (c : Fec_decls) (fecfile : Option (List Nat)) (ignore_errors is_lz : Bool) :
    Option Fec_index :=
  match fecfile with
  | none => some { init is_lz with retval_ := 1 }
  | some data =>
    let x := { init is_lz with fecdata_ := data, fecdata_size_ := data.length }
    if x.fecdata_size_ ≤ 0 then some { x with retval_ := 2 }
    else if x.fecdata_size_ ≥ c.fec_magic_l ∧ c.check_fec_magic x.fecdata_ = false then
      some { x with retval_ := 2 }
    else if x.fecdata_size_ < c.chksum_min_packet_size then some { x with retval_ := 2 }
    else if c.check_version x.fecdata_ = false then some { x with retval_ := 2 }
    else
      match scan_loop c ignore_errors x.fecdata_size_ 0 x with
      | none => none
      | some (false, x1) => some x1
      | some (true, x1) => final_checks c ignore_errors x1

end Fec_index

/-- The fec packets indexed so far carry the fec block size of the index, which
is a valid one. -/
def FbsAgree (c : Fec_decls) (x : Fec_index) : Prop :=
  ∀ p ∈ x.fec_vector,
    c.fec_fec_block_size p = x.fec_block_size_ ∧ c.isvalid_fbs x.fec_block_size_ = true

/-- What one iteration of the loop of the constructor, started at `pos` on `x`
with return value 0, keeps: if the loop goes on, the packets agree on the fec
block size, the return value is unchanged and `pos` has moved forward; if the
constructor returns, the return value is 1 or 2. -/
def ScanOk (c : Fec_decls) (pos : Nat) (x : Fec_index) : Fec_index.Scan → Prop
  | Fec_index.Scan.next pos1 x1 =>
    FbsAgree c x1 ∧ x1.retval_ = x.retval_ ∧ pos < pos1 ∧
      x1.fecdata_size_ = x.fecdata_size_ ∧ x1.fecdata_ = x.fecdata_
  | Fec_index.Scan.ret x1 => x1.retval_ = 1 ∨ x1.retval_ = 2

/-- A toy fec format for the examples: a chksum packet is the bytes `1`,
protected size, fec block size, then one byte per data block; a fec packet is
the bytes `2`, fec block size, fec block number, then the fec block.  All the
CRCs are taken as right but that of the array of a chksum packet, which is
right when the first byte of the array is 0; the digest of some bytes is the
bytes themselves, and the decoder gives back the fec blocks. -/
def sample_fec_decls : Fec_decls :=
  { fec_magic_l := 1
    fec_magic0 := 1
    check_fec_magic := fun img => img.getD 0 0 == 1
    check_fec_packet_magic := fun img => img.getD 0 0 == 2
    chksum_min_packet_size := 4
    fec_min_packet_size := 4
    check_version := fun _ => true
    check_flags := fun _ => true
    chksum_header_crc_ok := fun _ => true
    fec_header_crc_ok := fun _ => true
    max_prodata_size := 2 ^ 32
    isvalid_fbs := fun n => decide (0 < n)
    fits_in_size_t := fun _ => true
    chksum_prodata_size := fun img => img.getD 1 0
    chksum_fec_block_size := fun img => img.getD 2 0
    chksum_packet_size := fun ps fbs => 3 + ceil_divide ps fbs
    chksum_prodata_blocks := fun ps fbs => ceil_divide ps fbs
    chksum_header_size := 3
    chksum_trailer_size := 0
    elsize := 1
    chksum_gf16 := fun _ => false
    chksum_prodata_md5 := fun _ => [0, 0]
    check_payload_crc := fun img => img.getD 3 0 == 0
    is_crc_c := fun _ => false
    crc_array := fun img => (img.drop 3).take (ceil_divide (img.getD 1 0) (img.getD 2 0))
    fec_fec_block_size := fun img => img.getD 1 0
    fec_packet_size := fun fbs => 3 + fbs
    fec_block_o := 3
    fec_payload_crc := fun img o => crc32.compute_crc ((img.drop 3).take (o - 3))
    fec_block_number := fun img => img.getD 2 0
    fec_block := fun img => img.drop 3
    md5 := fun l => l
    rs_decode := fun _ _ _ _ _ fecbuf _ _ => fecbuf
    set_lastbuf := fun _ _ _ _ => [] }

/-- A fec file in the toy format: a chksum packet for 2 bytes in blocks of 1
byte, and one fec packet with block number 0. -/
def sample_fec_file : List Nat := [1, 2, 1, 0, 0, 2, 1, 0, 9]

/-- The loop of `bursted_data_block` (`minlen` is 8) from the index `j` on,
`count` being the number of bytes before `j - 1` found equal to it. -/
def bursted_loop (prodata : List Nat) (end_ : Nat) : Nat → Nat → Nat → Bool
  | 0, _, _ => false
  | fuel + 1, j, count =>
    if j < end_ then
      if prodata.getD j 0 ≠ prodata.getD (j - 1) 0 then bursted_loop prodata end_ fuel (j + 1) 0
      else if count + 1 ≥ 8 - 1 then true
      else bursted_loop prodata end_ fuel (j + 1) (count + 1)
    else false

/-- `Bad_block_index::bursted_data_block( prodata, mmapped_size, i )` for the
index `x`; the loop runs at most `end - ( pos + 1 )` times. -/
def bursted_data_block (x : Fec_index) (prodata : List Nat) (mmapped_size i : Nat) : Bool :=
  let pos := if x.block_pos i ≥ 8 / 2 then x.block_pos i - 8 / 2 else x.block_pos i
  let end_ := min ((x.block_end i + 8 / 2) % 2 ^ 64) mmapped_size
  bursted_loop prodata end_ (end_ - (pos + 1)) (pos + 1) 0

/-- The start of the window of the claim: 4 bytes before the block, or the
start of the block when that is below 4. -/
def spec_window_start (x : Fec_index) (i : Nat) : Nat :=
  if x.block_pos i < 4 then x.block_pos i else x.block_pos i - 4

/-- The end of the window of the claim: `min( block_end + 4, mmapped_size )`. -/
def spec_window_end (x : Fec_index) (mmapped_size i : Nat) : Nat :=
  min (x.block_end i + 4) mmapped_size

/-- The bytes of `prodata` from `a` to `b - 1` contain a run of at least 8
consecutive identical bytes. -/
def spec_has_run (prodata : List Nat) (a b : Nat) : Prop :=
  ∃ k n, 8 ≤ n ∧ a ≤ k ∧ k + n ≤ b ∧ ∀ t, t < n → prodata.getD (k + t) 0 = prodata.getD k 0

/-- The bytes `prodata[pos .. pos + size)` of the block `i`, with the `pos` and
`size` that `find_bad_blocks` computes. -/
def Fec_index.block_bytes (x : Fec_index) (prodata : List Nat) (i : Nat) : List Nat :=
  (prodata.drop (x.block_pos i)).take (x.block_size i)

/-- The test by which `find_bad_blocks` takes the block `i` as bad: a
mismatched CRC32 or CRC32-C if the index has an array, else a burst in a file
in lzip format. -/
def block_is_bad (x : Fec_index) (prodata : List Nat) (mmapped_size i : Nat) : Bool :=
  if x.has_array then
    (match x.crc_array_ with
      | some a => decide (a.getD i 0 ≠ crc32.compute_crc (x.block_bytes prodata i))
      | none => false) ||
    (match x.crcc_array_ with
      | some a => decide (a.getD i 0 ≠ crc32c.compute_crc (x.block_bytes prodata i))
      | none => false)
  else x.is_lz_ && bursted_data_block x prodata mmapped_size i

/-- `Bad_block_index::find_bad_blocks`: the vector `bb_vector_` and the digest
`computed_prodata_md5`, which is computed only if the file is not shorter than
the protected data (`none` otherwise). -/
def find_bad_blocks (c : Fec_decls) (x : Fec_index) (prodata : List Nat) (mmapped_size : Nat) :
    List Nat × Option (List Nat) :=
  let full := decide (mmapped_size ≥ x.prodata_size_)
  let available_blocks :=
    if full then x.prodata_blocks else (mmapped_size / x.fec_block_size_) % 2 ^ 32
  let blocks := min available_blocks x.prodata_blocks
  ((List.range blocks).filter (fun i => block_is_bad x prodata mmapped_size i) ++
      (List.range x.prodata_blocks).drop blocks,
    if full then some (c.md5 ((List.range blocks).flatMap (x.block_bytes prodata))) else none)

/-- `check_prodata`, without the diagnostics: `size_dif < 0 || bad_blocks ||
!fec_index.prodata_match( ... )` is evaluated from left to right, so the digest
is only looked at when there is one. -/
def check_prodata (x : Fec_index) (bb_vector : List Nat) (computed_prodata_md5 : Option (List Nat))
    (size_dif : Int) : Bool :=
  let bad_blocks := bb_vector.length % 2 ^ 32
  let mismatch :=
    decide (size_dif < 0) || decide (bad_blocks ≠ 0) ||
      !(match computed_prodata_md5 with
        | some d => x.prodata_match d
        | none => false)
  if bad_blocks ≠ 0 then false
  else if mismatch then false
  else true

/-- The loop over the columns of `check_md5_2`, which is also the loop that
writes the repaired copy in `fec_test`: the blocks `src[0 .. size)` from the
column `col` on, a repaired block of `dstbuf` for a column of `bb_vector`, else
the block of `prodata`. -/
def repaired_blocks (prodata dstbuf bb_vector : List Nat)
    (prodata_blocks bad_blocks prodata_size fbs : Nat) : Nat → Nat → Nat → List (List Nat)
  | 0, _, _ => []
  | fuel + 1, col, bi =>
    if col < prodata_blocks then
      if bi < bad_blocks ∧ col = bb_vector.getD bi 0 then
        ((dstbuf.drop ((bi * fbs) % 2 ^ 64)).take
            (if col < (prodata_blocks + 2 ^ 32 - 1) % 2 ^ 32 then fbs
              else ((prodata_size + 2 ^ 64 - 1) % 2 ^ 64) % fbs + 1)) ::
          repaired_blocks prodata dstbuf bb_vector prodata_blocks bad_blocks prodata_size fbs
            fuel (col + 1) (bi + 1)
      else
        ((prodata.drop ((col * fbs) % 2 ^ 64)).take
            (if col < (prodata_blocks + 2 ^ 32 - 1) % 2 ^ 32 then fbs
              else ((prodata_size + 2 ^ 64 - 1) % 2 ^ 64) % fbs + 1)) ::
          repaired_blocks prodata dstbuf bb_vector prodata_blocks bad_blocks prodata_size fbs
            fuel (col + 1) bi
    else []

/-- `check_md5_2`: the digest of the blocks of the loop against `digest`. -/
def check_md5_2 (c : Fec_decls) (prodata dstbuf bb_vector : List Nat) (prodata_size fbs : Nat)
    (digest : List Nat) : Bool :=
  decide (digest = c.md5 (repaired_blocks prodata dstbuf bb_vector
    (ceil_divide prodata_size fbs % 2 ^ 32) (bb_vector.length % 2 ^ 32) prodata_size fbs
    (ceil_divide prodata_size fbs % 2 ^ 32) 0 0).flatten)

/-- `repair_prodata`: the buffer with the repaired blocks, `none` for the null
pointer.  Allocations are taken to succeed. -/
def repair_prodata (c : Fec_decls) (x : Fec_index) (bb_vector prodata : List Nat) :
    Option (List Nat) :=
  let bad_blocks := bb_vector.length % 2 ^ 32
  if bad_blocks = 0 then none
  else if bad_blocks > x.fec_blocks then none
  else
    let fbs := x.fec_block_size_
    let fbn_vector := (List.range bad_blocks).map (x.fbn c)
    let fecbuf :=
      (List.range bad_blocks).flatMap (fun bi => (c.fec_block (x.fec_vector.getD bi [])).take fbs)
    let last_is_missing :=
      decide (bb_vector.getLast?.getD 0 = (x.prodata_blocks + 2 ^ 32 - 1) % 2 ^ 32)
    let lastbuf := c.set_lastbuf prodata x.prodata_size_ fbs last_is_missing
    some (c.rs_decode x.gf16_ prodata lastbuf bb_vector fbn_vector fecbuf fbs x.prodata_blocks)

/-- Modelled from the spec: `set_retval` belongs to a file that is not among
the sources; the return value only grows. -/
def set_retval (retval new_val : Int) : Int := if retval < new_val then new_val else retval

/-- The calls `writeblock( outfd, src, size )` of the loop that writes the
repaired copy, from the column `col` on; `write_ok col` tells whether the call
for that column writes the whole block.  The loop ends at the first failure:
whether all calls succeeded, and the bytes written by those that did. -/
def write_blocks (write_ok : Nat → Bool) : List (List Nat) → Nat → Bool × List Nat
  | [], _ => (true, [])
  | b :: bs, col =>
    if write_ok col then ((write_blocks write_ok bs (col + 1)).1,
      b ++ (write_blocks write_ok bs (col + 1)).2)
    else (false, [])

/-- How the body of the loop over the files of `fec_test` ends for one file:
the program ends with a status (`cleanup_and_fail( status )`, which also
deletes the output file, or a `return`), or the loop goes on with a new
`retval`, a repaired copy having been written or not. -/
inductive Fec_outcome where
  | fail (status : Int)
  | next (retval : Int) (copy : Option (List Nat))
  deriving DecidableEq, Repr

/-- The bytes of the protected file that `fec_test` maps: the first
`mmapped_size = min( prodata_size, file_size )` bytes. -/
def mapped_prodata (x : Fec_index) (file : List Nat) : List Nat :=
  file.take (min x.prodata_size_ file.length)

/-- The value `size_dif = file_size - prodata_size` of `fec_test`. -/
def size_dif (x : Fec_index) (file : List Nat) : Int :=
  (file.length : Int) - (x.prodata_size_ : Int)

/-- The vector of bad blocks that `fec_test` gets from `Bad_block_index` for
the file. -/
def found_bad_blocks (c : Fec_decls) (x : Fec_index) (file : List Nat) : List Nat :=
  (find_bad_blocks c x (mapped_prodata x file) (min x.prodata_size_ file.length)).1

/-- The digest that `fec_test` gets from `Bad_block_index` for the file. -/
def found_md5 (c : Fec_decls) (x : Fec_index) (file : List Nat) : Option (List Nat) :=
  (find_bad_blocks c x (mapped_prodata x file) (min x.prodata_size_ file.length)).2

/-- The value `mismatch = !check_prodata( ... )` of `fec_test`. -/
def file_mismatch (c : Fec_decls) (x : Fec_index) (file : List Nat) : Bool :=
  !check_prodata x (found_bad_blocks c x file) (found_md5 c x file) (size_dif x file)

/-- The buffer `dstbuf` of `fec_test`: `bad_blocks ? repair_prodata( ... ) :
0`. -/
def file_dstbuf (c : Fec_decls) (x : Fec_index) (file : List Nat) : Option (List Nat) :=
  if (found_bad_blocks c x file).length % 2 ^ 32 ≠ 0 then
    repair_prodata c x (found_bad_blocks c x file) (mapped_prodata x file)
  else none

/-- The end of the repair branch of `fec_test`, after the loop that writes the
copy: `retval1` is `retval` after the loop and `written` the bytes written. -/
def finish_copy (close_ok : Bool) (retval1 : Int) (written : List Nat) : Fec_outcome :=
  if (if retval1 = 0 ∧ close_ok = false then set_retval retval1 1 else retval1) ≠ 0 then
    Fec_outcome.fail (if retval1 = 0 ∧ close_ok = false then set_retval retval1 1 else retval1)
  else
    Fec_outcome.next (if retval1 = 0 ∧ close_ok = false then set_retval retval1 1 else retval1)
      (some written)

/-- The loop of `fec_test` that writes the blocks of the repaired copy, and
what follows it. -/
def write_copy (write_ok : Nat → Bool) (close_ok : Bool) (blocks : List (List Nat))
    (retval : Int) : Fec_outcome :=
  finish_copy close_ok
    (if (write_blocks write_ok blocks 0).1 = true then retval else set_retval retval 1)
    (write_blocks write_ok blocks 0).2

/-- The branch `else if( repair && ( mismatch || size_dif > 0 ) )` of
`fec_test`.  `open_ok` tells whether the output can be opened when it has to be
(`to_fixed`, or `to_file` with `outfd < 0`), `close_ok` whether
`close_outstream` succeeds.  The flag `is_lz` of `fec_test` is the one given to
the index. -/
def repair_file (c : Fec_decls) (x : Fec_index) (file : List Nat)
    (to_stdout to_file outfd_open open_ok close_ok : Bool) (write_ok : Nat → Bool)
    (retval : Int) : Fec_outcome :=
  if x.is_lz_ = false ∧ x.has_array = false ∧ file_mismatch c x file = true then
    Fec_outcome.fail 2
  else if (found_bad_blocks c x file).length % 2 ^ 32 ≠ 0 ∧
      ((file_dstbuf c x file).isNone = true ∨
        check_md5_2 c (mapped_prodata x file) ((file_dstbuf c x file).getD [])
          (found_bad_blocks c x file) x.prodata_size_ x.fec_block_size_ x.prodata_md5_ = false)
  then Fec_outcome.fail 2
  else if to_stdout = false ∧ to_file = false ∧ open_ok = false then
    Fec_outcome.fail (set_retval retval 1)
  else if to_file = true ∧ outfd_open = false ∧ open_ok = false then Fec_outcome.fail 1
  else
    write_copy write_ok close_ok
      (repaired_blocks (mapped_prodata x file) ((file_dstbuf c x file).getD [])
        (found_bad_blocks c x file) x.prodata_blocks ((found_bad_blocks c x file).length % 2 ^ 32)
        x.prodata_size_ x.fec_block_size_ x.prodata_blocks 0 0)
      retval

/-- The body of the loop over the files of `fec_test` for one protected file,
from the point where its fec data have been read into the index `x` (with
`retval() == 0`) and the file, of content `file`, has been opened and
mapped. -/
def fec_test_file (c : Fec_decls) (x : Fec_index) (file : List Nat)
    (repair to_stdout to_file outfd_open open_ok close_ok : Bool) (write_ok : Nat → Bool)
    (retval : Int) : Fec_outcome :=
  if file_mismatch c x file = true ∧ repair = false then
    Fec_outcome.next (set_retval retval 2) none
  else if repair = true ∧ (file_mismatch c x file = true ∨ size_dif x file > 0) then
    repair_file c x file to_stdout to_file outfd_open open_ok close_ok write_ok retval
  else Fec_outcome.next retval none

/-- A fec file in the toy format whose chksum packet has a corrupt array: read
with `ignore_errors`, it gives an index without CRC arrays. -/
def sample_fec_file_no_array : List Nat := [1, 2, 1, 7, 7, 2, 1, 0, 9]

/-- The index of `sample_fec_file_no_array` read with `ignore_errors` for a
file in lzip format: 2 protected bytes in blocks of 1 byte, stored digest
`[0, 0]`, no CRC array, one fec packet. -/
def sample_index_no_array : Fec_index :=
  (Fec_index.new sample_fec_decls (some sample_fec_file_no_array) true true).getD
    (Fec_index.init true)

/-! ## Parallel creation (tarlz-0.27.1/create_lz.cc) -/

/-- The `enum { max_packet_size = 1 << 20 }`. -/
def max_packet_size : Nat := 1 <<< 20

/-- The `class Slot_tally`; a thread that would wait is not let in (see
`get_slot`). -/
structure Slot_tally where
  num_slots : Int
  num_free : Int
  deriving DecidableEq, Repr

/-- The `struct Ipacket`; an empty `filename` means end of lzip member, and then
`extended` and `header`, null pointers in the code, are not read.  `header` is
the `Tar_header` of `header_size` bytes. -/
structure Ipacket where
  file_size : Int
  filename : List Nat
  extended : Extended
  header : List Nat
  deriving DecidableEq, Repr

/-- The `struct Opacket`: `data == 0` (`none`) means end of lzip member; `size`
is the length of the data. -/
structure Opacket where
  data : Option (List Nat)
  deriving DecidableEq, Repr

/-- The `class Packet_courier`, without its counters; the mutexes and the
condition variables are left out: each member function runs under its mutex,
and a call that would wait does not take place. -/
structure Packet_courier where
  receive_id : Nat
  deliver_id : Nat
  slot_tally : Slot_tally
  ipacket_queues : List (List Ipacket)
  opacket_queues : List (List Opacket)
  num_working : Int
  num_workers : Nat
  out_slots : Nat
  eof : Bool
  deriving DecidableEq, Repr

namespace Packet_courier

/-- The constructor `Packet_courier( workers, in_slots, oslots )`. -/
def new (workers in_slots oslots : Nat) : Packet_courier :=
  { receive_id := 0, deliver_id := 0, slot_tally := ⟨in_slots, in_slots⟩,
    ipacket_queues := List.replicate workers [], opacket_queues := List.replicate workers [],
    num_working := workers, num_workers := workers, out_slots := oslots, eof := false }

/-- `Packet_courier::finish`. -/
def finish (pc : Packet_courier) : Packet_courier := { pc with eof := true }

end Packet_courier

/-- The functions of lzlib that `cworker` and `loop_encode` call (lzlib.h and
the library are not among the sources), on the states `E` of an `LZ_Encoder`:
each gives the value returned and the encoder afterwards. -/
structure Lzlib_decls (E : Type) where
  /-- The encoder given by `LZ_compress_open( dictionary_size, match_len_limit,
  LLONG_MAX )`; `none` for a null pointer or an encoder whose
  `LZ_compress_errno` is not `LZ_ok`. -/
  LZ_compress_open : Nat → Nat → Option E
  /-- The call `LZ_compress_write( encoder, buffer, size )` on the bytes of the
  buffer. -/
  LZ_compress_write : E → List Nat → Int × E
  /-- The call `LZ_compress_finish( encoder )`, whose value is not read. -/
  LZ_compress_finish : E → E
  /-- The call `LZ_compress_read( encoder, buffer, size )`: the bytes stored in
  the buffer, as many as the value returned, `none` for a negative value. -/
  LZ_compress_read : E → Nat → Option (List Nat) × E
  /-- The call `LZ_compress_finished( encoder )`. -/
  LZ_compress_finished : E → Int
  /-- The call `LZ_compress_restart_member( encoder, LLONG_MAX )`. -/
  LZ_compress_restart_member : E → Int × E

/-- What the workers of a run of `encode_lz` are given and what they read: the
functions of lzlib, the arguments of `LZ_compress_open` in `Worker_arg`, and
the content that `open_instream` and `readblock` give for a file name (`none`
when the file can not be opened). -/
structure Create_env (E : Type) where
  lz : Lzlib_decls E
  dictionary_size : Nat
  match_len_limit : Nat
  files : List Nat → Option (List Nat)

/-- What a part of the work of a worker gives: the opackets given to
`collect_packet`, in order, then `obuf[0..opos)` and the encoder after it, or
`none` when the worker has ended the program (`internal_error`,
`exit_fail_mt`) or a loop on the encoder has not ended within its fuel. -/
abbrev Encoded (E : Type) := List Opacket × Option (List Nat × E)

/-- One part of the work followed by another. -/
def Encoded.bind {E : Type} (r : Encoded E) (f : List Nat → E → Encoded E) : Encoded E :=
  match r.2 with
  | none => (r.1, none)
  | some p => (r.1 ++ (f p.1 p.2).1, (f p.1 p.2).2)

/-- The write of `loop_encode`: `ipos` and the encoder after
`if( ipos < isize ) { wr = LZ_compress_write( ... ); ... ipos += wr; }`, `none`
for the `internal_error` on `wr < 0`. -/
def write_step {E : Type} (c : Lzlib_decls E) (ibuf : List Nat) (ipos : Nat) (encoder : E) :
    Option (Nat × E) :=
  if ipos < ibuf.length then
    (if (c.LZ_compress_write encoder (ibuf.drop ipos)).1 < 0 then none
    else some (ipos + (c.LZ_compress_write encoder (ibuf.drop ipos)).1.toNat,
      (c.LZ_compress_write encoder (ibuf.drop ipos)).2))
  else some (ipos, encoder)

/-- The loop `while( true )` of `loop_encode` and the two checks that follow
it, from `ipos`, `obuf[0..opos)` and the encoder; the calls of `collect_packet`
are listed, not made (see `Create_step`). -/
def loop_encode_loop {E : Type} (c : Lzlib_decls E) (finish : Bool) (ibuf : List Nat) :
    Nat → Nat → List Nat → E → Encoded E
  | 0, _, _, _ => ([], none)
  | fuel + 1, ipos, obuf, encoder =>
    match write_step c ibuf ipos encoder with
    | none => ([], none)
    | some (ipos1, enc1) =>
      if ipos1 ≥ ibuf.length ∧ finish = false then
        ([], if ipos1 > ibuf.length then none else some (obuf, enc1))
      else
        match c.LZ_compress_read
          (if ipos1 ≥ ibuf.length then c.LZ_compress_finish enc1 else enc1)
          (max_packet_size - obuf.length) with
        | (none, _) => ([], none)
        | (some bytes, enc2) =>
          if (obuf ++ bytes).length ≥ max_packet_size ∨ c.LZ_compress_finished enc2 = 1 then
            if (obuf ++ bytes).length > max_packet_size then ([], none)
            else if c.LZ_compress_finished enc2 = 1 then
              ([Opacket.mk (some (obuf ++ bytes))],
                if (c.LZ_compress_restart_member enc2).1 ≥ 0 ∧ ipos1 = ibuf.length then
                  some ([], (c.LZ_compress_restart_member enc2).2)
                else none)
            else
              (Opacket.mk (some (obuf ++ bytes)) :: (loop_encode_loop c finish ibuf fuel ipos1 []
                enc2).1, (loop_encode_loop c finish ibuf fuel ipos1 [] enc2).2)
          else loop_encode_loop c finish ibuf fuel ipos1 obuf enc2

/-- `loop_encode( ibuf, isize, obuf, opos, courier, encoder, worker_id,
finish )`, its loop run at most `fuel` times. -/
def loop_encode {E : Type} (c : Lzlib_decls E) (fuel : Nat) (finish : Bool) (ibuf : List Nat)
    (obuf : List Nat) (encoder : E) : Encoded E :=
  if obuf.length > max_packet_size then ([], none)
  else loop_encode_loop c finish ibuf fuel 0 obuf encoder

/-- The local variables of `cworker` that live from one ipacket to the next:
the encoder (null until its first use), `data[0..opos)` and `flushed`. -/
structure Cworker (E : Type) where
  encoder : Option E
  data : List Nat
  flushed : Bool

/-- The local variables of `cworker` before its loop. -/
def Cworker.init {E : Type} : Cworker E := { encoder := none, data := [], flushed := true }

/-- The loop `while( rest > 0 )` of `cworker` on the data of a file of
`file_size` bytes, from `rest` and the bytes that `readblock` has yet to
give; a short read ends the program.  Each iteration takes at least one byte
off `rest`: the first argument bounds their number. -/
def encode_file {E : Type} (c : Lzlib_decls E) (fuel : Nat) (file_size : Nat) :
    Nat → Nat → List Nat → List Nat → E → Encoded E
  | 0, rest, _, obuf, encoder => if rest > 0 then ([], none) else ([], some (obuf, encoder))
  | n + 1, rest, content, obuf, encoder =>
    if rest > 0 then
      if content.length < min rest (32 * header_size) then ([], none)
      else
        Encoded.bind
          (loop_encode c fuel false
            (content.take (min rest (32 * header_size)) ++
              (if rest - min rest (32 * header_size) = 0 ∧ file_size % header_size > 0 then
                List.replicate (header_size - file_size % header_size) 0
              else []))
            obuf encoder)
          (fun obuf1 enc1 =>
            encode_file c fuel file_size n (rest - min rest (32 * header_size))
              (content.drop (min rest (32 * header_size))) obuf1 enc1)
    else ([], some (obuf, encoder))

/-- The body of the loop of `cworker` for the token of end of group: the
opackets collected and the local variables afterwards (`none` when the program
is ended).  With `flushed` false the encoder is not null. -/
def cworker_token {E : Type} (env : Create_env E) (fuel : Nat) (st : Cworker E) :
    List Opacket × Option (Cworker E) :=
  if st.flushed then ([Opacket.mk none], some st)
  else
    match st.encoder with
    | none => ([], none)
    | some e =>
      ((loop_encode env.lz fuel true [] st.data e).1 ++
        (match (loop_encode env.lz fuel true [] st.data e).2 with
          | none => []
          | some _ => [Opacket.mk none]),
        (loop_encode env.lz fuel true [] st.data e).2.map
          (fun p => { encoder := some p.2, data := p.1, flushed := true }))

/-- The encoder of `cworker` once `if( !encoder )` has run; `none` when
`LZ_compress_open` fails, which ends the program. -/
def open_encoder {E : Type} (env : Create_env E) (st : Cworker E) : Option E :=
  match st.encoder with
  | some e => some e
  | none => env.lz.LZ_compress_open env.dictionary_size env.match_len_limit

/-- The three parts of the compression of a tar member by `cworker`: the
extended block if `ebsize > 0`, the ustar header, the data of the file padded
to a multiple of `header_size` if `file_size` is not 0. -/
def encode_member {E : Type} (env : Create_env E) (fuel : Nat) (ip : Ipacket) (obuf : List Nat)
    (e : E) : Encoded E :=
  Encoded.bind
    (Encoded.bind
      (if (ip.extended.format_block true).1 > 0 then
        loop_encode env.lz fuel false (ip.extended.format_block true).2.2 obuf e
      else ([], some (obuf, e)))
      (fun obuf1 e1 => loop_encode env.lz fuel false ip.header obuf1 e1))
    (fun obuf2 e2 =>
      if ip.file_size ≠ 0 then
        encode_file env.lz fuel ip.file_size.toNat ip.file_size.toNat ip.file_size.toNat
          ((env.files ip.filename).getD []) obuf2 e2
      else ([], some (obuf2, e2)))

/-- The body of the loop of `cworker` for the ipacket of a file: a file that
can not be opened is skipped; memory is taken to be available, and `close` to
succeed. -/
def cworker_member {E : Type} (env : Create_env E) (fuel : Nat) (st : Cworker E)
    (ip : Ipacket) : List Opacket × Option (Cworker E) :=
  if ip.file_size ≠ 0 ∧ env.files ip.filename = none then ([], some st)
  else
    match open_encoder env st with
    | none => ([], none)
    | some e =>
      if (ip.extended.format_block true).1 < 0 then ([], none)
      else
        ((encode_member env fuel ip st.data e).1,
          (encode_member env fuel ip st.data e).2.map
            (fun p => { encoder := some p.2, data := p.1, flushed := false }))

/-- The body of the loop of `cworker` for the ipacket that `distribute_packet`
has given. -/
def cworker_body {E : Type} (env : Create_env E) (fuel : Nat) (st : Cworker E) (ip : Ipacket) :
    List Opacket × Option (Cworker E) :=
  if ip.filename = [] then cworker_token env fuel st else cworker_member env fuel st ip

/-- The loop of `cworker` on the ipackets that `distribute_packet` gives it, in
order: the opackets that it gives to `collect_packet` and its local variables
afterwards, `none` once the program is ended. -/
def cworker_run {E : Type} (env : Create_env E) (fuel : Nat) :
    Cworker E → List Ipacket → List Opacket × Option (Cworker E)
  | st, [] => ([], some st)
  | st, ip :: t =>
    match (cworker_body env fuel st ip).2 with
    | none => ((cworker_body env fuel st ip).1, none)
    | some st1 =>
      ((cworker_body env fuel st ip).1 ++ (cworker_run env fuel st1 t).1,
        (cworker_run env fuel st1 t).2)

/-- A worker thread: the local variables of `cworker` (`none` once it has ended
the program), the opackets that it has produced and not yet given to
`collect_packet`, which may make it wait, and whether it has left its loop. -/
structure Worker_thread (E : Type) where
  vars : Option (Cworker E)
  pending : List Opacket
  done : Bool

/-- A run of the grouper, the workers and the muxer on a courier, with the
history of the calls: the ipackets that the grouper has given to
`receive_packet`, those that `distribute_packet` has returned to each worker,
the opackets that each worker has given to `collect_packet`, and the data of
the opackets that `deliver_packets` has handed to the muxer, in the order in
which the muxer writes them. -/
structure Create_run (E : Type) where
  pc : Packet_courier
  threads : List (Worker_thread E)
  received : List Ipacket
  taken : List (List Ipacket)
  collected : List (List Opacket)
  delivered : List (List Nat)

/-- The start of a run with `workers` workers. -/
def Create_run.init {E : Type} (workers in_slots oslots : Nat) : Create_run E :=
  { pc := Packet_courier.new workers in_slots oslots
    threads := List.replicate workers { vars := some Cworker.init, pending := [], done := false }
    received := []
    taken := List.replicate workers [], collected := List.replicate workers []
    delivered := [] }

/-- What is taken of lzlib for the comparison of the groups of different
workers: an encoder restarted by `LZ_compress_restart_member` is in the state
of the encoder that `LZ_compress_open` gives to a worker. -/
def Restart_fresh {E : Type} (env : Create_env E) : Prop :=
  ∀ e : E, 0 ≤ (env.lz.LZ_compress_restart_member e).1 →
    some (env.lz.LZ_compress_restart_member e).2 =
      env.lz.LZ_compress_open env.dictionary_size env.match_len_limit

/-- The local variables of a worker at the start of a group: nothing in
`data`, `flushed` set, and an encoder that is null or as opened. -/
def Cworker.fresh {E : Type} (env : Create_env E) (st : Cworker E) : Prop :=
  st.flushed = true ∧ st.data = [] ∧
  (st.encoder = none ∨
    st.encoder = env.lz.LZ_compress_open env.dictionary_size env.match_len_limit)

/-- No opacket of the sequence is a token. -/
def AllData (ops : List Opacket) : Prop := ∀ o ∈ ops, o.data.isSome = true

/-- The local variables of a worker are those of the start of a group whenever
`flushed` is set. -/
def Cworker.good {E : Type} (env : Create_env E) (st : Cworker E) : Prop :=
  st.flushed = true → st.fresh env

end Lzip

/-! # Theorems -/

namespace Lzip

/-! ## Bit models and `decode_len` -/

theorem asr5_eq (x : Int) : asr x bit_model_move_bits = x / 32 := by
  unfold asr bit_model_move_bits
  cases x with
  | ofNat n =>
    show Int.ofNat (n >>> 5) = Int.ofNat n / 32
    rw [Nat.shiftRight_eq_div_pow]
    rfl
  | negSucc n =>
    show Int.negSucc (n >>> 5) = Int.negSucc n / 32
    rw [Nat.shiftRight_eq_div_pow]
    rfl

theorem update0_range (bm : Bit_model) (h1 : 1 ≤ bm.probability) (h2 : bm.probability ≤ 2047) :
    1 ≤ (Range_decoder.update0 bm).probability ∧ (Range_decoder.update0 bm).probability ≤ 2047 := by
  simp only [Range_decoder.update0, asr5_eq, bit_model_total]
  omega

theorem update1_range (bm : Bit_model) (h1 : 1 ≤ bm.probability) (h2 : bm.probability ≤ 2047) :
    1 ≤ (Range_decoder.update1 bm).probability ∧ (Range_decoder.update1 bm).probability ≤ 2047 := by
  simp only [Range_decoder.update1, asr5_eq]
  omega

/-- C8: for every probability `p` with `1 ≤ p ≤ 2047`, the two update rules
`p + ((2048 - p) >> 5)` and `p - (p >> 5)` stay in `[1, 2047]`, and whatever the
decoder state, `decode_bit` leaves the bit model it is given in `[1, 2047]`,
having applied the first rule when it returns 0 and the second when it returns 1. -/
theorem decode_bit_probability_range (rd : Range_decoder) (p : Int)
    (h1 : 1 ≤ p) (h2 : p ≤ 2047) :
    ((1 : Int) ≤ p + asr (2048 - p) 5 ∧ p + asr (2048 - p) 5 ≤ 2047) ∧
    ((1 : Int) ≤ p - asr p 5 ∧ p - asr p 5 ≤ 2047) ∧
    ((1 : Int) ≤ (rd.decode_bit ⟨p⟩).2.1.probability ∧
      (rd.decode_bit ⟨p⟩).2.1.probability ≤ 2047) ∧
    ((rd.decode_bit ⟨p⟩).1 = 0 →
      (rd.decode_bit ⟨p⟩).2.1.probability = p + asr (2048 - p) 5) ∧
    ((rd.decode_bit ⟨p⟩).1 = 1 →
      (rd.decode_bit ⟨p⟩).2.1.probability = p - asr p 5) ∧
    ((rd.decode_bit ⟨p⟩).1 = 0 ∨ (rd.decode_bit ⟨p⟩).1 = 1) := by
  have e0 := update0_range ⟨p⟩ h1 h2
  have e1 := update1_range ⟨p⟩ h1 h2
  refine ⟨e0, e1, ?_, ?_, ?_, ?_⟩
  · unfold Range_decoder.decode_bit
    dsimp only
    split
    · exact e0
    · exact e1
  · unfold Range_decoder.decode_bit
    dsimp only
    split
    · intro _; rfl
    · intro h; simp at h
  · unfold Range_decoder.decode_bit
    dsimp only
    split
    · intro h; simp at h
    · intro _; rfl
  · unfold Range_decoder.decode_bit
    dsimp only
    split
    · exact Or.inl rfl
    · exact Or.inr rfl

theorem decode_bit_probability_range_witness :
    ((1 : Int) ≤ 1024 + asr (2048 - 1024) 5 ∧ (1024 : Int) + asr (2048 - 1024) 5 ≤ 2047) ∧
    ((1 : Int) ≤ 1024 - asr 1024 5 ∧ (1024 : Int) - asr 1024 5 ≤ 2047) ∧
    ((1 : Int) ≤
        ((Range_decoder.mk 0 [] 0 0 0 0xFFFFFFFF [] false).decode_bit ⟨1024⟩).2.1.probability ∧
      ((Range_decoder.mk 0 [] 0 0 0 0xFFFFFFFF [] false).decode_bit ⟨1024⟩).2.1.probability
        ≤ 2047) ∧
    (((Range_decoder.mk 0 [] 0 0 0 0xFFFFFFFF [] false).decode_bit ⟨1024⟩).1 = 0 →
      ((Range_decoder.mk 0 [] 0 0 0 0xFFFFFFFF [] false).decode_bit ⟨1024⟩).2.1.probability
        = 1024 + asr (2048 - 1024) 5) ∧
    (((Range_decoder.mk 0 [] 0 0 0 0xFFFFFFFF [] false).decode_bit ⟨1024⟩).1 = 1 →
      ((Range_decoder.mk 0 [] 0 0 0 0xFFFFFFFF [] false).decode_bit ⟨1024⟩).2.1.probability
        = 1024 - asr 1024 5) ∧
    (((Range_decoder.mk 0 [] 0 0 0 0xFFFFFFFF [] false).decode_bit ⟨1024⟩).1 = 0 ∨
      ((Range_decoder.mk 0 [] 0 0 0 0xFFFFFFFF [] false).decode_bit ⟨1024⟩).1 = 1) :=
  decode_bit_probability_range (Range_decoder.mk 0 [] 0 0 0 0xFFFFFFFF [] false) 1024
    (by decide) (by decide)

theorem and7_le (n : Nat) : n &&& 7 ≤ 7 := Nat.and_le_right

theorem and255_le (n : Nat) : n &&& 0xFF ≤ 255 := Nat.and_le_right

/-- C9: for every range-decoder state (with whatever input remains), every
length model and every `pos_state`, `decode_len` returns a length in `[2, 273]`:
in `2..9` when the first choice bit is 0, in `10..17` when the first is 1 and
the second is 0, and in `18..273` when both are 1. -/
theorem decode_len_range (rd : Range_decoder) (lm : Len_model) (pos_state : Nat) :
    (2 ≤ (rd.decode_len lm pos_state).1 ∧ (rd.decode_len lm pos_state).1 ≤ 273) ∧
    ((rd.decode_bit lm.choice1).1 = 0 →
      2 ≤ (rd.decode_len lm pos_state).1 ∧ (rd.decode_len lm pos_state).1 ≤ 9) ∧
    ((rd.decode_bit lm.choice1).1 ≠ 0 →
      ((rd.decode_bit lm.choice1).2.2.decode_bit lm.choice2).1 = 0 →
      10 ≤ (rd.decode_len lm pos_state).1 ∧ (rd.decode_len lm pos_state).1 ≤ 17) ∧
    ((rd.decode_bit lm.choice1).1 ≠ 0 →
      ((rd.decode_bit lm.choice1).2.2.decode_bit lm.choice2).1 ≠ 0 →
      18 ≤ (rd.decode_len lm pos_state).1 ∧ (rd.decode_len lm pos_state).1 ≤ 273) := by
  unfold Range_decoder.decode_len
  simp only [min_match_len, len_low_symbols, len_mid_symbols]
  split_ifs with hc1 hc2
  · have := and7_le ((rd.decode_bit lm.choice1).2.2.decode_len3
      (rowAt lm.bm_low pos_state) 1).2.1
    refine ⟨?_, ?_, ?_, ?_⟩
    · dsimp only; omega
    · intro _; dsimp only; omega
    · intro h; exact absurd hc1 h
    · intro h; exact absurd hc1 h
  · have := and7_le (((rd.decode_bit lm.choice1).2.2.decode_bit lm.choice2).2.2.decode_len3
      (rowAt lm.bm_mid pos_state) 1).2.1
    refine ⟨?_, ?_, ?_, ?_⟩
    · dsimp only; omega
    · intro h; exact absurd h hc1
    · intro _ _; dsimp only; omega
    · intro _ h; exact absurd hc2 h
  · refine ⟨?_, ?_, ?_, ?_⟩
    · dsimp only
      generalize (Range_decoder.decode_len3 _ _ _).2.1 = s
      have := and255_le s
      omega
    · intro h; exact absurd h hc1
    · intro _ h; exact absurd h hc2
    · intro _ _
      dsimp only
      generalize (Range_decoder.decode_len3 _ _ _).2.1 = s
      have := and255_le s
      omega

/-! ## Coded dictionary size -/

/-- C10 (as stated, refuted): for the coded byte `0x2C` (`bits = 12`,
`fraction = 1`) `dictionary_size` returns 4096, not
`(1 << 12) - 1 * (1 << 12) / 16 = 3840`. -/
theorem dictionary_size_formula_counterexample :
    ¬ (Lzip_header.dictionary_size ⟨[0x4C, 0x5A, 0x49, 0x50, 1, 0x2C]⟩ =
        (1 <<< (0x2C &&& 0x1F)) - ((0x2C >>> 5) &&& 7) * (1 <<< (0x2C &&& 0x1F)) / 16) := by
  decide

/-- C10 (amended): with `bits = b & 0x1F` and `fraction = (b >> 5) & 7`,
`dictionary_size` returns `(1 << bits) - fraction * (1 << bits) / 16` whenever
`1 << bits` exceeds `min_dictionary_size` (4096), and `1 << bits` with the
fraction ignored otherwise. -/
theorem dictionary_size_formula (h : Lzip_header) :
    h.dictionary_size =
      if (1 <<< (h.byte 5 &&& 0x1F)) > 4096 then
        (1 <<< (h.byte 5 &&& 0x1F)) - ((h.byte 5 >>> 5) &&& 7) * (1 <<< (h.byte 5 &&& 0x1F)) / 16
      else 1 <<< (h.byte 5 &&& 0x1F) := by
  unfold Lzip_header.dictionary_size
  have hb : h.byte 5 &&& 0x1F ≤ 0x1F := Nat.and_le_right
  have hf : (h.byte 5 >>> 5) &&& 7 ≤ 7 := Nat.and_le_right
  generalize h.byte 5 &&& 0x1F = bits at hb ⊢
  generalize (h.byte 5 >>> 5) &&& 7 = fr at hf ⊢
  interval_cases bits <;> interval_cases fr <;> decide

end Lzip

/-! ## Sliding dictionary: `copy_block` and `peek` -/

namespace Lzip
namespace LZ_decoder

theorem peek_eq (d : LZ_decoder) (distance : Nat) :
    d.peek distance = d.buffer.getD (d.peekIdx distance) 0 := rfl

theorem peekIdx_eq (d : LZ_decoder) (distance : Nat) (h : WF d)
    (hdist : distance < d.dictionary_size) :
    d.peekIdx distance =
      if d.pos > distance then d.pos - distance - 1
      else d.dictionary_size + d.pos - distance - 1 := by
  have h1 := h.hD
  have h2 := h.hpos
  unfold peekIdx usub32
  split_ifs <;> omega

theorem flush_data_fields (d : LZ_decoder) (h1 : d.stream_pos < d.dictionary_size)
    (h2 : d.pos = d.dictionary_size) :
    d.flush_data.pos = 0 ∧ d.flush_data.stream_pos = 0 ∧
    d.flush_data.buffer = d.buffer ∧ d.flush_data.dictionary_size = d.dictionary_size := by
  unfold flush_data
  simp [h2, h1]

theorem put_byte_nowrap (d : LZ_decoder) (b : Nat) (h : WF d)
    (h1 : d.pos + 1 < d.dictionary_size) :
    d.put_byte b = { d with buffer := d.buffer.set d.pos b, pos := d.pos + 1 } := by
  have := h.hD
  unfold put_byte
  have e : (d.pos + 1) % 2 ^ 32 = d.pos + 1 := by omega
  simp only [e]
  rw [if_neg]
  simp only [ge_iff_le, not_le]
  exact h1

theorem put_byte_fields (d : LZ_decoder) (b : Nat) (h : WF d) :
    (d.put_byte b).pos = (if d.pos + 1 < d.dictionary_size then d.pos + 1 else 0) ∧
    (d.put_byte b).buffer = d.buffer.set d.pos b ∧
    (d.put_byte b).dictionary_size = d.dictionary_size ∧
    (d.put_byte b).stream_pos < d.dictionary_size := by
  have hD := h.hD
  have hp := h.hpos
  have hs := h.hsp
  by_cases h1 : d.pos + 1 < d.dictionary_size
  · rw [put_byte_nowrap d b h h1]
    simp [h1, hs]
  · unfold put_byte
    have e : (d.pos + 1) % 2 ^ 32 = d.dictionary_size := by omega
    simp only [e, ge_iff_le, le_refl, if_true]
    have := flush_data_fields { d with buffer := d.buffer.set d.pos b, pos := d.dictionary_size }
      hs rfl
    simp only [this, h1, if_false]
    simp
    omega

theorem put_byte_wf (d : LZ_decoder) (b : Nat) (h : WF d) : WF (d.put_byte b) := by
  obtain ⟨e1, e2, e3, e4⟩ := put_byte_fields d b h
  have hD := h.hD
  have hp := h.hpos
  refine ⟨by rw [e3]; exact hD, ?_, ?_, by rw [e3]; exact e4⟩
  · rw [e2, e3, List.length_set]; exact h.hbuf
  · rw [e1, e3]; split_ifs <;> omega

theorem copy_wrap_succ (d : LZ_decoder) (i n : Nat) :
    d.copy_wrap i (n + 1) =
      copy_wrap (d.put_byte (d.buffer.getD i 0))
        (if (i + 1) % 2 ^ 32 ≥ (d.put_byte (d.buffer.getD i 0)).dictionary_size then 0
          else (i + 1) % 2 ^ 32) n := rfl

theorem copy_wrap_eq (len : Nat) : ∀ (d : LZ_decoder) (distance i : Nat), WF d →
    distance < d.dictionary_size → i = d.peekIdx distance →
    d.copy_wrap i len = d.copy_bytewise distance len := by
  induction len with
  | zero => intro d distance i _ _ _; rfl
  | succ n ih =>
    intro d distance i h hdist hi
    have hD := h.hD
    have hp := h.hpos
    rw [copy_wrap_succ]
    show _ = copy_bytewise (d.put_byte (d.peek distance)) distance n
    rw [peek_eq, ← hi]
    obtain ⟨e1, e2, e3, e4⟩ := put_byte_fields d (d.buffer.getD i 0) h
    have hwf := put_byte_wf d (d.buffer.getD i 0) h
    apply ih _ _ _ hwf (by rw [e3]; exact hdist)
    rw [peekIdx_eq _ _ hwf (by rw [e3]; exact hdist), e1, e3]
    rw [peekIdx_eq _ _ h hdist] at hi
    split_ifs at hi ⊢ <;> omega

theorem copy_forward_eq (len : Nat) : ∀ (d : LZ_decoder) (distance i : Nat), WF d →
    distance < d.dictionary_size → i = d.peekIdx distance →
    d.pos + len < d.dictionary_size → i + len < d.dictionary_size →
    d.copy_bytewise distance len =
      { d with pos := d.pos + len, buffer := copy_forward d.buffer d.pos i len } := by
  induction len with
  | zero => intro d distance i _ _ _ _ _; rfl
  | succ n ih =>
    intro d distance i h hdist hi hpl hil
    have hD := h.hD
    have hp := h.hpos
    have hnw := put_byte_nowrap d (d.peek distance) h (by omega)
    have hwf := put_byte_wf d (d.peek distance) h
    show copy_bytewise (d.put_byte (d.peek distance)) distance n = _
    rw [ih (d.put_byte (d.peek distance)) distance (i + 1) hwf
      (by rw [hnw]; exact hdist)
      (by
        rw [peekIdx_eq _ _ hwf (by rw [hnw]; exact hdist)]
        rw [peekIdx_eq _ _ h hdist] at hi
        rw [hnw]
        dsimp only
        split_ifs at hi ⊢ <;> omega)
      (by rw [hnw]; dsimp only; omega)
      (by rw [hnw]; dsimp only; omega)]
    rw [hnw]
    have e1 : (d.pos + 1) % 2 ^ 32 = d.pos + 1 := by omega
    have e2 : (i + 1) % 2 ^ 32 = i + 1 := by omega
    simp only [copy_forward, e1, e2, peek_eq, ← hi]
    congr 1
    omega

theorem getElem?_set_ne_some (l : List Nat) (i j a : Nat) :
    (l.set i a)[j]? = if i = j ∧ i < l.length then some a else l[j]? := by
  rw [List.getElem?_set]
  by_cases h : i = j
  · subst h
    by_cases h2 : i < l.length
    · simp [h2]
    · simp [h2]
      omega
  · simp [h]

theorem copy_forward_getElem? (len : Nat) : ∀ (buf : List Nat) (lpos i : Nat),
    lpos + len ≤ buf.length → i + len ≤ buf.length → buf.length < 2 ^ 32 →
    (i + len ≤ lpos ∨ lpos + len ≤ i) → ∀ j,
    (copy_forward buf lpos i len)[j]? =
      if lpos ≤ j ∧ j < lpos + len then buf[i + (j - lpos)]? else buf[j]? := by
  induction len with
  | zero =>
    intro buf lpos i _ _ _ _ j
    have : ¬ (lpos ≤ j ∧ j < lpos + 0) := by omega
    simp only [copy_forward, this, if_false]
  | succ n ih =>
    intro buf lpos i h1 h2 h3 h4 j
    have e1 : (lpos + 1) % 2 ^ 32 = lpos + 1 := by omega
    have e2 : (i + 1) % 2 ^ 32 = i + 1 := by omega
    simp only [copy_forward, e1, e2]
    rw [ih _ _ _ (by rw [List.length_set]; omega) (by rw [List.length_set]; omega)
      (by rw [List.length_set]; omega) (by omega)]
    simp only [getElem?_set_ne_some]
    have hi : i < buf.length := by omega
    have hget : buf.getD i 0 = buf[i] := by
      simp [List.getD_eq_getElem?_getD, List.getElem?_eq_getElem hi]
    by_cases c1 : lpos + 1 ≤ j ∧ j < lpos + 1 + n
    · have c2 : lpos ≤ j ∧ j < lpos + (n + 1) := by omega
      have c3 : ¬ (lpos = i + 1 + (j - (lpos + 1)) ∧ lpos < buf.length) := by omega
      rw [if_pos c1, if_pos c2, if_neg c3]
      congr 1
      omega
    · rw [if_neg c1]
      by_cases c4 : lpos = j
      · have c2 : lpos ≤ j ∧ j < lpos + (n + 1) := by omega
        have c5 : lpos = j ∧ lpos < buf.length := by omega
        rw [if_pos c2, if_pos c5, hget]
        subst c4
        simp [List.getElem?_eq_getElem hi]
      · have c2 : ¬ (lpos ≤ j ∧ j < lpos + (n + 1)) := by omega
        have c5 : ¬ (lpos = j ∧ lpos < buf.length) := by omega
        rw [if_neg c2, if_neg c5]

theorem memcpy_getElem? (buf : List Nat) (len lpos i : Nat)
    (h1 : lpos + len ≤ buf.length) (h2 : i + len ≤ buf.length) (j : Nat) :
    (memcpy buf lpos i len)[j]? =
      if lpos ≤ j ∧ j < lpos + len then buf[i + (j - lpos)]? else buf[j]? := by
  unfold memcpy
  simp only [List.getElem?_append, List.length_take, List.length_drop, List.getElem?_take,
    List.getElem?_drop]
  have e1 : min lpos buf.length = lpos := by omega
  have e2 : min len (buf.length - i) = len := by omega
  rw [e1, e2]
  by_cases c1 : j < lpos
  · have c2 : ¬ (lpos ≤ j ∧ j < lpos + len) := by omega
    simp [c1, c2]
  · by_cases c3 : j - lpos < len
    · have c2 : lpos ≤ j ∧ j < lpos + len := by omega
      simp [c1, c2, c3]
    · have c2 : ¬ (lpos ≤ j ∧ j < lpos + len) := by omega
      simp only [c1, c2, c3, if_false]
      congr 1
      omega

theorem memcpy_eq_copy_forward (buf : List Nat) (len lpos i : Nat)
    (h1 : lpos + len ≤ buf.length) (h2 : i + len ≤ buf.length) (h3 : buf.length < 2 ^ 32)
    (h4 : i + len ≤ lpos ∨ lpos + len ≤ i) :
    memcpy buf lpos i len = copy_forward buf lpos i len := by
  apply List.ext_getElem?
  intro j
  rw [memcpy_getElem? buf len lpos i h1 h2, copy_forward_getElem? len buf lpos i h1 h2 h3 h4]

theorem copy_block_index (d : LZ_decoder) (distance : Nat) (h : WF d)
    (hdist : distance < d.dictionary_size) :
    (if d.pos > distance then usub32 (usub32 d.pos distance) 1
      else (usub32 (usub32 d.pos distance) 1 + d.dictionary_size) % 2 ^ 32) =
    d.peekIdx distance := by
  have h1 := h.hD
  have h2 := h.hpos
  rw [peekIdx_eq d distance h hdist]
  unfold usub32
  split_ifs <;> omega

end LZ_decoder

/-- C1: on every decoder state with `pos < dictionary_size` (and the class
invariants: the buffer holds `dictionary_size` bytes, `dictionary_size` fits in
an `unsigned`, `stream_pos < dictionary_size`), for every
`distance < dictionary_size` and every `len`, `copy_block( distance, len )`
yields exactly the state (buffer, `pos`, crc, bytes flushed to the output,
`pos_wrapped`, ...) reached by `len` executions of
`put_byte( peek( distance ) )`, whichever of the memcpy path, the forward byte
loop or the wrapping loop it takes. -/
theorem copy_block_eq_bytewise (d : LZ_decoder) (distance len : Nat)
    (hD : d.dictionary_size < 2 ^ 32) (hbuf : d.buffer.length = d.dictionary_size)
    (hpos : d.pos < d.dictionary_size) (hsp : d.stream_pos < d.dictionary_size)
    (hdist : distance < d.dictionary_size) :
    d.copy_block distance len = d.copy_bytewise distance len := by
  have h : LZ_decoder.WF d := ⟨hD, hbuf, hpos, hsp⟩
  have hidx := LZ_decoder.copy_block_index d distance h hdist
  have hpk := LZ_decoder.peekIdx_eq d distance h hdist
  unfold LZ_decoder.copy_block
  simp only [hidx]
  have hwrap := LZ_decoder.copy_wrap_eq len d distance (d.peekIdx distance) h hdist rfl
  have hfw := LZ_decoder.copy_forward_eq len d distance (d.peekIdx distance) h hdist rfl
  have hmc := LZ_decoder.memcpy_eq_copy_forward d.buffer len d.pos (d.peekIdx distance)
  generalize d.peekIdx distance = p at hpk hwrap hfw hmc ⊢
  by_cases c : d.pos > distance
  · rw [if_pos c] at hpk
    simp only [c, if_true]
    by_cases hf : len < usub32 d.dictionary_size d.pos
    · have hb : d.pos + len < d.dictionary_size := by unfold usub32 at hf; omega
      have e : (d.pos + len) % 2 ^ 32 = d.pos + len := by omega
      simp only [hf, decide_True, Bool.true_and, if_true, e, decide_eq_true_eq]
      rw [hfw hb (by omega)]
      split_ifs with hf2
      · rw [hmc (by omega) (by omega) (by omega) (by unfold usub32 at hf2; omega)]
      · rfl
    · simp only [hf, decide_False, Bool.false_and, if_false, Bool.false_eq_true]
      exact hwrap
  · rw [if_neg c] at hpk
    simp only [c, if_false]
    by_cases hf : len < usub32 d.dictionary_size p
    · have hb : p + len < d.dictionary_size := by unfold usub32 at hf; omega
      have e : (d.pos + len) % 2 ^ 32 = d.pos + len := by omega
      simp only [hf, decide_True, Bool.true_and, if_true, e, decide_eq_true_eq]
      rw [hfw (by omega) hb]
      split_ifs with hf2
      · rw [hmc (by omega) (by omega) (by omega) (by unfold usub32 at hf2; omega)]
      · rfl
    · simp only [hf, decide_False, Bool.false_and, if_false, Bool.false_eq_true]
      exact hwrap

theorem copy_block_eq_bytewise_witness :
    (exampleDecoder.dictionary_size < 2 ^ 32 ∧
      exampleDecoder.buffer.length = exampleDecoder.dictionary_size ∧
      exampleDecoder.pos < exampleDecoder.dictionary_size ∧
      exampleDecoder.stream_pos < exampleDecoder.dictionary_size ∧
      1 < exampleDecoder.dictionary_size) ∧
    exampleDecoder.copy_block 1 9 = exampleDecoder.copy_bytewise 1 9 :=
  ⟨by decide, copy_block_eq_bytewise exampleDecoder 1 9 (by decide) (by decide) (by decide)
    (by decide) (by decide)⟩

end Lzip

namespace Lzip
namespace LZ_decoder

theorem new_wf (D : Nat) (ofd : Int) (mem : List Nat) (outskip outend : Nat)
    (hD0 : 0 < D) (hD : D < 2 ^ 32) (hmem : mem.length = D) :
    WF (new D ofd mem outskip outend) :=
  ⟨hD, by simp [new, hmem], hD0, hD0⟩

theorem mod_ne_of_close (D k n : Nat) (h1 : k < n) (h2 : n < k + D) : k % D ≠ n % D := by
  intro h
  have h3 : (n - k) % D = 0 := Nat.sub_mod_eq_zero_of_mod_eq h.symm
  have h4 : D ∣ n - k := Nat.dvd_of_mod_eq_zero h3
  have h5 : D ≤ n - k := Nat.le_of_dvd (by omega) h4
  omega

theorem succ_mod_eq (D n : Nat) (hD0 : 0 < D) :
    (n + 1) % D = if n % D + 1 < D then n % D + 1 else 0 := by
  have hlt : n % D < D := Nat.mod_lt _ hD0
  rw [Nat.add_mod]
  split_ifs with c
  · by_cases h1 : D = 1
    · omega
    · have : 1 % D = 1 := Nat.mod_eq_of_lt (by omega)
      rw [this]
      exact Nat.mod_eq_of_lt c
  · by_cases h1 : D = 1
    · subst h1; omega
    · have : 1 % D = 1 := Nat.mod_eq_of_lt (by omega)
      rw [this]
      have : n % D + 1 = D := by omega
      rw [this]
      exact Nat.mod_self D

theorem holds_put_byte (D : Nat) (bs : List Nat) (s : LZ_decoder) (b : Nat) (hD0 : 0 < D)
    (h : Holds D bs s) : Holds D (bs ++ [b]) (s.put_byte b) := by
  obtain ⟨e1, e2, e3, _⟩ := put_byte_fields s b h.wf
  have hpos := h.hpos
  have hDs := h.hD
  have hlen := h.wf.hbuf
  refine ⟨put_byte_wf s b h.wf, by rw [e3]; exact hDs, ?_, ?_⟩
  · rw [e1, hDs, hpos, List.length_append, List.length_singleton, succ_mod_eq D _ hD0]
  · intro k hk1 hk2
    rw [List.length_append, List.length_singleton] at hk1 hk2
    rw [e2, hpos]
    have hlt : k % D < s.buffer.length := by rw [hlen, hDs]; exact Nat.mod_lt _ hD0
    by_cases c : k = bs.length
    · subst c
      simp [List.getD_eq_getElem?_getD, hlt]
    · have hne := mod_ne_of_close D k bs.length (by omega) (by omega)
      have := h.hbytes k (by omega) (by omega)
      simp only [List.getD_eq_getElem?_getD] at this ⊢
      rw [List.getElem?_set_ne (Ne.symm hne), this]
      rw [List.getElem?_append_left (by omega)]

theorem holds_foldl (D : Nat) (s0 : LZ_decoder) (hD0 : 0 < D) (h0 : Holds D [] s0)
    (bs : List Nat) : Holds D bs (bs.foldl put_byte s0) := by
  induction bs using List.reverseRecOn with
  | nil => exact h0
  | append_singleton l a ih =>
    rw [List.foldl_append]
    exact holds_put_byte D l _ a hD0 ih

theorem peek_of_holds (D : Nat) (bs : List Nat) (s : LZ_decoder) (hD0 : 0 < D)
    (h : Holds D bs s) (d : Nat) (h1 : d < bs.length) (h2 : d < D) :
    s.peek d = bs.getD (bs.length - 1 - d) 0 := by
  have hDs := h.hD
  have hpos := h.hpos
  have hp : s.pos < D := by rw [hpos]; exact Nat.mod_lt _ hD0
  rw [peek_eq, peekIdx_eq s d h.wf (by rw [hDs]; exact h2), hDs,
    ← h.hbytes (bs.length - 1 - d) (by omega) (by omega)]
  congr 1
  have hm : (bs.length - 1 - d + (d + 1)) % D = s.pos := by
    rw [hpos]; congr 1; omega
  symm
  split_ifs with c
  · have hr : (s.pos - d - 1 + (d + 1)) % D = s.pos := by
      have : s.pos - d - 1 + (d + 1) = s.pos := by omega
      rw [this]; exact Nat.mod_eq_of_lt hp
    have : (bs.length - 1 - d) ≡ (s.pos - d - 1) [MOD D] :=
      Nat.ModEq.add_right_cancel' (d + 1) (hm.trans hr.symm)
    rw [this]
    exact Nat.mod_eq_of_lt (by omega)
  · have hr : (D + s.pos - d - 1 + (d + 1)) % D = s.pos := by
      have : D + s.pos - d - 1 + (d + 1) = s.pos + D := by omega
      rw [this, Nat.add_mod_right]; exact Nat.mod_eq_of_lt hp
    have : (bs.length - 1 - d) ≡ (D + s.pos - d - 1) [MOD D] :=
      Nat.ModEq.add_right_cancel' (d + 1) (hm.trans hr.symm)
    rw [this]
    exact Nat.mod_eq_of_lt (by omega)

end LZ_decoder

/-- C7: after the bytes `bs = b_1 .. b_n` have been written with `put_byte`
into a freshly constructed decoder of dictionary size `D` (whatever the
allocated memory held), `peek( d )` returns `b_(n-d)` (the element of index
`n - 1 - d` of `bs`) for every `d < min( n, D )`, also after the write cursor
has wrapped; and on the fresh decoder `peek( 0 )` and `peek_prev()` return 0. -/
theorem peek_after_put_bytes (D : Nat) (ofd : Int) (mem : List Nat) (outskip outend : Nat)
    (bs : List Nat) (hD0 : 0 < D) (hD : D < 2 ^ 32) (hmem : mem.length = D) :
    (∀ d, d < min bs.length D →
      (bs.foldl LZ_decoder.put_byte (LZ_decoder.new D ofd mem outskip outend)).peek d =
        bs.getD (bs.length - 1 - d) 0) ∧
    (LZ_decoder.new D ofd mem outskip outend).peek 0 = 0 ∧
    (LZ_decoder.new D ofd mem outskip outend).peek_prev = 0 := by
  have hwf := LZ_decoder.new_wf D ofd mem outskip outend hD0 hD hmem
  have h0 : LZ_decoder.Holds D [] (LZ_decoder.new D ofd mem outskip outend) :=
    ⟨hwf, rfl, by simp [LZ_decoder.new], by intro k hk; simp at hk⟩
  have hlast : (mem.set (D - 1) 0).getD (D - 1) 0 = 0 := by
    simp [List.getD_eq_getElem?_getD, hmem, hD0]
  refine ⟨?_, ?_, ?_⟩
  · intro d hd
    exact LZ_decoder.peek_of_holds D bs _ hD0 (LZ_decoder.holds_foldl D _ hD0 h0 bs) d
      (by omega) (by omega)
  · rw [LZ_decoder.peek_eq, LZ_decoder.peekIdx_eq _ _ hwf hD0]
    simp only [LZ_decoder.new, gt_iff_lt, lt_self_iff_false, if_false]
    have : D + 0 - 0 - 1 = D - 1 := by omega
    rw [this]
    exact hlast
  · unfold LZ_decoder.peek_prev usub32
    simp only [LZ_decoder.new, gt_iff_lt, lt_self_iff_false, if_false]
    have : (D + 2 ^ 32 - 1 % 2 ^ 32) % 2 ^ 32 = D - 1 := by omega
    rw [this]
    exact hlast

theorem peek_after_put_bytes_witness :
    (0 < 3 ∧ 3 < 2 ^ 32 ∧ [7, 8, 9].length = 3) ∧
    ((∀ d, d < min [1, 2, 3, 4].length 3 →
      (([1, 2, 3, 4] : List Nat).foldl LZ_decoder.put_byte
          (LZ_decoder.new 3 1 [7, 8, 9] 0 1000)).peek d =
        ([1, 2, 3, 4] : List Nat).getD ([1, 2, 3, 4].length - 1 - d) 0) ∧
    (LZ_decoder.new 3 1 [7, 8, 9] 0 1000).peek 0 = 0 ∧
    (LZ_decoder.new 3 1 [7, 8, 9] 0 1000).peek_prev = 0) :=
  ⟨by decide, peek_after_put_bytes 3 1 [7, 8, 9] 0 1000 [1, 2, 3, 4] (by decide) (by decide)
    (by decide)⟩

end Lzip

/-! ## The member index -/

namespace Lzip

theorem le_loop_lt (w : Nat) (data : List Nat) (lo : Nat) :
    ∀ n tmp, tmp < 2 ^ w → le_loop w data lo n tmp < 2 ^ w := by
  intro n
  induction n with
  | zero => intro tmp h; exact h
  | succ k ih =>
    intro tmp _
    unfold le_loop
    exact ih _ (Nat.mod_lt _ (Nat.pos_pow_of_pos w (by decide)))

theorem member_size_lt (t : Lzip_trailer) : t.member_size < 2 ^ 64 :=
  le_loop_lt 64 t.data 12 8 0 (by decide)

theorem data_size_lt (t : Lzip_trailer) : t.data_size < 2 ^ 64 :=
  le_loop_lt 64 t.data 4 8 0 (by decide)

theorem check_consistency_min (t : Lzip_trailer) (h : t.check_consistency = true) :
    min_member_size ≤ t.member_size := by
  unfold Lzip_trailer.check_consistency at h
  by_contra hc
  simp only [not_le] at hc
  simp [hc] at h

theorem seek_read_length_le (file : List Nat) (size pos : Nat) :
    (seek_read file size pos).length ≤ size := by
  unfold seek_read
  rw [List.length_take]
  exact Nat.min_le_left _ _

theorem seek_read_length (file : List Nat) (size pos : Nat) (h : pos + size ≤ file.length) :
    (seek_read file size pos).length = size := by
  unfold seek_read
  rw [List.length_take, List.length_drop]
  omega

theorem seek_read_length_iff (file : List Nat) (size pos : Nat) :
    (seek_read file size pos).length = size ↔ (size = 0 ∨ pos + size ≤ file.length) := by
  unfold seek_read
  rw [List.length_take, List.length_drop]
  omega

theorem seek_read_take (file : List Nat) (size pos p : Nat) (h : pos + size ≤ p) :
    seek_read (file.take p) size pos = seek_read file size pos := by
  unfold seek_read
  rw [List.drop_take, List.take_take]
  congr 1
  omega

theorem seek_read_append_left (a b : List Nat) (size pos : Nat) (h : pos + size ≤ a.length) :
    seek_read (a ++ b) size pos = seek_read a size pos := by
  rw [← seek_read_take (a ++ b) size pos a.length h, List.take_left']
  rfl

theorem seek_read_append_right (a b : List Nat) (size pos : Nat) :
    seek_read (a ++ b) size (a.length + pos) = seek_read b size pos := by
  unfold seek_read
  rw [List.drop_append]

end Lzip

namespace Lzip
namespace Lzip_index

theorem member_at_some (file : List Nat) (e : Nat) (t : Lzip_trailer) (h : Lzip_header)
    (hm : member_at file e = some (t, h)) :
    t = ⟨seek_read file Lzip_trailer.size (e - Lzip_trailer.size)⟩ ∧
    (seek_read file Lzip_trailer.size (e - Lzip_trailer.size)).length = Lzip_trailer.size ∧
    t.member_size ≤ e ∧ t.check_consistency = true ∧
    h = ⟨seek_read file Lzip_header.size (e - t.member_size)⟩ ∧
    (seek_read file Lzip_header.size (e - t.member_size)).length = Lzip_header.size ∧
    h.check = true := by
  unfold member_at at hm
  dsimp only at hm
  split_ifs at hm with c1 c2 c3 c4
  simp only [Option.some.injEq, Prod.mk.injEq] at hm
  obtain ⟨rfl, rfl⟩ := hm
  simp only [not_or, not_lt, Bool.not_eq_true, Bool.not_eq_false', ne_eq, not_not] at c1 c2 c3 c4
  exact ⟨rfl, c1, c2.1, c2.2, rfl, c3, c4⟩

theorem member_at_min (file : List Nat) (e : Nat) (t : Lzip_trailer) (h : Lzip_header)
    (hm : member_at file e = some (t, h)) :
    min_member_size ≤ t.member_size ∧ t.member_size ≤ e := by
  obtain ⟨_, _, h3, h4, _⟩ := member_at_some file e t h hm
  exact ⟨check_consistency_min t h4, h3⟩

theorem push_member_eq (x : Lzip_index) (t : Lzip_trailer) (h : Lzip_header) (e : Nat) :
    x.push_member t h (e - t.member_size) t.member_size = x.push_one (raw_member t h e) := by
  simp only [push_member, push_one, raw_member, Member.new]

theorem index_loop_succ (file : List Nat) (fuel pos : Nat) (x : Lzip_index) :
    index_loop file (fuel + 1) pos x = index_loop_body file (index_loop file fuel) pos x := rfl

theorem index_loop_small (file : List Nat) (fuel pos : Nat) (x : Lzip_index)
    (h : pos < min_member_size) : index_loop file (fuel + 1) pos x = some (pos, x, false) := by
  rw [index_loop_succ]
  unfold index_loop_body
  rw [if_neg (by omega)]

theorem index_loop_direct (file : List Nat) (fuel pos : Nat) (x : Lzip_index)
    (t : Lzip_trailer) (h : Lzip_header) (hm : member_at file pos = some (t, h)) :
    index_loop file (fuel + 1) pos x =
      index_loop file fuel (pos - t.member_size) (x.push_one (raw_member t h pos)) := by
  obtain ⟨h1, h2, h3, h4, h5, h6, h7⟩ := member_at_some file pos t h hm
  have hmin := check_consistency_min t h4
  rw [index_loop_succ]
  unfold index_loop_body
  rw [if_pos (by omega : pos ≥ min_member_size)]
  dsimp only
  rw [if_neg (by rw [h2]; simp)]
  rw [← h1]
  rw [if_neg (by simp [h4]; omega)]
  unfold read_header
  dsimp only
  rw [if_neg (by rw [h6]; simp)]
  dsimp only
  rw [← h5, if_neg (by simp [h7])]
  rfl

end Lzip_index
end Lzip

namespace Lzip
namespace Lzip_index

theorem skip_zeros_le (buffer : List Nat) : ∀ i, skip_zeros buffer i ≤ i := by
  intro i
  induction i with
  | zero => simp [skip_zeros]
  | succ n ih =>
    unfold skip_zeros
    split_ifs
    · omega
    · exact Nat.le_refl _

theorem check_header_fields (x : Lzip_index) (header : Lzip_header) (first : Bool) :
    (x.check_header header first).2.member_vector = x.member_vector ∧
    ((x.check_header header first).1 = false → (x.check_header header first).2.retval_ = 2) := by
  unfold check_header
  split_ifs <;> simp

theorem scan_block_succ (file buffer : List Nat) (bsize ipos max_msb pos : Nat) (x : Lzip_index)
    (fuel i : Nat) :
    scan_block file buffer bsize ipos max_msb pos x (fuel + 1) i =
      scan_block_body file buffer bsize ipos max_msb pos x
        (fun j => scan_block file buffer bsize ipos max_msb pos x fuel j) i := rfl

theorem scanOk_mono (file : List Nat) (ipos pos : Nat) (x : Lzip_index) (i j : Nat) (r : Scan)
    (hij : i ≤ j) (h : ScanOk file ipos pos x i r) : ScanOk file ipos pos x j r := by
  cases r with
  | notfound => trivial
  | ret b pos1 x1 =>
    cases b with
    | false => exact h
    | true =>
      obtain ⟨k, t, hd, hk, rest⟩ := h
      exact ⟨k, t, hd, by omega, rest⟩

theorem read_header_ok (x : Lzip_index) (file : List Nat) (p : Nat)
    (h : (seek_read file Lzip_header.size p).length = Lzip_header.size) :
    x.read_header file p = (some ⟨seek_read file Lzip_header.size p⟩, x) := by
  unfold read_header
  dsimp only
  rw [if_neg (by rw [h]; simp)]

theorem read_header_fail (x : Lzip_index) (file : List Nat) (p : Nat)
    (h : (seek_read file Lzip_header.size p).length ≠ Lzip_header.size) :
    x.read_header file p = (none, x.set_errno_error "Error reading member header: ") := by
  unfold read_header
  dsimp only
  rw [if_pos h]

theorem scan_block_spec (file buffer : List Nat) (bsize ipos max_msb pos : Nat) (x : Lzip_index)
    (S : Nat)
    (hwin : ∀ i, Lzip_trailer.size ≤ i → i ≤ S →
      (buffer.drop (i - Lzip_trailer.size)).take Lzip_trailer.size =
        seek_read file Lzip_trailer.size (ipos + i - Lzip_trailer.size))
    (hlen : ipos + S ≤ file.length) :
    ∀ fuel i r, i ≤ S → scan_block file buffer bsize ipos max_msb pos x fuel i = some r →
      ScanOk file ipos pos x i r := by
  intro fuel
  induction fuel with
  | zero => intro i r _ h; simp [scan_block] at h
  | succ n ih =>
    intro i r hi h
    rw [scan_block_succ] at h
    unfold scan_block_body at h
    have ih1 : ∀ j, j ≤ i → scan_block file buffer bsize ipos max_msb pos x n j = some r →
        ScanOk file ipos pos x i r := fun j hj hr =>
      scanOk_mono file ipos pos x j i r hj (ih j r (by omega) hr)
    have h20 : Lzip_trailer.size = 20 := rfl
    by_cases c1 : i ≥ Lzip_trailer.size
    swap
    · rw [if_neg c1] at h
      simp only [Option.some.injEq] at h
      subst h
      trivial
    rw [if_pos c1] at h
    by_cases c2 : buffer.getD (i - 1) 0 ≤ max_msb
    swap
    · rw [if_neg c2] at h
      exact ih1 _ (by omega) h
    rw [if_pos c2] at h
    dsimp only at h
    rw [hwin i c1 hi] at h
    have htl : (seek_read file Lzip_trailer.size (ipos + i - Lzip_trailer.size)).length =
        Lzip_trailer.size := seek_read_length _ _ _ (by omega)
    generalize htd : seek_read file Lzip_trailer.size (ipos + i - Lzip_trailer.size) = td
      at h htl
    by_cases c3 : (⟨td⟩ : Lzip_trailer).member_size = 0
    · rw [if_pos c3] at h
      exact ih1 _ (by have := skip_zeros_le buffer i; omega) h
    rw [if_neg c3] at h
    by_cases c4 : (⟨td⟩ : Lzip_trailer).member_size > ipos + i ∨
        (!(⟨td⟩ : Lzip_trailer).check_consistency) = true
    · rw [if_pos c4] at h
      exact ih1 _ (by omega) h
    rw [if_neg c4] at h
    by_cases c5 : (seek_read file Lzip_header.size
        (ipos + i - (⟨td⟩ : Lzip_trailer).member_size)).length = Lzip_header.size
    swap
    · rw [read_header_fail x file _ c5] at h
      dsimp only at h
      simp only [Option.some.injEq] at h
      subst h
      exact ⟨rfl, rfl, by simp [set_errno_error]⟩
    rw [read_header_ok x file _ c5] at h
    dsimp only at h
    generalize hhd : seek_read file Lzip_header.size
        (ipos + i - (⟨td⟩ : Lzip_trailer).member_size) = hd at h c5
    by_cases c6 : (!(⟨hd⟩ : Lzip_header).check) = true
    · rw [if_pos c6] at h
      exact ih1 _ (by omega) h
    rw [if_neg c6] at h
    by_cases c7 : Lzip_header.check_prefix ⟨(buffer.drop i).take Lzip_header.size⟩ (bsize - i) = true
    · rw [if_pos c7] at h
      simp only [Option.some.injEq] at h
      subst h
      refine ⟨rfl, ?_, by simp⟩
      dsimp only
      split_ifs
      · rfl
      · exact (check_header_fields x _ false).1
      · exact (check_header_fields x _ false).1
    rw [if_neg c7] at h
    by_cases c8 : (decide (bsize - i ≥ Lzip_header.size) &&
        Lzip_header.check_corrupt ⟨(buffer.drop i).take Lzip_header.size⟩) = true
    · rw [if_pos c8] at h
      simp only [Option.some.injEq] at h
      subst h
      exact ⟨rfl, rfl, by simp⟩
    rw [if_neg c8] at h
    simp only [Option.some.injEq] at h
    subst h
    refine ⟨i, ⟨td⟩, ⟨hd⟩, Nat.le_refl _, ?_, rfl, ?_⟩
    · unfold member_at
      dsimp only
      rw [htd, if_neg (by rw [htl]; simp), if_neg c4, hhd, if_neg (by rw [c5]; simp), if_neg c6]
    · exact push_member_eq x _ _ (ipos + i)

theorem memcpy_length (buf : List Nat) (dst src len : Nat) (h1 : dst + len ≤ buf.length)
    (h2 : src + len ≤ buf.length) : (LZ_decoder.memcpy buf dst src len).length = buf.length := by
  unfold LZ_decoder.memcpy
  simp only [List.length_append, List.length_take, List.length_drop]
  omega

theorem memcpy_getElem?' (buf : List Nat) (len lpos i : Nat)
    (h1 : lpos + len ≤ buf.length) (h2 : i + len ≤ buf.length) (j : Nat) :
    (LZ_decoder.memcpy buf lpos i len)[j]? =
      if lpos ≤ j ∧ j < lpos + len then buf[i + (j - lpos)]? else buf[j]? := by
  unfold LZ_decoder.memcpy
  simp only [List.getElem?_append, List.length_take, List.length_drop, List.getElem?_take,
    List.getElem?_drop]
  have e1 : min lpos buf.length = lpos := by omega
  have e2 : min len (buf.length - i) = len := by omega
  rw [e1, e2]
  by_cases c1 : j < lpos
  · have c2 : ¬ (lpos ≤ j ∧ j < lpos + len) := by omega
    simp [c1, c2]
  · by_cases c3 : j - lpos < len
    · have c2 : lpos ≤ j ∧ j < lpos + len := by omega
      simp [c1, c2, c3]
    · have c2 : ¬ (lpos ≤ j ∧ j < lpos + len) := by omega
      simp only [c1, c2, c3, if_false]
      congr 1
      omega

theorem seek_read_getElem? (file : List Nat) (size pos j : Nat) :
    (seek_read file size pos)[j]? = if j < size then file[pos + j]? else none := by
  unfold seek_read
  rw [List.getElem?_take, List.getElem?_drop]

theorem window_trailer (file buffer : List Nat) (ipos bsize : Nat)
    (hwin : ∀ j, j < bsize → buffer[j]? = file[ipos + j]?) (i : Nat)
    (h1 : Lzip_trailer.size ≤ i) (h2 : i ≤ bsize) :
    (buffer.drop (i - Lzip_trailer.size)).take Lzip_trailer.size =
      seek_read file Lzip_trailer.size (ipos + i - Lzip_trailer.size) := by
  have h20 : Lzip_trailer.size = 20 := rfl
  apply List.ext_getElem?
  intro k
  rw [seek_read_getElem?, List.getElem?_take, List.getElem?_drop]
  split_ifs with c
  · rw [hwin _ (by omega)]
    congr 1
    omega
  · rfl

theorem scan_blocks_succ (file : List Nat) (pos : Nat) (x : Lzip_index) (fuel : Nat)
    (buffer : List Nat) (bsize search_size rd_size ipos : Nat) :
    scan_blocks file pos x (fuel + 1) buffer bsize search_size rd_size ipos =
      scan_blocks_body file pos
        (fun b bs ss rs ip => scan_blocks file pos x fuel b bs ss rs ip)
        x buffer bsize search_size rd_size ipos := rfl

theorem scan_blocks_spec (file : List Nat) (pos : Nat) (x : Lzip_index) :
    ∀ fuel buffer bsize search_size rd_size ipos r,
      BlockPre file pos buffer bsize search_size rd_size ipos →
      scan_blocks file pos x fuel buffer bsize search_size rd_size ipos = some r →
      SkipOk file pos x r := by
  intro fuel
  induction fuel with
  | zero => intro _ _ _ _ _ r _ h; simp [scan_blocks] at h
  | succ n ih =>
    intro buffer bsize search_size rd_size ipos r pre h
    obtain ⟨hlen, hrd, hbs, hbs25, hss19, hss, hfile, hpos, halign, hkeep⟩ := pre
    have hbsz : buffer_size = 16409 := rfl
    have hblk : block_size = 16384 := rfl
    have h6 : Lzip_header.size = 6 := rfl
    rw [scan_blocks_succ] at h
    unfold scan_blocks_body at h
    dsimp only at h
    have hrl : (seek_read file rd_size ipos).length = rd_size :=
      seek_read_length _ _ _ (by omega)
    rw [if_neg (by rw [hrl]; simp)] at h
    have hwin : ∀ j, j < bsize →
        (seek_read file rd_size ipos ++ buffer.drop rd_size)[j]? = file[ipos + j]? := by
      intro j hj
      rw [List.getElem?_append, hrl]
      split_ifs with c
      · rw [seek_read_getElem?, if_pos c]
      · rw [List.getElem?_drop, ← hkeep j (by omega) hj]
        congr 1
        omega
    have hb1len : (seek_read file rd_size ipos ++ buffer.drop rd_size).length = buffer_size := by
      rw [List.length_append, hrl, List.length_drop, hlen]
      omega
    generalize hb1 : seek_read file rd_size ipos ++ buffer.drop rd_size = buffer1 at h hwin hb1len
    have hspec := scan_block_spec file buffer1 bsize ipos
      (((ipos + search_size) >>> 56) % 256) pos x search_size
      (fun i hi1 hi2 => window_trailer file buffer1 ipos bsize hwin i hi1 (by omega))
      (by omega) (search_size + 1) search_size
    generalize scan_block file buffer1 bsize ipos (((ipos + search_size) >>> 56) % 256) pos x
      (search_size + 1) search_size = sr at h hspec
    cases sr with
    | none => simp at h
    | some s =>
      have hs := hspec s (Nat.le_refl _) rfl
      cases s with
      | ret b pos1 x1 =>
        simp only [Option.some.injEq] at h
        subst h
        cases b with
        | false =>
          unfold SkipOk
          simpa using hs
        | true =>
          obtain ⟨j, t, hd, hj, hm, hp, hx⟩ := hs
          unfold SkipOk
          simp only [if_true]
          exact ⟨ipos + j, t, hd, by omega, hm, hp, hx⟩
      | notfound =>
        dsimp only at h
        split_ifs at h with c0
        · simp only [Option.some.injEq] at h
          subst h
          unfold SkipOk
          simp [set_num_error]
        · have hge : ipos ≥ block_size := by
            have := Nat.div_add_mod ipos block_size
            rw [halign] at this
            have hq : ipos / block_size ≠ 0 := by
              intro hq
              rw [hq] at this
              omega
            have : block_size * (ipos / block_size) ≥ block_size :=
              Nat.le_mul_of_pos_right _ (Nat.pos_of_ne_zero hq)
            omega
          apply ih _ _ _ _ _ r _ h
          refine ⟨?_, by omega, by omega, by omega, by omega, by omega, by omega, by omega, ?_, ?_⟩
          · rw [memcpy_length _ _ _ _ (by omega) (by omega)]
            exact hb1len
          · have : ipos = block_size * (ipos / block_size) := by
              have := Nat.div_add_mod ipos block_size
              omega
            have h2 : ipos - block_size = block_size * (ipos / block_size - 1) := by
              rw [Nat.mul_sub, Nat.mul_one, ← this]
            rw [h2]
            exact Nat.mul_mod_right _ _
          · intro j hj1 hj2
            rw [memcpy_getElem?' _ _ _ _ (by omega) (by omega)]
            rw [if_pos (by omega)]
            rw [hwin _ (by omega)]
            exact congrArg (fun k => file[k]?) (by omega)

theorem skip_trailing_data_spec (file : List Nat) (pos : Nat) (x : Lzip_index)
    (r : Bool × Nat × Lzip_index) (hpos : pos ≤ file.length) (hmin : min_member_size ≤ pos)
    (h64 : pos < 2 ^ 64) (h : x.skip_trailing_data file pos = some r) : SkipOk file pos x r := by
  unfold skip_trailing_data at h
  have hmm : min_member_size = 36 := rfl
  have hbsz : buffer_size = 16409 := rfl
  have hblk : block_size = 16384 := rfl
  rw [if_neg (by omega)] at h
  dsimp only at h
  have hmod : pos % block_size < block_size := Nat.mod_lt _ (by decide)
  have hdm := Nat.div_add_mod pos block_size
  generalize hbs : (if pos % block_size ≤ buffer_size - block_size then pos % block_size + block_size
    else pos % block_size) = bsize at h
  have hb : bsize ≤ pos ∧ 26 ≤ bsize ∧ bsize ≤ buffer_size ∧ (pos - bsize) % block_size = 0 := by
    rw [← hbs]
    split_ifs with c
    · have hq : pos / block_size ≠ 0 := by
        intro hq
        rw [hq] at hdm
        omega
      have hq1 : block_size * (pos / block_size) ≥ block_size :=
        Nat.le_mul_of_pos_right _ (Nat.pos_of_ne_zero hq)
      refine ⟨by omega, by omega, by omega, ?_⟩
      have : pos - (pos % block_size + block_size) = block_size * (pos / block_size - 1) := by
        rw [Nat.mul_sub, Nat.mul_one]
        omega
      rw [this]
      exact Nat.mul_mod_right _ _
    · refine ⟨by omega, by omega, by omega, ?_⟩
      have : pos - pos % block_size = block_size * (pos / block_size) := by omega
      rw [this]
      exact Nat.mul_mod_right _ _
  have hip : (pos + 2 ^ 64 - bsize) % 2 ^ 64 = pos - bsize := by omega
  rw [hip] at h
  apply scan_blocks_spec file pos x _ _ _ _ _ _ r _ h
  exact ⟨by simp, Nat.le_refl _, hb.2.2.1, by omega, by omega, Nat.le_refl _, by omega, by omega,
    hb.2.2.2, by intro j h1 h2; omega⟩

end Lzip_index
end Lzip

namespace Lzip
namespace Lzip_index

theorem directRun_snoc (file : List Nat) (l : List Member) :
    ∀ (e pos : Nat) (t : Lzip_trailer) (h : Lzip_header), DirectRun file e l pos →
      member_at file pos = some (t, h) →
      DirectRun file e (l ++ [raw_member t h pos]) (pos - t.member_size) := by
  induction l with
  | nil =>
    intro e pos t h hr hm
    simp only [DirectRun] at hr
    subst hr
    exact ⟨t, h, hm, rfl, rfl⟩
  | cons m l ih =>
    intro e pos t h hr hm
    obtain ⟨t1, h1, hm1, hm2, hr1⟩ := hr
    exact ⟨t1, h1, hm1, hm2, ih _ _ _ _ hr1 hm⟩

theorem directRun_le (file : List Nat) (l : List Member) :
    ∀ (e pos : Nat), DirectRun file e l pos → pos ≤ e := by
  induction l with
  | nil => intro e pos hr; simp only [DirectRun] at hr; omega
  | cons m l ih =>
    intro e pos hr
    obtain ⟨t1, h1, _, _, hr1⟩ := hr
    have := ih _ _ hr1
    omega

theorem push_one_member_vector (x : Lzip_index) (m : Member) :
    (x.push_one m).member_vector = x.member_vector ++ [m] := by
  unfold push_one
  dsimp only
  split_ifs <;> rfl

theorem push_one_retval (x : Lzip_index) (m : Member) :
    (x.push_one m).retval_ = x.retval_ := by
  unfold push_one
  dsimp only
  split_ifs <;> rfl

theorem sound_push (file : List Nat) (pos : Nat) (x : Lzip_index) (t : Lzip_trailer)
    (h : Lzip_header) (hs : Sound file pos x) (hm : member_at file pos = some (t, h)) :
    Sound file (pos - t.member_size) (x.push_one (raw_member t h pos)) := by
  obtain ⟨h1, e, h2, h3⟩ := hs
  refine ⟨by omega, e, h2, ?_⟩
  rw [push_one_member_vector]
  exact directRun_snoc file _ e pos t h h3 hm

theorem sound_of_skipOk (file : List Nat) (pos : Nat) (x : Lzip_index)
    (r : Bool × Nat × Lzip_index) (hs : Sound file pos x) (hx : x.member_vector = [])
    (hr : SkipOk file pos x r) : Sound file r.2.1 r.2.2 := by
  obtain ⟨h1, e, h2, h3⟩ := hs
  unfold SkipOk at hr
  split_ifs at hr with c
  · obtain ⟨e1, t, hd, he1, hm, hp, hx1⟩ := hr
    rw [hp, hx1]
    refine ⟨by omega, e1, by omega, ?_⟩
    rw [push_one_member_vector, hx]
    exact ⟨t, hd, hm, rfl, rfl⟩
  · obtain ⟨hp, hmv, _⟩ := hr
    rw [hp]
    exact ⟨h1, e, h2, by rw [hmv]; exact h3⟩

theorem index_loop_bad_sound (file : List Nat)
    (continue_ : Nat → Lzip_index → Option (Nat × Lzip_index × Bool))
    (hc : ∀ pos x r, Sound file pos x → continue_ pos x = some r → LoopOk file r)
    (pos : Nat) (x : Lzip_index) (msg : String) (num : Nat) (r : Nat × Lzip_index × Bool)
    (hlen : file.length < 2 ^ 63) (hmin : min_member_size ≤ pos)
    (hs : Sound file pos x) (h : index_loop_bad file continue_ pos x msg num = some r) :
    LoopOk file r := by
  unfold index_loop_bad at h
  split_ifs at h with c
  · have hx : x.member_vector = [] := by simpa using c
    have hsk := skip_trailing_data_spec file pos x
    generalize x.skip_trailing_data file pos = sk at h hsk
    cases sk with
    | none => simp at h
    | some s =>
      have hok := hsk s hs.1 hmin (by have := hs.1; omega) rfl
      have hs1 := sound_of_skipOk file pos x s hs hx hok
      dsimp only at h
      split_ifs at h with c1
      · exact hc _ _ r hs1 h
      · simp only [Option.some.injEq] at h
        subst h
        refine ⟨hs1, fun _ => ?_⟩
        unfold SkipOk at hok
        rw [if_neg c1] at hok
        exact hok.2.2
  · simp only [Option.some.injEq] at h
    subst h
    exact ⟨hs, by simp⟩

theorem index_loop_sound (file : List Nat) (hlen : file.length < 2 ^ 63) :
    ∀ fuel pos x r, Sound file pos x → index_loop file fuel pos x = some r → LoopOk file r := by
  intro fuel
  induction fuel with
  | zero => intro pos x r _ h; simp [index_loop] at h
  | succ n ih =>
    intro pos x r hs h
    rw [index_loop_succ] at h
    unfold index_loop_body at h
    by_cases c1 : pos ≥ min_member_size
    swap
    · rw [if_neg c1] at h
      simp only [Option.some.injEq] at h
      subst h
      exact ⟨hs, by simp⟩
    rw [if_pos c1] at h
    dsimp only at h
    by_cases c2 : (seek_read file Lzip_trailer.size (pos - Lzip_trailer.size)).length
        = Lzip_trailer.size
    swap
    · rw [if_pos c2] at h
      simp only [Option.some.injEq] at h
      subst h
      exact ⟨hs, by simp⟩
    rw [if_neg (by rw [c2]; simp)] at h
    generalize htd : seek_read file Lzip_trailer.size (pos - Lzip_trailer.size) = td at h c2
    by_cases c4 : (⟨td⟩ : Lzip_trailer).member_size > pos ∨
        (!(⟨td⟩ : Lzip_trailer).check_consistency) = true
    · rw [if_pos c4] at h
      exact index_loop_bad_sound file _ (fun p y r hs h => ih p y r hs h) pos x _ _ r hlen c1 hs h
    rw [if_neg c4] at h
    by_cases c5 : (seek_read file Lzip_header.size
        (pos - (⟨td⟩ : Lzip_trailer).member_size)).length = Lzip_header.size
    swap
    · rw [read_header_fail x file _ c5] at h
      dsimp only at h
      simp only [Option.some.injEq] at h
      subst h
      exact ⟨hs, by simp⟩
    rw [read_header_ok x file _ c5] at h
    dsimp only at h
    generalize hhd : seek_read file Lzip_header.size
        (pos - (⟨td⟩ : Lzip_trailer).member_size) = hd at h c5
    by_cases c6 : (!(⟨hd⟩ : Lzip_header).check) = true
    · rw [if_pos c6] at h
      exact index_loop_bad_sound file _ (fun p y r hs h => ih p y r hs h) pos x _ _ r hlen c1 hs h
    rw [if_neg c6] at h
    have hm : member_at file pos = some (⟨td⟩, ⟨hd⟩) := by
      unfold member_at
      dsimp only
      rw [htd, if_neg (by rw [c2]; simp), if_neg c4, hhd, if_neg (by rw [c5]; simp), if_neg c6]
    rw [push_member_eq] at h
    exact ih _ _ r (sound_push file pos x _ _ hs hm) h

end Lzip_index
end Lzip

namespace Lzip
namespace Lzip_index

theorem skip_box_succ (file : List Nat) (fuel pos : Nat) :
    skip_box file (fuel + 1) pos = skip_box_body file (fun p => skip_box file fuel p) pos := rfl

theorem skip_box_le (file : List Nat) :
    ∀ fuel pos p, skip_box file fuel pos = some p → p = -1 ∨ (0 ≤ p ∧ p.toNat ≤ pos) := by
  intro fuel
  induction fuel with
  | zero => intro pos p h; simp [skip_box] at h
  | succ n ih =>
    intro pos p h
    rw [skip_box_succ] at h
    unfold skip_box_body at h
    dsimp only at h
    split_ifs at h with c1 c2 c3 c4 c5
    · left; simpa using h.symm
    · right; simp only [Option.some.injEq] at h; subst h; simp
    · left; simpa using h.symm
    · right; simp only [Option.some.injEq] at h; subst h; simp
    · rcases ih _ _ h with h1 | h1
      · left; exact h1
      · right; exact ⟨h1.1, by omega⟩
    · right; simp only [Option.some.injEq] at h; subst h; simp

theorem chain_dblocks_same (l : List Member) :
    ∀ d l1, chain_dblocks d l = some l1 → SameBlocks l1 l := by
  induction l with
  | nil =>
    intro d l1 h
    simp only [chain_dblocks, Option.some.injEq] at h
    subst h
    exact List.Forall₂.nil
  | cons m l ih =>
    intro d l1 h
    unfold chain_dblocks at h
    dsimp only at h
    split_ifs at h with c
    simp only [Option.map_eq_some'] at h
    obtain ⟨l2, h2, rfl⟩ := h
    exact List.Forall₂.cons ⟨rfl, rfl, rfl⟩ (ih _ _ h2)

theorem chain_dblocks_dtiled (l : List Member) :
    ∀ d l1, chain_dblocks d l = some l1 → ∃ e, DTiled d l1 e := by
  induction l with
  | nil =>
    intro d l1 h
    simp only [chain_dblocks, Option.some.injEq] at h
    subst h
    exact ⟨d, rfl⟩
  | cons m l ih =>
    intro d l1 h
    unfold chain_dblocks at h
    dsimp only at h
    split_ifs at h with c
    simp only [Option.map_eq_some'] at h
    obtain ⟨l2, h2, rfl⟩ := h
    obtain ⟨e, he⟩ := ih _ _ h2
    exact ⟨e, rfl, he⟩

theorem tiled_snoc (l : List Member) :
    ∀ (s e : Nat) (m : Member), Tiled s l e → m.mblock.pos = e → e + m.mblock.size < 2 ^ 64 →
      Tiled s (l ++ [m]) (e + m.mblock.size) := by
  induction l with
  | nil =>
    intro s e m h hm hlt
    simp only [Tiled] at h
    subst h
    exact ⟨hm, hlt, rfl⟩
  | cons a l ih =>
    intro s e m h hm hlt
    obtain ⟨h1, h2, h3⟩ := h
    exact ⟨h1, h2, ih _ _ _ h3 hm hlt⟩

theorem raw_member_fields (file : List Nat) (e : Nat) (t : Lzip_trailer) (h : Lzip_header)
    (hm : member_at file e = some (t, h)) (he : e < 2 ^ 64) :
    (raw_member t h e).mblock.pos = e - t.member_size ∧
    (raw_member t h e).mblock.size = t.member_size ∧
    (raw_member t h e).mblock.pos + (raw_member t h e).mblock.size = e ∧
    (raw_member t h e).mblock.end_ = e ∧
    (raw_member t h e).dblock.pos = 0 ∧
    (raw_member t h e).dblock.size = t.data_size ∧
    (raw_member t h e).dictionary_size = h.dictionary_size := by
  have h1 := member_at_min file e t h hm
  have h2 := data_size_lt t
  have e1 : (e - t.member_size) % 2 ^ 64 = e - t.member_size := Nat.mod_eq_of_lt (by omega)
  have e2 : t.member_size % 2 ^ 64 = t.member_size := Nat.mod_eq_of_lt (by omega)
  have e3 : t.data_size % 2 ^ 64 = t.data_size := Nat.mod_eq_of_lt h2
  have e4 : (e - t.member_size + t.member_size) % 2 ^ 64 = e := by
    rw [Nat.sub_add_cancel h1.2]; exact Nat.mod_eq_of_lt he
  simp only [raw_member, Member.new, Block.end_, e1, e2, e3, e4, Nat.zero_mod, true_and]
  exact ⟨Nat.sub_add_cancel h1.2, trivial⟩

theorem directRun_tiled (file : List Nat) (l : List Member) :
    ∀ (e pos : Nat), e < 2 ^ 64 → DirectRun file e l pos → Tiled pos l.reverse e := by
  induction l with
  | nil =>
    intro e pos _ h
    simp only [DirectRun] at h
    subst h
    rfl
  | cons m l ih =>
    intro e pos he h
    obtain ⟨t, hd, hm, rfl, hr⟩ := h
    have hf := raw_member_fields file e t hd hm he
    have := ih _ _ (by omega) hr
    rw [List.reverse_cons]
    have h3 := tiled_snoc _ _ _ (raw_member t hd e) this hf.1 (by rw [hf.2.1]; omega)
    rw [hf.2.1, Nat.sub_add_cancel (member_at_min file e t hd hm).2] at h3
    exact h3

theorem goodMember_raw (file : List Nat) (e : Nat) (t : Lzip_trailer) (h : Lzip_header)
    (hm : member_at file e = some (t, h)) (he : e < 2 ^ 64) :
    GoodMember file (raw_member t h e) := by
  obtain ⟨f1, f2, f3, f4, f5, f6, f7⟩ := raw_member_fields file e t h hm he
  obtain ⟨g1, g2, g3, g4, g5, g6, g7⟩ := member_at_some file e t h hm
  unfold GoodMember
  rw [f4, f1, f2, f6, ← g1, ← g5]
  exact ⟨g7, g6, g2, g4, rfl, rfl⟩

theorem directRun_good (file : List Nat) (l : List Member) :
    ∀ (e pos : Nat), e < 2 ^ 64 → DirectRun file e l pos →
      ∀ m ∈ l, GoodMember file m ∧ m.dblock.pos = 0 := by
  induction l with
  | nil => intro e pos _ _ m hm; simp at hm
  | cons a l ih =>
    intro e pos he h m hmem
    obtain ⟨t, hd, hm, rfl, hr⟩ := h
    rcases List.mem_cons.1 hmem with rfl | h2
    · exact ⟨goodMember_raw file e t hd hm he, (raw_member_fields file e t hd hm he).2.2.2.2.1⟩
    · exact ih _ _ (by omega) hr m h2

theorem goodMember_same (file : List Nat) (m1 m : Member) (h1 : m1.mblock = m.mblock)
    (h2 : m1.dblock.size = m.dblock.size) (hg : GoodMember file m) : GoodMember file m1 := by
  unfold GoodMember at hg ⊢
  rw [h1, h2]
  exact hg

end Lzip_index
end Lzip

namespace Lzip
namespace Lzip_index

theorem read_first_header_fields (file : List Nat) :
    (read_first_header file).2.member_vector = [] ∧
    ((read_first_header file).1 = false → (read_first_header file).2.retval_ ≠ 0) := by
  unfold read_first_header
  by_cases c : (seek_read file Lzip_header.size 0).length = Lzip_header.size
  · rw [read_header_ok init file 0 c]
    dsimp only
    have := check_header_fields init ⟨seek_read file Lzip_header.size 0⟩ true
    refine ⟨this.1, fun h => ?_⟩
    rw [this.2 h]
    decide
  · rw [read_header_fail init file 0 c]
    dsimp only
    exact ⟨rfl, fun _ => by simp [set_errno_error]⟩

theorem directRun_dblock_head (file : List Nat) (l : List Member) (e pos : Nat)
    (he : e < 2 ^ 64) (h : DirectRun file e l pos) :
    (l.reverse.headD (Member.new 0 0 0 0 0)).dblock.pos = 0 := by
  cases hl : l.reverse with
  | nil => rfl
  | cons m l1 =>
    have hm : m ∈ l := by
      have : m ∈ l.reverse := by rw [hl]; exact List.mem_cons_self _ _
      exact List.mem_reverse.1 this
    exact (directRun_good file l e pos he h m hm).2

/-- What a successful construction went through. -/
theorem new_success (file : List Nat) (x : Lzip_index) (h : new file = some x)
    (hr : x.retval_ = 0) :
    file.length < 2 ^ 63 ∧ min_member_size ≤ file.length ∧
    ∃ (x2 : Lzip_index) (e : Nat) (mv1 : List Member), e ≤ file.length ∧
      DirectRun file e x2.member_vector 0 ∧
      x2.member_vector ≠ [] ∧ chain_dblocks 0 x2.member_vector.reverse = some mv1 ∧
      x = { x2 with member_vector := mv1 } := by
  unfold new at h
  dsimp only at h
  have hf := read_first_header_fields file
  by_cases c1 : file.length ≥ Lzip_header.size ∧ (read_first_header file).1 = false
  · rw [if_pos c1] at h
    simp only [Option.some.injEq] at h
    subst h
    exact absurd hr (hf.2 c1.2)
  rw [if_neg c1] at h
  by_cases c2 : file.length < min_member_size
  · rw [if_pos c2] at h
    simp only [Option.some.injEq] at h
    subst h
    simp at hr
  rw [if_neg c2] at h
  by_cases c3 : file.length > 2 ^ 63 - 1
  · rw [if_pos c3] at h
    simp only [Option.some.injEq] at h
    subst h
    simp at hr
  rw [if_neg c3] at h
  have hlen : file.length < 2 ^ 63 := by omega
  refine ⟨hlen, by omega, ?_⟩
  have hsb := skip_box_le file (file.length + 1) file.length
  generalize skip_box file (file.length + 1) file.length = sb at h hsb
  cases sb with
  | none => simp at h
  | some box_pos =>
    dsimp only at h
    have hx1 : (if file.length ≥ Lzip_header.size then (read_first_header file).2
        else init).member_vector = [] := by
      split_ifs
      · exact hf.1
      · rfl
    generalize (if file.length ≥ Lzip_header.size then (read_first_header file).2
        else init) = x1 at h hx1
    have hpos : (if box_pos ≥ 0 then box_pos.toNat else 0) ≤ file.length := by
      rcases hsb box_pos rfl with h1 | h1
      · subst h1; simp
      · rw [if_pos h1.1]; exact h1.2
    generalize (if box_pos ≥ 0 then box_pos.toNat else 0) = pos at h hpos
    have hs0 : Sound file pos x1 := ⟨hpos, pos, hpos, by rw [hx1]; rfl⟩
    have hl := index_loop_sound file hlen (pos + 1) pos x1
    generalize index_loop file (pos + 1) pos x1 = lr at h hl
    cases lr with
    | none => simp at h
    | some l =>
      obtain ⟨hs, hret⟩ := hl l hs0 rfl
      simp only [Option.map_some', Option.some.injEq] at h
      unfold finish at h
      dsimp only at h
      by_cases c4 : l.2.2 = true
      · rw [if_pos c4] at h
        subst h
        exact absurd hr (hret c4)
      rw [if_neg c4] at h
      by_cases c5 : l.1 ≠ 0 ∨ l.2.1.member_vector.isEmpty = true ∨ l.2.1.retval_ ≠ 0
      · rw [if_pos c5] at h
        split_ifs at h with c6
        · subst h; simp at hr
        · subst h; exact absurd hr c6
      rw [if_neg c5] at h
      simp only [not_or, ne_eq, not_not, Bool.not_eq_true] at c5
      obtain ⟨hp0, hne, _⟩ := c5
      obtain ⟨_, e, he, hrun⟩ := hs
      rw [hp0] at hrun
      rw [directRun_dblock_head file _ e 0 (by omega) hrun] at h
      generalize hch : chain_dblocks 0 l.2.1.member_vector.reverse = ch at h
      cases ch with
      | none =>
        dsimp only at h
        subst h
        simp at hr
      | some mv1 =>
        dsimp only at h
        exact ⟨l.2.1, e, mv1, he, hrun, by simpa using hne, hch, h.symm⟩

end Lzip_index
end Lzip

namespace Lzip
namespace Lzip_index

theorem sameBlocks_length (l1 l : List Member) (h : SameBlocks l1 l) : l1.length = l.length :=
  List.Forall₂.length_eq h

theorem sameBlocks_tiled (l1 l : List Member) (h : SameBlocks l1 l) :
    ∀ s e, Tiled s l e → Tiled s l1 e := by
  induction h with
  | nil => intro s e ht; exact ht
  | cons hm _ ih =>
    intro s e ht
    obtain ⟨h1, h2, h3⟩ := ht
    refine ⟨by rw [hm.1]; exact h1, by rw [hm.1]; exact h2, ?_⟩
    rw [hm.1]
    exact ih _ _ h3

theorem sameBlocks_good (file : List Nat) (l1 l : List Member) (h : SameBlocks l1 l) :
    (∀ m ∈ l, GoodMember file m) → ∀ m ∈ l1, GoodMember file m := by
  induction h with
  | nil => intro _ m hm; simp at hm
  | cons hm _ ih =>
    intro hg m hmem
    rcases List.mem_cons.1 hmem with rfl | h2
    · exact goodMember_same file _ _ hm.1 hm.2.1 (hg _ (List.mem_cons_self _ _))
    · exact ih (fun m hm => hg m (List.mem_cons_of_mem _ hm)) m h2

theorem tiled_head (l : List Member) (s e : Nat) (d : Member) (h : Tiled s l e) (hl : l ≠ []) :
    (l.getD 0 d).mblock.pos = s := by
  cases l with
  | nil => exact absurd rfl hl
  | cons m l => exact h.1

theorem tiled_end (m : Member) (s : Nat) (h1 : m.mblock.pos = s) (h2 : s + m.mblock.size < 2 ^ 64) :
    m.mblock.end_ = s + m.mblock.size := by
  unfold Block.end_
  rw [h1]
  exact Nat.mod_eq_of_lt h2

theorem tiled_contiguous (l : List Member) (d : Member) :
    ∀ s e, Tiled s l e → ∀ i, i + 1 < l.length →
      (l.getD i d).mblock.end_ = (l.getD (i + 1) d).mblock.pos := by
  induction l with
  | nil => intro s e _ i hi; simp at hi
  | cons m l ih =>
    intro s e h i hi
    obtain ⟨h1, h2, h3⟩ := h
    cases i with
    | zero =>
      simp only [List.getD_cons_zero, List.getD_cons_succ, Nat.zero_add]
      rw [tiled_end m s h1 h2]
      cases l with
      | nil => simp at hi
      | cons m2 l2 => exact h3.1.symm
    | succ k =>
      simp only [List.getD_cons_succ]
      exact ih _ _ h3 k (by simpa using hi)

theorem tiled_sum (l : List Member) :
    ∀ s e, Tiled s l e → s + (l.map (fun m => m.mblock.size)).sum = e := by
  induction l with
  | nil => intro s e h; simpa [Tiled] using h
  | cons m l ih =>
    intro s e h
    obtain ⟨_, _, h3⟩ := h
    have := ih _ _ h3
    simp only [List.map_cons, List.sum_cons]
    omega

theorem tiled_last (l : List Member) :
    ∀ s e m, Tiled s l e → l.getLast? = some m → m.mblock.end_ = e := by
  induction l with
  | nil => intro s e m _ h; simp at h
  | cons a l ih =>
    intro s e m h hl
    obtain ⟨h1, h2, h3⟩ := h
    cases l with
    | nil =>
      simp only [List.getLast?_singleton, Option.some.injEq] at hl
      subst hl
      simp only [Tiled] at h3
      rw [tiled_end a s h1 h2, h3]
    | cons b l2 =>
      rw [List.getLast?_cons_cons] at hl
      exact ih _ _ m h3 hl

theorem dtiled_head (l : List Member) (s e : Nat) (d : Member) (h : DTiled s l e) (hl : l ≠ []) :
    (l.getD 0 d).dblock.pos = s := by
  cases l with
  | nil => exact absurd rfl hl
  | cons m l => exact h.1

theorem dtiled_contiguous (l : List Member) (d : Member) :
    ∀ s e, DTiled s l e → ∀ i, i + 1 < l.length →
      (l.getD i d).dblock.end_ = (l.getD (i + 1) d).dblock.pos := by
  induction l with
  | nil => intro s e _ i hi; simp at hi
  | cons m l ih =>
    intro s e h i hi
    obtain ⟨h1, h3⟩ := h
    cases i with
    | zero =>
      simp only [List.getD_cons_zero, List.getD_cons_succ, Nat.zero_add]
      cases l with
      | nil => simp at hi
      | cons m2 l2 => exact h3.1.symm
    | succ k =>
      simp only [List.getD_cons_succ]
      exact ih _ _ h3 k (by simpa using hi)

end Lzip_index

/-- C3: whenever the construction of the index succeeds (`retval() == 0`), the
member list is not empty, `mblock(0).pos == 0`, `dblock(0).pos == 0`, every
member block ends where the next one begins, every data block ends where the
next one begins, and the sizes of the member blocks add up to the compressed
portion of the file (the end of the last member block, which is inside the
file). -/
theorem index_blocks_contiguous (file : List Nat) (x : Lzip_index)
    (h : Lzip_index.new file = some x) (hr : x.retval_ = 0) :
    x.member_vector ≠ [] ∧ (x.mblock 0).pos = 0 ∧ (x.dblock 0).pos = 0 ∧
    (∀ i, i + 1 < x.members →
      (x.mblock i).end_ = (x.mblock (i + 1)).pos ∧ (x.dblock i).end_ = (x.dblock (i + 1)).pos) ∧
    (x.member_vector.map (fun m => m.mblock.size)).sum = x.cdata_size ∧
    x.cdata_size ≤ file.length := by
  obtain ⟨hlen, _, x2, e, mv1, he, hrun, hne, hch, rfl⟩ := Lzip_index.new_success file x h hr
  have hsame := Lzip_index.chain_dblocks_same _ _ _ hch
  have htl := Lzip_index.sameBlocks_tiled _ _ hsame _ _
    (Lzip_index.directRun_tiled file _ e 0 (by omega) hrun)
  obtain ⟨de, hdt⟩ := Lzip_index.chain_dblocks_dtiled _ _ _ hch
  have hlen1 : mv1.length = x2.member_vector.length := by
    rw [Lzip_index.sameBlocks_length _ _ hsame, List.length_reverse]
  have hne1 : mv1 ≠ [] := by
    intro h0
    rw [h0] at hlen1
    exact hne (List.length_eq_zero.1 hlen1.symm)
  have hsum := Lzip_index.tiled_sum _ _ _ htl
  have hcd : Lzip_index.cdata_size { x2 with member_vector := mv1 } = e := by
    unfold Lzip_index.cdata_size
    dsimp only
    cases hl : mv1.getLast? with
    | none => exact absurd (List.getLast?_eq_none_iff.1 hl) hne1
    | some m => exact Lzip_index.tiled_last _ _ _ m htl hl
  refine ⟨hne1, Lzip_index.tiled_head _ _ _ _ htl hne1, Lzip_index.dtiled_head _ _ _ _ hdt hne1,
    fun i hi => ⟨Lzip_index.tiled_contiguous _ _ _ _ htl i hi,
      Lzip_index.dtiled_contiguous _ _ _ _ hdt i hi⟩, ?_, ?_⟩
  · rw [hcd]
    dsimp only
    omega
  · rw [hcd]
    exact he

/-- C6: the index holds no fictitious member.  Whenever the construction
succeeds, for every member `i` the 6 bytes at `mblock(i).pos` are a header that
passes `Lzip_header::check` (magic, version 1, valid dictionary size) and the
20 bytes ending at `mblock(i).end()` are a trailer that passes
`check_consistency`, whose member size is `mblock(i).size` and whose data size
is `dblock(i).size`.  The same holds for the member that a successful
`skip_trailing_data` pushes, whose header is where it leaves `pos`. -/
theorem index_members_real (file : List Nat) :
    (∀ x, Lzip_index.new file = some x → x.retval_ = 0 → ∀ i, i < x.members →
      (seek_read file Lzip_header.size (x.mblock i).pos).length = Lzip_header.size ∧
      (⟨seek_read file Lzip_header.size (x.mblock i).pos⟩ : Lzip_header).check_magic = true ∧
      (⟨seek_read file Lzip_header.size (x.mblock i).pos⟩ : Lzip_header).check_version = true ∧
      isvalid_ds (⟨seek_read file Lzip_header.size (x.mblock i).pos⟩ :
        Lzip_header).dictionary_size = true ∧
      (⟨seek_read file Lzip_header.size (x.mblock i).pos⟩ : Lzip_header).check = true ∧
      (seek_read file Lzip_trailer.size ((x.mblock i).end_ - Lzip_trailer.size)).length
        = Lzip_trailer.size ∧
      (⟨seek_read file Lzip_trailer.size ((x.mblock i).end_ - Lzip_trailer.size)⟩ :
        Lzip_trailer).check_consistency = true ∧
      (⟨seek_read file Lzip_trailer.size ((x.mblock i).end_ - Lzip_trailer.size)⟩ :
        Lzip_trailer).member_size = (x.mblock i).size ∧
      (⟨seek_read file Lzip_trailer.size ((x.mblock i).end_ - Lzip_trailer.size)⟩ :
        Lzip_trailer).data_size = (x.dblock i).size) ∧
    (∀ (x0 : Lzip_index) (pos pos1 : Nat) (x1 : Lzip_index), pos ≤ file.length →
      file.length < 2 ^ 63 →
      x0.skip_trailing_data file pos = some (true, pos1, x1) →
      ∃ m, x1.member_vector = x0.member_vector ++ [m] ∧ m.mblock.pos = pos1 ∧
        m.mblock.end_ ≤ pos ∧
        (seek_read file Lzip_header.size m.mblock.pos).length = Lzip_header.size ∧
        (⟨seek_read file Lzip_header.size m.mblock.pos⟩ : Lzip_header).check = true ∧
        (seek_read file Lzip_trailer.size (m.mblock.end_ - Lzip_trailer.size)).length
          = Lzip_trailer.size ∧
        (⟨seek_read file Lzip_trailer.size (m.mblock.end_ - Lzip_trailer.size)⟩ :
          Lzip_trailer).check_consistency = true ∧
        (⟨seek_read file Lzip_trailer.size (m.mblock.end_ - Lzip_trailer.size)⟩ :
          Lzip_trailer).member_size = m.mblock.size ∧
        (⟨seek_read file Lzip_trailer.size (m.mblock.end_ - Lzip_trailer.size)⟩ :
          Lzip_trailer).data_size = m.dblock.size) := by
  constructor
  · intro x h hr i hi
    obtain ⟨hlen, _, x2, e, mv1, he, hrun, hne, hch, rfl⟩ := Lzip_index.new_success file x h hr
    have hsame := Lzip_index.chain_dblocks_same _ _ _ hch
    have hgood : ∀ m ∈ mv1, Lzip_index.GoodMember file m :=
      Lzip_index.sameBlocks_good file _ _ hsame (fun m hm =>
        (Lzip_index.directRun_good file _ e 0 (by omega) hrun m (List.mem_reverse.1 hm)).1)
    have hi1 : i < mv1.length := hi
    have hmem : mv1.getD i (Member.new 0 0 0 0 0) ∈ mv1 := by
      rw [List.getD_eq_getElem _ _ hi1]
      exact List.getElem_mem _
    obtain ⟨g1, g2, g3, g4, g5, g6⟩ := hgood _ hmem
    have gc := g1
    unfold Lzip_header.check at gc
    simp only [Bool.and_eq_true] at gc
    exact ⟨g2, gc.1.1, gc.1.2, gc.2, g1, g3, g4, g5, g6⟩
  · intro x0 pos pos1 x1 hpos hlen h
    by_cases hmin : min_member_size ≤ pos
    · have hok := Lzip_index.skip_trailing_data_spec file pos x0 _ hpos hmin (by omega) h
      unfold Lzip_index.SkipOk at hok
      simp only [if_true] at hok
      obtain ⟨e, t, hd, he, hm, hp, hx⟩ := hok
      obtain ⟨f1, f2, f3, f4, _⟩ := Lzip_index.raw_member_fields file e t hd hm (by omega)
      obtain ⟨g1, g2, g3, g4, g5, g6⟩ := Lzip_index.goodMember_raw file e t hd hm (by omega)
      refine ⟨Lzip_index.raw_member t hd e, ?_, by rw [f1, hp], by rw [f4]; exact he,
        g2, g1, g3, g4, g5, g6⟩
      rw [hx, Lzip_index.push_one_member_vector]
    · unfold Lzip_index.skip_trailing_data at h
      rw [if_pos (by omega)] at h
      simp at h

end Lzip

namespace Lzip
namespace Lzip_index

theorem agree_mono (f1 f2 : List Nat) (p q : Nat) (h : Agree f1 f2 p) (hq : q ≤ p) :
    Agree f1 f2 q := fun size pos hp => h size pos (by omega)

theorem agree_append (a b : List Nat) : Agree (a ++ b) a a.length :=
  fun size pos hp => seek_read_append_left a b size pos hp

theorem read_header_congr (f1 f2 : List Nat) (P p : Nat) (x : Lzip_index) (h : Agree f1 f2 P)
    (hp : p + Lzip_header.size ≤ P) : x.read_header f1 p = x.read_header f2 p := by
  unfold read_header
  rw [h _ _ hp]

theorem scan_block_congr (f1 f2 buffer : List Nat) (bsize ipos max_msb pos : Nat)
    (x : Lzip_index) (P S : Nat) (hag : Agree f1 f2 P) (hS : ipos + S ≤ P) :
    ∀ fuel i, i ≤ S → scan_block f1 buffer bsize ipos max_msb pos x fuel i =
      scan_block f2 buffer bsize ipos max_msb pos x fuel i := by
  intro fuel
  induction fuel with
  | zero => intro i _; rfl
  | succ n ih =>
    intro i hi
    rw [scan_block_succ, scan_block_succ]
    unfold scan_block_body
    have h6 : Lzip_header.size = 6 := rfl
    have h36 : min_member_size = 36 := rfl
    by_cases c1 : i ≥ Lzip_trailer.size
    swap
    · rw [if_neg c1, if_neg c1]
    rw [if_pos c1, if_pos c1]
    by_cases c2 : buffer.getD (i - 1) 0 ≤ max_msb
    swap
    · rw [if_neg c2, if_neg c2]
      exact ih _ (by omega)
    rw [if_pos c2, if_pos c2]
    dsimp only
    generalize (⟨(buffer.drop (i - Lzip_trailer.size)).take Lzip_trailer.size⟩ : Lzip_trailer) = t
    by_cases c3 : t.member_size = 0
    · rw [if_pos c3, if_pos c3]
      exact ih _ (by have := skip_zeros_le buffer i; omega)
    rw [if_neg c3, if_neg c3]
    by_cases c4 : t.member_size > ipos + i ∨ (!t.check_consistency) = true
    · rw [if_pos c4, if_pos c4]
      exact ih _ (by omega)
    rw [if_neg c4, if_neg c4]
    simp only [not_or, not_lt, Bool.not_eq_true, Bool.not_eq_false', Bool.not_eq_true',
      Bool.not_eq_false] at c4
    have hms := check_consistency_min t (by simpa using c4.2)
    rw [read_header_congr f1 f2 P _ x hag (by omega)]
    cases (x.read_header f2 (ipos + i - t.member_size)).1 with
    | none => rfl
    | some header =>
      dsimp only
      by_cases c6 : (!header.check) = true
      · rw [if_pos c6, if_pos c6]
        exact ih _ (by omega)
      · rw [if_neg c6, if_neg c6]

theorem scan_blocks_congr (f1 f2 : List Nat) (pos : Nat) (x : Lzip_index)
    (hag : Agree f1 f2 pos) :
    ∀ fuel buffer bsize search_size rd_size ipos, ipos + rd_size ≤ pos →
      ipos + search_size ≤ pos → 19 ≤ search_size → ipos % block_size = 0 →
      scan_blocks f1 pos x fuel buffer bsize search_size rd_size ipos =
        scan_blocks f2 pos x fuel buffer bsize search_size rd_size ipos := by
  intro fuel
  induction fuel with
  | zero => intro _ _ _ _ _ _ _ _ _; rfl
  | succ n ih =>
    intro buffer bsize search_size rd_size ipos h1 h2 h3 h4
    have hbsz : buffer_size = 16409 := rfl
    have hblk : block_size = 16384 := rfl
    have h6 : Lzip_header.size = 6 := rfl
    rw [scan_blocks_succ, scan_blocks_succ]
    unfold scan_blocks_body
    dsimp only
    rw [hag rd_size ipos h1]
    by_cases c1 : (seek_read f2 rd_size ipos).length ≠ rd_size
    · rw [if_pos c1, if_pos c1]
    rw [if_neg c1, if_neg c1]
    rw [scan_block_congr f1 f2 _ bsize ipos _ pos x pos search_size hag h2 _ _ (Nat.le_refl _)]
    cases scan_block f2 (seek_read f2 rd_size ipos ++ buffer.drop rd_size) bsize ipos
        (((ipos + search_size) >>> 56) % 256) pos x (search_size + 1) search_size with
    | none => rfl
    | some s =>
      cases s with
      | ret b pos1 x1 => rfl
      | notfound =>
        dsimp only
        by_cases c0 : ipos = 0
        · rw [if_pos c0, if_pos c0]
        · rw [if_neg c0, if_neg c0]
          have hge : ipos ≥ block_size := by
            have := Nat.div_add_mod ipos block_size
            rw [h4] at this
            have hq : ipos / block_size ≠ 0 := by
              intro hq
              rw [hq] at this
              omega
            have : block_size * (ipos / block_size) ≥ block_size :=
              Nat.le_mul_of_pos_right _ (Nat.pos_of_ne_zero hq)
            omega
          apply ih
          · omega
          · omega
          · omega
          · have : ipos = block_size * (ipos / block_size) := by
              have := Nat.div_add_mod ipos block_size
              omega
            have h2 : ipos - block_size = block_size * (ipos / block_size - 1) := by
              rw [Nat.mul_sub, Nat.mul_one, ← this]
            rw [h2]
            exact Nat.mul_mod_right _ _

theorem skip_trailing_data_congr (f1 f2 : List Nat) (pos : Nat) (x : Lzip_index)
    (hag : Agree f1 f2 pos) (h64 : pos < 2 ^ 64) :
    x.skip_trailing_data f1 pos = x.skip_trailing_data f2 pos := by
  unfold skip_trailing_data
  have hmm : min_member_size = 36 := rfl
  have hbsz : buffer_size = 16409 := rfl
  have hblk : block_size = 16384 := rfl
  by_cases c : pos < min_member_size
  · rw [if_pos c, if_pos c]
  rw [if_neg c, if_neg c]
  dsimp only
  have hmod : pos % block_size < block_size := Nat.mod_lt _ (by decide)
  have hdm := Nat.div_add_mod pos block_size
  generalize hbs : (if pos % block_size ≤ buffer_size - block_size then pos % block_size + block_size
    else pos % block_size) = bsize
  have hb : bsize ≤ pos ∧ 26 ≤ bsize ∧ (pos - bsize) % block_size = 0 := by
    rw [← hbs]
    split_ifs with c
    · have hq : pos / block_size ≠ 0 := by
        intro hq
        rw [hq] at hdm
        omega
      have hq1 : block_size * (pos / block_size) ≥ block_size :=
        Nat.le_mul_of_pos_right _ (Nat.pos_of_ne_zero hq)
      refine ⟨by omega, by omega, ?_⟩
      have : pos - (pos % block_size + block_size) = block_size * (pos / block_size - 1) := by
        rw [Nat.mul_sub, Nat.mul_one]
        omega
      rw [this]
      exact Nat.mul_mod_right _ _
    · refine ⟨by omega, by omega, ?_⟩
      have : pos - pos % block_size = block_size * (pos / block_size) := by omega
      rw [this]
      exact Nat.mul_mod_right _ _
  have hip : (pos + 2 ^ 64 - bsize) % 2 ^ 64 = pos - bsize := by omega
  rw [hip]
  exact scan_blocks_congr f1 f2 pos x hag _ _ _ _ _ _ (by omega) (by omega) (by omega) hb.2.2

theorem index_loop_bad_congr (f1 f2 : List Nat) (P : Nat) (hag : Agree f1 f2 P)
    (c1 c2 : Nat → Lzip_index → Option (Nat × Lzip_index × Bool))
    (pos : Nat) (hc : ∀ p y, p ≤ pos → c1 p y = c2 p y) (hP : pos ≤ P) (h64 : P < 2 ^ 64)
    (hpf : pos ≤ f2.length)
    (x : Lzip_index) (msg : String) (num : Nat) :
    index_loop_bad f1 c1 pos x msg num = index_loop_bad f2 c2 pos x msg num := by
  unfold index_loop_bad
  by_cases c : x.member_vector.isEmpty = true
  swap
  · rw [if_neg c, if_neg c]
  rw [if_pos c, if_pos c]
  rw [skip_trailing_data_congr f1 f2 pos x (agree_mono f1 f2 P pos hag hP) (by omega)]
  by_cases hmin : min_member_size ≤ pos
  swap
  · unfold skip_trailing_data
    rw [if_pos (by omega)]
    simp only [Bool.false_eq_true, if_false]
  have hsk := skip_trailing_data_spec f2 pos x
  cases hs : x.skip_trailing_data f2 pos with
  | none => rfl
  | some s =>
    dsimp only
    have hok := hsk s hpf hmin (by omega) hs
    by_cases cs : s.1 = true
    · rw [if_pos cs, if_pos cs]
      apply hc
      unfold SkipOk at hok
      rw [if_pos cs] at hok
      obtain ⟨e, t, hd, he, _, hp, _⟩ := hok
      omega
    · rw [if_neg cs, if_neg cs]

theorem index_loop_congr (f1 f2 : List Nat) (P : Nat) (hag : Agree f1 f2 P) (h64 : P < 2 ^ 64)
    (hPf : P ≤ f2.length) :
    ∀ fuel pos x, pos ≤ P → index_loop f1 fuel pos x = index_loop f2 fuel pos x := by
  intro fuel
  induction fuel with
  | zero => intro _ _ _; rfl
  | succ n ih =>
    intro pos x hpos
    rw [index_loop_succ, index_loop_succ]
    unfold index_loop_body
    have h6 : Lzip_header.size = 6 := rfl
    have h20 : Lzip_trailer.size = 20 := rfl
    have h36 : min_member_size = 36 := rfl
    by_cases c1 : pos ≥ min_member_size
    swap
    · rw [if_neg c1, if_neg c1]
    rw [if_pos c1, if_pos c1]
    dsimp only
    rw [hag _ _ (by omega : pos - Lzip_trailer.size + Lzip_trailer.size ≤ P)]
    generalize seek_read f2 Lzip_trailer.size (pos - Lzip_trailer.size) = td
    by_cases c2 : td.length ≠ Lzip_trailer.size
    · rw [if_pos c2, if_pos c2]
    rw [if_neg c2, if_neg c2]
    have hcont : ∀ p y, p ≤ pos → (fun p y => index_loop f1 n p y) p y =
        (fun p y => index_loop f2 n p y) p y := fun p y hp => ih p y (by omega)
    by_cases c4 : (⟨td⟩ : Lzip_trailer).member_size > pos ∨
        (!(⟨td⟩ : Lzip_trailer).check_consistency) = true
    · rw [if_pos c4, if_pos c4]
      exact index_loop_bad_congr f1 f2 P hag _ _ pos hcont hpos h64 (by omega) x _ _
    rw [if_neg c4, if_neg c4]
    simp only [not_or, not_lt, Bool.not_eq_true, Bool.not_eq_false', Bool.not_eq_true',
      Bool.not_eq_false] at c4
    have hms := check_consistency_min _ (by simpa using c4.2)
    rw [read_header_congr f1 f2 P _ x hag (by omega)]
    cases hrh : (x.read_header f2 (pos - (⟨td⟩ : Lzip_trailer).member_size)).1 with
    | none => rfl
    | some header =>
      dsimp only
      by_cases c6 : (!header.check) = true
      · rw [if_pos c6, if_pos c6]
        exact index_loop_bad_congr f1 f2 P hag _ _ pos hcont hpos h64 (by omega) _ _ _
      · rw [if_neg c6, if_neg c6]
        exact ih _ _ (by omega)

end Lzip_index
end Lzip

namespace Lzip
namespace Lzip_index

theorem box_size_le64 (n : Nat) (h : n < 2 ^ 64) : Box_trailer.box_size ⟨le64 n⟩ = n := by
  simp only [Box_trailer.box_size, le_loop, le64, Nat.shiftLeft_eq, List.getD_cons_zero,
    List.getD_cons_succ, Nat.zero_add, Nat.add_zero]
  norm_num
  omega

theorem skip_box_congr (f1 f2 : List Nat) (P : Nat) (hag : Agree f1 f2 P) :
    ∀ fuel pos, pos ≤ P → skip_box f1 fuel pos = skip_box f2 fuel pos := by
  intro fuel
  induction fuel with
  | zero => intro _ _; rfl
  | succ n ih =>
    intro pos hpos
    rw [skip_box_succ, skip_box_succ]
    unfold skip_box_body
    by_cases c1 : pos ≥ 16
    swap
    · rw [if_neg c1, if_neg c1]
    rw [if_pos c1, if_pos c1]
    dsimp only
    rw [hag 8 (pos - 8) (by omega)]
    generalize seek_read f2 8 (pos - 8) = td
    by_cases c2 : td.length ≠ 8
    · rw [if_pos c2, if_pos c2]
    rw [if_neg c2, if_neg c2]
    by_cases c3 : Box_trailer.box_size ⟨td⟩ > pos ∨ Box_trailer.box_size ⟨td⟩ < 16
    · rw [if_pos c3, if_pos c3]
    rw [if_neg c3, if_neg c3]
    rw [hag 8 (pos - Box_trailer.box_size ⟨td⟩) (by omega)]
    by_cases c4 : (seek_read f2 8 (pos - Box_trailer.box_size ⟨td⟩)).length ≠ 8
    · rw [if_pos c4, if_pos c4]
    rw [if_neg c4, if_neg c4]
    by_cases c5 : seek_read f2 8 (pos - Box_trailer.box_size ⟨td⟩) ≠ box_magic
    · rw [if_pos c5, if_pos c5]
    rw [if_neg c5, if_neg c5]
    exact ih _ (by omega)

theorem skip_box_fuel (file : List Nat) :
    ∀ fuel pos p, skip_box file fuel pos = some p →
      ∀ fuel2, fuel ≤ fuel2 → skip_box file fuel2 pos = some p := by
  intro fuel
  induction fuel with
  | zero => intro pos p h; simp [skip_box] at h
  | succ n ih =>
    intro pos p h fuel2 hf
    obtain ⟨m, rfl⟩ : ∃ m, fuel2 = m + 1 := ⟨fuel2 - 1, by omega⟩
    rw [skip_box_succ] at h ⊢
    unfold skip_box_body at h ⊢
    dsimp only at h ⊢
    split_ifs at h ⊢ with c1 c2 c3 c4 c5
    · exact h
    · exact h
    · exact h
    · exact h
    · exact ih _ _ h m (by omega)
    · exact h

theorem seek_read_databox_trailer (a t : List Nat) :
    seek_read (a ++ databox_wrap t) 8 ((a ++ databox_wrap t).length - 8) =
      le64 (t.length + 16) := by
  have e : a ++ databox_wrap t = (a ++ (box_magic ++ t)) ++ le64 (t.length + 16) := by
    simp [databox_wrap, List.append_assoc]
  have hl : (a ++ databox_wrap t).length - 8 = (a ++ (box_magic ++ t)).length + 0 := by
    rw [e]
    simp only [List.length_append, le64, List.length_cons, List.length_nil]
    omega
  rw [hl, e, seek_read_append_right]
  rfl

theorem seek_read_databox_header (a t : List Nat) :
    seek_read (a ++ databox_wrap t) 8 a.length = box_magic := by
  have := seek_read_append_right a (databox_wrap t) 8 0
  rw [Nat.add_zero] at this
  rw [this]
  simp [seek_read, databox_wrap, box_magic]

theorem databox_length (a t : List Nat) :
    (a ++ databox_wrap t).length = a.length + t.length + 16 := by
  simp [databox_wrap, box_magic, le64]
  omega

theorem skip_box_databox (a t : List Nat) (fuel : Nat)
    (h : (a ++ databox_wrap t).length < 2 ^ 64) :
    skip_box (a ++ databox_wrap t) (fuel + 1) (a ++ databox_wrap t).length =
      skip_box (a ++ databox_wrap t) fuel a.length := by
  have hl := databox_length a t
  rw [skip_box_succ]
  unfold skip_box_body
  rw [if_pos (by omega)]
  dsimp only
  rw [seek_read_databox_trailer]
  rw [if_neg (by simp [le64])]
  rw [box_size_le64 _ (by omega)]
  rw [if_neg (by omega)]
  have e : (a ++ databox_wrap t).length - (t.length + 16) = a.length := by omega
  rw [e, seek_read_databox_header]
  rw [if_neg (by simp [box_magic]), if_neg (by simp)]

theorem new_eq (file : List Nat) (h36 : min_member_size ≤ file.length)
    (hlt : file.length < 2 ^ 63) (hc : (read_first_header file).1 = true) :
    new file =
      match skip_box file (file.length + 1) file.length with
      | none => none
      | some box_pos =>
        (index_loop file ((if box_pos ≥ 0 then box_pos.toNat else 0) + 1)
          (if box_pos ≥ 0 then box_pos.toNat else 0) (read_first_header file).2).map finish := by
  have hmm : min_member_size = 36 := rfl
  have h6 : Lzip_header.size = 6 := rfl
  unfold new
  dsimp only
  rw [if_neg (by simp [hc]), if_neg (by omega), if_neg (by omega), if_pos (by omega)]

theorem new_success_header (file : List Nat) (x : Lzip_index) (h : new file = some x)
    (hr : x.retval_ = 0) : (read_first_header file).1 = true := by
  have h1 := (new_success file x h hr).2.1
  have hmm : min_member_size = 36 := rfl
  have h6 : Lzip_header.size = 6 := rfl
  by_contra hc
  simp only [Bool.not_eq_true] at hc
  unfold new at h
  dsimp only at h
  rw [if_pos ⟨by omega, hc⟩] at h
  simp only [Option.some.injEq] at h
  subst h
  exact (read_first_header_fields file).2 hc hr

theorem read_first_header_congr (f1 f2 : List Nat) (P : Nat) (hag : Agree f1 f2 P)
    (hP : Lzip_header.size ≤ P) : read_first_header f1 = read_first_header f2 := by
  unfold read_first_header
  rw [read_header_congr f1 f2 P 0 init hag (by omega)]

end Lzip_index

/-- C4: databox transparency of the indexer.  For every file content `a` on
which the construction of the index succeeds and every byte string `t` (whether
or not it begins with `LZIP`; the file must still be shorter than 2^63 bytes),
indexing `a ++ "TDATABOX" ++ t ++ LE64(|t| + 16)` also succeeds and gives the
very same index: the same member list (member blocks, data blocks and
dictionary sizes) and the same largest dictionary size. -/
theorem index_databox_transparent (a t : List Nat) (x : Lzip_index)
    (h : Lzip_index.new a = some x) (hr : x.retval_ = 0)
    (hlen : (a ++ databox_wrap t).length < 2 ^ 63) :
    Lzip_index.new (a ++ databox_wrap t) = some x := by
  obtain ⟨hla, h36, _⟩ := Lzip_index.new_success a x h hr
  have hc := Lzip_index.new_success_header a x h hr
  have hl := Lzip_index.databox_length a t
  have hmm : min_member_size = 36 := rfl
  have h6 : Lzip_header.size = 6 := rfl
  have hag := Lzip_index.agree_append a (databox_wrap t)
  have hfh := Lzip_index.read_first_header_congr _ _ _ hag (by omega)
  rw [Lzip_index.new_eq a h36 hla hc] at h
  rw [Lzip_index.new_eq _ (by omega) hlen (by rw [hfh]; exact hc)]
  rw [Lzip_index.skip_box_databox a t _ (by omega)]
  rw [Lzip_index.skip_box_congr _ _ _ hag _ _ (Nat.le_refl _)]
  cases hsb : skip_box a (a.length + 1) a.length with
  | none => rw [hsb] at h; simp at h
  | some box_pos =>
    rw [hsb] at h
    rw [Lzip_index.skip_box_fuel a _ _ _ hsb _ (by omega)]
    dsimp only at h ⊢
    rw [hfh]
    have hpos : (if box_pos ≥ 0 then box_pos.toNat else 0) ≤ a.length := by
      rcases Lzip_index.skip_box_le a _ _ _ hsb with h1 | h1
      · subst h1; simp
      · rw [if_pos h1.1]; exact h1.2
    rw [Lzip_index.index_loop_congr _ _ _ hag (by omega) (Nat.le_refl _) _ _ _ hpos]
    exact h

end Lzip

namespace Lzip
namespace Lzip_index

theorem member_at_append_left (a b : List Nat) (e : Nat) (t : Lzip_trailer) (h : Lzip_header)
    (hm : member_at a e = some (t, h)) : member_at (a ++ b) e = some (t, h) := by
  obtain ⟨h1, h2, h3, h4, h5, h6, h7⟩ := member_at_some a e t h hm
  have hmin := check_consistency_min t h4
  have h20 : Lzip_trailer.size = 20 := rfl
  have h6' : Lzip_header.size = 6 := rfl
  have h36 : min_member_size = 36 := rfl
  have r1 : e - Lzip_trailer.size + Lzip_trailer.size ≤ a.length := by
    have := (seek_read_length_iff a Lzip_trailer.size (e - Lzip_trailer.size)).1 h2
    omega
  have r2 : e - t.member_size + Lzip_header.size ≤ a.length := by
    have := (seek_read_length_iff a Lzip_header.size (e - t.member_size)).1 h6
    omega
  subst h1
  subst h5
  unfold member_at
  dsimp only
  rw [seek_read_append_left a b _ _ r1, if_neg (by rw [h2]; simp),
    if_neg (by simp [h4]; omega), seek_read_append_left a b _ _ r2,
    if_neg (by rw [h6]; simp), if_neg (by simp [h7])]

theorem member_at_append_right (a b : List Nat) (e : Nat) (t : Lzip_trailer) (h : Lzip_header)
    (hm : member_at b e = some (t, h)) : member_at (a ++ b) (a.length + e) = some (t, h) := by
  obtain ⟨h1, h2, h3, h4, h5, h6, h7⟩ := member_at_some b e t h hm
  have hmin := check_consistency_min t h4
  have h20 : Lzip_trailer.size = 20 := rfl
  have h6' : Lzip_header.size = 6 := rfl
  have h36 : min_member_size = 36 := rfl
  have e1 : a.length + e - Lzip_trailer.size = a.length + (e - Lzip_trailer.size) := by omega
  have e2 : a.length + e - t.member_size = a.length + (e - t.member_size) := by omega
  subst h1
  subst h5
  unfold member_at
  dsimp only
  rw [e1, seek_read_append_right, if_neg (by rw [h2]; simp),
    if_neg (by simp [h4]; omega), e2, seek_read_append_right,
    if_neg (by rw [h6]; simp), if_neg (by simp [h7])]

theorem raw_member_shift (file : List Nat) (e n : Nat) (t : Lzip_trailer) (h : Lzip_header)
    (hm : member_at file e = some (t, h)) (hlt : n + e < 2 ^ 64) :
    raw_member t h (n + e) = shift_mblock n (raw_member t h e) := by
  have h1 := member_at_min file e t h hm
  have e1 : (e - t.member_size) % 2 ^ 64 = e - t.member_size := Nat.mod_eq_of_lt (by omega)
  have e2 : (n + e - t.member_size) % 2 ^ 64 = e - t.member_size + n := by
    rw [Nat.mod_eq_of_lt (by omega)]
    omega
  simp only [raw_member, shift_mblock, Member.new, e1, e2]

theorem directRun_append (file : List Nat) (l1 l2 : List Member) :
    ∀ (e p q : Nat), DirectRun file e l1 p → DirectRun file p l2 q →
      DirectRun file e (l1 ++ l2) q := by
  induction l1 with
  | nil =>
    intro e p q h1 h2
    simp only [DirectRun] at h1
    subst h1
    exact h2
  | cons m l ih =>
    intro e p q h1 h2
    obtain ⟨t, hd, hm, hr, h3⟩ := h1
    exact ⟨t, hd, hm, hr, ih _ _ _ h3 h2⟩

theorem directRun_append_left (a b : List Nat) (l : List Member) :
    ∀ (e p : Nat), DirectRun a e l p → DirectRun (a ++ b) e l p := by
  induction l with
  | nil => intro e p h; exact h
  | cons m l ih =>
    intro e p h
    obtain ⟨t, hd, hm, hr, h3⟩ := h
    exact ⟨t, hd, member_at_append_left a b e t hd hm, hr, ih _ _ h3⟩

theorem directRun_append_right (a b : List Nat) (l : List Member) :
    ∀ (e p : Nat), a.length + e < 2 ^ 64 → DirectRun b e l p →
      DirectRun (a ++ b) (a.length + e) (l.map (shift_mblock a.length)) (a.length + p) := by
  induction l with
  | nil =>
    intro e p _ h
    simp only [DirectRun] at h
    subst h
    rfl
  | cons m l ih =>
    intro e p hlt h
    obtain ⟨t, hd, hm, hr, h3⟩ := h
    have hmin := member_at_min b e t hd hm
    refine ⟨t, hd, member_at_append_right a b e t hd hm, ?_, ?_⟩
    · rw [hr, raw_member_shift b e a.length t hd hm hlt]
    · have := ih _ _ (by omega) h3
      have e2 : a.length + e - t.member_size = a.length + (e - t.member_size) := by omega
      rw [e2]
      exact this

theorem push_all_fields (l : List Member) :
    ∀ x : Lzip_index, (push_all x l).member_vector = x.member_vector ++ l ∧
      (push_all x l).retval_ = x.retval_ := by
  induction l with
  | nil => intro x; simp [push_all]
  | cons m l ih =>
    intro x
    have := ih (x.push_one m)
    unfold push_all at this ⊢
    rw [List.foldl_cons]
    rw [this.1, this.2, push_one_member_vector, push_one_retval]
    simp

theorem index_loop_complete (file : List Nat) (l : List Member) :
    ∀ (e : Nat) (x : Lzip_index) (fuel : Nat), DirectRun file e l 0 → e < fuel →
      index_loop file fuel e x = some (0, push_all x l, false) := by
  induction l with
  | nil =>
    intro e x fuel h hf
    simp only [DirectRun] at h
    subst h
    obtain ⟨n, rfl⟩ : ∃ n, fuel = n + 1 := ⟨fuel - 1, by omega⟩
    rw [index_loop_small file n 0 x (by decide)]
    rfl
  | cons m l ih =>
    intro e x fuel h hf
    obtain ⟨t, hd, hm, hr, h3⟩ := h
    obtain ⟨n, rfl⟩ : ∃ n, fuel = n + 1 := ⟨fuel - 1, by omega⟩
    have hmin := member_at_min file e t hd hm
    have h36 : min_member_size = 36 := rfl
    rw [index_loop_direct file n e x t hd hm, ih _ _ n h3 (by omega), hr]
    rfl

end Lzip_index
end Lzip

namespace Lzip
namespace Lzip_index

theorem le_loop_congr (w : Nat) (d1 d2 : List Nat) (lo1 lo2 : Nat) :
    ∀ k tmp, (∀ j, j < k → d1.getD (lo1 + j) 0 = d2.getD (lo2 + j) 0) →
      le_loop w d1 lo1 k tmp = le_loop w d2 lo2 k tmp := by
  intro k
  induction k with
  | zero => intro tmp _; rfl
  | succ n ih =>
    intro tmp h
    unfold le_loop
    rw [h n (by omega)]
    exact ih _ (fun j hj => h j (by omega))

theorem seek_read_getD (file : List Nat) (size pos j : Nat) (hj : j < size) :
    (seek_read file size pos).getD j 0 = file.getD (pos + j) 0 := by
  rw [List.getD_eq_getElem?_getD, List.getD_eq_getElem?_getD, seek_read_getElem?, if_pos hj]

theorem check_header_true (x : Lzip_index) (header : Lzip_header) (first : Bool)
    (h : (x.check_header header first).1 = true) :
    (x.check_header header first).2.retval_ = x.retval_ := by
  unfold check_header at h ⊢
  split_ifs at h ⊢ <;> simp at h ⊢

theorem read_first_header_true (file : List Nat) (h : (read_first_header file).1 = true) :
    (read_first_header file).2.retval_ = 0 := by
  unfold read_first_header at h ⊢
  by_cases c : (seek_read file Lzip_header.size 0).length = Lzip_header.size
  · rw [read_header_ok init file 0 c] at h ⊢
    dsimp only at h ⊢
    rw [check_header_true _ _ _ h]
    rfl
  · rw [read_header_fail init file 0 c] at h
    simp at h

theorem skip_box_of_member (file : List Nat) (n fuel : Nat) (t : Lzip_trailer) (h : Lzip_header)
    (hm : member_at file n = some (t, h)) : skip_box file (fuel + 1) n = some (n : Int) := by
  obtain ⟨h1, h2, h3, h4, h5, h6, h7⟩ := member_at_some file n t h hm
  have hmin := check_consistency_min t h4
  have h20 : Lzip_trailer.size = 20 := rfl
  have h6' : Lzip_header.size = 6 := rfl
  have h36 : min_member_size = 36 := rfl
  have r1 : n ≤ file.length := by
    have := (seek_read_length_iff file Lzip_trailer.size (n - Lzip_trailer.size)).1 h2
    omega
  have hbs : Box_trailer.box_size ⟨seek_read file 8 (n - 8)⟩ = t.member_size := by
    rw [h1]
    unfold Box_trailer.box_size Lzip_trailer.member_size
    apply le_loop_congr
    intro j hj
    show (seek_read file 8 (n - 8)).getD (0 + j) 0 =
      (seek_read file Lzip_trailer.size (n - Lzip_trailer.size)).getD (12 + j) 0
    rw [seek_read_getD _ _ _ _ (by omega), seek_read_getD _ _ _ _ (by omega)]
    congr 1
    omega
  rw [skip_box_succ]
  unfold skip_box_body
  rw [if_pos (by omega)]
  dsimp only
  rw [if_neg (by rw [seek_read_length file 8 (n - 8) (by omega)]; simp)]
  rw [hbs, if_neg (by omega)]
  rw [if_neg (by rw [seek_read_length file 8 (n - t.member_size) (by omega)]; simp)]
  rw [if_pos]
  intro hbox
  have hmagic : h.check_magic = true := by
    unfold Lzip_header.check at h7
    simp only [Bool.and_eq_true] at h7
    exact h7.1.1
  unfold Lzip_header.check_magic at hmagic
  rw [h5] at hmagic
  simp only [beq_iff_eq] at hmagic
  have g1 : (seek_read file 8 (n - t.member_size)).getD 0 0 = 0x54 := by
    rw [hbox]; rfl
  have g2 : (seek_read file Lzip_header.size (n - t.member_size)).getD 0 0 = 0x4C := by
    have : ((seek_read file Lzip_header.size (n - t.member_size)).take 4).getD 0 0 = 0x4C := by
      rw [hmagic]; rfl
    rw [List.getD_eq_getElem?_getD, List.getElem?_take, if_pos (by decide)] at this
    rw [List.getD_eq_getElem?_getD]
    exact this
  rw [seek_read_getD _ _ _ _ (by decide)] at g1 g2
  rw [g1] at g2
  exact absurd g2 (by decide)

theorem chain_place (l : List Member) :
    ∀ d, d + data_sum l < 2 ^ 63 → chain_dblocks d l = some (place d l) := by
  induction l with
  | nil => intro d _; rfl
  | cons m l ih =>
    intro d h
    have hs : data_sum (m :: l) = m.dblock.size + data_sum l := by
      simp [data_sum]
    rw [hs] at h
    unfold chain_dblocks
    dsimp only
    have e : Block.end_ { m.dblock with pos := d } = d + m.dblock.size := by
      unfold Block.end_
      exact Nat.mod_eq_of_lt (by dsimp only; omega)
    rw [e, if_neg (by omega), ih _ (by omega)]
    rfl

theorem place_append (l1 l2 : List Member) :
    ∀ d, place d (l1 ++ l2) = place d l1 ++ place (d + data_sum l1) l2 := by
  induction l1 with
  | nil => intro d; simp [place, data_sum]
  | cons m l ih =>
    intro d
    have hs : data_sum (m :: l) = m.dblock.size + data_sum l := by
      simp [data_sum]
    rw [List.cons_append]
    simp only [place]
    rw [ih, hs, Nat.add_assoc]
    rfl

theorem place_shift (n d : Nat) (l : List Member) :
    ∀ c, place (c + d) (l.map (shift_mblock n)) = (place c l).map (shift_member n d) := by
  induction l with
  | nil => intro c; rfl
  | cons m l ih =>
    intro c
    simp only [List.map_cons, place]
    have := ih (c + m.dblock.size)
    have e : c + d + (shift_mblock n m).dblock.size = c + m.dblock.size + d := by
      simp only [shift_mblock]
      omega
    rw [e, this]
    rfl

theorem data_sum_append (l1 l2 : List Member) :
    data_sum (l1 ++ l2) = data_sum l1 + data_sum l2 := by
  simp [data_sum]

theorem data_sum_reverse (l : List Member) : data_sum l.reverse = data_sum l := by
  unfold data_sum
  rw [List.map_reverse, List.sum_reverse]

theorem data_sum_shift (n : Nat) (l : List Member) :
    data_sum (l.map (shift_mblock n)) = data_sum l := by
  unfold data_sum
  rw [List.map_map]
  rfl

theorem data_sum_same (l1 l : List Member) (h : SameBlocks l1 l) : data_sum l1 = data_sum l := by
  induction h with
  | nil => rfl
  | cons hm _ ih =>
    simp only [data_sum, List.map_cons, List.sum_cons] at ih ⊢
    rw [hm.2.1, ih]

theorem place_last_end (l : List Member) :
    ∀ d m, d + data_sum l < 2 ^ 64 → (place d l).getLast? = some m →
      m.dblock.end_ = d + data_sum l := by
  induction l with
  | nil => intro d m _ h; simp [place] at h
  | cons a l ih =>
    intro d m hlt h
    have hs : data_sum (a :: l) = a.dblock.size + data_sum l := by
      simp [data_sum]
    rw [hs] at hlt ⊢
    cases l with
    | nil =>
      simp only [place, List.getLast?_singleton, Option.some.injEq] at h
      subst h
      unfold Block.end_
      simp only [data_sum, List.map_nil, List.sum_nil, Nat.add_zero]
      exact Nat.mod_eq_of_lt (by simp [data_sum] at hlt; omega)
    | cons b l2 =>
      simp only [place] at h
      rw [List.getLast?_cons_cons] at h
      have := ih (d + a.dblock.size) m (by omega) (by simpa [place] using h)
      omega

end Lzip_index
end Lzip

namespace Lzip
namespace Lzip_index

theorem success_cdata (file : List Nat) (x2 : Lzip_index) (e : Nat) (mv1 : List Member)
    (he : e < 2 ^ 64) (hrun : DirectRun file e x2.member_vector 0) (hne : x2.member_vector ≠ [])
    (hch : chain_dblocks 0 x2.member_vector.reverse = some mv1) :
    cdata_size { x2 with member_vector := mv1 } = e := by
  have hsame := chain_dblocks_same _ _ _ hch
  have htl := sameBlocks_tiled _ _ hsame _ _ (directRun_tiled file _ e 0 he hrun)
  have hlen1 : mv1.length = x2.member_vector.length := by
    rw [sameBlocks_length _ _ hsame, List.length_reverse]
  have hne1 : mv1 ≠ [] := by
    intro h0
    rw [h0] at hlen1
    exact hne (List.length_eq_zero.1 hlen1.symm)
  unfold cdata_size
  dsimp only
  cases hl : mv1.getLast? with
  | none => exact absurd (List.getLast?_eq_none_iff.1 hl) hne1
  | some m => exact tiled_last _ _ _ m htl hl

theorem finish_ok (x : Lzip_index) (l : List Member) (hr : x.retval_ = 0)
    (hne : x.member_vector ≠ [])
    (hd : (x.member_vector.reverse.headD (Member.new 0 0 0 0 0)).dblock.pos = 0)
    (hch : chain_dblocks 0 x.member_vector.reverse = some l) :
    finish (0, x, false) = { x with member_vector := l } := by
  unfold finish
  dsimp only
  rw [if_neg (by simp), if_neg (by simp [hr, hne]), hd, hch]

end Lzip_index

/-- C5: catenation of indexes.  Let `a` and `b` be files that the indexer
accepts and that consist only of members (the member blocks of each index reach
the end of the file: no trailing data, no databox), with `|a| + |b| < 2^63` and
the data sizes of all their members adding up to less than 2^63.  Then indexing
`a ++ b` succeeds and gives `members(a) + members(b)` entries: the members of
`a` unchanged, followed by the members of `b` with every member block moved by
`|a|` and every data block moved by the uncompressed size of `a`. -/
theorem index_catenation (a b : List Nat) (xa xb : Lzip_index)
    (ha : Lzip_index.new a = some xa) (hra : xa.retval_ = 0) (hca : xa.cdata_size = a.length)
    (hb : Lzip_index.new b = some xb) (hrb : xb.retval_ = 0) (hcb : xb.cdata_size = b.length)
    (hlen : a.length + b.length < 2 ^ 63)
    (hdata : Lzip_index.data_sum xa.member_vector + Lzip_index.data_sum xb.member_vector
      < 2 ^ 63) :
    ∃ xab, Lzip_index.new (a ++ b) = some xab ∧ xab.retval_ = 0 ∧
      xab.members = xa.members + xb.members ∧
      xab.member_vector =
        xa.member_vector ++ xb.member_vector.map (shift_member a.length xa.udata_size) := by
  have hca0 := Lzip_index.new_success_header a xa ha hra
  obtain ⟨_, h36a, x2a, ea, mv1a, hea, hruna, hnea, hcha, rfl⟩ :=
    Lzip_index.new_success a xa ha hra
  obtain ⟨_, h36b, x2b, eb, mv1b, heb, hrunb, hneb, hchb, rfl⟩ :=
    Lzip_index.new_success b xb hb hrb
  rw [Lzip_index.success_cdata a x2a ea mv1a (by omega) hruna hnea hcha] at hca
  rw [Lzip_index.success_cdata b x2b eb mv1b (by omega) hrunb hneb hchb] at hcb
  subst hca
  subst hcb
  dsimp only at hdata ⊢
  have hmm : min_member_size = 36 := rfl
  have h6 : Lzip_header.size = 6 := rfl
  -- the data blocks of each index are laid out by `place`
  have hsa : Lzip_index.data_sum mv1a = Lzip_index.data_sum x2a.member_vector := by
    rw [Lzip_index.data_sum_same _ _ (Lzip_index.chain_dblocks_same _ _ _ hcha),
      Lzip_index.data_sum_reverse]
  have hsb : Lzip_index.data_sum mv1b = Lzip_index.data_sum x2b.member_vector := by
    rw [Lzip_index.data_sum_same _ _ (Lzip_index.chain_dblocks_same _ _ _ hchb),
      Lzip_index.data_sum_reverse]
  rw [hsa, hsb] at hdata
  have hpa : mv1a = Lzip_index.place 0 x2a.member_vector.reverse := by
    have := Lzip_index.chain_place x2a.member_vector.reverse 0
      (by rw [Lzip_index.data_sum_reverse]; omega)
    rw [hcha] at this
    exact Option.some.inj this
  have hpb : mv1b = Lzip_index.place 0 x2b.member_vector.reverse := by
    have := Lzip_index.chain_place x2b.member_vector.reverse 0
      (by rw [Lzip_index.data_sum_reverse]; omega)
    rw [hchb] at this
    exact Option.some.inj this
  have hne1a : mv1a ≠ [] := by
    intro h0
    have := Lzip_index.sameBlocks_length _ _ (Lzip_index.chain_dblocks_same _ _ _ hcha)
    rw [h0, List.length_reverse] at this
    exact hnea (List.length_eq_zero.1 this.symm)
  have hua : Lzip_index.udata_size { x2a with member_vector := mv1a } =
      Lzip_index.data_sum x2a.member_vector := by
    unfold Lzip_index.udata_size
    dsimp only
    cases hl : mv1a.getLast? with
    | none => exact absurd (List.getLast?_eq_none_iff.1 hl) hne1a
    | some m =>
      rw [hpa] at hl
      have := Lzip_index.place_last_end _ 0 m (by rw [Lzip_index.data_sum_reverse]; omega) hl
      rw [Lzip_index.data_sum_reverse, Nat.zero_add] at this
      exact this
  -- the run over `a ++ b`
  have hrun1 := Lzip_index.directRun_append_right a b _ _ 0 (by omega) hrunb
  have hrun2 := Lzip_index.directRun_append_left a b _ _ _ hruna
  rw [Nat.add_zero] at hrun1
  have hrun := Lzip_index.directRun_append _ _ _ _ _ _ hrun1 hrun2
  have hnab : x2b.member_vector.map (Lzip_index.shift_mblock a.length) ++ x2a.member_vector ≠ [] := by
    simp [hnea]
  have hmember : ∃ t hd, Lzip_index.member_at (a ++ b) (a.length + b.length) = some (t, hd) := by
    cases hl : x2b.member_vector.map (Lzip_index.shift_mblock a.length) ++ x2a.member_vector with
    | nil => exact absurd hl hnab
    | cons m l =>
      rw [hl] at hrun
      obtain ⟨t, hd, hm, _, _⟩ := hrun
      exact ⟨t, hd, hm⟩
  obtain ⟨t, hd, hm⟩ := hmember
  have hag := Lzip_index.agree_append a b
  have hfh := Lzip_index.read_first_header_congr _ _ _ hag (by omega)
  have hl : (a ++ b).length = a.length + b.length := List.length_append a b
  have hr0 := Lzip_index.read_first_header_true a hca0
  have hmv0 := (Lzip_index.read_first_header_fields a).1
  have hnew : Lzip_index.new (a ++ b) = some (Lzip_index.finish (0,
      Lzip_index.push_all (Lzip_index.read_first_header a).2
        (x2b.member_vector.map (Lzip_index.shift_mblock a.length) ++ x2a.member_vector),
      false)) := by
    rw [Lzip_index.new_eq _ (by omega) (by omega) (by rw [hfh]; exact hca0), hl,
      Lzip_index.skip_box_of_member _ _ _ t hd hm]
    dsimp only
    have e1 : (if ((a.length + b.length : Nat) : Int) ≥ 0 then
        ((a.length + b.length : Nat) : Int).toNat else 0) = a.length + b.length := by
      rw [if_pos (by omega)]
      exact Int.toNat_ofNat _
    rw [e1, hfh, Lzip_index.index_loop_complete _ _ _ _ _ hrun (by omega)]
    rfl
  have hpf := Lzip_index.push_all_fields
    (x2b.member_vector.map (Lzip_index.shift_mblock a.length) ++ x2a.member_vector)
    (Lzip_index.read_first_header a).2
  rw [hmv0, List.nil_append, hr0] at hpf
  have hrev : (x2b.member_vector.map (Lzip_index.shift_mblock a.length) ++
      x2a.member_vector).reverse =
      x2a.member_vector.reverse ++
        x2b.member_vector.reverse.map (Lzip_index.shift_mblock a.length) := by
    rw [List.reverse_append, List.map_reverse]
  have hsum : Lzip_index.data_sum (x2a.member_vector.reverse ++
      x2b.member_vector.reverse.map (Lzip_index.shift_mblock a.length)) =
      Lzip_index.data_sum x2a.member_vector + Lzip_index.data_sum x2b.member_vector := by
    rw [Lzip_index.data_sum_append, Lzip_index.data_sum_shift, Lzip_index.data_sum_reverse,
      Lzip_index.data_sum_reverse]
  have hchain := Lzip_index.chain_place (x2a.member_vector.reverse ++
      x2b.member_vector.reverse.map (Lzip_index.shift_mblock a.length)) 0
      (by rw [hsum]; omega)
  have hplace : Lzip_index.place 0 (x2a.member_vector.reverse ++
      x2b.member_vector.reverse.map (Lzip_index.shift_mblock a.length)) =
      mv1a ++ mv1b.map (shift_member a.length (Lzip_index.data_sum x2a.member_vector)) := by
    rw [Lzip_index.place_append, Lzip_index.data_sum_reverse, Lzip_index.place_shift,
      ← hpa, ← hpb]
  have hfin := Lzip_index.finish_ok
    (Lzip_index.push_all (Lzip_index.read_first_header a).2
      (x2b.member_vector.map (Lzip_index.shift_mblock a.length) ++ x2a.member_vector))
    _ hpf.2 (by rw [hpf.1]; exact hnab)
    (by rw [hpf.1]; exact Lzip_index.directRun_dblock_head (a ++ b) _ _ 0 (by omega) hrun)
    (by rw [hpf.1, hrev]; exact hchain)
  rw [hfin, hplace] at hnew
  refine ⟨_, hnew, hpf.2, ?_, ?_⟩
  · simp [Lzip_index.members]
  · rw [hua]

end Lzip

namespace Lzip

theorem index_blocks_contiguous_witness :
    (Lzip_index.new two_members = some two_members_index ∧ two_members_index.retval_ = 0) ∧
    (two_members_index.member_vector ≠ [] ∧ (two_members_index.mblock 0).pos = 0 ∧
      (two_members_index.dblock 0).pos = 0 ∧
      (∀ i, i + 1 < two_members_index.members →
        (two_members_index.mblock i).end_ = (two_members_index.mblock (i + 1)).pos ∧
        (two_members_index.dblock i).end_ = (two_members_index.dblock (i + 1)).pos) ∧
      (two_members_index.member_vector.map (fun m => m.mblock.size)).sum =
        two_members_index.cdata_size ∧
      two_members_index.cdata_size ≤ two_members.length) :=
  ⟨⟨by decide, by decide⟩,
    index_blocks_contiguous two_members two_members_index (by decide) (by decide)⟩

theorem index_databox_transparent_witness :
    (Lzip_index.new eoa_member = some one_member_index ∧ one_member_index.retval_ = 0 ∧
      (eoa_member ++ databox_wrap [1, 2, 3]).length < 2 ^ 63) ∧
    Lzip_index.new (eoa_member ++ databox_wrap [1, 2, 3]) = some one_member_index :=
  ⟨⟨by decide, by decide, by decide⟩,
    index_databox_transparent eoa_member [1, 2, 3] one_member_index (by decide) (by decide)
      (by decide)⟩

theorem index_catenation_witness :
    (Lzip_index.new eoa_member = some one_member_index ∧ one_member_index.retval_ = 0 ∧
      one_member_index.cdata_size = eoa_member.length ∧
      eoa_member.length + eoa_member.length < 2 ^ 63 ∧
      Lzip_index.data_sum one_member_index.member_vector +
        Lzip_index.data_sum one_member_index.member_vector < 2 ^ 63) ∧
    ∃ xab, Lzip_index.new (eoa_member ++ eoa_member) = some xab ∧ xab.retval_ = 0 ∧
      xab.members = one_member_index.members + one_member_index.members ∧
      xab.member_vector = one_member_index.member_vector ++
        one_member_index.member_vector.map
          (shift_member eoa_member.length one_member_index.udata_size) :=
  ⟨⟨by decide, by decide, by decide, by decide, by decide⟩,
    index_catenation eoa_member eoa_member one_member_index one_member_index (by decide)
      (by decide) (by decide) (by decide) (by decide) (by decide) (by decide) (by decide)⟩

theorem index_members_real_witness :
    (Lzip_index.new member_with_tdata = some one_member_index ∧ one_member_index.retval_ = 0 ∧
      0 < one_member_index.members) ∧
    ((seek_read member_with_tdata Lzip_header.size (one_member_index.mblock 0).pos).length
        = Lzip_header.size ∧
      (⟨seek_read member_with_tdata Lzip_header.size (one_member_index.mblock 0).pos⟩ :
        Lzip_header).check = true ∧
      (⟨seek_read member_with_tdata Lzip_trailer.size
          ((one_member_index.mblock 0).end_ - Lzip_trailer.size)⟩ :
        Lzip_trailer).check_consistency = true ∧
      (⟨seek_read member_with_tdata Lzip_trailer.size
          ((one_member_index.mblock 0).end_ - Lzip_trailer.size)⟩ :
        Lzip_trailer).member_size = (one_member_index.mblock 0).size ∧
      (⟨seek_read member_with_tdata Lzip_trailer.size
          ((one_member_index.mblock 0).end_ - Lzip_trailer.size)⟩ :
        Lzip_trailer).data_size = (one_member_index.dblock 0).size) :=
  ⟨⟨by decide, by decide, by decide⟩,
    have h := (index_members_real member_with_tdata).1 one_member_index (by decide) (by decide)
      0 (by decide)
    ⟨h.1, h.2.2.2.2.1, h.2.2.2.2.2.2.1, h.2.2.2.2.2.2.2.1, h.2.2.2.2.2.2.2.2⟩⟩

end Lzip

/-! ## Extended records: `format_block` and `parse` -/

namespace Lzip

theorem print_decimal_length (k n : Nat) : (print_decimal k n).length = k := by
  induction k generalizing n with
  | zero => rfl
  | succ k ih => simp [print_decimal, ih]

theorem print_decimal_digits (k n : Nat) : AllDigits (print_decimal k n) := by
  induction k generalizing n with
  | zero => intro c hc; simp [print_decimal] at hc
  | succ k ih =>
    intro c hc
    simp only [print_decimal, List.mem_append, List.mem_singleton] at hc
    rcases hc with hc | hc
    · exact ih _ c hc
    · subst hc; omega

theorem dval_append (a b : List Nat) (r : Nat) : dval (a ++ b) r = dval b (dval a r) := by
  simp [dval, List.foldl_append]

theorem dval_print_decimal (k n r : Nat) :
    dval (print_decimal k n) r = r * 10 ^ k + n % 10 ^ k := by
  induction k generalizing n r with
  | zero => simp [print_decimal, dval, Nat.mod_one]
  | succ k ih =>
    rw [print_decimal, dval_append, ih]
    simp only [dval, List.foldl_cons, List.foldl_nil]
    have h1 : n % 10 ^ (k + 1) = (n / 10 % 10 ^ k) * 10 + n % 10 := by
      rw [pow_succ, mul_comm (10 ^ k) 10, Nat.mod_mul]
      omega
    rw [h1, pow_succ]
    have : n % 10 + 48 - 48 = n % 10 := by omega
    rw [this]
    ring

theorem dval_mono (ds : List Nat) (r : Nat) : r ≤ dval ds r := by
  induction ds generalizing r with
  | nil => exact le_refl _
  | cons c ds ih =>
    have := ih (r * 10 + (c - 0x30))
    simp only [dval, List.foldl_cons] at this ⊢
    omega

theorem decimal_digits_loop_spec (fuel value digits : Nat) (h : value ≤ fuel) :
    digits ≤ decimal_digits_loop fuel value digits ∧
      value < 10 ^ (decimal_digits_loop fuel value digits + 1 - digits) := by
  induction fuel generalizing value digits with
  | zero =>
    have : value = 0 := by omega
    subst this
    simp [decimal_digits_loop]
  | succ fuel ih =>
    rw [decimal_digits_loop]
    by_cases c : value ≥ 10
    · rw [if_pos c]
      have := ih (value / 10) (digits + 1) (by omega)
      refine ⟨by omega, ?_⟩
      obtain ⟨h1, h2⟩ := this
      generalize decimal_digits_loop fuel (value / 10) (digits + 1) = m at h1 h2 ⊢
      have e : m + 1 - digits = (m + 1 - (digits + 1)) + 1 := by omega
      rw [e, pow_succ]
      omega
    · rw [if_neg c]
      simp
      omega

theorem decimal_digits_pos (n : Nat) : 1 ≤ decimal_digits n :=
  (decimal_digits_loop_spec n n 1 (le_refl _)).1

theorem lt_pow_decimal_digits (n : Nat) : n < 10 ^ decimal_digits n := by
  have := (decimal_digits_loop_spec n n 1 (le_refl _)).2
  simpa [decimal_digits] using this

theorem isdigit_iff (c : Nat) : isdigit c = true ↔ 0x30 ≤ c ∧ c ≤ 0x39 := by
  simp [isdigit]

theorem isspace_digit (c : Nat) (h : 0x30 ≤ c ∧ c ≤ 0x39) : isspace c = false := by
  simp [isspace]
  omega

theorem getD_drop_eq (buf : List Nat) (off j : Nat) :
    buf.getD (off + j) 0 = (buf.drop off).getD j 0 := by
  simp [List.getD_eq_getElem?_getD, List.getElem?_drop]

theorem getD_of_drop (buf : List Nat) (off : Nat) (a b : List Nat) (j : Nat)
    (h : buf.drop off = a ++ b) (hj : j < a.length) :
    buf.getD (off + j) 0 = a.getD j 0 := by
  rw [getD_drop_eq, h]
  simp [List.getD_eq_getElem?_getD, List.getElem?_append_left hj]

theorem getD_of_drop_right (buf : List Nat) (off : Nat) (a b : List Nat) (j : Nat)
    (h : buf.drop off = a ++ b) :
    buf.getD (off + (a.length + j)) 0 = b.getD j 0 := by
  rw [getD_drop_eq, h]
  simp [List.getD_eq_getElem?_getD, List.getElem?_append_right]

theorem drop_of_drop (buf : List Nat) (off : Nat) (a b : List Nat)
    (h : buf.drop off = a ++ b) : buf.drop (off + a.length) = b := by
  rw [← List.drop_drop, h]
  simp

/-- The digit loop of `parse_decimal` reads a run of digits that ends at
`size` or before a byte that is not a digit. -/
theorem parse_digits_spec (buf : List Nat) (off size limit : Nat) (ds : List Nat) :
    ∀ (fuel i r : Nat) (t : List Nat), buf.drop (off + i) = ds ++ t → AllDigits ds →
      i + ds.length ≤ size → (i + ds.length < size → isdigit (t.getD 0 0) = false) →
      ds.length ≤ fuel → dval ds r ≤ limit → limit ≤ LLONG_MAX →
      parse_digits buf off size limit fuel i r = some (dval ds r, i + ds.length) := by
  induction ds with
  | nil =>
    intro fuel i r t h _ hs hnd _ _ _
    cases fuel with
    | zero => simp [parse_digits, dval]
    | succ fuel =>
      rw [parse_digits]
      have : ¬ (i < size ∧ isdigit (buf.getD (off + i) 0) = true) := by
        rintro ⟨h1, h2⟩
        have := hnd (by simpa using h1)
        have e : buf.getD (off + i) 0 = t.getD 0 0 := by
          have := getD_of_drop_right buf (off + i) [] t 0 (by simpa using h)
          simpa using this
        rw [e, this] at h2
        exact Bool.false_ne_true h2
      rw [if_neg this]
      simp [dval]
  | cons c ds ih =>
    intro fuel i r t h hd hs hnd hf hv hl
    cases fuel with
    | zero => simp at hf
    | succ fuel =>
      rw [parse_digits]
      have hc : buf.getD (off + i) 0 = c := by
        have := getD_of_drop buf (off + i) (c :: ds) t 0 h (by simp)
        simpa using this
      have hcd := hd c (by simp)
      have hlen : i < size := by simp at hs; omega
      rw [if_pos ⟨hlen, by rw [hc]; exact (isdigit_iff c).2 hcd⟩]
      have hv2 : dval ds (r * 10 + (c - 0x30)) ≤ limit := by simpa [dval] using hv
      have hm := dval_mono ds (r * 10 + (c - 0x30))
      have hL : LLONG_MAX = 2 ^ 63 - 1 := rfl
      have e1 : ((r * 10) % 2 ^ 64 + (buf.getD (off + i) 0 - 0x30)) % 2 ^ 64
          = r * 10 + (c - 0x30) := by
        rw [hc]
        omega
      simp only [e1]
      rw [if_neg (by omega)]
      have h2 : buf.drop (off + (i + 1)) = ds ++ t := by
        have := drop_of_drop buf (off + i) [c] (ds ++ t) (by simpa using h)
        simpa [Nat.add_assoc] using this
      rw [ih fuel (i + 1) (r * 10 + (c - 0x30)) t h2 (fun x hx => hd x (by simp [hx]))
        (by simp at hs; omega) (by intro h3; apply hnd; simp; omega)
        (by simpa using hf) hv2 hl]
      simp [dval, Nat.add_assoc, Nat.add_comm 1]

/-- `parse_decimal` reads back a number printed with `print_decimal`. -/
theorem parse_decimal_print (buf : List Nat) (off size limit k n : Nat) (t : List Nat)
    (h : buf.drop off = print_decimal k n ++ t) (hk : 1 ≤ k) (hn : n < 10 ^ k)
    (hs : k ≤ size) (hnd : k < size → isdigit (t.getD 0 0) = false)
    (hv : n ≤ limit) (hl : limit ≤ LLONG_MAX) :
    parse_decimal buf off size limit = ((n : Int), off + k) := by
  have hlen := print_decimal_length k n
  have hdig := print_decimal_digits k n
  have h0 : buf.getD (off + 0) 0 = (print_decimal k n).getD 0 0 :=
    getD_of_drop buf off _ t 0 h (by omega)
  have hfirst : 0x30 ≤ (print_decimal k n).getD 0 0 ∧ (print_decimal k n).getD 0 0 ≤ 0x39 := by
    apply hdig
    rw [List.getD_eq_getElem _ _ (by omega)]
    exact List.getElem_mem _
  have hskip : skip_space buf off size size 0 = 0 := by
    cases size with
    | zero => rfl
    | succ s =>
      rw [skip_space, if_neg]
      rw [h0, isspace_digit _ hfirst]
      simp
  unfold parse_decimal
  simp only [hskip]
  rw [h0, (isdigit_iff _).2 hfirst]
  have := parse_digits_spec buf off size limit (print_decimal k n) size 0 0 t (by simpa using h)
    hdig (by omega) (by intro h1; apply hnd; omega) (by omega)
    (by rw [dval_print_decimal, Nat.mod_eq_of_lt hn]; omega) hl
  rw [this, dval_print_decimal, Nat.mod_eq_of_lt hn, hlen]
  simp

end Lzip

namespace Lzip
open Extended

theorem print_size_keyword_length (recsize : Nat) (kw : List Nat) :
    (print_size_keyword recsize kw).length = decimal_digits recsize + 1 + kw.length + 1 := by
  simp [print_size_keyword, print_decimal_length]
  omega

/-- What the loop of `Extended::parse` finds at a record printed by
`print_record`: its size, the blank after it, its final newline, and the
keyword, `=` and value in between. -/
theorem parse_step_header (buf : List Nat) (edsize pos recsize : Nat) (kw val t : List Nat)
    (h : buf.drop pos = (print_size_keyword recsize kw ++ val ++ [0x0A]) ++ t)
    (hl : (print_size_keyword recsize kw ++ val ++ [0x0A]).length = recsize)
    (he : pos + recsize ≤ edsize) (hmax : edsize ≤ LLONG_MAX) :
    parse_decimal buf pos (edsize - pos) (edsize - pos)
        = ((recsize : Int), pos + decimal_digits recsize) ∧
      buf.getD (pos + decimal_digits recsize) 0 = 0x20 ∧
      buf.getD (pos + recsize - 1) 0 = 0x0A ∧
      buf.drop (pos + decimal_digits recsize + 1) = kw ++ 0x3D :: (val ++ 0x0A :: t) ∧
      recsize = decimal_digits recsize + 1 + kw.length + 1 + val.length + 1 := by
  have hlen : recsize = decimal_digits recsize + 1 + kw.length + 1 + val.length + 1 := by
    rw [List.length_append, List.length_append, print_size_keyword_length] at hl
    simp at hl
    omega
  have h' : buf.drop pos = print_decimal (decimal_digits recsize) recsize ++
      (0x20 :: (kw ++ 0x3D :: (val ++ 0x0A :: t))) := by
    rw [h]; simp [print_size_keyword]
  have hL : LLONG_MAX = 2 ^ 63 - 1 := rfl
  refine ⟨?_, ?_, ?_, ?_, hlen⟩
  · exact parse_decimal_print buf pos (edsize - pos) (edsize - pos) _ recsize _ h'
      (decimal_digits_pos _) (lt_pow_decimal_digits _) (by omega) (by intro _; rfl)
      (by omega) (by omega)
  · have := getD_of_drop_right buf pos _ _ 0 h'
    rw [print_decimal_length] at this
    simpa using this
  · have e : buf.drop pos = (print_size_keyword recsize kw ++ val) ++ (0x0A :: t) := by
      rw [h]; simp
    have := getD_of_drop_right buf pos _ _ 0 e
    rw [List.length_append, print_size_keyword_length] at this
    have e2 : pos + recsize - 1 =
        pos + (decimal_digits recsize + 1 + kw.length + 1 + val.length + 0) := by omega
    rw [e2, this]
    rfl
  · have := drop_of_drop buf pos (print_decimal (decimal_digits recsize) recsize ++ [0x20])
      (kw ++ 0x3D :: (val ++ 0x0A :: t)) (by rw [h']; simp)
    rw [List.length_append, print_decimal_length] at this
    simpa [Nat.add_assoc] using this

theorem print_record_some (recsize : Nat) (kw val r : List Nat)
    (h : print_record recsize kw val = some r) :
    (recsize = 0 ∧ r = []) ∨
      (recsize ≠ 0 ∧ r = print_size_keyword recsize kw ++ val ++ [0x0A] ∧ r.length = recsize) := by
  unfold print_record at h
  by_cases c : recsize ≠ 0
  · rw [if_pos c] at h
    simp only at h
    by_cases c2 : (print_size_keyword recsize kw ++ val ++ [10]).length = recsize
    · rw [if_pos c2] at h
      simp at h
      right; subst h; exact ⟨c, by simp, by simpa using c2⟩
    · rw [if_neg c2] at h; simp at h
  · rw [if_neg c] at h
    simp at h c
    left; exact ⟨c, h⟩

theorem strip_slashes_id (buf : List Nat) (off len : Nat)
    (h : len > 1 → buf.getD (off + len - 1) 0 ≠ 0x2F) : strip_slashes buf off len = len := by
  cases len with
  | zero => rfl
  | succ n =>
    rw [strip_slashes, if_neg]
    rintro ⟨h1, h2⟩
    exact h h1 h2

theorem c_str_id (s : List Nat) (h : 0 ∉ s) : c_str s = s := by
  unfold c_str
  rw [List.takeWhile_eq_self_iff]
  intro c hc
  simp
  rintro rfl
  exact h hc

theorem remove_leading_dotslash_id (s : List Nat) (h0 : 0 ∉ s) (h1 : s.head? ≠ some 0x2F)
    (h2 : ¬ [0x2E, 0x2F] <+: s) : remove_leading_dotslash s = (s, []) := by
  unfold remove_leading_dotslash
  have hp : dotslash_loop s s.length 0 = 0 := by
    cases s with
    | nil => rfl
    | cons a s =>
      rw [List.length_cons, dotslash_loop, if_neg]
      simp at h1
      rintro (h | ⟨h3, h4⟩)
      · simp at h; exact h1 h
      · apply h2
        cases s with
        | nil => simp at h4
        | cons b s =>
          simp at h3 h4
          subst h3; subst h4
          exact ⟨s, rfl⟩
  simp only [hp]
  rw [if_neg]
  · simp
  · rintro ⟨h3, h4⟩
    exact h4 h3

end Lzip

namespace Lzip
open Extended

theorem starts_with_of_drop (buf : List Nat) (tail : Nat) (s r : List Nat)
    (h : buf.drop tail = s ++ r) : starts_with buf tail s = true := by
  simp [starts_with, h]

theorem starts_with_head_ne (buf : List Nat) (tail a b : Nat) (s r : List Nat)
    (h : buf.drop tail = a :: r) (hab : a ≠ b) : starts_with buf tail (b :: s) = false := by
  simp [starts_with, h, hab]

theorem rest_eq (pos recsize dd k : Nat) (h : recsize = dd + 1 + k + 1) :
    ((pos + recsize - 1 : Nat) : Int) - ((pos + dd + 1 : Nat) : Int) = (k : Int) := by
  omega

theorem parse_step_path (x : Extended) (buf : List Nat) (edsize pos recsize : Nat)
    (val t : List Nat)
    (h : buf.drop pos = (print_size_keyword recsize kw_path ++ val ++ [0x0A]) ++ t)
    (hl : (print_size_keyword recsize kw_path ++ val ++ [0x0A]).length = recsize)
    (he : pos + recsize ≤ edsize) (hmax : edsize ≤ LLONG_MAX)
    (hx : x.path_ = []) (hv : val ≠ []) (h0 : 0 ∉ val) (h1 : val.head? ≠ some 0x2F)
    (h2 : ¬ [0x2E, 0x2F] <+: val) (h3 : val.getLast? ≠ some 0x2F) :
    parse_step x buf edsize pos false
      = (true, pos + recsize, { x with path_ := val, removed_prefix := [] }) := by
  obtain ⟨e1, e2, e3, e4, e5⟩ := parse_step_header buf edsize pos recsize kw_path val t h hl he hmax
  have hk : kw_path.length = 4 := rfl
  rw [hk] at e5
  have hvl : 0 < val.length := List.length_pos.2 hv
  have hrest := rest_eq pos recsize (decimal_digits recsize) (4 + 1 + val.length) (by omega)
  have e6 : buf.drop (pos + decimal_digits recsize + 1 + 5) = val ++ 0x0A :: t := by
    have := drop_of_drop buf _ (kw_path ++ [0x3D]) (val ++ 0x0A :: t) (by rw [e4]; simp)
    simpa using this
  unfold parse_step
  simp only [e1, Int.toNat_ofNat]
  rw [if_neg (by rw [e2, e3]; simp; omega)]
  simp only [hrest]
  rw [if_pos ⟨by omega, starts_with_of_drop _ _ _ (val ++ 0x0A :: t) (by rw [e4]; simp)⟩]
  rw [if_neg (by simp [hx])]
  have e7 : ((4 + 1 + val.length : Nat) : Int) - 5 = (val.length : Int) := by omega
  rw [e7, Int.toNat_ofNat]
  have e8 : strip_slashes buf (pos + decimal_digits recsize + 1 + 5) val.length = val.length := by
    apply strip_slashes_id
    intro _
    have e : pos + decimal_digits recsize + 1 + 5 + val.length - 1
        = pos + decimal_digits recsize + 1 + 5 + (val.length - 1) := by omega
    rw [e, getD_of_drop buf _ val _ (val.length - 1) e6 (by omega)]
    intro hc
    apply h3
    rw [List.getLast?_eq_getElem?, ← hc, List.getD_eq_getElem?_getD,
      List.getElem?_eq_getElem (by omega)]
    simp
  rw [e8, e6, List.take_left, c_str_id val h0, remove_leading_dotslash_id val h0 h1 h2]

theorem parse_step_linkpath (x : Extended) (buf : List Nat) (edsize pos recsize : Nat)
    (val t : List Nat)
    (h : buf.drop pos = (print_size_keyword recsize kw_linkpath ++ val ++ [0x0A]) ++ t)
    (hl : (print_size_keyword recsize kw_linkpath ++ val ++ [0x0A]).length = recsize)
    (he : pos + recsize ≤ edsize) (hmax : edsize ≤ LLONG_MAX)
    (hx : x.linkpath_ = []) (hv : val ≠ [])
    (h3 : val.length > 1 → val.getLast? ≠ some 0x2F) :
    parse_step x buf edsize pos false = (true, pos + recsize, { x with linkpath_ := val }) := by
  obtain ⟨e1, e2, e3, e4, e5⟩ :=
    parse_step_header buf edsize pos recsize kw_linkpath val t h hl he hmax
  have hk : kw_linkpath.length = 8 := rfl
  rw [hk] at e5
  have hvl : 0 < val.length := List.length_pos.2 hv
  have hrest := rest_eq pos recsize (decimal_digits recsize) (8 + 1 + val.length) (by omega)
  have e6 : buf.drop (pos + decimal_digits recsize + 1 + 9) = val ++ 0x0A :: t := by
    have := drop_of_drop buf _ (kw_linkpath ++ [0x3D]) (val ++ 0x0A :: t) (by rw [e4]; simp)
    simpa using this
  have e4' : buf.drop (pos + decimal_digits recsize + 1)
      = 0x6C :: (kw_linkpath.tail ++ 0x3D :: (val ++ 0x0A :: t)) := by rw [e4]; rfl
  unfold parse_step
  simp only [e1, Int.toNat_ofNat]
  rw [if_neg (by rw [e2, e3]; simp; omega)]
  simp only [hrest]
  rw [if_neg (by rw [show kw_path ++ [0x3D] = 0x70 :: (kw_path.tail ++ [0x3D]) from rfl,
    starts_with_head_ne _ _ _ _ _ _ e4' (by decide)]; simp)]
  rw [if_pos ⟨by omega, starts_with_of_drop _ _ _ (val ++ 0x0A :: t) (by rw [e4]; simp)⟩]
  rw [if_neg (by simp [hx])]
  have e7 : ((8 + 1 + val.length : Nat) : Int) - 9 = (val.length : Int) := by omega
  rw [e7, Int.toNat_ofNat]
  have e8 : strip_slashes buf (pos + decimal_digits recsize + 1 + 9) val.length = val.length := by
    apply strip_slashes_id
    intro hgt
    have e : pos + decimal_digits recsize + 1 + 9 + val.length - 1
        = pos + decimal_digits recsize + 1 + 9 + (val.length - 1) := by omega
    rw [e, getD_of_drop buf _ val _ (val.length - 1) e6 (by omega)]
    intro hc
    apply h3 hgt
    rw [List.getLast?_eq_getElem?, ← hc, List.getD_eq_getElem?_getD,
      List.getElem?_eq_getElem (by omega)]
    simp
  rw [e8, e6, List.take_left]

end Lzip

namespace Lzip
open Extended

theorem parse_decimal_value (buf : List Nat) (off limit v : Nat) (t : List Nat)
    (h : buf.drop off = print_decimal (decimal_digits v) v ++ t)
    (hv : v ≤ limit) (hl : limit ≤ LLONG_MAX) :
    parse_decimal buf off (decimal_digits v) limit = ((v : Int), off + decimal_digits v) :=
  parse_decimal_print buf off _ limit _ v t h (decimal_digits_pos v) (lt_pow_decimal_digits v)
    (le_refl _) (fun hlt => absurd hlt (lt_irrefl _)) hv hl

theorem parse_step_size (x : Extended) (buf : List Nat) (edsize pos recsize v : Nat)
    (t : List Nat)
    (h : buf.drop pos = (print_size_keyword recsize kw_size ++
      print_decimal (decimal_digits v) v ++ [0x0A]) ++ t)
    (hl : (print_size_keyword recsize kw_size ++
      print_decimal (decimal_digits v) v ++ [0x0A]).length = recsize)
    (he : pos + recsize ≤ edsize) (hmax : edsize ≤ LLONG_MAX)
    (hx : x.file_size_ = 0) (hv1 : 2 ^ 33 ≤ v) (hv2 : v ≤ max_file_size) :
    parse_step x buf edsize pos false
      = (true, pos + recsize, { x with file_size_ := (v : Int) }) := by
  obtain ⟨e1, e2, e3, e4, e5⟩ :=
    parse_step_header buf edsize pos recsize kw_size _ t h hl he hmax
  have hk : kw_size.length = 4 := rfl
  rw [hk, print_decimal_length] at e5
  have hvl := decimal_digits_pos v
  have hrest := rest_eq pos recsize (decimal_digits recsize) (4 + 1 + decimal_digits v)
    (by omega)
  have e6 : buf.drop (pos + decimal_digits recsize + 1 + 5)
      = print_decimal (decimal_digits v) v ++ 0x0A :: t := by
    have := drop_of_drop buf _ (kw_size ++ [0x3D]) (print_decimal (decimal_digits v) v ++ 0x0A :: t)
      (by rw [e4]; simp)
    simpa using this
  have e4' : buf.drop (pos + decimal_digits recsize + 1)
      = 0x73 :: (kw_size.tail ++ 0x3D :: (print_decimal (decimal_digits v) v ++ 0x0A :: t)) := by
    rw [e4]; rfl
  unfold parse_step
  simp only [e1, Int.toNat_ofNat]
  rw [if_neg (by rw [e2, e3]; simp; omega)]
  simp only [hrest]
  rw [if_neg (by rw [show kw_path ++ [0x3D] = 0x70 :: (kw_path.tail ++ [0x3D]) from rfl,
    starts_with_head_ne _ _ _ _ _ _ e4' (by decide)]; simp)]
  rw [if_neg (by rw [show kw_linkpath ++ [0x3D] = 0x6C :: (kw_linkpath.tail ++ [0x3D]) from rfl,
    starts_with_head_ne _ _ _ _ _ _ e4' (by decide)]; simp)]
  rw [if_pos ⟨by omega, starts_with_of_drop _ _ _
    (print_decimal (decimal_digits v) v ++ 0x0A :: t) (by rw [e4]; simp)⟩]
  rw [if_neg (by simp [hx])]
  have e7 : ((4 + 1 + decimal_digits v : Nat) : Int) - 5 = (decimal_digits v : Int) := by omega
  rw [e7, Int.toNat_ofNat, parse_decimal_value buf _ max_file_size v _ e6 hv2 (by decide)]
  rw [if_neg]
  have : ¬ ((v : Int) < 2 ^ 33) := by
    have : (2 ^ 33 : Int) = ((2 ^ 33 : Nat) : Int) := by norm_num
    rw [this]; omega
  simp only [this, false_or, ne_eq, not_not]
  omega

theorem parse_step_uid (x : Extended) (buf : List Nat) (edsize pos recsize v : Nat)
    (t : List Nat)
    (h : buf.drop pos = (print_size_keyword recsize kw_uid ++
      print_decimal (decimal_digits v) v ++ [0x0A]) ++ t)
    (hl : (print_size_keyword recsize kw_uid ++
      print_decimal (decimal_digits v) v ++ [0x0A]).length = recsize)
    (he : pos + recsize ≤ edsize) (hmax : edsize ≤ LLONG_MAX)
    (hx : x.uid_ < 0) (hv1 : 2 ^ 21 ≤ v) (hv2 : v ≤ LLONG_MAX) :
    parse_step x buf edsize pos false
      = (true, pos + recsize, { x with uid_ := (v : Int) }) := by
  obtain ⟨e1, e2, e3, e4, e5⟩ :=
    parse_step_header buf edsize pos recsize kw_uid _ t h hl he hmax
  have hk : kw_uid.length = 3 := rfl
  rw [hk, print_decimal_length] at e5
  have hvl := decimal_digits_pos v
  have hrest := rest_eq pos recsize (decimal_digits recsize) (3 + 1 + decimal_digits v)
    (by omega)
  have e6 : buf.drop (pos + decimal_digits recsize + 1 + 4)
      = print_decimal (decimal_digits v) v ++ 0x0A :: t := by
    have := drop_of_drop buf _ (kw_uid ++ [0x3D]) (print_decimal (decimal_digits v) v ++ 0x0A :: t)
      (by rw [e4]; simp)
    simpa using this
  have e4' : buf.drop (pos + decimal_digits recsize + 1)
      = 0x75 :: (kw_uid.tail ++ 0x3D :: (print_decimal (decimal_digits v) v ++ 0x0A :: t)) := by
    rw [e4]; rfl
  unfold parse_step
  simp only [e1, Int.toNat_ofNat]
  rw [if_neg (by rw [e2, e3]; simp; omega)]
  simp only [hrest]
  rw [if_neg (by rw [show kw_path ++ [0x3D] = 0x70 :: (kw_path.tail ++ [0x3D]) from rfl,
    starts_with_head_ne _ _ _ _ _ _ e4' (by decide)]; simp)]
  rw [if_neg (by rw [show kw_linkpath ++ [0x3D] = 0x6C :: (kw_linkpath.tail ++ [0x3D]) from rfl,
    starts_with_head_ne _ _ _ _ _ _ e4' (by decide)]; simp)]
  rw [if_neg (by rw [show kw_size ++ [0x3D] = 0x73 :: (kw_size.tail ++ [0x3D]) from rfl,
    starts_with_head_ne _ _ _ _ _ _ e4' (by decide)]; simp)]
  rw [if_pos ⟨by omega, starts_with_of_drop _ _ _
    (print_decimal (decimal_digits v) v ++ 0x0A :: t) (by rw [e4]; simp)⟩]
  rw [if_neg (by simp; exact hx)]
  have e7 : ((3 + 1 + decimal_digits v : Nat) : Int) - 4 = (decimal_digits v : Int) := by omega
  rw [e7, Int.toNat_ofNat, parse_decimal_value buf _ LLONG_MAX v _ e6 hv2 (le_refl _)]
  rw [if_neg]
  have : ¬ ((v : Int) < 2 ^ 21) := by
    have : (2 ^ 21 : Int) = ((2 ^ 21 : Nat) : Int) := by norm_num
    rw [this]; omega
  simp only [this, false_or, ne_eq, not_not]
  omega

theorem parse_step_gid (x : Extended) (buf : List Nat) (edsize pos recsize v : Nat)
    (t : List Nat)
    (h : buf.drop pos = (print_size_keyword recsize kw_gid ++
      print_decimal (decimal_digits v) v ++ [0x0A]) ++ t)
    (hl : (print_size_keyword recsize kw_gid ++
      print_decimal (decimal_digits v) v ++ [0x0A]).length = recsize)
    (he : pos + recsize ≤ edsize) (hmax : edsize ≤ LLONG_MAX)
    (hx : x.gid_ < 0) (hv1 : 2 ^ 21 ≤ v) (hv2 : v ≤ LLONG_MAX) :
    parse_step x buf edsize pos false
      = (true, pos + recsize, { x with gid_ := (v : Int) }) := by
  obtain ⟨e1, e2, e3, e4, e5⟩ :=
    parse_step_header buf edsize pos recsize kw_gid _ t h hl he hmax
  have hk : kw_gid.length = 3 := rfl
  rw [hk, print_decimal_length] at e5
  have hvl := decimal_digits_pos v
  have hrest := rest_eq pos recsize (decimal_digits recsize) (3 + 1 + decimal_digits v)
    (by omega)
  have e6 : buf.drop (pos + decimal_digits recsize + 1 + 4)
      = print_decimal (decimal_digits v) v ++ 0x0A :: t := by
    have := drop_of_drop buf _ (kw_gid ++ [0x3D]) (print_decimal (decimal_digits v) v ++ 0x0A :: t)
      (by rw [e4]; simp)
    simpa using this
  have e4' : buf.drop (pos + decimal_digits recsize + 1)
      = 0x67 :: (kw_gid.tail ++ 0x3D :: (print_decimal (decimal_digits v) v ++ 0x0A :: t)) := by
    rw [e4]; rfl
  unfold parse_step
  simp only [e1, Int.toNat_ofNat]
  rw [if_neg (by rw [e2, e3]; simp; omega)]
  simp only [hrest]
  rw [if_neg (by rw [show kw_path ++ [0x3D] = 0x70 :: (kw_path.tail ++ [0x3D]) from rfl,
    starts_with_head_ne _ _ _ _ _ _ e4' (by decide)]; simp)]
  rw [if_neg (by rw [show kw_linkpath ++ [0x3D] = 0x6C :: (kw_linkpath.tail ++ [0x3D]) from rfl,
    starts_with_head_ne _ _ _ _ _ _ e4' (by decide)]; simp)]
  rw [if_neg (by rw [show kw_size ++ [0x3D] = 0x73 :: (kw_size.tail ++ [0x3D]) from rfl,
    starts_with_head_ne _ _ _ _ _ _ e4' (by decide)]; simp)]
  rw [if_neg (by rw [show kw_uid ++ [0x3D] = 0x75 :: (kw_uid.tail ++ [0x3D]) from rfl,
    starts_with_head_ne _ _ _ _ _ _ e4' (by decide)]; simp)]
  rw [if_pos ⟨by omega, starts_with_of_drop _ _ _
    (print_decimal (decimal_digits v) v ++ 0x0A :: t) (by rw [e4]; simp)⟩]
  rw [if_neg (by simp; exact hx)]
  have e7 : ((3 + 1 + decimal_digits v : Nat) : Int) - 4 = (decimal_digits v : Int) := by omega
  rw [e7, Int.toNat_ofNat, parse_decimal_value buf _ LLONG_MAX v _ e6 hv2 (le_refl _)]
  rw [if_neg]
  have : ¬ ((v : Int) < 2 ^ 21) := by
    have : (2 ^ 21 : Int) = ((2 ^ 21 : Nat) : Int) := by norm_num
    rw [this]; omega
  simp only [this, false_or, ne_eq, not_not]
  omega

end Lzip

namespace Lzip
open Extended

theorem tdiv10 (n : Int) : Int.tdiv n 10 = if 0 ≤ n then n / 10 else -((-n) / 10) := by
  by_cases h : 0 ≤ n
  · rw [if_pos h, Int.tdiv_eq_ediv h (by decide)]
  · rw [if_neg h]
    have e : n = -(-n) := by omega
    rw [e, Int.neg_tdiv, Int.tdiv_eq_ediv (by omega) (by decide)]
    simp

theorem tmod10 (n : Int) (h : 0 < n) : Int.tmod n 10 = n % 10 :=
  Int.tmod_eq_emod (by omega) (by decide)

theorem sec_digits_spec (fuel : Nat) : ∀ n : Int, n.natAbs < fuel →
    Etime.sec_digits fuel n ≠ [] ∧ AllDigits (Etime.sec_digits fuel n) ∧
      dval (Etime.sec_digits fuel n).reverse 0 = n.natAbs := by
  induction fuel with
  | zero => intro n h; omega
  | succ fuel ih =>
    intro n h
    rw [Etime.sec_digits]
    have hd : (n - 10 * Int.tdiv n 10).natAbs = n.natAbs % 10 := by
      rw [tdiv10]; split_ifs <;> omega
    have hq : (Int.tdiv n 10).natAbs = n.natAbs / 10 := by
      rw [tdiv10]; split_ifs <;> omega
    rw [hd]
    refine ⟨by simp, ?_, ?_⟩
    · intro c hc
      rw [List.mem_cons] at hc
      rcases hc with hc | hc
      · subst hc; omega
      · by_cases c0 : Int.tdiv n 10 ≠ 0
        · rw [if_pos c0] at hc
          exact (ih _ (by omega)).2.1 c hc
        · rw [if_neg c0] at hc; simp at hc
    · rw [List.reverse_cons, dval_append]
      by_cases c0 : Int.tdiv n 10 ≠ 0
      · rw [if_pos c0, (ih _ (by omega)).2.2, hq]
        simp only [dval, List.foldl_cons, List.foldl_nil]
        omega
      · rw [if_neg c0]
        have : n.natAbs / 10 = 0 := by rw [← hq]; simp at c0; simp [c0]
        simp only [dval, List.reverse_nil, List.foldl_cons, List.foldl_nil]
        omega

theorem nsec_digits_spec (fuel : Nat) : ∀ n : Int, 0 < n → n.natAbs < fuel →
    Etime.nsec_digits fuel n ≠ [] ∧ AllDigits (Etime.nsec_digits fuel n) := by
  induction fuel with
  | zero => intro n _ h; omega
  | succ fuel ih =>
    intro n hn h
    rw [Etime.nsec_digits, if_pos hn]
    refine ⟨by simp, ?_⟩
    intro c hc
    rw [List.mem_cons] at hc
    rcases hc with hc | hc
    · subst hc; rw [tmod10 n hn]; omega
    · by_cases c0 : 0 < Int.tdiv n 10
      · exact (ih _ c0 (by rw [tdiv10] at c0 ⊢; split_ifs at c0 ⊢ <;> omega)).2 c hc
      · cases fuel with
        | zero => simp [Etime.nsec_digits] at hc
        | succ f => rw [Etime.nsec_digits, if_neg c0] at hc; simp at hc

theorem strtoll_digits_spec (buf : List Nat) (ds : List Nat) :
    ∀ (fuel i acc c : Nat) (t : List Nat), buf.drop i = ds ++ c :: t → AllDigits ds →
      isdigit c = false → ds.length ≤ fuel →
      strtoll_digits buf fuel i acc = (i + ds.length, dval ds acc) := by
  induction ds with
  | nil =>
    intro fuel i acc c t h _ hc _
    cases fuel with
    | zero => rfl
    | succ fuel =>
      have e : buf.getD i 0 = c := by
        have := getD_of_drop_right buf i [] (c :: t) 0 (by simpa using h)
        simpa using this
      rw [strtoll_digits, e, hc]
      simp [dval]
  | cons d ds ih =>
    intro fuel i acc c t h hd hc hf
    cases fuel with
    | zero => simp at hf
    | succ fuel =>
      have e : buf.getD i 0 = d := by
        have := getD_of_drop buf i (d :: ds) (c :: t) 0 h (by simp)
        simpa using this
      rw [strtoll_digits, e, (isdigit_iff d).2 (hd d (by simp)), if_pos rfl]
      have h2 : buf.drop (i + 1) = ds ++ c :: t := by
        have := drop_of_drop buf i [d] (ds ++ c :: t) (by simpa using h)
        simpa using this
      rw [ih fuel (i + 1) _ c t h2 (fun x hx => hd x (by simp [hx])) hc (by simpa using hf)]
      simp [dval, Nat.add_assoc, Nat.add_comm 1]

theorem parse_nsec_spec (buf : List Nat) (off size : Nat) (ds : List Nat) :
    ∀ (fuel tail : Nat) (factor ns : Int) (t : List Nat), buf.drop tail = ds ++ t → AllDigits ds →
      off ≤ tail → tail - off + ds.length = size → ds.length ≤ fuel →
      (Etime.parse_nsec buf off size fuel tail factor ns).1 = tail + ds.length := by
  induction ds with
  | nil =>
    intro fuel tail factor ns t _ _ ho hs _
    cases fuel with
    | zero => rfl
    | succ fuel =>
      rw [Etime.parse_nsec, if_neg]
      · rfl
      · simp at hs; omega
  | cons d ds ih =>
    intro fuel tail factor ns t h hd ho hs hf
    cases fuel with
    | zero => simp at hf
    | succ fuel =>
      have e : buf.getD tail 0 = d := by
        have := getD_of_drop buf tail (d :: ds) t 0 h (by simp)
        simpa using this
      rw [Etime.parse_nsec, e, (isdigit_iff d).2 (hd d (by simp)),
        if_pos ⟨by simp at hs; omega, rfl⟩]
      have h2 : buf.drop (tail + 1) = ds ++ t := by
        have := drop_of_drop buf tail [d] (ds ++ t) (by simpa using h)
        simpa using this
      rw [ih fuel (tail + 1) _ _ t h2 (fun x hx => hd x (by simp [hx])) (by omega)
        (by simp at hs; omega) (by simpa using hf)]
      simp [Nat.add_assoc, Nat.add_comm 1]

end Lzip

namespace Lzip
open Extended

theorem strtoll_space_id (buf : List Nat) (fuel off : Nat) (h : isspace (buf.getD off 0) = false) :
    strtoll_space buf fuel off = off := by
  cases fuel with
  | zero => rfl
  | succ fuel => rw [strtoll_space, h]; simp

theorem drop_length_ge (buf : List Nat) (off : Nat) (a : List Nat) (h : buf.drop off = a) :
    a.length = buf.length - off := by
  rw [← h, List.length_drop]

theorem strtoll_neg (buf : List Nat) (off : Nat) (S : List Nat) (c : Nat) (t : List Nat)
    (h : buf.drop off = 0x2D :: (S ++ c :: t)) (hS : S ≠ []) (hd : AllDigits S)
    (hc : isdigit c = false) (hv : dval S 0 ≤ 2 ^ 63) :
    (strtoll buf off).2 = (off + 1 + S.length, false) := by
  have h0 : buf.getD off 0 = 0x2D := by
    have := getD_of_drop buf off [0x2D] (S ++ c :: t) 0 (by simpa using h) (by simp)
    simpa using this
  have h1 : buf.drop (off + 1) = S ++ c :: t := by
    have := drop_of_drop buf off [0x2D] (S ++ c :: t) (by simpa using h)
    simpa using this
  have hl := drop_length_ge buf (off + 1) _ h1
  have hSl : 0 < S.length := List.length_pos.2 hS
  unfold strtoll
  simp only [strtoll_space_id buf _ off (by rw [h0]; decide), h0]
  simp only [true_or, if_true, decide_True]
  rw [strtoll_digits_spec buf S _ (off + 1) 0 c t h1 hd hc
    (by rw [← hl]; simp)]
  simp only
  rw [if_neg (by omega), if_neg (by omega)]

theorem strtoll_pos (buf : List Nat) (off : Nat) (S : List Nat) (c : Nat) (t : List Nat)
    (h : buf.drop off = S ++ c :: t) (hS : S ≠ []) (hd : AllDigits S)
    (hc : isdigit c = false) (hv : dval S 0 ≤ 2 ^ 63 - 1) :
    (strtoll buf off).2 = (off + S.length, false) := by
  have hSl : 0 < S.length := List.length_pos.2 hS
  have h0 : buf.getD off 0 = S.getD 0 0 := getD_of_drop buf off S (c :: t) 0 h hSl
  have hfirst : 0x30 ≤ S.getD 0 0 ∧ S.getD 0 0 ≤ 0x39 := by
    apply hd
    rw [List.getD_eq_getElem _ _ hSl]
    exact List.getElem_mem _
  have hl := drop_length_ge buf off _ h
  unfold strtoll
  simp only [strtoll_space_id buf _ off (by rw [h0]; exact isspace_digit _ hfirst), h0]
  have n1 : ¬ (S.getD 0 0 = 0x2D ∨ S.getD 0 0 = 0x2B) := by omega
  have n2 : ¬ (S.getD 0 0 = 0x2D) := by omega
  have n3 : ¬ (False ∨ S.getD 0 0 = 0x2B) := by
    rintro (hf | hf)
    · exact hf
    · omega
  simp only [n1, n2, n3, if_false, decide_False]
  rw [strtoll_digits_spec buf S _ off 0 c t h hd hc (by rw [← hl]; simp)]
  simp only
  rw [if_neg (by omega)]
  simp only [Bool.false_eq_true, if_false]
  rw [if_neg (by omega)]

/-- The text written by `Etime::print`: a sign, the digits of the seconds and,
for a valid positive `nsec_`, a point and the digits of the nanoseconds. -/
theorem print_form (T : Etime) (hlo : -(2 ^ 63 : Int) ≤ T.sec_) (hhi : T.sec_ < 2 ^ 63) :
    ∃ S F : List Nat, S ≠ [] ∧ AllDigits S ∧
      dval S 0 ≤ (if T.sec_ < 0 then 2 ^ 63 else 2 ^ 63 - 1) ∧
      (F = [] ∨ ∃ N, F = 0x2E :: N ∧ N ≠ [] ∧ AllDigits N) ∧
      T.print = (if T.sec_ < 0 then [0x2D] else []) ++ S ++ F := by
  obtain ⟨s1, s2, s3⟩ := sec_digits_spec (T.sec_.natAbs + 1) T.sec_ (by omega)
  refine ⟨(Etime.sec_digits (T.sec_.natAbs + 1) T.sec_).reverse,
    if T.nsec_ > 0 ∧ T.nsec_ ≤ 999999999 then
      0x2E :: (Etime.nsec_digits (T.nsec_.natAbs + 1) T.nsec_).reverse else [],
    by simpa using s1, ?_, ?_, ?_, ?_⟩
  · intro c hc; exact s2 c (by simpa using hc)
  · rw [s3]; split_ifs <;> omega
  · by_cases hn : T.nsec_ > 0 ∧ T.nsec_ ≤ 999999999
    · rw [if_pos hn]
      right
      obtain ⟨n1, n2⟩ := nsec_digits_spec (T.nsec_.natAbs + 1) T.nsec_ hn.1 (by omega)
      exact ⟨_, rfl, by simpa using n1, fun c hc => n2 c (by simpa using hc)⟩
    · rw [if_neg hn]; left; rfl
  · unfold Etime.print
    by_cases hn : T.nsec_ > 0 ∧ T.nsec_ ≤ 999999999 <;> by_cases hs : T.sec_ < 0 <;>
      simp [hn, hs]

/-- `Etime::parse` accepts whatever `Etime::print` writes, up to the end of
the text. -/
theorem etime_parse_print (t0 T : Etime) (buf : List Nat) (off : Nat) (rest : List Nat)
    (hlo : -(2 ^ 63 : Int) ≤ T.sec_) (hhi : T.sec_ < 2 ^ 63)
    (h : buf.drop off = T.print ++ 0x0A :: rest) :
    (t0.parse buf off T.print.length).1 = true ∧
      (t0.parse buf off T.print.length).2.2 = off + T.print.length := by
  obtain ⟨S, F, hS, hSd, hv, hF, hp⟩ := print_form T hlo hhi
  have hSl : 0 < S.length := List.length_pos.2 hS
  -- the result of strtoll
  have hst : ∃ k, (strtoll buf off).2 = (off + k + S.length, false) ∧
      T.print.length = k + S.length + F.length ∧
      buf.drop (off + k + S.length) = F ++ 0x0A :: rest := by
    have hc : isdigit ((F ++ 0x0A :: rest).getD 0 0) = false := by
      rcases hF with hF | ⟨N, hF, _, _⟩ <;> subst hF <;> rfl
    have hne : F ++ 0x0A :: rest ≠ [] := by simp
    obtain ⟨c, t, hct⟩ := List.exists_cons_of_ne_nil hne
    rw [hct] at hc
    by_cases hs : T.sec_ < 0
    · rw [if_pos hs] at hp hv
      refine ⟨1, strtoll_neg buf off S c t (by rw [h, hp, ← hct]; simp) hS hSd
        (by simpa using hc) hv, by rw [hp]; simp; omega, ?_⟩
      have := drop_of_drop buf off (0x2D :: S) (F ++ 0x0A :: rest) (by rw [h, hp]; simp)
      simpa [Nat.add_assoc, Nat.add_comm 1] using this
    · rw [if_neg hs] at hp hv
      have hz := strtoll_pos buf off S c t (by rw [h, hp, ← hct]; simp) hS hSd
        (by simpa using hc) hv
      refine ⟨0, by simpa using hz, by rw [hp]; simp, ?_⟩
      have := drop_of_drop buf off S (F ++ 0x0A :: rest) (by rw [h, hp]; simp)
      simpa using this
  obtain ⟨k, hst, hlen, hdrop⟩ := hst
  have hst1 : (strtoll buf off).2.1 = off + k + S.length := by rw [hst]
  have hst2 : (strtoll buf off).2.2 = false := by rw [hst]
  unfold Etime.parse
  simp only [hst1, hst2]
  rcases hF with hF | ⟨N, hF, hN, hNd⟩
  · subst hF
    have hc : buf.getD (off + k + S.length) 0 = 0x0A := by
      have := getD_of_drop_right buf (off + k + S.length) [] (0x0A :: rest) 0 (by simpa using hdrop)
      simpa using this
    rw [hc, if_neg (by simp at hlen ⊢; omega), if_neg (by decide)]
    simp at hlen ⊢
    omega
  · subst hF
    have hNl : 0 < N.length := List.length_pos.2 hN
    have hc : buf.getD (off + k + S.length) 0 = 0x2E := by
      have := getD_of_drop buf (off + k + S.length) (0x2E :: N) (0x0A :: rest) 0
        (by simpa using hdrop) (by simp)
      simpa using this
    have hdrop1 : buf.drop (off + k + S.length + 1) = N ++ 0x0A :: rest := by
      have := drop_of_drop buf (off + k + S.length) [0x2E] (N ++ 0x0A :: rest)
        (by simpa using hdrop)
      simpa using this
    have hc1 : buf.getD (off + k + S.length + 1) 0 = N.getD 0 0 := by
      have := getD_of_drop buf (off + k + S.length + 1) N (0x0A :: rest) 0 hdrop1 hNl
      simpa using this
    have hfirst : 0x30 ≤ N.getD 0 0 ∧ N.getD 0 0 ≤ 0x39 := by
      apply hNd
      rw [List.getD_eq_getElem _ _ hNl]
      exact List.getElem_mem _
    simp only [List.length_cons] at hlen
    rw [hc, if_neg (by simp; omega), if_pos rfl, hc1, (isdigit_iff _).2 hfirst,
      if_neg (by simp; omega)]
    simp only
    rw [parse_nsec_spec buf off T.print.length N _ (off + k + S.length + 1) _ _ _ hdrop1 hNd
      (by omega) (by omega) (by omega)]
    simp
    omega

end Lzip

namespace Lzip
open Extended

theorem round_lt (poly c : Nat) (hp : poly < 2 ^ 32) (hc : c < 2 ^ 32) :
    CRC32.round poly c < 2 ^ 32 := by
  unfold CRC32.round
  have h1 : c >>> 1 < 2 ^ 32 := by rw [Nat.shiftRight_eq_div_pow]; omega
  split_ifs
  · exact Nat.xor_lt_two_pow hp h1
  · exact h1

theorem poly_lt (t : CRC32) : t.poly < 2 ^ 32 := by
  unfold CRC32.poly; split_ifs <;> decide

theorem data_lt (t : CRC32) (n : Nat) (h : n < 2 ^ 32) : t.data n < 2 ^ 32 := by
  unfold CRC32.data
  have hp := poly_lt t
  exact round_lt _ _ hp (round_lt _ _ hp (round_lt _ _ hp (round_lt _ _ hp
    (round_lt _ _ hp (round_lt _ _ hp (round_lt _ _ hp (round_lt _ _ hp h)))))))

theorem update_byte_lt (t : CRC32) (crc byte : Nat) (h : crc < 2 ^ 32) :
    t.update_byte crc byte < 2 ^ 32 := by
  unfold CRC32.update_byte
  have h1 : (crc ^^^ byte) &&& 0xFF < 2 ^ 32 :=
    lt_of_le_of_lt Nat.and_le_right (by decide)
  have h2 : crc >>> 8 < 2 ^ 32 := by rw [Nat.shiftRight_eq_div_pow]; omega
  exact Nat.xor_lt_two_pow (data_lt t _ h1) h2

theorem update_buf_lt (t : CRC32) (buffer : List Nat) (crc : Nat) (h : crc < 2 ^ 32) :
    t.update_buf crc buffer < 2 ^ 32 := by
  induction buffer generalizing crc with
  | nil => exact h
  | cons b bs ih => exact ih _ (update_byte_lt t crc b h)

theorem windowed_crc_lt (t : CRC32) (buffer : List Nat) (pos size : Nat) :
    t.windowed_crc buffer pos size < 2 ^ 32 := by
  unfold CRC32.windowed_crc
  exact Nat.xor_lt_two_pow (update_buf_lt t _ _ (update_buf_lt t _ _ (by decide))) (by decide)

/-- The crc does not depend on the window of 8 bytes nor on what follows the
`size` bytes. -/
theorem windowed_crc_window (t : CRC32) (pre w1 w2 s1 s2 : List Nat) (c : Nat)
    (h1 : w1.length = 8) (h2 : w2.length = 8) :
    t.windowed_crc (pre ++ (w1 ++ c :: s1)) pre.length (pre.length + 9)
      = t.windowed_crc (pre ++ (w2 ++ c :: s2)) pre.length (pre.length + 9) := by
  unfold CRC32.windowed_crc
  have e : pre.length + 9 - pre.length - 8 = 1 := by omega
  have d1 : ∀ (w s : List Nat), w.length = 8 →
      (pre ++ (w ++ c :: s)).drop (pre.length + 8) = c :: s := by
    intro w s hw
    rw [← List.append_assoc, ← List.drop_drop]
    have : (pre ++ w).length = pre.length + 8 := by simp [hw]
    rw [← hw, List.drop_append_eq_append_drop]
    simp [List.drop_append_eq_append_drop]
  simp only [e, d1 w1 s1 h1, d1 w2 s2 h2, List.take_left]
  rfl

theorem hex_value_xdigit (v : Nat) (h : v < 16) : hex_value (xdigit v) = some v := by
  interval_cases v <;> rfl

theorem print_hex_length (k n : Nat) : (print_hex k n).length = k := by
  induction k generalizing n with
  | zero => rfl
  | succ k ih => simp [print_hex, ih]

theorem parse_record_crc_loop_print (k : Nat) : ∀ (n r : Nat) (rest : List Nat),
    n < 16 ^ k → r * 16 ^ k + n < 2 ^ 32 →
    parse_record_crc_loop (print_hex k n ++ rest) r
      = parse_record_crc_loop rest (r * 16 ^ k + n) := by
  induction k with
  | zero => intro n r rest hn _; simp at hn; subst hn; simp [print_hex]
  | succ k ih =>
    intro n r rest hn hr
    have e1 : n >>> 4 = n / 16 := by rw [Nat.shiftRight_eq_div_pow]
    have e2 : n &&& 0x0F = n % 16 := Nat.and_pow_two_sub_one_eq_mod n 4
    rw [pow_succ] at hn
    have hr2 : r * 16 ^ k * 16 + n < 2 ^ 32 := by
      rw [Nat.mul_assoc, ← pow_succ]; exact hr
    have e3 : r * 16 ^ (k + 1) = r * 16 ^ k * 16 := by rw [pow_succ, Nat.mul_assoc]
    rw [print_hex, List.append_assoc, e1, e2, e3,
      ih (n / 16) r _ (by omega) (by omega)]
    simp only [List.singleton_append, parse_record_crc_loop,
      hex_value_xdigit (n % 16) (Nat.mod_lt _ (by decide)), Nat.shiftLeft_eq]
    congr 1
    generalize r * 16 ^ k = R at hr2 ⊢
    omega

theorem range_map_getD (buf : List Nat) (off : Nat) (a t : List Nat)
    (h : buf.drop off = a ++ t) :
    (List.range a.length).map (fun i => buf.getD (off + i) 0) = a := by
  apply List.ext_getElem
  · simp
  · intro i h1 h2
    simp only [List.getElem_map, List.getElem_range]
    rw [getD_of_drop buf off a t i h h2, List.getD_eq_getElem _ _ h2]

theorem parse_record_crc_print (buf : List Nat) (off crc : Nat) (t : List Nat)
    (h : buf.drop off = print_hex 8 crc ++ t) (hc : crc < 2 ^ 32) :
    parse_record_crc buf off = crc := by
  have := range_map_getD buf off (print_hex 8 crc) t h
  rw [print_hex_length] at this
  unfold parse_record_crc
  rw [this]
  have := parse_record_crc_loop_print 8 crc 0 [] (by omega) (by omega)
  simpa [parse_record_crc_loop] using this

end Lzip

namespace Lzip
open Extended

theorem parse_step_atime (x : Extended) (buf : List Nat) (edsize pos recsize : Nat)
    (T : Etime) (t : List Nat)
    (h : buf.drop pos = (print_size_keyword recsize kw_atime ++ T.print ++ [0x0A]) ++ t)
    (hl : (print_size_keyword recsize kw_atime ++ T.print ++ [0x0A]).length = recsize)
    (he : pos + recsize ≤ edsize) (hmax : edsize ≤ LLONG_MAX)
    (hx : x.atime_.isvalid = false) (hlo : -(2 ^ 63 : Int) ≤ T.sec_) (hhi : T.sec_ < 2 ^ 63) :
    ∃ a, parse_step x buf edsize pos false = (true, pos + recsize, { x with atime_ := a }) := by
  obtain ⟨e1, e2, e3, e4, e5⟩ :=
    parse_step_header buf edsize pos recsize kw_atime _ t h hl he hmax
  have hk : kw_atime.length = 5 := rfl
  rw [hk] at e5
  have hrest := rest_eq pos recsize (decimal_digits recsize) (5 + 1 + T.print.length)
    (by omega)
  have e6 : buf.drop (pos + decimal_digits recsize + 1 + 6) = T.print ++ 0x0A :: t := by
    have := drop_of_drop buf _ (kw_atime ++ [0x3D]) (T.print ++ 0x0A :: t) (by rw [e4]; simp)
    simpa using this
  have e4' : buf.drop (pos + decimal_digits recsize + 1)
      = 0x61 :: (kw_atime.tail ++ 0x3D :: (T.print ++ 0x0A :: t)) := by
    rw [e4]; rfl
  obtain ⟨p1, p2⟩ := etime_parse_print x.atime_ T buf _ t hlo hhi e6
  refine ⟨(x.atime_.parse buf (pos + decimal_digits recsize + 1 + 6) T.print.length).2.1, ?_⟩
  have hpl : 0 < T.print.length := by
    obtain ⟨S, F, hS, _, _, _, hp⟩ := print_form T hlo hhi
    have := List.length_pos.2 hS
    rw [hp]; simp; omega
  unfold parse_step
  simp only [e1, Int.toNat_ofNat]
  rw [if_neg (by rw [e2, e3]; simp; omega)]
  simp only [hrest]
  rw [if_neg (by rw [show kw_path ++ [0x3D] = 0x70 :: (kw_path.tail ++ [0x3D]) from rfl,
    starts_with_head_ne _ _ _ _ _ _ e4' (by decide)]; simp)]
  rw [if_neg (by rw [show kw_linkpath ++ [0x3D] = 0x6C :: (kw_linkpath.tail ++ [0x3D]) from rfl,
    starts_with_head_ne _ _ _ _ _ _ e4' (by decide)]; simp)]
  rw [if_neg (by rw [show kw_size ++ [0x3D] = 0x73 :: (kw_size.tail ++ [0x3D]) from rfl,
    starts_with_head_ne _ _ _ _ _ _ e4' (by decide)]; simp)]
  rw [if_neg (by rw [show kw_uid ++ [0x3D] = 0x75 :: (kw_uid.tail ++ [0x3D]) from rfl,
    starts_with_head_ne _ _ _ _ _ _ e4' (by decide)]; simp)]
  rw [if_neg (by rw [show kw_gid ++ [0x3D] = 0x67 :: (kw_gid.tail ++ [0x3D]) from rfl,
    starts_with_head_ne _ _ _ _ _ _ e4' (by decide)]; simp)]
  rw [if_pos ⟨by omega, starts_with_of_drop _ _ _ (T.print ++ 0x0A :: t) (by rw [e4]; simp)⟩]
  rw [if_neg (by simp [hx])]
  have e7 : ((5 + 1 + T.print.length : Nat) : Int) - 6 = (T.print.length : Int) := by omega
  rw [e7, Int.toNat_ofNat, if_neg]
  rw [p1, p2]
  simp
  omega

theorem parse_step_mtime (x : Extended) (buf : List Nat) (edsize pos recsize : Nat)
    (T : Etime) (t : List Nat)
    (h : buf.drop pos = (print_size_keyword recsize kw_mtime ++ T.print ++ [0x0A]) ++ t)
    (hl : (print_size_keyword recsize kw_mtime ++ T.print ++ [0x0A]).length = recsize)
    (he : pos + recsize ≤ edsize) (hmax : edsize ≤ LLONG_MAX)
    (hx : x.mtime_.isvalid = false) (hlo : -(2 ^ 63 : Int) ≤ T.sec_) (hhi : T.sec_ < 2 ^ 63) :
    ∃ a, parse_step x buf edsize pos false = (true, pos + recsize, { x with mtime_ := a }) := by
  obtain ⟨e1, e2, e3, e4, e5⟩ :=
    parse_step_header buf edsize pos recsize kw_mtime _ t h hl he hmax
  have hk : kw_mtime.length = 5 := rfl
  rw [hk] at e5
  have hrest := rest_eq pos recsize (decimal_digits recsize) (5 + 1 + T.print.length)
    (by omega)
  have e6 : buf.drop (pos + decimal_digits recsize + 1 + 6) = T.print ++ 0x0A :: t := by
    have := drop_of_drop buf _ (kw_mtime ++ [0x3D]) (T.print ++ 0x0A :: t) (by rw [e4]; simp)
    simpa using this
  have e4' : buf.drop (pos + decimal_digits recsize + 1)
      = 0x6D :: (kw_mtime.tail ++ 0x3D :: (T.print ++ 0x0A :: t)) := by
    rw [e4]; rfl
  obtain ⟨p1, p2⟩ := etime_parse_print x.mtime_ T buf _ t hlo hhi e6
  refine ⟨(x.mtime_.parse buf (pos + decimal_digits recsize + 1 + 6) T.print.length).2.1, ?_⟩
  have hpl : 0 < T.print.length := by
    obtain ⟨S, F, hS, _, _, _, hp⟩ := print_form T hlo hhi
    have := List.length_pos.2 hS
    rw [hp]; simp; omega
  unfold parse_step
  simp only [e1, Int.toNat_ofNat]
  rw [if_neg (by rw [e2, e3]; simp; omega)]
  simp only [hrest]
  rw [if_neg (by rw [show kw_path ++ [0x3D] = 0x70 :: (kw_path.tail ++ [0x3D]) from rfl,
    starts_with_head_ne _ _ _ _ _ _ e4' (by decide)]; simp)]
  rw [if_neg (by rw [show kw_linkpath ++ [0x3D] = 0x6C :: (kw_linkpath.tail ++ [0x3D]) from rfl,
    starts_with_head_ne _ _ _ _ _ _ e4' (by decide)]; simp)]
  rw [if_neg (by rw [show kw_size ++ [0x3D] = 0x73 :: (kw_size.tail ++ [0x3D]) from rfl,
    starts_with_head_ne _ _ _ _ _ _ e4' (by decide)]; simp)]
  rw [if_neg (by rw [show kw_uid ++ [0x3D] = 0x75 :: (kw_uid.tail ++ [0x3D]) from rfl,
    starts_with_head_ne _ _ _ _ _ _ e4' (by decide)]; simp)]
  rw [if_neg (by rw [show kw_gid ++ [0x3D] = 0x67 :: (kw_gid.tail ++ [0x3D]) from rfl,
    starts_with_head_ne _ _ _ _ _ _ e4' (by decide)]; simp)]
  rw [if_neg (by rw [show kw_atime ++ [0x3D] = 0x61 :: (kw_atime.tail ++ [0x3D]) from rfl,
    starts_with_head_ne _ _ _ _ _ _ e4' (by decide)]; simp)]
  rw [if_pos ⟨by omega, starts_with_of_drop _ _ _ (T.print ++ 0x0A :: t) (by rw [e4]; simp)⟩]
  rw [if_neg (by simp [hx])]
  have e7 : ((5 + 1 + T.print.length : Nat) : Int) - 6 = (T.print.length : Int) := by omega
  rw [e7, Int.toNat_ofNat, if_neg]
  rw [p1, p2]
  simp
  omega

theorem parse_step_crc (x : Extended) (buf : List Nat) (edsize pos crc : Nat) (t : List Nat)
    (h : buf.drop pos = (print_size_keyword 22 kw_crc ++ print_hex 8 crc ++ [0x0A]) ++ t)
    (he : pos + 22 ≤ edsize) (hmax : edsize ≤ LLONG_MAX)
    (hx : x.crc_present_ = false)
    (hcrc : crc32c.windowed_crc buf (pos + 22 - 9) edsize = crc) :
    parse_step x buf edsize pos false = (true, pos + 22, { x with crc_present_ := true }) := by
  have hl : (print_size_keyword 22 kw_crc ++ print_hex 8 crc ++ [0x0A]).length = 22 := by
    rw [List.length_append, List.length_append, print_hex_length]; rfl
  obtain ⟨e1, e2, e3, e4, e5⟩ :=
    parse_step_header buf edsize pos 22 kw_crc _ t h hl he hmax
  have hdd : decimal_digits 22 = 2 := by decide
  rw [hdd] at e1 e2 e4
  have hrest := rest_eq pos 22 2 18 (by omega)
  have e6 : buf.drop (pos + 2 + 1 + 10) = print_hex 8 crc ++ 0x0A :: t := by
    have := drop_of_drop buf _ (kw_crc ++ [0x3D]) (print_hex 8 crc ++ 0x0A :: t)
      (by rw [e4]; simp)
    simpa using this
  have e4' : buf.drop (pos + 2 + 1)
      = 0x47 :: (kw_crc.tail ++ 0x3D :: (print_hex 8 crc ++ 0x0A :: t)) := by
    rw [e4]; rfl
  have hlt : crc < 2 ^ 32 := by rw [← hcrc]; exact windowed_crc_lt _ _ _ _
  unfold parse_step
  simp only [e1, Int.toNat_ofNat]
  rw [if_neg (by rw [e2, e3]; simp)]
  simp only [hrest]
  rw [if_neg (by rw [show kw_path ++ [0x3D] = 0x70 :: (kw_path.tail ++ [0x3D]) from rfl,
    starts_with_head_ne _ _ _ _ _ _ e4' (by decide)]; simp)]
  rw [if_neg (by rw [show kw_linkpath ++ [0x3D] = 0x6C :: (kw_linkpath.tail ++ [0x3D]) from rfl,
    starts_with_head_ne _ _ _ _ _ _ e4' (by decide)]; simp)]
  rw [if_neg (by rw [show kw_size ++ [0x3D] = 0x73 :: (kw_size.tail ++ [0x3D]) from rfl,
    starts_with_head_ne _ _ _ _ _ _ e4' (by decide)]; simp)]
  rw [if_neg (by rw [show kw_uid ++ [0x3D] = 0x75 :: (kw_uid.tail ++ [0x3D]) from rfl,
    starts_with_head_ne _ _ _ _ _ _ e4' (by decide)]; simp)]
  rw [if_neg (by rw [show kw_gid ++ [0x3D] = 0x67 :: (kw_gid.tail ++ [0x3D]) from rfl,
    starts_with_head_ne _ _ _ _ _ _ e4' (by decide)]; simp)]
  rw [if_neg (by rw [show kw_atime ++ [0x3D] = 0x61 :: (kw_atime.tail ++ [0x3D]) from rfl,
    starts_with_head_ne _ _ _ _ _ _ e4' (by decide)]; simp)]
  rw [if_neg (by rw [show kw_mtime ++ [0x3D] = 0x6D :: (kw_mtime.tail ++ [0x3D]) from rfl,
    starts_with_head_ne _ _ _ _ _ _ e4' (by decide)]; simp)]
  rw [if_pos ⟨by decide, starts_with_of_drop _ _ _ (print_hex 8 crc ++ 0x0A :: t)
    (by rw [e4]; simp)⟩]
  rw [if_neg (by simp [hx]), if_neg (by decide),
    parse_record_crc_print buf _ crc _ e6 hlt, hcrc, if_neg (by simp)]

end Lzip

namespace Lzip
open Extended

theorem parse_loop_end (buf : List Nat) (edsize : Nat) (perm : Bool) (fuel pos : Nat)
    (x : Extended) (h : edsize ≤ pos) : parse_loop buf edsize perm fuel pos x = (true, x) := by
  cases fuel with
  | zero => rfl
  | succ f => rw [parse_loop, if_neg (by omega)]

theorem parse_loop_step (buf : List Nat) (edsize : Nat) (perm : Bool) (fuel pos pos1 : Nat)
    (x x1 : Extended) (h : pos < edsize) (hs : parse_step x buf edsize pos perm = (true, pos1, x1)) :
    parse_loop buf edsize perm (fuel + 1) pos x = parse_loop buf edsize perm fuel pos1 x1 := by
  rw [parse_loop, if_pos h, hs]
  rfl

theorem accepts_crc (buf : List Nat) (edsize crc : Nat) (pad : List Nat)
    (hmax : edsize ≤ LLONG_MAX)
    (hcrc : crc32c.windowed_crc buf (edsize - 9) edsize = crc) :
    AcceptsFrom buf edsize 1 (print_size_keyword 22 kw_crc ++ print_hex 8 crc ++ [0x0A]) pad
      (fun x => x.crc_present_ = false) := by
  intro fuel pos x hf hd hp hF
  have hl : (print_size_keyword 22 kw_crc ++ print_hex 8 crc ++ [0x0A]).length = 22 := by
    rw [List.length_append, List.length_append, print_hex_length]; rfl
  rw [hl] at hp
  obtain ⟨f, rfl⟩ : ∃ f, fuel = f + 1 := ⟨fuel - 1, by omega⟩
  have hs := parse_step_crc x buf edsize pos crc pad hd (by omega) hmax hF
    (by rw [← hcrc]; congr 1; omega)
  rw [parse_loop_step buf edsize false f pos _ x _ (by omega) hs,
    parse_loop_end _ _ _ _ _ _ (by omega)]
  exact ⟨_, rfl, rfl, rfl, rfl⟩

/-- One more record in front of the records `tl`: if it is there (`r` is not
empty) the loop takes it in one iteration that keeps path and linkpath. -/
theorem accepts_cons (buf : List Nat) (edsize n : Nat) (tl pad r : List Nat)
    (F G : Extended → Prop) (hnext : AcceptsFrom buf edsize n tl pad G)
    (htl : tl ≠ []) (hFG : ∀ x, F x → G x)
    (hstep : r ≠ [] → ∀ pos x, buf.drop pos = r ++ (tl ++ pad) → pos + r.length ≤ edsize →
      F x → ∃ x1, parse_step x buf edsize pos false = (true, pos + r.length, x1) ∧ G x1 ∧
        x1.path_ = x.path_ ∧ x1.linkpath_ = x.linkpath_) :
    AcceptsFrom buf edsize (n + 1) (r ++ tl) pad F := by
  intro fuel pos x hf hd hp hF
  have htl0 : 0 < tl.length := List.length_pos.2 htl
  by_cases hr : r = []
  · subst hr
    exact hnext fuel pos x (by omega) (by simpa using hd) (by simpa using hp) (hFG x hF)
  · obtain ⟨f, rfl⟩ : ∃ f, fuel = f + 1 := ⟨fuel - 1, by omega⟩
    rw [List.length_append] at hp
    obtain ⟨x1, hs, hG, h1, h2⟩ := hstep hr pos x (by rw [hd]; simp) (by omega) hF
    rw [parse_loop_step buf edsize false f pos _ x _ (by omega) hs]
    obtain ⟨xf, e1, e2, e3, e4⟩ := hnext f (pos + r.length) x1 (by omega)
      (drop_of_drop buf pos r (tl ++ pad) (by rw [hd]; simp)) (by omega) hG
    exact ⟨xf, e1, e2, e3.trans h1, e4.trans h2⟩

theorem print_record_ne_nil (rs : Nat) (kw val r : List Nat)
    (h : print_record rs kw val = some r) (hr : r ≠ []) :
    rs ≠ 0 ∧ r = print_size_keyword rs kw ++ val ++ [0x0A] ∧
      (print_size_keyword rs kw ++ val ++ [0x0A]).length = rs ∧ r.length = rs := by
  rcases print_record_some rs kw val r h with ⟨_, h2⟩ | ⟨h1, h2, h3⟩
  · exact absurd h2 hr
  · exact ⟨h1, h2, by rw [← h2]; exact h3, h3⟩

theorem accepts_mtime (buf : List Nat) (edsize n rs : Nat) (tl pad r : List Nat) (T : Etime)
    (hmax : edsize ≤ LLONG_MAX)
    (hnext : AcceptsFrom buf edsize n tl pad (fun x => x.crc_present_ = false))
    (htl : tl ≠ []) (hpr : print_record rs kw_mtime T.print = some r)
    (hlo : -(2 ^ 63 : Int) ≤ T.sec_) (hhi : T.sec_ < 2 ^ 63) :
    AcceptsFrom buf edsize (n + 1) (r ++ tl) pad
      (fun x => x.mtime_.isvalid = false ∧ x.crc_present_ = false) := by
  apply accepts_cons buf edsize n tl pad r _ _ hnext htl (fun x h => h.2)
  intro hr pos x hd hp hF
  obtain ⟨h1, h2, h3, h4⟩ := print_record_ne_nil rs _ _ r hpr hr
  rw [h4] at hp ⊢
  obtain ⟨a, ha⟩ := parse_step_mtime x buf edsize pos rs T (tl ++ pad) (by rw [hd, h2]) h3 hp
    hmax hF.1 hlo hhi
  exact ⟨_, ha, hF.2, rfl, rfl⟩

theorem accepts_atime (buf : List Nat) (edsize n rs : Nat) (tl pad r : List Nat) (T : Etime)
    (hmax : edsize ≤ LLONG_MAX)
    (hnext : AcceptsFrom buf edsize n tl pad
      (fun x => x.mtime_.isvalid = false ∧ x.crc_present_ = false))
    (htl : tl ≠ []) (hpr : print_record rs kw_atime T.print = some r)
    (hlo : -(2 ^ 63 : Int) ≤ T.sec_) (hhi : T.sec_ < 2 ^ 63) :
    AcceptsFrom buf edsize (n + 1) (r ++ tl) pad
      (fun x => x.atime_.isvalid = false ∧ x.mtime_.isvalid = false ∧
        x.crc_present_ = false) := by
  apply accepts_cons buf edsize n tl pad r _ _ hnext htl (fun x h => h.2)
  intro hr pos x hd hp hF
  obtain ⟨h1, h2, h3, h4⟩ := print_record_ne_nil rs _ _ r hpr hr
  rw [h4] at hp ⊢
  obtain ⟨a, ha⟩ := parse_step_atime x buf edsize pos rs T (tl ++ pad) (by rw [hd, h2]) h3 hp
    hmax hF.1 hlo hhi
  exact ⟨_, ha, hF.2, rfl, rfl⟩

theorem accepts_gid (buf : List Nat) (edsize n rs v : Nat) (tl pad r : List Nat)
    (hmax : edsize ≤ LLONG_MAX)
    (hnext : AcceptsFrom buf edsize n tl pad
      (fun x => x.atime_.isvalid = false ∧ x.mtime_.isvalid = false ∧
        x.crc_present_ = false))
    (htl : tl ≠ [])
    (hpr : print_record rs kw_gid (print_decimal (decimal_digits v) v) = some r)
    (hv : rs ≠ 0 → 2 ^ 21 ≤ v ∧ v ≤ LLONG_MAX) :
    AcceptsFrom buf edsize (n + 1) (r ++ tl) pad
      (fun x => x.gid_ < 0 ∧ x.atime_.isvalid = false ∧ x.mtime_.isvalid = false ∧
        x.crc_present_ = false) := by
  apply accepts_cons buf edsize n tl pad r _ _ hnext htl (fun x h => h.2)
  intro hr pos x hd hp hF
  obtain ⟨h1, h2, h3, h4⟩ := print_record_ne_nil rs _ _ r hpr hr
  rw [h4] at hp ⊢
  have ha := parse_step_gid x buf edsize pos rs v (tl ++ pad) (by rw [hd, h2]) h3 hp
    hmax hF.1 (hv h1).1 (hv h1).2
  exact ⟨_, ha, hF.2, rfl, rfl⟩

theorem accepts_uid (buf : List Nat) (edsize n rs v : Nat) (tl pad r : List Nat)
    (hmax : edsize ≤ LLONG_MAX)
    (hnext : AcceptsFrom buf edsize n tl pad
      (fun x => x.gid_ < 0 ∧ x.atime_.isvalid = false ∧ x.mtime_.isvalid = false ∧
        x.crc_present_ = false))
    (htl : tl ≠ [])
    (hpr : print_record rs kw_uid (print_decimal (decimal_digits v) v) = some r)
    (hv : rs ≠ 0 → 2 ^ 21 ≤ v ∧ v ≤ LLONG_MAX) :
    AcceptsFrom buf edsize (n + 1) (r ++ tl) pad
      (fun x => x.uid_ < 0 ∧ x.gid_ < 0 ∧ x.atime_.isvalid = false ∧
        x.mtime_.isvalid = false ∧ x.crc_present_ = false) := by
  apply accepts_cons buf edsize n tl pad r _ _ hnext htl (fun x h => h.2)
  intro hr pos x hd hp hF
  obtain ⟨h1, h2, h3, h4⟩ := print_record_ne_nil rs _ _ r hpr hr
  rw [h4] at hp ⊢
  have ha := parse_step_uid x buf edsize pos rs v (tl ++ pad) (by rw [hd, h2]) h3 hp
    hmax hF.1 (hv h1).1 (hv h1).2
  exact ⟨_, ha, hF.2, rfl, rfl⟩

theorem accepts_size (buf : List Nat) (edsize n rs v : Nat) (tl pad r : List Nat)
    (hmax : edsize ≤ LLONG_MAX)
    (hnext : AcceptsFrom buf edsize n tl pad
      (fun x => x.uid_ < 0 ∧ x.gid_ < 0 ∧ x.atime_.isvalid = false ∧
        x.mtime_.isvalid = false ∧ x.crc_present_ = false))
    (htl : tl ≠ [])
    (hpr : print_record rs kw_size (print_decimal (decimal_digits v) v) = some r)
    (hv : rs ≠ 0 → 2 ^ 33 ≤ v ∧ v ≤ max_file_size) :
    AcceptsFrom buf edsize (n + 1) (r ++ tl) pad
      (fun x => x.file_size_ = 0 ∧ x.uid_ < 0 ∧ x.gid_ < 0 ∧ x.atime_.isvalid = false ∧
        x.mtime_.isvalid = false ∧ x.crc_present_ = false) := by
  apply accepts_cons buf edsize n tl pad r _ _ hnext htl (fun x h => h.2)
  intro hr pos x hd hp hF
  obtain ⟨h1, h2, h3, h4⟩ := print_record_ne_nil rs _ _ r hpr hr
  rw [h4] at hp ⊢
  have ha := parse_step_size x buf edsize pos rs v (tl ++ pad) (by rw [hd, h2]) h3 hp
    hmax hF.1 (hv h1).1 (hv h1).2
  exact ⟨_, ha, hF.2, rfl, rfl⟩

end Lzip

namespace Lzip
open Extended

theorem poke_length (buf : List Nat) (off : Nat) (bytes : List Nat)
    (h : off + bytes.length ≤ buf.length) : (poke buf off bytes).length = buf.length := by
  simp [poke]
  omega

theorem print_octal_length (k n : Nat) : (print_octal k n).length = k := by
  induction k generalizing n with
  | zero => rfl
  | succ k ih => simp [print_octal, ih]

theorem init_tar_header_length : init_tar_header.length = header_size := by
  have h1 : magic_o + (ustar_magic.take (magic_l - 1)).length
      ≤ (List.replicate header_size 0).length := by
    rw [List.length_replicate]; decide
  unfold init_tar_header
  rw [poke_length, poke_length _ _ _ h1, List.length_replicate]
  rw [poke_length _ _ _ h1, List.length_replicate]
  decide

theorem poke_crc (recs hex : List Nat) (h : hex.length = 8) :
    poke (recs ++ crc_record) ((recs ++ crc_record).length - 9) hex
      = recs ++ (print_size_keyword 22 kw_crc ++ hex ++ [0x0A]) := by
  have e1 : (recs ++ crc_record).length - 9 = recs.length + 13 := by
    rw [List.length_append]
    have : crc_record.length = 22 := rfl
    omega
  have e2 : print_size_keyword 22 kw_crc = crc_record.take 13 := by decide
  have e3 : crc_record.drop 21 = [0x0A] := by decide
  unfold poke
  rw [e1, h, List.take_append, Nat.add_assoc, List.drop_append, e2]
  simp [e3]

/-- The records that `format_records` joins, each printed by one call of
`print_record`. -/
theorem format_records_some (x : Extended) (recs : List Nat)
    (h : x.format_records = some recs) :
    ∃ r1 r2 r3 r4 r5 r6 r7 : List Nat,
      print_record x.path_recsize_ kw_path x.path_ = some r1 ∧
      print_record x.linkpath_recsize_ kw_linkpath x.linkpath_ = some r2 ∧
      print_record x.file_size_recsize_ kw_size
        (print_decimal (decimal_digits (to_ull x.file_size_)) (to_ull x.file_size_)) = some r3 ∧
      print_record x.uid_recsize_ kw_uid
        (print_decimal (decimal_digits (to_ull x.uid_)) (to_ull x.uid_)) = some r4 ∧
      print_record x.gid_recsize_ kw_gid
        (print_decimal (decimal_digits (to_ull x.gid_)) (to_ull x.gid_)) = some r5 ∧
      print_record x.atime_recsize_ kw_atime x.atime_.print = some r6 ∧
      print_record x.mtime_recsize_ kw_mtime x.mtime_.print = some r7 ∧
      recs = r1 ++ (r2 ++ (r3 ++ (r4 ++ (r5 ++ (r6 ++ r7))))) := by
  unfold format_records at h
  cases h1 : print_record x.path_recsize_ kw_path x.path_ with
  | none => rw [h1] at h; simp at h
  | some r1 =>
  cases h2 : print_record x.linkpath_recsize_ kw_linkpath x.linkpath_ with
  | none => rw [h1, h2] at h; simp at h
  | some r2 =>
  cases h3 : print_record x.file_size_recsize_ kw_size
      (print_decimal (decimal_digits (to_ull x.file_size_)) (to_ull x.file_size_)) with
  | none => rw [h1, h2, h3] at h; simp at h
  | some r3 =>
  cases h4 : print_record x.uid_recsize_ kw_uid
      (print_decimal (decimal_digits (to_ull x.uid_)) (to_ull x.uid_)) with
  | none => rw [h1, h2, h3, h4] at h; simp at h
  | some r4 =>
  cases h5 : print_record x.gid_recsize_ kw_gid
      (print_decimal (decimal_digits (to_ull x.gid_)) (to_ull x.gid_)) with
  | none => rw [h1, h2, h3, h4, h5] at h; simp at h
  | some r5 =>
  cases h6 : print_record x.atime_recsize_ kw_atime x.atime_.print with
  | none => rw [h1, h2, h3, h4, h5, h6] at h; simp at h
  | some r6 =>
  cases h7 : print_record x.mtime_recsize_ kw_mtime x.mtime_.print with
  | none => rw [h1, h2, h3, h4, h5, h6, h7] at h; simp at h
  | some r7 =>
    rw [h1, h2, h3, h4, h5, h6, h7] at h
    simp only [Option.some.injEq] at h
    exact ⟨r1, r2, r3, r4, r5, r6, r7, rfl, rfl, rfl, rfl, rfl, rfl, rfl, h.symm⟩

/-- What a positive result of `format_block` tells: the records were printed,
they fill `edsize_` bytes with the CRC record, and the buffer holds the header,
the records with the CRC filled in, and the padding. -/
theorem format_block_pos (E : Extended) (m : Bool) (h : (E.format_block m).1 > 0) :
    ∃ (x1 : Extended) (recs header : List Nat),
      x1 = (if E.full_size_ ≤ -4 then E.calculate_sizes else E) ∧ 0 < x1.full_size_ ∧
      x1.format_records = some recs ∧ (recs ++ crc_record).length = x1.edsize_ ∧
      header.length = header_size ∧ (E.format_block m).2.1.edsize_ = x1.edsize_ ∧
      (E.format_block m).2.2 = header ++
        (poke (recs ++ crc_record) (x1.edsize_ - 9)
          (print_hex 8 (crc32c.windowed_crc (recs ++ crc_record) (x1.edsize_ - 9) x1.edsize_))
          ++ List.replicate (x1.padded_edsize_ - x1.edsize_) 0) := by
  unfold format_block at h ⊢
  generalize (if E.full_size_ ≤ -4 then E.calculate_sizes else E) = x1 at h ⊢
  simp only at h ⊢
  by_cases c1 : x1.full_size_ ≤ 0
  · rw [if_pos c1] at h; simp only at h; omega
  rw [if_neg c1] at h ⊢
  by_cases c2 : (!m) = true
  · rw [if_pos c2] at h; simp at h
  rw [if_neg c2] at h ⊢
  cases hr : x1.format_records with
  | none => rw [hr] at h; simp at h
  | some recs =>
    rw [hr] at h
    simp only at h ⊢
    by_cases c3 : (recs ++ crc_record).length ≠ x1.edsize_
    · rw [if_pos c3] at h; simp at h
    rw [if_neg c3] at h ⊢
    simp only
    refine ⟨x1, recs, _, rfl, by omega, hr, by simpa using c3, ?_, rfl, rfl⟩
    rw [poke_length, poke_length, poke_length, init_tar_header_length]
    · rw [init_tar_header_length]; decide
    · rw [poke_length, init_tar_header_length, print_octal_length]
      · decide
      · rw [init_tar_header_length]; decide
    · rw [poke_length, poke_length, init_tar_header_length, print_octal_length]
      · decide
      · rw [init_tar_header_length]; decide
      · rw [poke_length, init_tar_header_length, print_octal_length]
        · decide
        · rw [init_tar_header_length]; decide

end Lzip

namespace Lzip
open Extended

theorem decimal_digits_loop_lower (fuel value digits : Nat) (h : value ≤ fuel) (h1 : 1 ≤ value) :
    10 ^ (decimal_digits_loop fuel value digits - digits) ≤ value := by
  induction fuel generalizing value digits with
  | zero => omega
  | succ fuel ih =>
    rw [decimal_digits_loop]
    by_cases c : value ≥ 10
    · rw [if_pos c]
      have h2 := ih (value / 10) (digits + 1) (by omega) (by omega)
      have h3 := (decimal_digits_loop_spec fuel (value / 10) (digits + 1) (by omega)).1
      generalize decimal_digits_loop fuel (value / 10) (digits + 1) = m at h2 h3 ⊢
      have e : m - digits = (m - (digits + 1)) + 1 := by omega
      rw [e, pow_succ]
      omega
    · rw [if_neg c]
      simp
      omega

theorem pow_decimal_digits_le (n : Nat) (h : 1 ≤ n) : 10 ^ (decimal_digits n - 1) ≤ n :=
  decimal_digits_loop_lower n n 1 (le_refl _) h

theorem decimal_digits_le_of_lt (n k : Nat) (hk : 1 ≤ k) (h : n < 10 ^ k) :
    decimal_digits n ≤ k := by
  by_contra hc
  have h0 : 1 ≤ n := by
    by_contra h0
    have : n = 0 := by omega
    subst this
    have h1 : decimal_digits 0 = 1 := by decide
    omega
  have h1 := pow_decimal_digits_le n h0
  have h2 : 10 ^ k ≤ 10 ^ (decimal_digits n - 1) :=
    Nat.pow_le_pow_right (by decide) (by omega)
  omega

theorem decimal_digits_mono (a b : Nat) (h : a ≤ b) : decimal_digits a ≤ decimal_digits b :=
  decimal_digits_le_of_lt a _ (decimal_digits_pos b) (lt_of_le_of_lt h (lt_pow_decimal_digits b))

theorem lt_decimal_digits_of_le (n k : Nat) (h : 10 ^ k ≤ n) : k < decimal_digits n := by
  have h1 := lt_pow_decimal_digits n
  exact (Nat.pow_lt_pow_iff_right (show 1 < 10 by decide)).1 (lt_of_le_of_lt h h1)

theorem decimal_digits_lt_pow (n : Nat) : decimal_digits n < 10 ^ decimal_digits n := by
  have : ∀ d : Nat, d < 10 ^ d := by
    intro d
    induction d with
    | zero => decide
    | succ d ih => rw [pow_succ]; omega
  exact this _

/-- The core of `record_size`: for a payload of `b` bytes, `b + digits(digits(b)
+ b)` is the least `s` with `s = digits(s) + b`. -/
theorem record_size_core (b : Nat) :
    b + decimal_digits (decimal_digits b + b)
        = decimal_digits (b + decimal_digits (decimal_digits b + b)) + b ∧
      ∀ s, s = decimal_digits s + b → b + decimal_digits (decimal_digits b + b) ≤ s := by
  have hd1 := decimal_digits_pos b
  have hb := lt_pow_decimal_digits b
  have hdd := decimal_digits_lt_pow b
  -- digits(digits(b) + b) is digits(b) or digits(b) + 1
  have hup : decimal_digits (decimal_digits b + b) ≤ decimal_digits b + 1 := by
    apply decimal_digits_le_of_lt _ _ (by omega)
    rw [pow_succ]; omega
  have hlo : decimal_digits b ≤ decimal_digits (decimal_digits b + b) :=
    decimal_digits_mono _ _ (by omega)
  by_cases hc : decimal_digits (decimal_digits b + b) = decimal_digits b
  · rw [hc]
    constructor
    · rw [Nat.add_comm b, hc]
    · intro s hs
      have : decimal_digits b ≤ decimal_digits s := decimal_digits_mono _ _ (by omega)
      omega
  · have hc2 : decimal_digits (decimal_digits b + b) = decimal_digits b + 1 := by omega
    have hge : 10 ^ decimal_digits b ≤ decimal_digits b + b := by
      by_contra hlt
      have := decimal_digits_le_of_lt (decimal_digits b + b) (decimal_digits b) hd1 (by omega)
      omega
    rw [hc2]
    constructor
    · have h1 : decimal_digits b < decimal_digits (b + (decimal_digits b + 1)) :=
        lt_decimal_digits_of_le _ _ (by omega)
      have h2 : decimal_digits (b + (decimal_digits b + 1)) ≤ decimal_digits b + 1 := by
        apply decimal_digits_le_of_lt _ _ (by omega)
        rw [pow_succ]; omega
      omega
    · intro s hs
      have h1 : decimal_digits b ≤ decimal_digits s := decimal_digits_mono _ _ (by omega)
      by_contra hlt
      have h2 : s = decimal_digits b + b := by omega
      rw [h2, hc2] at hs
      omega

theorem record_size_eq (k v : Nat)
    (h : 1 + k + 1 + v + 1 + decimal_digits (decimal_digits (1 + k + 1 + v + 1) + (1 + k + 1 + v + 1)) < 2 ^ 32) :
    record_size k v = 1 + k + 1 + v + 1 +
      decimal_digits (decimal_digits (1 + k + 1 + v + 1) + (1 + k + 1 + v + 1)) := by
  unfold record_size
  generalize 1 + k + 1 + v + 1 = b at h ⊢
  have hlo : decimal_digits b ≤ decimal_digits (decimal_digits b + b) :=
    decimal_digits_mono _ _ (by omega)
  simp only
  rw [Nat.mod_eq_of_lt (show b < 2 ^ 32 by omega),
    Nat.mod_eq_of_lt (show decimal_digits b + b < 2 ^ 32 by omega), Nat.mod_eq_of_lt h]

/-- C14: when nothing overflows (the result `1 + k + 1 + v + 1 + digits` fits in
32 bits), `s = record_size( k, v )` is positive, satisfies
`s = decimal_digits( s ) + 1 + k + 1 + v + 1`, and no smaller positive integer
does. -/
theorem record_size_minimal (k v : Nat)
    (h : 1 + k + 1 + v + 1 +
      decimal_digits (decimal_digits (1 + k + 1 + v + 1) + (1 + k + 1 + v + 1)) < 2 ^ 32) :
    0 < record_size k v ∧
      record_size k v = decimal_digits (record_size k v) + 1 + k + 1 + v + 1 ∧
      ∀ s, 0 < s → s = decimal_digits s + 1 + k + 1 + v + 1 → record_size k v ≤ s := by
  rw [record_size_eq k v h]
  obtain ⟨h1, h2⟩ := record_size_core (1 + k + 1 + v + 1)
  refine ⟨by omega, by omega, fun s _ hs => h2 s (by omega)⟩

theorem record_size_minimal_witness :
    (1 + 4 + 1 + 90 + 1 +
      decimal_digits (decimal_digits (1 + 4 + 1 + 90 + 1) + (1 + 4 + 1 + 90 + 1)) < 2 ^ 32) ∧
    (0 < record_size 4 90 ∧
      record_size 4 90 = decimal_digits (record_size 4 90) + 1 + 4 + 1 + 90 + 1 ∧
      ∀ s, 0 < s → s = decimal_digits s + 1 + 4 + 1 + 90 + 1 → record_size 4 90 ≤ s) :=
  ⟨by decide, record_size_minimal 4 90 (by decide)⟩

theorem record_size_pos (k v : Nat) (h : k + v + 23 < 2 ^ 32) : record_size k v ≠ 0 := by
  have h1 : decimal_digits (1 + k + 1 + v + 1) ≤ 10 :=
    decimal_digits_le_of_lt _ 10 (by decide) (by omega)
  have h2 : decimal_digits (decimal_digits (1 + k + 1 + v + 1) + (1 + k + 1 + v + 1)) ≤ 10 :=
    decimal_digits_le_of_lt _ 10 (by decide) (by omega)
  rw [record_size_eq k v (by omega)]
  omega

/-- The object after `calculate_sizes`, when the block is not too long. -/
theorem calculate_sizes_eq (E : Extended) (h : 0 < E.calculate_sizes.full_size_) :
    ∃ ed pd fs, ed ≤ max_edata_size ∧ E.linkpath_.length ≤ max_edata_size ∧
      E.path_.length ≤ max_edata_size ∧ E.calculate_sizes = { E with
      linkpath_recsize_ := if E.linkpath_.length ≠ 0 then record_size 8 E.linkpath_.length else 0
      path_recsize_ := if E.path_.length ≠ 0 then record_size 4 E.path_.length else 0
      file_size_recsize_ :=
        if E.file_size_ > 0 then record_size 4 (decimal_digits (to_ull E.file_size_)) else 0
      uid_recsize_ := if E.uid_ ≥ 0 then record_size 3 (decimal_digits (to_ull E.uid_)) else 0
      gid_recsize_ := if E.gid_ ≥ 0 then record_size 3 (decimal_digits (to_ull E.gid_)) else 0
      atime_recsize_ :=
        if E.atime_.out_of_ustar_range then record_size 5 E.atime_.decimal_size else 0
      mtime_recsize_ :=
        if E.mtime_.out_of_ustar_range then record_size 5 E.mtime_.decimal_size else 0
      edsize_ := ed, padded_edsize_ := pd, full_size_ := fs } := by
  unfold calculate_sizes at h ⊢
  by_cases c1 : E.linkpath_.length > max_edata_size ∨ E.path_.length > max_edata_size
  · rw [if_pos c1] at h; exact absurd (show (0 : Int) < -3 from h) (by decide)
  rw [if_neg c1] at h ⊢
  simp only at h ⊢
  generalize (if E.linkpath_.length ≠ 0 then record_size 8 E.linkpath_.length else 0) +
    (if E.path_.length ≠ 0 then record_size 4 E.path_.length else 0) +
    (if E.file_size_ > 0 then record_size 4 (decimal_digits (to_ull E.file_size_)) else 0) +
    (if E.uid_ ≥ 0 then record_size 3 (decimal_digits (to_ull E.uid_)) else 0) +
    (if E.gid_ ≥ 0 then record_size 3 (decimal_digits (to_ull E.gid_)) else 0) +
    (if E.atime_.out_of_ustar_range = true then record_size 5 E.atime_.decimal_size else 0) +
    (if E.mtime_.out_of_ustar_range = true then record_size 5 E.mtime_.decimal_size else 0) +
    crc_record.length = tmp at h ⊢
  by_cases c2 : tmp > max_edata_size
  · rw [if_pos c2] at h; exact absurd (show (0 : Int) < -3 from h) (by decide)
  rw [if_neg c2] at h ⊢
  by_cases c3 : round_up tmp > max_edata_size
  · rw [if_pos c3] at h; exact absurd (show (0 : Int) < -3 from h) (by decide)
  rw [if_neg c3]
  exact ⟨tmp, round_up tmp, _, by omega, by omega, by omega, rfl⟩

/-- The cached sizes after `calculate_sizes`, when the block is not too long. -/
theorem calculate_sizes_pos (E : Extended) (h : 0 < E.calculate_sizes.full_size_) :
    E.calculate_sizes.path_ = E.path_ ∧ E.calculate_sizes.linkpath_ = E.linkpath_ ∧
    E.calculate_sizes.file_size_ = E.file_size_ ∧ E.calculate_sizes.uid_ = E.uid_ ∧
    E.calculate_sizes.gid_ = E.gid_ ∧ E.calculate_sizes.atime_ = E.atime_ ∧
    E.calculate_sizes.mtime_ = E.mtime_ ∧
    (E.calculate_sizes.path_recsize_ = 0 ↔ E.path_ = []) ∧
    (E.calculate_sizes.linkpath_recsize_ = 0 ↔ E.linkpath_ = []) ∧
    (E.calculate_sizes.file_size_recsize_ ≠ 0 → 0 < E.file_size_) ∧
    (E.calculate_sizes.uid_recsize_ ≠ 0 → 0 ≤ E.uid_) ∧
    (E.calculate_sizes.gid_recsize_ ≠ 0 → 0 ≤ E.gid_) ∧
    E.calculate_sizes.edsize_ ≤ max_edata_size := by
  obtain ⟨ed, pd, fs, hed, hll, hpl, heq⟩ := calculate_sizes_eq E h
  have hmx : max_edata_size = 1073741824 := by decide
  rw [heq]
  refine ⟨rfl, rfl, rfl, rfl, rfl, rfl, rfl, ?_, ?_, ?_, ?_, ?_, hed⟩
  · show (if E.path_.length ≠ 0 then record_size 4 E.path_.length else 0) = 0 ↔ E.path_ = []
    by_cases hp : E.path_.length ≠ 0
    · rw [if_pos hp]
      exact ⟨fun hc => absurd hc (record_size_pos _ _ (by omega)),
        fun hc => absurd (by rw [hc]; rfl) hp⟩
    · rw [if_neg hp]
      exact ⟨fun _ => List.length_eq_zero.1 (not_not.1 hp), fun _ => rfl⟩
  · show (if E.linkpath_.length ≠ 0 then record_size 8 E.linkpath_.length else 0) = 0
      ↔ E.linkpath_ = []
    by_cases hp : E.linkpath_.length ≠ 0
    · rw [if_pos hp]
      exact ⟨fun hc => absurd hc (record_size_pos _ _ (by omega)),
        fun hc => absurd (by rw [hc]; rfl) hp⟩
    · rw [if_neg hp]
      exact ⟨fun _ => List.length_eq_zero.1 (not_not.1 hp), fun _ => rfl⟩
  · show (if E.file_size_ > 0 then record_size 4 (decimal_digits (to_ull E.file_size_)) else 0) ≠ 0
      → 0 < E.file_size_
    intro hne
    by_contra hc
    rw [if_neg hc] at hne
    exact hne rfl
  · show (if E.uid_ ≥ 0 then record_size 3 (decimal_digits (to_ull E.uid_)) else 0) ≠ 0
      → 0 ≤ E.uid_
    intro hne
    by_contra hc
    rw [if_neg hc] at hne
    exact hne rfl
  · show (if E.gid_ ≥ 0 then record_size 3 (decimal_digits (to_ull E.gid_)) else 0) ≠ 0
      → 0 ≤ E.gid_
    intro hne
    by_contra hc
    rw [if_neg hc] at hne
    exact hne rfl

theorem accepts_linkpath (buf : List Nat) (edsize n rs : Nat) (tl pad r lp : List Nat)
    (hmax : edsize ≤ LLONG_MAX)
    (hnext : AcceptsFrom buf edsize n tl pad
      (fun x => x.file_size_ = 0 ∧ x.uid_ < 0 ∧ x.gid_ < 0 ∧ x.atime_.isvalid = false ∧
        x.mtime_.isvalid = false ∧ x.crc_present_ = false))
    (htl : tl ≠ []) (hpr : print_record rs kw_linkpath lp = some r)
    (hrs : rs = 0 ↔ lp = []) (hl : lp.length > 1 → lp.getLast? ≠ some 0x2F)
    (fuel pos : Nat) (x : Extended) (hf : n + 1 ≤ fuel) (hd : buf.drop pos = (r ++ tl) ++ pad)
    (hp : pos + (r ++ tl).length = edsize) (hx : x.linkpath_ = [])
    (hF : x.file_size_ = 0 ∧ x.uid_ < 0 ∧ x.gid_ < 0 ∧ x.atime_.isvalid = false ∧
        x.mtime_.isvalid = false ∧ x.crc_present_ = false) :
    ∃ xf, parse_loop buf edsize false fuel pos x = (true, xf) ∧ xf.crc_present_ = true ∧
      xf.path_ = x.path_ ∧ xf.linkpath_ = lp := by
  have htl0 : 0 < tl.length := List.length_pos.2 htl
  rcases print_record_some rs _ _ r hpr with ⟨h0, hr⟩ | ⟨h1, h2, h4⟩
  · subst hr
    obtain ⟨xf, e1, e2, e3, e4⟩ := hnext fuel pos x (by omega) (by simpa using hd)
      (by simpa using hp) hF
    exact ⟨xf, e1, e2, e3, by rw [e4, hx, hrs.1 h0]⟩
  · obtain ⟨f, rfl⟩ : ∃ f, fuel = f + 1 := ⟨fuel - 1, by omega⟩
    rw [List.length_append] at hp
    have hs := parse_step_linkpath x buf edsize pos rs lp (tl ++ pad)
      (by rw [hd, h2]; simp) (by rw [← h2]; exact h4) (by omega) hmax hx
      (fun hc => h1 (hrs.2 hc)) hl
    rw [parse_loop_step buf edsize false f pos _ x _ (by omega) hs]
    obtain ⟨xf, e1, e2, e3, e4⟩ := hnext f (pos + rs) { x with linkpath_ := lp } (by omega)
      (by rw [← h4]; exact drop_of_drop buf pos r (tl ++ pad) (by rw [hd]; simp)) (by omega) hF
    exact ⟨xf, e1, e2, e3, e4⟩

theorem accepts_path (buf : List Nat) (edsize n rs rs2 : Nat) (tl pad r r2 p lp : List Nat)
    (hmax : edsize ≤ LLONG_MAX)
    (hnext : AcceptsFrom buf edsize n tl pad
      (fun x => x.file_size_ = 0 ∧ x.uid_ < 0 ∧ x.gid_ < 0 ∧ x.atime_.isvalid = false ∧
        x.mtime_.isvalid = false ∧ x.crc_present_ = false))
    (htl : tl ≠ []) (hpr : print_record rs kw_path p = some r)
    (hpr2 : print_record rs2 kw_linkpath lp = some r2)
    (hrs : rs = 0 ↔ p = []) (hrs2 : rs2 = 0 ↔ lp = [])
    (h0 : 0 ∉ p) (h1 : p.head? ≠ some 0x2F) (h2 : ¬ [0x2E, 0x2F] <+: p)
    (h3 : p.getLast? ≠ some 0x2F) (hl : lp.length > 1 → lp.getLast? ≠ some 0x2F)
    (fuel : Nat) (x : Extended) (hf : n + 2 ≤ fuel) (hd : buf = (r ++ (r2 ++ tl)) ++ pad)
    (hp : (r ++ (r2 ++ tl)).length = edsize) (hx : x.path_ = []) (hx2 : x.linkpath_ = [])
    (hF : x.file_size_ = 0 ∧ x.uid_ < 0 ∧ x.gid_ < 0 ∧ x.atime_.isvalid = false ∧
        x.mtime_.isvalid = false ∧ x.crc_present_ = false) :
    ∃ xf, parse_loop buf edsize false fuel 0 x = (true, xf) ∧ xf.crc_present_ = true ∧
      xf.path_ = p ∧ xf.linkpath_ = lp := by
  have htl0 : 0 < tl.length := List.length_pos.2 htl
  rcases print_record_some rs _ _ r hpr with ⟨hz, hr⟩ | ⟨hn, hr, hlen⟩
  · subst hr
    obtain ⟨xf, e1, e2, e3, e4⟩ := accepts_linkpath buf edsize n rs2 tl pad r2 lp hmax hnext htl
      hpr2 hrs2 hl fuel 0 x (by omega) (by rw [hd]; simp) (by simpa using hp) hx2 hF
    exact ⟨xf, e1, e2, by rw [e3, hx, hrs.1 hz], e4⟩
  · obtain ⟨f, rfl⟩ : ∃ f, fuel = f + 1 := ⟨fuel - 1, by omega⟩
    rw [List.length_append] at hp
    have hdrop : buf.drop 0 = (print_size_keyword rs kw_path ++ p ++ [0x0A]) ++
        ((r2 ++ tl) ++ pad) := by rw [hd, hr]; simp
    have hs := parse_step_path x buf edsize 0 rs p ((r2 ++ tl) ++ pad) hdrop
      (by rw [← hr]; exact hlen) (by omega) hmax hx (fun hc => hn (hrs.2 hc)) h0 h1 h2 h3
    rw [parse_loop_step buf edsize false f 0 _ x _ (by simp at hp; omega) hs]
    have hdrop2 : buf.drop (0 + rs) = (r2 ++ tl) ++ pad := by
      rw [← hlen]; exact drop_of_drop buf 0 r ((r2 ++ tl) ++ pad) (by rw [hd]; simp)
    obtain ⟨xf, e1, e2, e3, e4⟩ := accepts_linkpath buf edsize n rs2 tl pad r2 lp hmax hnext htl
      hpr2 hrs2 hl f (0 + rs) { x with path_ := p, removed_prefix := [] } (by omega) hdrop2
      (by omega) hx2 hF
    exact ⟨xf, e1, e2, e3, e4⟩

end Lzip

namespace Lzip
open Extended

/-- C2 (amended): when `format_block` returns a positive size for an `Extended`
E whose cached sizes are valid, whose size, uid and gid are either not stored
or too large for a ustar header (and within the limits of `parse`), whose path
has no null character, no leading `/` or `./` and no trailing `/`, and whose
linkpath has no trailing `/` unless it is one byte long, then `Extended::parse`
with `permissive = false` succeeds on the `edsize_` record bytes written,
reports the CRC as present and yields the path and linkpath of E. -/
theorem parse_format_block (E X : Extended) (mem_ok : Bool)
    (hcache : E.full_size_ ≤ -4 ∨ E.calculate_sizes = E)
    (hret : 0 < (E.format_block mem_ok).1)
    (hsize : E.file_size_ ≤ 0 ∨ (2 ^ 33 ≤ E.file_size_ ∧ E.file_size_ ≤ (max_file_size : Int)))
    (huid : E.uid_ < 0 ∨ (2 ^ 21 ≤ E.uid_ ∧ E.uid_ < 2 ^ 63))
    (hgid : E.gid_ < 0 ∨ (2 ^ 21 ≤ E.gid_ ∧ E.gid_ < 2 ^ 63))
    (hat : -(2 ^ 63 : Int) ≤ E.atime_.sec_ ∧ E.atime_.sec_ < 2 ^ 63)
    (hmt : -(2 ^ 63 : Int) ≤ E.mtime_.sec_ ∧ E.mtime_.sec_ < 2 ^ 63)
    (hp0 : 0 ∉ E.path_) (hp1 : E.path_.head? ≠ some 0x2F)
    (hp2 : ¬ [0x2E, 0x2F] <+: E.path_) (hp3 : E.path_.getLast? ≠ some 0x2F)
    (hl : E.linkpath_.length > 1 → E.linkpath_.getLast? ≠ some 0x2F) :
    (X.parse ((E.format_block mem_ok).2.2.drop header_size)
        (E.format_block mem_ok).2.1.edsize_ false).1 = true ∧
      (X.parse ((E.format_block mem_ok).2.2.drop header_size)
        (E.format_block mem_ok).2.1.edsize_ false).2.crc_present_ = true ∧
      (X.parse ((E.format_block mem_ok).2.2.drop header_size)
        (E.format_block mem_ok).2.1.edsize_ false).2.path_ = E.path_ ∧
      (X.parse ((E.format_block mem_ok).2.2.drop header_size)
        (E.format_block mem_ok).2.1.edsize_ false).2.linkpath_ = E.linkpath_ := by
  obtain ⟨x1, recs, header, hx1, hfs, hrec, hlen, hhl, hed, hbuf⟩ :=
    format_block_pos E mem_ok hret
  have hx1c : x1 = E.calculate_sizes := by
    rw [hx1]
    by_cases hc : E.full_size_ ≤ -4
    · rw [if_pos hc]
    · rw [if_neg hc]
      rcases hcache with h | h
      · exact absurd h hc
      · exact h.symm
  rw [hx1c] at hfs hrec hlen hed hbuf
  obtain ⟨f1, f2, f3, f4, f5, f6, f7, c1, c2, c3, c4, c5, cmax⟩ := calculate_sizes_pos E hfs
  obtain ⟨r1, r2, r3, r4, r5, r6, r7, p1, p2, p3, p4, p5, p6, p7, hrecs⟩ :=
    format_records_some _ _ hrec
  rw [f1] at p1
  rw [f2] at p2
  rw [f3] at p3
  rw [f4] at p4
  rw [f5] at p5
  rw [f6] at p6
  rw [f7] at p7
  generalize E.calculate_sizes.edsize_ = ed at hlen hed hbuf cmax
  generalize E.calculate_sizes.padded_edsize_ - ed = npad at hbuf
  have hmax : ed ≤ LLONG_MAX := le_trans cmax (by decide)
  have hcl : crc_record.length = 22 := rfl
  have hrl : ed = recs.length + 22 := by rw [← hlen, List.length_append, hcl]
  rw [hed, hbuf, List.drop_left' hhl]
  generalize hcrc : crc32c.windowed_crc (recs ++ crc_record) (ed - 9) ed = crc
  have hpk : poke (recs ++ crc_record) (ed - 9) (print_hex 8 crc)
      = recs ++ (print_size_keyword 22 kw_crc ++ print_hex 8 crc ++ [0x0A]) := by
    rw [← hlen]; exact poke_crc recs _ (print_hex_length 8 crc)
  rw [hpk]
  generalize hB : recs ++ (print_size_keyword 22 kw_crc ++ print_hex 8 crc ++ [0x0A]) ++
    List.replicate npad 0 = B
  -- the crc of the buffer that is parsed is the crc that was printed
  have hcrcB : crc32c.windowed_crc B (ed - 9) ed = crc := by
    have e2 : print_size_keyword 22 kw_crc = crc_record.take 13 := by decide
    have e3 : crc_record = crc_record.take 13 ++ (crc_record.drop 13).take 8 ++ [0x0A] := by
      decide
    have hpl : (recs ++ crc_record.take 13).length = ed - 9 := by
      rw [List.length_append, hrl]
      have : (crc_record.take 13).length = 13 := rfl
      omega
    have hpl2 : ed - 9 + 9 = ed := by omega
    have := windowed_crc_window crc32c (recs ++ crc_record.take 13) (print_hex 8 crc)
      ((crc_record.drop 13).take 8) (List.replicate npad 0) [] 0x0A (print_hex_length 8 crc) rfl
    rw [hpl, hpl2] at this
    rw [← hcrc, ← hB, e2]
    have eL : recs ++ (crc_record.take 13 ++ print_hex 8 crc ++ [0x0A]) ++ List.replicate npad 0
        = recs ++ crc_record.take 13 ++ (print_hex 8 crc ++ 0x0A :: List.replicate npad 0) := by
      simp
    have eR : recs ++ crc_record
        = recs ++ crc_record.take 13 ++ ((crc_record.drop 13).take 8 ++ [0x0A]) := by
      conv_lhs => rw [e3]
      simp
    rw [eL, eR]
    exact this
  have hne : print_size_keyword 22 kw_crc ++ print_hex 8 crc ++ [0x0A] ≠ [] := by simp
  have a8 := accepts_crc B ed crc (List.replicate npad 0) hmax hcrcB
  have a7 := accepts_mtime B ed 1 _ _ _ r7 E.mtime_ hmax a8 hne p7 hmt.1 hmt.2
  have a6 := accepts_atime B ed 2 _ _ _ r6 E.atime_ hmax a7 (by simp) p6 hat.1 hat.2
  have a5 := accepts_gid B ed 3 _ (to_ull E.gid_) _ _ r5 hmax a6 (by simp) p5 (by
    intro h
    have := c5 h
    have hL : LLONG_MAX = 2 ^ 63 - 1 := rfl
    unfold to_ull
    rcases hgid with hg | hg <;> omega)
  have a4 := accepts_uid B ed 4 _ (to_ull E.uid_) _ _ r4 hmax a5 (by simp) p4 (by
    intro h
    have := c4 h
    have hL : LLONG_MAX = 2 ^ 63 - 1 := rfl
    unfold to_ull
    rcases huid with hg | hg <;> omega)
  have a3 := accepts_size B ed 5 _ (to_ull E.file_size_) _ _ r3 hmax a4 (by simp) p3 (by
    intro h
    have := c3 h
    have hM : max_file_size = 2 ^ 63 - 1 - 512 := rfl
    unfold to_ull
    rcases hsize with hg | hg <;> omega)
  have hBeq : B = (r1 ++ (r2 ++ (r3 ++ (r4 ++ (r5 ++ (r6 ++ (r7 ++
      (print_size_keyword 22 kw_crc ++ print_hex 8 crc ++ [0x0A])))))))) ++
      List.replicate npad 0 := by
    rw [← hB, hrecs]; simp
  have hBlen : (r1 ++ (r2 ++ (r3 ++ (r4 ++ (r5 ++ (r6 ++ (r7 ++
      (print_size_keyword 22 kw_crc ++ print_hex 8 crc ++ [0x0A])))))))).length = ed := by
    rw [hrl, hrecs]
    simp [print_hex_length, print_size_keyword_length]
    have : decimal_digits 22 = 2 := by decide
    have : kw_crc.length = 9 := rfl
    omega
  obtain ⟨xf, e1, e2, e3, e4⟩ := accepts_path B ed 6 _ _ _ (List.replicate npad 0) r1 r2
    E.path_ E.linkpath_ hmax a3 (by simp) p1 p2 c1 c2 hp0 hp1 hp2 hp3 hl ed
    { X.reset with full_size_ := -4 } (by omega) hBeq hBlen rfl rfl
    ⟨rfl, show (-1 : Int) < 0 by decide, show (-1 : Int) < 0 by decide, rfl, rfl, rfl⟩
  unfold parse
  rw [e1]
  exact ⟨rfl, e2, e3, e4⟩

end Lzip

namespace Lzip
open Extended

set_option maxRecDepth 20000 in
/-- C2 as stated fails: `format_block` returns a positive size for each of
these objects, yet `parse` rejects the records when the size, the user id or
the group id stored fits in a ustar header, or when the size stored exceeds
`max_file_size`, and it yields another path or linkpath when the path ends in
`/`, begins with `./` or `/`, or holds a null character, or when the linkpath
ends in `/`. -/
theorem parse_format_block_counterexample :
    (0 < (small_size_extended.format_block true).1 ∧ (reparse small_size_extended).1 = false) ∧
    (0 < (huge_size_extended.format_block true).1 ∧ (reparse huge_size_extended).1 = false) ∧
    (0 < (small_uid_extended.format_block true).1 ∧ (reparse small_uid_extended).1 = false) ∧
    (0 < (small_gid_extended.format_block true).1 ∧ (reparse small_gid_extended).1 = false) ∧
    (0 < (slash_path_extended.format_block true).1 ∧
      (reparse slash_path_extended).2.path_ ≠ slash_path_extended.path_) ∧
    (0 < (dotslash_path_extended.format_block true).1 ∧
      (reparse dotslash_path_extended).2.path_ ≠ dotslash_path_extended.path_) ∧
    (0 < (rooted_path_extended.format_block true).1 ∧
      (reparse rooted_path_extended).2.path_ ≠ rooted_path_extended.path_) ∧
    (0 < (null_path_extended.format_block true).1 ∧
      (reparse null_path_extended).2.path_ ≠ null_path_extended.path_) ∧
    (0 < (slash_linkpath_extended.format_block true).1 ∧
      (reparse slash_linkpath_extended).2.linkpath_ ≠ slash_linkpath_extended.linkpath_) :=
  ⟨⟨by decide, by decide⟩, ⟨by decide, by decide⟩, ⟨by decide, by decide⟩,
    ⟨by decide, by decide⟩, ⟨by decide, by decide⟩, ⟨by decide, by decide⟩,
    ⟨by decide, by decide⟩, ⟨by decide, by decide⟩, ⟨by decide, by decide⟩⟩

theorem parse_format_block_witness :
    0 < (full_extended.format_block true).1 ∧
    ((Extended.init.parse ((full_extended.format_block true).2.2.drop header_size)
        (full_extended.format_block true).2.1.edsize_ false).1 = true ∧
      (Extended.init.parse ((full_extended.format_block true).2.2.drop header_size)
        (full_extended.format_block true).2.1.edsize_ false).2.crc_present_ = true ∧
      (Extended.init.parse ((full_extended.format_block true).2.2.drop header_size)
        (full_extended.format_block true).2.1.edsize_ false).2.path_ = full_extended.path_ ∧
      (Extended.init.parse ((full_extended.format_block true).2.2.drop header_size)
        (full_extended.format_block true).2.1.edsize_ false).2.linkpath_
          = full_extended.linkpath_) :=
  ⟨by decide, parse_format_block full_extended Extended.init true (Or.inl (by decide))
    (by decide) (Or.inr ⟨by decide, by decide⟩) (Or.inr ⟨by decide, by decide⟩)
    (Or.inl (by decide)) ⟨by decide, by decide⟩ ⟨by decide, by decide⟩ (by decide) (by decide)
    (by decide) (by decide) (fun _ => by decide)⟩

end Lzip

namespace Lzip

/-- C11 as stated fails in both directions: `check_consistency` accepts a
trailer whose member size is `2^63`, outside the band, and rejects a trailer of
the band whose two bounds overflow (its data size exceeds the wrapped value of
`7090 * (msize - 26) - 1`). -/
theorem check_consistency_band_counterexample :
    (huge_member_trailer.check_consistency = true ∧
      ¬ spec_consistency_band huge_member_trailer.data_crc huge_member_trailer.data_size
        huge_member_trailer.member_size) ∧
    (wrapped_limit_trailer.check_consistency = false ∧
      spec_consistency_band wrapped_limit_trailer.data_crc wrapped_limit_trailer.data_size
        wrapped_limit_trailer.member_size) := by
  decide

theorem mlimit_wrapped (d : Nat) (hd : d < 2 ^ 64) :
    (9 * d + 7 < 2 ^ 64 →
      (((9 * d) % 2 ^ 64 + 7) % 2 ^ 64 / 8 + 36) % 2 ^ 64 = (9 * d + 7) / 8 + 36) ∧
    (2 ^ 64 ≤ 9 * d + 7 → (((9 * d) % 2 ^ 64 + 7) % 2 ^ 64 / 8 + 36) % 2 ^ 64 ≤ d) := by
  constructor
  · intro h
    rw [Nat.mod_eq_of_lt (show 9 * d < 2 ^ 64 by omega), Nat.mod_eq_of_lt h,
      Nat.mod_eq_of_lt (by omega)]
  · intro h
    have hq : 9 * d / 2 ^ 64 ≤ 8 := by omega
    have hr : 9 * d % 2 ^ 64 < 2 ^ 64 := Nat.mod_lt _ (by decide)
    have hr2 : 9 * d = 2 ^ 64 * (9 * d / 2 ^ 64) + 9 * d % 2 ^ 64 := (Nat.div_add_mod _ _).symm
    generalize 9 * d / 2 ^ 64 = q at hq hr2
    generalize 9 * d % 2 ^ 64 = r at hr hr2 ⊢
    have hs : (r + 7) % 2 ^ 64 = r + 7 ∨ (r + 7) % 2 ^ 64 + 2 ^ 64 = r + 7 := by omega
    have hs2 : (r + 7) % 2 ^ 64 < 2 ^ 64 := Nat.mod_lt _ (by decide)
    generalize (r + 7) % 2 ^ 64 = r2 at hs hs2 ⊢
    rw [Nat.mod_eq_of_lt (by omega)]
    have h8 : 8 * (r2 / 8) ≤ r2 := Nat.mul_div_le r2 8
    generalize r2 / 8 = e at h8 ⊢
    interval_cases q <;> omega

theorem dlimit_wrapped (m : Nat) (hm : m < 2 ^ 64) (h : 36 ≤ m) :
    ((7090 * ((m + 2 ^ 64 - 26) % 2 ^ 64)) % 2 ^ 64 + 2 ^ 64 - 1) % 2 ^ 64
      = (7090 * (m - 26) - 1) % 2 ^ 64 := by
  have e : (m + 2 ^ 64 - 26) % 2 ^ 64 = m - 26 := by omega
  rw [e]
  have hx : 1 ≤ 7090 * (m - 26) := by omega
  generalize 7090 * (m - 26) = x at hx
  omega

/-- C11 (amended): `check_consistency` returns true exactly when the stored CRC
is zero iff the data size is zero, the member size is at least 36 (no upper
limit is checked), the member size is at most `(9*dsize+7)/8 + 36` unless
computing that bound overflows 64 bits, and the data size is at most
`7090*(msize-26) - 1` when that does not overflow or, when it does, at most
its value modulo `2^64` if that value exceeds the member size. -/
theorem check_consistency_band (t : Lzip_trailer) :
    t.check_consistency = true ↔
      ((t.data_crc = 0 ↔ t.data_size = 0) ∧ 36 ≤ t.member_size ∧
        (9 * t.data_size + 7 < 2 ^ 64 → t.member_size ≤ (9 * t.data_size + 7) / 8 + 36) ∧
        (7090 * (t.member_size - 26) < 2 ^ 64 →
          t.data_size ≤ 7090 * (t.member_size - 26) - 1) ∧
        (2 ^ 64 ≤ 7090 * (t.member_size - 26) →
          t.member_size < (7090 * (t.member_size - 26) - 1) % 2 ^ 64 →
          t.data_size ≤ (7090 * (t.member_size - 26) - 1) % 2 ^ 64)) := by
  have hd := data_size_lt t
  have hm := member_size_lt t
  unfold Lzip_trailer.check_consistency
  generalize t.data_crc = crc
  generalize t.data_size = d at hd ⊢
  generalize t.member_size = m at hd hm ⊢
  have hmin : min_member_size = 36 := rfl
  simp only [hmin]
  by_cases h1 : (decide (crc = 0) != decide (d = 0)) = true
  · rw [if_pos h1]
    simp only [Bool.false_eq_true, false_iff]
    rintro ⟨h, _⟩
    by_cases hc : crc = 0 <;> by_cases hd0 : d = 0 <;> simp [hc, hd0] at h1 h
  rw [if_neg h1]
  have hiff : crc = 0 ↔ d = 0 := by
    by_cases hc : crc = 0 <;> by_cases hd0 : d = 0 <;> simp [hc, hd0] at h1 ⊢
  by_cases h2 : m < 36
  · rw [if_pos h2]
    simp only [Bool.false_eq_true, false_iff]
    omega
  rw [if_neg h2]
  obtain ⟨ml1, ml2⟩ := mlimit_wrapped d hd
  rw [dlimit_wrapped m hm (by omega)]
  generalize (((9 * d) % 2 ^ 64 + 7) % 2 ^ 64 / 8 + 36) % 2 ^ 64 = ml at ml1 ml2 ⊢
  have hx : m + 1 < 7090 * (m - 26) := by omega
  generalize 7090 * (m - 26) = x at hx ⊢
  have hdl : x < 2 ^ 64 → (x - 1) % 2 ^ 64 = x - 1 := fun h => by omega
  generalize (x - 1) % 2 ^ 64 = dl at hdl ⊢
  by_cases h3 : ml > d ∧ m > ml
  · rw [if_pos h3]
    simp only [Bool.false_eq_true, false_iff]
    rintro ⟨_, _, h5, _⟩
    by_cases ho : 9 * d + 7 < 2 ^ 64
    · have := h5 ho
      have := ml1 ho
      omega
    · have := ml2 (by omega)
      omega
  rw [if_neg h3]
  by_cases h4 : dl > m ∧ d > dl
  · rw [if_pos h4]
    simp only [Bool.false_eq_true, false_iff]
    rintro ⟨_, _, _, h6, h7⟩
    by_cases ho : x < 2 ^ 64
    · have := h6 ho
      have := hdl ho
      omega
    · have := h7 (by omega) h4.1
      omega
  rw [if_neg h4]
  refine ⟨fun _ => ⟨hiff, by omega, ?_, ?_, ?_⟩, fun _ => rfl⟩
  · intro ho
    have := ml1 ho
    omega
  · intro ho
    have := hdl ho
    omega
  · intro _ hgt
    omega

end Lzip

namespace Lzip

theorem round_eq_spec (poly c : Nat) : CRC32.round poly c = spec_crc_bit_step poly c := by
  unfold CRC32.round spec_crc_bit_step
  rw [Nat.and_one_is_mod, Nat.shiftRight_eq_div_pow, Nat.xor_comm]
  have h : c % 2 = 0 ∨ c % 2 = 1 := by omega
  rcases h with h | h <;> simp [h]

theorem xor_mod_two (a b : Nat) : (a ^^^ b) % 2 = (a % 2 + b % 2) % 2 := by
  have h := Nat.and_xor_distrib_right (a := a) (b := b) (c := 1)
  rw [Nat.and_one_is_mod, Nat.and_one_is_mod, Nat.and_one_is_mod] at h
  rw [h]
  have ha : a % 2 = 0 ∨ a % 2 = 1 := by omega
  have hb : b % 2 = 0 ∨ b % 2 = 1 := by omega
  rcases ha with ha | ha <;> rcases hb with hb | hb <;> rw [ha, hb] <;> decide

/-- A step of the CRC is linear over XOR. -/
theorem spec_step_xor (poly a b : Nat) :
    spec_crc_bit_step poly (a ^^^ b) = spec_crc_bit_step poly a ^^^ spec_crc_bit_step poly b := by
  unfold spec_crc_bit_step
  rw [xor_mod_two, Nat.xor_div_two]
  have ha : a % 2 = 0 ∨ a % 2 = 1 := by omega
  have hb : b % 2 = 0 ∨ b % 2 = 1 := by omega
  rcases ha with ha | ha <;> rcases hb with hb | hb <;> simp only [ha, hb] <;> norm_num
  · rw [Nat.xor_assoc]
  · rw [Nat.xor_assoc, Nat.xor_assoc, Nat.xor_comm poly]
  · rw [Nat.xor_assoc, Nat.xor_comm poly (b / 2 ^^^ poly), Nat.xor_assoc, Nat.xor_self,
      Nat.xor_zero]

theorem spec_steps_xor (poly : Nat) (k a b : Nat) :
    (spec_crc_bit_step poly)^[k] (a ^^^ b)
      = (spec_crc_bit_step poly)^[k] a ^^^ (spec_crc_bit_step poly)^[k] b := by
  induction k generalizing a b with
  | zero => rfl
  | succ k ih => rw [Function.iterate_succ_apply, spec_step_xor, ih]; rfl

theorem spec_steps_shift (poly : Nat) (k y : Nat) :
    (spec_crc_bit_step poly)^[k] (y * 2 ^ k) = y := by
  induction k with
  | zero => simp
  | succ k ih =>
    rw [Function.iterate_succ_apply]
    have : spec_crc_bit_step poly (y * 2 ^ (k + 1)) = y * 2 ^ k := by
      unfold spec_crc_bit_step
      rw [pow_succ, ← Nat.mul_assoc]
      rw [if_neg (by omega)]
      omega
    rw [this, ih]

theorem split_low8 (z : Nat) : z = (z &&& 0xFF) ^^^ (z >>> 8 * 2 ^ 8) := by
  apply Nat.eq_of_testBit_eq
  intro i
  have h255 : (0xFF : Nat) = 2 ^ 8 - 1 := by decide
  rw [Nat.testBit_xor, Nat.testBit_and, h255, Nat.testBit_two_pow_sub_one, ← Nat.shiftLeft_eq,
    Nat.testBit_shiftLeft, Nat.testBit_shiftRight]
  by_cases h : i < 8
  · simp [h, Nat.not_le.2 h]
  · have h2 : 8 ≤ i := by omega
    simp [h, h2, Nat.add_sub_cancel' h2]

theorem update_byte_eq_spec (t : CRC32) (crc byte : Nat) (hb : byte < 256) :
    t.update_byte crc byte = (spec_crc_bit_step t.poly)^[8] (crc ^^^ byte) := by
  have hd : ∀ n, t.data n = (spec_crc_bit_step t.poly)^[8] n := by
    intro n
    unfold CRC32.data
    simp only [round_eq_spec]
    rfl
  have hs : (crc ^^^ byte) >>> 8 = crc >>> 8 := by
    apply Nat.eq_of_testBit_eq
    intro j
    have hlt : byte < 2 ^ (8 + j) :=
      lt_of_lt_of_le hb (Nat.pow_le_pow_right (show 0 < 2 by decide) (show 8 ≤ 8 + j by omega))
    rw [Nat.testBit_shiftRight, Nat.testBit_shiftRight, Nat.testBit_xor,
      Nat.testBit_lt_two_pow hlt]
    simp
  unfold CRC32.update_byte
  conv_rhs => rw [split_low8 (crc ^^^ byte), spec_steps_xor, spec_steps_shift, hs]
  rw [hd]

/-- C12: for both polynomials and every sequence of bytes, `compute_crc` (the
table lookup of `update_buf`) equals the bit-by-bit reflected CRC-32: initial
value `0xFFFFFFFF`, 8 conditional shift-right/XOR-polynomial steps per byte,
final XOR `0xFFFFFFFF`; the polynomial is `0xEDB88320` (IEEE) when `castagnoli`
is false and `0x82F63B78` when it is true. -/
theorem compute_crc_eq_bitwise (t : CRC32) (bytes : List Nat) (hb : ∀ b ∈ bytes, b < 256) :
    t.compute_crc bytes = spec_crc32 t.poly bytes ∧
      t.poly = (if t.castagnoli = true then 0x82F63B78 else 0xEDB88320) := by
  refine ⟨?_, rfl⟩
  unfold CRC32.compute_crc spec_crc32 CRC32.update_buf
  congr 1
  generalize (0xFFFFFFFF : Nat) = c
  induction bytes generalizing c with
  | nil => rfl
  | cons b bs ih =>
    rw [List.foldl_cons, List.foldl_cons, update_byte_eq_spec t c b (hb b (by simp))]
    exact ih (fun x hx => hb x (by simp [hx])) _

theorem compute_crc_eq_bitwise_witness :
    (∀ b ∈ [0x31, 0x32, 0x33, 0x34, 0x35, 0x36, 0x37, 0x38, 0x39], b < 256) ∧
    (crc32.compute_crc [0x31, 0x32, 0x33, 0x34, 0x35, 0x36, 0x37, 0x38, 0x39]
        = spec_crc32 crc32.poly [0x31, 0x32, 0x33, 0x34, 0x35, 0x36, 0x37, 0x38, 0x39] ∧
      crc32.poly = (if crc32.castagnoli = true then 0x82F63B78 else 0xEDB88320)) :=
  ⟨by decide, compute_crc_eq_bitwise crc32 _ (by decide)⟩

end Lzip

namespace Lzip

theorem take_eq_of_getD (a b : List Nat) (n : Nat) (hl : a.length = b.length)
    (h : ∀ i, i < n → a.getD i 0 = b.getD i 0) : a.take n = b.take n := by
  apply List.ext_getElem?
  intro i
  rw [List.getElem?_take, List.getElem?_take]
  by_cases hi : i < n
  · rw [if_pos hi, if_pos hi]
    have := h i hi
    by_cases hb : i < b.length
    · have ha : i < a.length := by omega
      rw [List.getD_eq_getElem _ _ ha, List.getD_eq_getElem _ _ hb] at this
      rw [List.getElem?_eq_getElem ha, List.getElem?_eq_getElem hb, this]
    · rw [List.getElem?_eq_none (by omega), List.getElem?_eq_none (by omega)]
  · rw [if_neg hi, if_neg hi]

theorem drop_eq_of_getD (a b : List Nat) (n : Nat) (hl : a.length = b.length)
    (h : ∀ i, n ≤ i → a.getD i 0 = b.getD i 0) : a.drop n = b.drop n := by
  apply List.ext_getElem?
  intro i
  rw [List.getElem?_drop, List.getElem?_drop]
  have := h (n + i) (by omega)
  by_cases hb : n + i < b.length
  · have ha : n + i < a.length := by omega
    rw [List.getD_eq_getElem _ _ ha, List.getD_eq_getElem _ _ hb] at this
    rw [List.getElem?_eq_getElem ha, List.getElem?_eq_getElem hb, this]
  · rw [List.getElem?_eq_none (by omega), List.getElem?_eq_none (by omega)]

/-- C13: for `pos + 8 <= size` (inside the buffer) `windowed_crc( buffer, pos,
size )` is `compute_crc` of the bytes `[0, pos)` followed by the bytes
`[pos + 8, size)`; hence a buffer of the same length that differs from `buffer`
only inside the window `[pos, pos + 8)` has the same windowed CRC. -/
theorem windowed_crc_eq_compute_crc (t : CRC32) (buffer : List Nat) (pos size : Nat)
    (h : pos + 8 ≤ size) (hs : size ≤ buffer.length) :
    t.windowed_crc buffer pos size
        = t.compute_crc (buffer.take pos ++ (buffer.take size).drop (pos + 8)) ∧
      ∀ buffer2 : List Nat, buffer2.length = buffer.length →
        (∀ i, i < pos ∨ pos + 8 ≤ i → buffer2.getD i 0 = buffer.getD i 0) →
        t.windowed_crc buffer2 pos size = t.windowed_crc buffer pos size := by
  constructor
  · unfold CRC32.windowed_crc CRC32.compute_crc CRC32.update_buf
    rw [List.foldl_append, List.drop_take, Nat.sub_sub]
  · intro buffer2 hl hagree
    unfold CRC32.windowed_crc
    rw [take_eq_of_getD buffer2 buffer pos hl (fun i hi => hagree i (Or.inl hi)),
      drop_eq_of_getD buffer2 buffer (pos + 8) hl (fun i hi => hagree i (Or.inr hi))]

theorem windowed_crc_eq_compute_crc_witness :
    (2 + 8 ≤ 12 ∧ 12 ≤ [1, 2, 3, 4, 5, 6, 7, 8, 9, 10, 11, 12, 13].length) ∧
    (crc32c.windowed_crc [1, 2, 3, 4, 5, 6, 7, 8, 9, 10, 11, 12, 13] 2 12
        = crc32c.compute_crc (([1, 2, 3, 4, 5, 6, 7, 8, 9, 10, 11, 12, 13] : List Nat).take 2 ++
            (([1, 2, 3, 4, 5, 6, 7, 8, 9, 10, 11, 12, 13] : List Nat).take 12).drop (2 + 8)) ∧
      ∀ buffer2 : List Nat,
        buffer2.length = ([1, 2, 3, 4, 5, 6, 7, 8, 9, 10, 11, 12, 13] : List Nat).length →
        (∀ i, i < 2 ∨ 2 + 8 ≤ i →
          buffer2.getD i 0 = ([1, 2, 3, 4, 5, 6, 7, 8, 9, 10, 11, 12, 13] : List Nat).getD i 0) →
        crc32c.windowed_crc buffer2 2 12
          = crc32c.windowed_crc [1, 2, 3, 4, 5, 6, 7, 8, 9, 10, 11, 12, 13] 2 12) :=
  ⟨⟨by decide, by decide⟩,
    windowed_crc_eq_compute_crc crc32c [1, 2, 3, 4, 5, 6, 7, 8, 9, 10, 11, 12, 13] 2 12
      (by decide) (by decide)⟩

end Lzip

namespace Lzip
open Extended

theorem parse_step_size_small (x : Extended) (buf : List Nat) (edsize pos recsize v : Nat)
    (t : List Nat) (permissive : Bool)
    (h : buf.drop pos = (print_size_keyword recsize kw_size ++
      print_decimal (decimal_digits v) v ++ [0x0A]) ++ t)
    (hl : (print_size_keyword recsize kw_size ++
      print_decimal (decimal_digits v) v ++ [0x0A]).length = recsize)
    (he : pos + recsize ≤ edsize) (hmax : edsize ≤ LLONG_MAX) (hv : v < 2 ^ 33) :
    (parse_step x buf edsize pos permissive).1 = false := by
  obtain ⟨e1, e2, e3, e4, e5⟩ :=
    parse_step_header buf edsize pos recsize kw_size _ t h hl he hmax
  have hk : kw_size.length = 4 := rfl
  rw [hk, print_decimal_length] at e5
  have hvl := decimal_digits_pos v
  have hrest := rest_eq pos recsize (decimal_digits recsize) (4 + 1 + decimal_digits v)
    (by omega)
  have e6 : buf.drop (pos + decimal_digits recsize + 1 + 5)
      = print_decimal (decimal_digits v) v ++ 0x0A :: t := by
    have := drop_of_drop buf _ (kw_size ++ [0x3D]) (print_decimal (decimal_digits v) v ++ 0x0A :: t)
      (by rw [e4]; simp)
    simpa using this
  have e4' : buf.drop (pos + decimal_digits recsize + 1)
      = 0x73 :: (kw_size.tail ++ 0x3D :: (print_decimal (decimal_digits v) v ++ 0x0A :: t)) := by
    rw [e4]; rfl
  unfold parse_step
  simp only [e1, Int.toNat_ofNat]
  rw [if_neg (by rw [e2, e3]; simp; omega)]
  simp only [hrest]
  rw [if_neg (by rw [show kw_path ++ [0x3D] = 0x70 :: (kw_path.tail ++ [0x3D]) from rfl,
    starts_with_head_ne _ _ _ _ _ _ e4' (by decide)]; simp)]
  rw [if_neg (by rw [show kw_linkpath ++ [0x3D] = 0x6C :: (kw_linkpath.tail ++ [0x3D]) from rfl,
    starts_with_head_ne _ _ _ _ _ _ e4' (by decide)]; simp)]
  rw [if_pos ⟨by omega, starts_with_of_drop _ _ _
    (print_decimal (decimal_digits v) v ++ 0x0A :: t) (by rw [e4]; simp)⟩]
  by_cases hdup : x.file_size_ ≠ 0 ∧ (!permissive) = true
  · rw [if_pos hdup]
  · rw [if_neg hdup]
    have e7 : ((4 + 1 + decimal_digits v : Nat) : Int) - 5 = (decimal_digits v : Int) := by omega
    have hM : max_file_size = 2 ^ 63 - 1 - 512 := rfl
    rw [e7, Int.toNat_ofNat, parse_decimal_value buf _ max_file_size v _ e6 (by omega) (by decide)]
    rw [if_pos]
    left
    have : (2 ^ 33 : Int) = ((2 ^ 33 : Nat) : Int) := by norm_num
    rw [this]
    show (v : Int) < _
    omega

theorem parse_step_uid_small (x : Extended) (buf : List Nat) (edsize pos recsize v : Nat)
    (t : List Nat) (permissive : Bool)
    (h : buf.drop pos = (print_size_keyword recsize kw_uid ++
      print_decimal (decimal_digits v) v ++ [0x0A]) ++ t)
    (hl : (print_size_keyword recsize kw_uid ++
      print_decimal (decimal_digits v) v ++ [0x0A]).length = recsize)
    (he : pos + recsize ≤ edsize) (hmax : edsize ≤ LLONG_MAX) (hv : v < 2 ^ 21) :
    (parse_step x buf edsize pos permissive).1 = false := by
  obtain ⟨e1, e2, e3, e4, e5⟩ :=
    parse_step_header buf edsize pos recsize kw_uid _ t h hl he hmax
  have hk : kw_uid.length = 3 := rfl
  rw [hk, print_decimal_length] at e5
  have hvl := decimal_digits_pos v
  have hrest := rest_eq pos recsize (decimal_digits recsize) (3 + 1 + decimal_digits v)
    (by omega)
  have e6 : buf.drop (pos + decimal_digits recsize + 1 + 4)
      = print_decimal (decimal_digits v) v ++ 0x0A :: t := by
    have := drop_of_drop buf _ (kw_uid ++ [0x3D]) (print_decimal (decimal_digits v) v ++ 0x0A :: t)
      (by rw [e4]; simp)
    simpa using this
  have e4' : buf.drop (pos + decimal_digits recsize + 1)
      = 0x75 :: (kw_uid.tail ++ 0x3D :: (print_decimal (decimal_digits v) v ++ 0x0A :: t)) := by
    rw [e4]; rfl
  unfold parse_step
  simp only [e1, Int.toNat_ofNat]
  rw [if_neg (by rw [e2, e3]; simp; omega)]
  simp only [hrest]
  rw [if_neg (by rw [show kw_path ++ [0x3D] = 0x70 :: (kw_path.tail ++ [0x3D]) from rfl,
    starts_with_head_ne _ _ _ _ _ _ e4' (by decide)]; simp)]
  rw [if_neg (by rw [show kw_linkpath ++ [0x3D] = 0x6C :: (kw_linkpath.tail ++ [0x3D]) from rfl,
    starts_with_head_ne _ _ _ _ _ _ e4' (by decide)]; simp)]
  rw [if_neg (by rw [show kw_size ++ [0x3D] = 0x73 :: (kw_size.tail ++ [0x3D]) from rfl,
    starts_with_head_ne _ _ _ _ _ _ e4' (by decide)]; simp)]
  rw [if_pos ⟨by omega, starts_with_of_drop _ _ _
    (print_decimal (decimal_digits v) v ++ 0x0A :: t) (by rw [e4]; simp)⟩]
  by_cases hdup : x.uid_ ≥ 0 ∧ (!permissive) = true
  · rw [if_pos hdup]
  · rw [if_neg hdup]
    have e7 : ((3 + 1 + decimal_digits v : Nat) : Int) - 4 = (decimal_digits v : Int) := by omega
    have hM : LLONG_MAX = 2 ^ 63 - 1 := rfl
    rw [e7, Int.toNat_ofNat, parse_decimal_value buf _ LLONG_MAX v _ e6 (by omega) (le_refl _)]
    rw [if_pos]
    left
    have : (2 ^ 21 : Int) = ((2 ^ 21 : Nat) : Int) := by norm_num
    rw [this]
    show (v : Int) < _
    omega

theorem parse_step_gid_small (x : Extended) (buf : List Nat) (edsize pos recsize v : Nat)
    (t : List Nat) (permissive : Bool)
    (h : buf.drop pos = (print_size_keyword recsize kw_gid ++
      print_decimal (decimal_digits v) v ++ [0x0A]) ++ t)
    (hl : (print_size_keyword recsize kw_gid ++
      print_decimal (decimal_digits v) v ++ [0x0A]).length = recsize)
    (he : pos + recsize ≤ edsize) (hmax : edsize ≤ LLONG_MAX) (hv : v < 2 ^ 21) :
    (parse_step x buf edsize pos permissive).1 = false := by
  obtain ⟨e1, e2, e3, e4, e5⟩ :=
    parse_step_header buf edsize pos recsize kw_gid _ t h hl he hmax
  have hk : kw_gid.length = 3 := rfl
  rw [hk, print_decimal_length] at e5
  have hvl := decimal_digits_pos v
  have hrest := rest_eq pos recsize (decimal_digits recsize) (3 + 1 + decimal_digits v)
    (by omega)
  have e6 : buf.drop (pos + decimal_digits recsize + 1 + 4)
      = print_decimal (decimal_digits v) v ++ 0x0A :: t := by
    have := drop_of_drop buf _ (kw_gid ++ [0x3D]) (print_decimal (decimal_digits v) v ++ 0x0A :: t)
      (by rw [e4]; simp)
    simpa using this
  have e4' : buf.drop (pos + decimal_digits recsize + 1)
      = 0x67 :: (kw_gid.tail ++ 0x3D :: (print_decimal (decimal_digits v) v ++ 0x0A :: t)) := by
    rw [e4]; rfl
  unfold parse_step
  simp only [e1, Int.toNat_ofNat]
  rw [if_neg (by rw [e2, e3]; simp; omega)]
  simp only [hrest]
  rw [if_neg (by rw [show kw_path ++ [0x3D] = 0x70 :: (kw_path.tail ++ [0x3D]) from rfl,
    starts_with_head_ne _ _ _ _ _ _ e4' (by decide)]; simp)]
  rw [if_neg (by rw [show kw_linkpath ++ [0x3D] = 0x6C :: (kw_linkpath.tail ++ [0x3D]) from rfl,
    starts_with_head_ne _ _ _ _ _ _ e4' (by decide)]; simp)]
  rw [if_neg (by rw [show kw_size ++ [0x3D] = 0x73 :: (kw_size.tail ++ [0x3D]) from rfl,
    starts_with_head_ne _ _ _ _ _ _ e4' (by decide)]; simp)]
  rw [if_neg (by rw [show kw_uid ++ [0x3D] = 0x75 :: (kw_uid.tail ++ [0x3D]) from rfl,
    starts_with_head_ne _ _ _ _ _ _ e4' (by decide)]; simp)]
  rw [if_pos ⟨by omega, starts_with_of_drop _ _ _
    (print_decimal (decimal_digits v) v ++ 0x0A :: t) (by rw [e4]; simp)⟩]
  by_cases hdup : x.gid_ ≥ 0 ∧ (!permissive) = true
  · rw [if_pos hdup]
  · rw [if_neg hdup]
    have e7 : ((3 + 1 + decimal_digits v : Nat) : Int) - 4 = (decimal_digits v : Int) := by omega
    have hM : LLONG_MAX = 2 ^ 63 - 1 := rfl
    rw [e7, Int.toNat_ofNat, parse_decimal_value buf _ LLONG_MAX v _ e6 (by omega) (le_refl _)]
    rw [if_pos]
    left
    have : (2 ^ 21 : Int) = ((2 ^ 21 : Nat) : Int) := by norm_num
    rw [this]
    show (v : Int) < _
    omega

theorem parse_loop_reject (buf : List Nat) (edsize : Nat) (perm : Bool) (fuel pos : Nat)
    (x : Extended) (h : pos < edsize) (hs : (parse_step x buf edsize pos perm).1 = false) :
    (parse_loop buf edsize perm (fuel + 1) pos x).1 = false := by
  rw [parse_loop, if_pos h, hs]
  rfl

/-- C15 as stated fails for the permissive mode: `parse` with
`permissive = true` also rejects the blocks `9 size=5\n`, `8 uid=5\n` and
`8 gid=5\n`. -/
theorem parse_rejects_small_counterexample :
    (Extended.init.parse small_size_record small_size_record.length true).1 = false ∧
    (Extended.init.parse small_uid_record small_uid_record.length true).1 = false ∧
    (Extended.init.parse small_gid_record small_gid_record.length true).1 = false := by
  decide

/-- C15 (amended): in both modes (`permissive` false or true) the loop of
`Extended::parse` returns false when it comes to a record `size=N` with
`N < 2^33`, or `uid=N` or `gid=N` with `N < 2^21` (a record as `print_record`
writes it, lying inside the `edsize` bytes); in particular `parse` returns
false when that record is the first of the block. -/
theorem parse_rejects_small (x : Extended) (buf : List Nat) (edsize pos recsize v : Nat)
    (kw t : List Nat) (permissive : Bool) (fuel : Nat)
    (hkw : (kw = kw_size ∧ v < 2 ^ 33) ∨ ((kw = kw_uid ∨ kw = kw_gid) ∧ v < 2 ^ 21))
    (h : buf.drop pos = (print_size_keyword recsize kw ++
      print_decimal (decimal_digits v) v ++ [0x0A]) ++ t)
    (hl : (print_size_keyword recsize kw ++
      print_decimal (decimal_digits v) v ++ [0x0A]).length = recsize)
    (he : pos + recsize ≤ edsize) (hmax : edsize ≤ LLONG_MAX) :
    (parse_loop buf edsize permissive (fuel + 1) pos x).1 = false ∧
      (pos = 0 → (x.parse buf edsize permissive).1 = false) := by
  have hpos : pos < edsize := by
    have : 0 < recsize := by rw [← hl]; simp
    omega
  have hstep : ∀ y : Extended, (parse_step y buf edsize pos permissive).1 = false := by
    intro y
    rcases hkw with ⟨rfl, hv⟩ | ⟨rfl | rfl, hv⟩
    · exact parse_step_size_small y buf edsize pos recsize v t permissive h hl he hmax hv
    · exact parse_step_uid_small y buf edsize pos recsize v t permissive h hl he hmax hv
    · exact parse_step_gid_small y buf edsize pos recsize v t permissive h hl he hmax hv
  refine ⟨parse_loop_reject buf edsize permissive fuel pos x hpos (hstep x), ?_⟩
  intro h0
  subst h0
  unfold parse
  obtain ⟨f, hf⟩ : ∃ f, edsize = f + 1 := ⟨edsize - 1, by omega⟩
  have := parse_loop_reject buf edsize permissive f 0 { x.reset with full_size_ := -4 } hpos
    (hstep _)
  rw [← hf] at this
  exact this

set_option maxRecDepth 20000 in
theorem parse_rejects_small_witness :
    (((kw_size = kw_size ∧ 5 < 2 ^ 33) ∨ ((kw_size = kw_uid ∨ kw_size = kw_gid) ∧ 5 < 2 ^ 21)) ∧
      small_size_record.drop 0 = (print_size_keyword 9 kw_size ++
        print_decimal (decimal_digits 5) 5 ++ [0x0A]) ++ [] ∧
      (print_size_keyword 9 kw_size ++ print_decimal (decimal_digits 5) 5 ++ [0x0A]).length = 9 ∧
      0 + 9 ≤ 9 ∧ 9 ≤ LLONG_MAX) ∧
    ((parse_loop small_size_record 9 true (0 + 1) 0 Extended.init).1 = false ∧
      (0 = 0 → (Extended.init.parse small_size_record 9 true).1 = false)) :=
  ⟨⟨by decide, by decide, by decide, by decide, by decide⟩,
    parse_rejects_small Extended.init small_size_record 9 0 9 5 kw_size [] true 0
      (by decide) (by decide) (by decide) (by decide) (by decide)⟩

end Lzip

namespace Lzip

theorem print_octal_digits (k n : Nat) : AllOctal (print_octal k n) := by
  induction k generalizing n with
  | zero => intro c hc; simp [print_octal] at hc
  | succ k ih =>
    intro c hc
    simp only [print_octal, List.mem_append, List.mem_singleton] at hc
    rcases hc with hc | hc
    · exact ih _ c hc
    · subst hc; omega

theorem oval_append (a b : List Nat) (r : Nat) : oval (a ++ b) r = oval b (oval a r) := by
  simp [oval, List.foldl_append]

theorem oval_print_octal (k n r : Nat) :
    oval (print_octal k n) r = r * 8 ^ k + n % 8 ^ k := by
  induction k generalizing n r with
  | zero => simp [print_octal, oval, Nat.mod_one]
  | succ k ih =>
    rw [print_octal, oval_append, ih]
    simp only [oval, List.foldl_cons, List.foldl_nil]
    have h1 : n % 8 ^ (k + 1) = (n / 8 % 8 ^ k) * 8 + n % 8 := by
      rw [pow_succ, mul_comm (8 ^ k) 8, Nat.mod_mul]
      omega
    rw [h1, pow_succ]
    have : n % 8 + 48 - 48 = n % 8 := by omega
    rw [this]
    ring

theorem oval_mono (ds : List Nat) (r : Nat) : r ≤ oval ds r := by
  induction ds generalizing r with
  | nil => exact le_refl _
  | cons c ds ih =>
    have := ih (r * 8 + (c - 0x30))
    simp only [oval, List.foldl_cons] at this ⊢
    omega

/-- The digit loop of `parse_octal` reads a run of octal digits that ends
before a byte that is not one. -/
theorem parse_octal_digits_spec (buf : List Nat) (off size : Nat) (ds : List Nat) :
    ∀ (fuel i r c : Nat) (t : List Nat), buf.drop (off + i) = ds ++ c :: t → AllOctal ds →
      ¬ (0x30 ≤ c ∧ c ≤ 0x37) → i + ds.length ≤ size → ds.length ≤ fuel →
      oval ds r < 2 ^ 61 → parse_octal_digits buf off size fuel i r = oval ds r := by
  induction ds with
  | nil =>
    intro fuel i r c t h _ hc _ _ _
    cases fuel with
    | zero => rfl
    | succ fuel =>
      have e : buf.getD (off + i) 0 = c := by
        have := getD_of_drop_right buf (off + i) [] (c :: t) 0 (by simpa using h)
        simpa using this
      rw [parse_octal_digits, e, if_neg (fun hh => hc hh.2)]
      rfl
  | cons d ds ih =>
    intro fuel i r c t h hd hc hs hf hv
    cases fuel with
    | zero => simp at hf
    | succ fuel =>
      have e : buf.getD (off + i) 0 = d := by
        have := getD_of_drop buf (off + i) (d :: ds) (c :: t) 0 h (by simp)
        simpa using this
      have hdd := hd d (by simp)
      rw [parse_octal_digits, e, if_pos ⟨by simp at hs; omega, hdd⟩]
      have hv2 : oval ds (r * 8 + (d - 0x30)) < 2 ^ 61 := by simpa [oval] using hv
      have hm := oval_mono ds (r * 8 + (d - 0x30))
      have e1 : (((r <<< 3) % 2 ^ 64) + (d - 0x30)) % 2 ^ 64 = r * 8 + (d - 0x30) := by
        rw [Nat.shiftLeft_eq]
        omega
      rw [e1]
      have h2 : buf.drop (off + (i + 1)) = ds ++ c :: t := by
        have := drop_of_drop buf (off + i) [d] (ds ++ c :: t) (by simpa using h)
        simpa [Nat.add_assoc] using this
      rw [ih fuel (i + 1) _ c t h2 (fun x hx => hd x (by simp [hx])) hc (by simp at hs; omega)
        (by simpa using hf) hv2]
      simp [oval]

theorem sum_le_of_lt (l : List Nat) (h : ∀ b ∈ l, b < 256) : l.sum ≤ l.length * 255 := by
  induction l with
  | nil => simp
  | cons a l ih =>
    have := ih (fun b hb => h b (by simp [hb]))
    have := h a (by simp)
    simp only [List.sum_cons, List.length_cons]
    omega

theorem ustar_chksum_lt (header : List Nat) (hb : ∀ b ∈ header, b < 256) :
    ustar_chksum header < 8 ^ 7 := by
  unfold ustar_chksum
  have h1 := sum_le_of_lt (header.take chksum_o) (fun b hm => hb b (List.mem_of_mem_take hm))
  have h2 := sum_le_of_lt ((header.drop (chksum_o + chksum_l)).take
    (header_size - (chksum_o + chksum_l)))
    (fun b hm => hb b (List.mem_of_mem_drop (List.mem_of_mem_take hm)))
  have l1 : (header.take chksum_o).length ≤ 148 := List.length_take_le _ _
  have l2 : ((header.drop (chksum_o + chksum_l)).take
    (header_size - (chksum_o + chksum_l))).length ≤ 356 := List.length_take_le _ _
  have hc : chksum_l * 0x20 = 256 := rfl
  rw [hc]
  generalize (header.take chksum_o).sum = s1 at h1
  generalize (header.take chksum_o).length = n1 at h1 l1
  generalize ((header.drop (chksum_o + chksum_l)).take
    (header_size - (chksum_o + chksum_l))).sum = s2 at h2
  generalize ((header.drop (chksum_o + chksum_l)).take
    (header_size - (chksum_o + chksum_l))).length = n2 at h2 l2
  have : (8 : Nat) ^ 7 = 2097152 := by decide
  omega

/-- The checksum does not read the 8 bytes of the checksum field. -/
theorem ustar_chksum_congr (h1 h2 : List Nat) (hl : h1.length = h2.length)
    (h : ∀ i, i < chksum_o ∨ chksum_o + chksum_l ≤ i → h1.getD i 0 = h2.getD i 0) :
    ustar_chksum h1 = ustar_chksum h2 := by
  unfold ustar_chksum
  rw [take_eq_of_getD h1 h2 chksum_o hl (fun i hi => h i (Or.inl hi)),
    drop_eq_of_getD h1 h2 (chksum_o + chksum_l) hl (fun i hi => h i (Or.inr hi))]

theorem poke_getD_outside (buf : List Nat) (off : Nat) (bytes : List Nat) (i : Nat)
    (hl : off + bytes.length ≤ buf.length) (h : i < off ∨ off + bytes.length ≤ i) :
    (poke buf off bytes).getD i 0 = buf.getD i 0 := by
  unfold poke
  rcases h with h | h
  · rw [List.getD_eq_getElem?_getD, List.getD_eq_getElem?_getD,
      List.getElem?_append_left (by rw [List.length_take]; omega), List.getElem?_take, if_pos h]
  · rw [List.getD_eq_getElem?_getD, List.getD_eq_getElem?_getD,
      List.getElem?_append_right (by rw [List.length_take]; omega),
      List.getElem?_append_right (by rw [List.length_take]; omega), List.getElem?_drop]
    congr 2
    rw [List.length_take]
    omega

theorem poke_drop (buf : List Nat) (off : Nat) (bytes : List Nat)
    (hl : off + bytes.length ≤ buf.length) :
    (poke buf off bytes).drop off = bytes ++ buf.drop (off + bytes.length) := by
  unfold poke
  have : (buf.take off).length = off := by rw [List.length_take]; omega
  rw [List.drop_left' this]

end Lzip

namespace Lzip

theorem ustar_chksum_eq_sum (header : List Nat) (hl : header.length = header_size)
    (hb : ∀ b ∈ header, b < 256) :
    ustar_chksum header = (poke header chksum_o (List.replicate chksum_l 0x20)).sum := by
  have hhs : header_size = 512 := rfl
  have h1 := sum_le_of_lt (header.take chksum_o) (fun b hm => hb b (List.mem_of_mem_take hm))
  have h2 := sum_le_of_lt (header.drop (chksum_o + chksum_l))
    (fun b hm => hb b (List.mem_of_mem_drop hm))
  have l1 : (header.take chksum_o).length ≤ 148 := List.length_take_le _ _
  have l2 : (header.drop (chksum_o + chksum_l)).length = 356 := by
    rw [List.length_drop, hl]; rfl
  have ht : (header.drop (chksum_o + chksum_l)).take (header_size - (chksum_o + chksum_l)) =
      header.drop (chksum_o + chksum_l) :=
    List.take_of_length_le (by rw [l2]; decide)
  unfold ustar_chksum poke
  rw [ht, List.sum_append, List.sum_append, List.length_replicate, List.sum_replicate]
  have hc : chksum_l * 0x20 = 256 := rfl
  have hc2 : chksum_l • 0x20 = 256 := rfl
  rw [hc, hc2]
  rw [l2] at h2
  generalize (header.take chksum_o).sum = s1 at h1
  generalize (header.take chksum_o).length = n1 at h1 l1
  generalize (header.drop (chksum_o + chksum_l)).sum = s2 at h2
  rw [Nat.mod_eq_of_lt (by omega)]
  omega

theorem check_ustar_chksum_iff (header : List Nat) (hl : header.length = header_size)
    (hb : ∀ b ∈ header, b < 256) :
    check_ustar_chksum header = true ↔
      check_ustar_magic header = true ∧
      parse_octal header chksum_o chksum_l =
        (poke header chksum_o (List.replicate chksum_l 0x20)).sum := by
  unfold check_ustar_chksum
  rw [ustar_chksum_eq_sum header hl hb, Bool.and_eq_true, decide_eq_true_eq]
  exact ⟨fun h => ⟨h.1, h.2.symm⟩, fun h => ⟨h.1, h.2.symm⟩⟩

/-- C16: for every 512-byte header (of bytes) with the `ustar\0` magic and a
null byte at offset 155, once `print_octal( header + chksum_o, chksum_l - 1,
ustar_chksum( header ) )` is stored `check_ustar_chksum` returns true;
`ustar_chksum` is the same for headers that differ only in the 8 bytes of the
checksum field, it is less than `8^7`, so it fits in the 7 octal digits, and
its value is the sum of the 512 bytes of the header with the 8 bytes of the
checksum field replaced by spaces; and for any 512-byte header
`check_ustar_chksum` returns true exactly when the magic is there and the
octal number of the checksum field is that sum. -/
theorem check_ustar_chksum_stored (header : List Nat) (hl : header.length = header_size)
    (hb : ∀ b ∈ header, b < 256) (hm : check_ustar_magic header = true)
    (h155 : header.getD 155 0 = 0) :
    check_ustar_chksum
        (poke header chksum_o (print_octal (chksum_l - 1) (ustar_chksum header))) = true ∧
      (∀ h2 : List Nat, h2.length = header.length →
        (∀ i, i < chksum_o ∨ chksum_o + chksum_l ≤ i → h2.getD i 0 = header.getD i 0) →
        ustar_chksum h2 = ustar_chksum header) ∧
      ustar_chksum header < 8 ^ 7 ∧
      ustar_chksum header = (poke header chksum_o (List.replicate chksum_l 0x20)).sum ∧
      (∀ h2 : List Nat, h2.length = header_size → (∀ b ∈ h2, b < 256) →
        (check_ustar_chksum h2 = true ↔
          check_ustar_magic h2 = true ∧
          parse_octal h2 chksum_o chksum_l =
            (poke h2 chksum_o (List.replicate chksum_l 0x20)).sum)) := by
  have hlt := ustar_chksum_lt header hb
  refine ⟨?_, fun h2 hl2 h => ustar_chksum_congr h2 header hl2 h, hlt,
    ustar_chksum_eq_sum header hl hb, fun h2 hl2 hb2 => check_ustar_chksum_iff h2 hl2 hb2⟩
  have hco : chksum_o = 148 := rfl
  have hcl : chksum_l = 8 := rfl
  have hhs : header_size = 512 := rfl
  have hdl : (print_octal (chksum_l - 1) (ustar_chksum header)).length = 7 :=
    print_octal_length _ _
  generalize hds : print_octal (chksum_l - 1) (ustar_chksum header) = ds at hdl
  have hpl : (poke header chksum_o ds).length = header.length :=
    poke_length _ _ _ (by omega)
  have hout : ∀ i, i < chksum_o ∨ chksum_o + chksum_l ≤ i →
      (poke header chksum_o ds).getD i 0 = header.getD i 0 :=
    fun i hi => poke_getD_outside header chksum_o ds i (by omega) (by omega)
  have hsum : ustar_chksum (poke header chksum_o ds) = ustar_chksum header :=
    ustar_chksum_congr _ _ hpl hout
  have hmag : check_ustar_magic (poke header chksum_o ds) = true := by
    unfold check_ustar_magic at hm ⊢
    rw [drop_eq_of_getD _ header magic_o hpl (fun i hi => hout i (Or.inr (by
      have : magic_o = 257 := rfl
      omega)))]
    exact hm
  have hdrop : (poke header chksum_o ds).drop (chksum_o + 0)
      = ds ++ 0 :: header.drop (chksum_o + 8) := by
    rw [Nat.add_zero, poke_drop header chksum_o ds (by omega), hdl]
    congr 1
    have h1 : header.drop (chksum_o + 7) = header.getD 155 0 :: header.drop (chksum_o + 8) := by
      rw [hco, List.getD_eq_getElem _ _ (show 155 < header.length by omega)]
      exact List.drop_eq_getElem_cons (show 155 < header.length by omega)
    rw [h1, h155]
  have hdig : AllOctal ds := by rw [← hds]; exact print_octal_digits _ _
  have hval : oval ds 0 = ustar_chksum header := by
    rw [← hds, oval_print_octal, hcl]
    simp only [Nat.zero_mul, Nat.zero_add]
    exact Nat.mod_eq_of_lt hlt
  have hpar : parse_octal (poke header chksum_o ds) chksum_o chksum_l = ustar_chksum header := by
    unfold parse_octal
    have hfirst : (poke header chksum_o ds).getD (chksum_o + 0) 0 = ds.getD 0 0 :=
      getD_of_drop _ _ ds _ 0 hdrop (by omega)
    have hd0 : 0x30 ≤ ds.getD 0 0 ∧ ds.getD 0 0 ≤ 0x37 := by
      apply hdig
      rw [List.getD_eq_getElem _ _ (show 0 < ds.length by omega)]
      exact List.getElem_mem _
    have hskip : skip_space (poke header chksum_o ds) chksum_o chksum_l chksum_l 0 = 0 := by
      show skip_space _ _ _ (7 + 1) 0 = 0
      rw [skip_space, if_neg]
      rw [hfirst, isspace_digit _ (by omega)]
      simp
    simp only [hskip]
    rw [parse_octal_digits_spec _ chksum_o chksum_l ds chksum_l 0 0 0 _ hdrop hdig (by decide)
      (by omega) (by omega) (by rw [hval]; exact lt_trans hlt (by decide)), hval]
  unfold check_ustar_chksum
  rw [hmag, hsum, hpar]
  simp

set_option maxRecDepth 20000 in
theorem check_ustar_chksum_stored_witness :
    (sample_header.length = header_size ∧ (∀ b ∈ sample_header, b < 256) ∧
      check_ustar_magic sample_header = true ∧ sample_header.getD 155 0 = 0) ∧
    (check_ustar_chksum
        (poke sample_header chksum_o
          (print_octal (chksum_l - 1) (ustar_chksum sample_header))) = true ∧
      (∀ h2 : List Nat, h2.length = sample_header.length →
        (∀ i, i < chksum_o ∨ chksum_o + chksum_l ≤ i → h2.getD i 0 = sample_header.getD i 0) →
        ustar_chksum h2 = ustar_chksum sample_header) ∧
      ustar_chksum sample_header < 8 ^ 7 ∧
      ustar_chksum sample_header =
        (poke sample_header chksum_o (List.replicate chksum_l 0x20)).sum ∧
      (∀ h2 : List Nat, h2.length = header_size → (∀ b ∈ h2, b < 256) →
        (check_ustar_chksum h2 = true ↔
          check_ustar_magic h2 = true ∧
          parse_octal h2 chksum_o chksum_l =
            (poke h2 chksum_o (List.replicate chksum_l 0x20)).sum))) ∧
    ustar_chksum sample_header = 1056 :=
  ⟨⟨by decide, by decide, by decide, by decide⟩,
    check_ustar_chksum_stored sample_header (by decide) (by decide) (by decide) (by decide),
    by decide⟩

end Lzip

namespace Lzip

/-- C17 at the failing input: for the valid time of 1 s and 50 ns,
`Etime::print` writes `1.50` (as many characters as `decimal_size` says), and
`Etime::parse` reads that text (followed by a newline) as 1 s and
500000000 ns: the nanoseconds are printed without their leading zeros. -/
theorem etime_roundtrip_failure :
    fifty_ns_time.isvalid = true ∧
    fifty_ns_time.print = [0x31, 0x2E, 0x35, 0x30] ∧
    fifty_ns_time.print.length = fifty_ns_time.decimal_size ∧
    (Etime.parse ⟨0, -1⟩ (fifty_ns_time.print ++ [0x0A]) 0 fifty_ns_time.print.length)
      = (true, ⟨1, 500000000⟩, 4) ∧
    (500000000 : Int) ≠ fifty_ns_time.nsec_ := by
  decide

end Lzip

namespace Lzip
open Lzip_index

theorem skip_box_total (file : List Nat) :
    ∀ fuel pos, pos < fuel → ∃ p, skip_box file fuel pos = some p := by
  intro fuel
  induction fuel with
  | zero => intro pos h; omega
  | succ n ih =>
    intro pos h
    rw [skip_box_succ]
    unfold skip_box_body
    dsimp only
    split_ifs with c1 c2 c3 c4 c5
    · exact ⟨_, rfl⟩
    · exact ⟨_, rfl⟩
    · exact ⟨_, rfl⟩
    · exact ⟨_, rfl⟩
    · exact ih _ (by omega)
    · exact ⟨_, rfl⟩

/-- C18 as stated fails: for a file made of two databoxes of 17 bytes each,
`skip_box` returns 0, the start of the earlier box, not 17, the start of the
last one. -/
theorem skip_box_strips_all_counterexample :
    skip_box two_boxes (two_boxes.length + 1) two_boxes.length = some 0 ∧
      (0 : Int) ≠ ((databox_wrap [0x41]).length : Int) := by
  decide

/-- C18 (amended): the loop of `skip_box` strips every databox at the tail, not
one: for every file `a ++ box1 ++ box2` that ends with two well-formed
databoxes, `skip_box` returns what it returns for `a` alone, a position not
beyond the end of `a` and so before the start of the last box. -/
theorem skip_box_strips_all (a t1 t2 : List Nat)
    (h : (a ++ databox_wrap t1 ++ databox_wrap t2).length < 2 ^ 63) :
    ∃ p : Int,
      skip_box (a ++ databox_wrap t1 ++ databox_wrap t2)
        ((a ++ databox_wrap t1 ++ databox_wrap t2).length + 1)
        (a ++ databox_wrap t1 ++ databox_wrap t2).length = some p ∧
      skip_box a (a.length + 1) a.length = some p ∧
      p ≤ (a.length : Int) ∧ p < ((a ++ databox_wrap t1).length : Int) := by
  have hl2 := databox_length (a ++ databox_wrap t1) t2
  have hl1 := databox_length a t1
  obtain ⟨p, hp⟩ := skip_box_total a (a.length + 1) a.length (by omega)
  refine ⟨p, ?_, hp, ?_, ?_⟩
  · obtain ⟨n, hn⟩ : ∃ n, (a ++ databox_wrap t1 ++ databox_wrap t2).length + 1 = n + 2 :=
      ⟨(a ++ databox_wrap t1 ++ databox_wrap t2).length - 1, by omega⟩
    rw [hn, skip_box_databox (a ++ databox_wrap t1) t2 (n + 1) (by omega),
      skip_box_congr _ (a ++ databox_wrap t1) _ (agree_append (a ++ databox_wrap t1)
        (databox_wrap t2)) (n + 1) _ (le_refl _),
      skip_box_databox a t1 n (by omega),
      skip_box_congr _ a _ (agree_append a (databox_wrap t1)) n _ (le_refl _)]
    exact skip_box_fuel a _ _ p hp n (by omega)
  · rcases skip_box_le a _ _ p hp with h1 | ⟨h1, h2⟩ <;> omega
  · rcases skip_box_le a _ _ p hp with h1 | ⟨h1, h2⟩ <;> omega

theorem skip_box_strips_all_witness :
    (([0x58] : List Nat) ++ databox_wrap [0x41] ++ databox_wrap [0x42]).length < 2 ^ 63 ∧
    ∃ p : Int,
      skip_box (([0x58] : List Nat) ++ databox_wrap [0x41] ++ databox_wrap [0x42])
        ((([0x58] : List Nat) ++ databox_wrap [0x41] ++ databox_wrap [0x42]).length + 1)
        (([0x58] : List Nat) ++ databox_wrap [0x41] ++ databox_wrap [0x42]).length = some p ∧
      skip_box [0x58] (([0x58] : List Nat).length + 1) ([0x58] : List Nat).length = some p ∧
      p ≤ ((([0x58] : List Nat).length : Nat) : Int) ∧
      p < (((([0x58] : List Nat) ++ databox_wrap [0x41]).length : Nat) : Int) :=
  ⟨by decide, skip_box_strips_all [0x58] [0x41] [0x42] (by decide)⟩

end Lzip

namespace Lzip
open Range_decoder LZ_decoder

theorem reversed_at_symbol_lt (rd : Range_decoder) (bm : List Bit_model) (base model symbol i : Nat)
    (h : symbol < 2 ^ i) :
    (rd.decode_symbol_bit_reversed_at bm base model symbol i).2.2.1 < 2 ^ (i + 1) := by
  have h2 : (2 : Nat) ^ i < 2 ^ (i + 1) := Nat.pow_lt_pow_right (by decide) (Nat.lt_succ_self i)
  unfold decode_symbol_bit_reversed_at
  simp only [seq1]
  split
  · exact Nat.lt_trans h h2
  · apply Nat.or_lt_two_pow (Nat.lt_trans h h2)
    have h3 : (1 <<< i) % 2 ^ 32 ≤ 1 <<< i := Nat.mod_le _ _
    rw [Nat.one_shiftLeft] at h3
    omega

theorem reversed_loop_symbol_lt (base : Nat) (n : Nat) :
    ∀ (i : Nat) (bm : List Bit_model) (model symbol : Nat) (rd : Range_decoder),
      symbol < 2 ^ i →
      (decode_tree_reversed_loop base n i bm model symbol rd).2.1 < 2 ^ (i + n) := by
  induction n with
  | zero => intro i bm model symbol rd h; simpa [decode_tree_reversed_loop] using h
  | succ n ih =>
    intro i bm model symbol rd h
    rw [decode_tree_reversed_loop]
    have := ih (i + 1) (rd.decode_symbol_bit_reversed_at bm base model symbol i).1
      (rd.decode_symbol_bit_reversed_at bm base model symbol i).2.1
      (rd.decode_symbol_bit_reversed_at bm base model symbol i).2.2.1
      (rd.decode_symbol_bit_reversed_at bm base model symbol i).2.2.2
      (reversed_at_symbol_lt rd bm base model symbol i h)
    have e : i + 1 + n = i + (n + 1) := by omega
    rw [e] at this
    exact this

theorem decode_tree_reversed_lt (rd : Range_decoder) (bm : List Bit_model) (base num_bits : Nat) :
    (rd.decode_tree_reversed bm base num_bits).2.1 < 2 ^ num_bits := by
  have := reversed_loop_symbol_lt base num_bits 0 bm 1 0 rd (by decide)
  simpa [decode_tree_reversed] using this

/-- The distance of a fresh match with a slot below `end_dis_model` is less
than 128, so it is not the marker. -/
theorem modeled_distance_lt (s x : Nat) (h4 : 4 ≤ s) (h14 : s < 14)
    (hx : x < 2 ^ ((s >>> 1) - 1)) :
    (((2 ||| (s &&& 1)) <<< ((s >>> 1) - 1)) % 2 ^ 32 + x) % 2 ^ 32 < 128 := by
  interval_cases s <;> simp at hx ⊢ <;> omega

theorem flush_data_buffer (d : LZ_decoder) : d.flush_data.buffer = d.buffer := by
  unfold flush_data
  by_cases h : d.pos > d.stream_pos
  · rw [if_pos h]
    by_cases h2 : d.pos ≥ d.dictionary_size
    · simp only [h2, if_true]
    · simp only [h2, if_false]
  · rw [if_neg h]

theorem flush_data_data_position (d : LZ_decoder) :
    d.flush_data.data_position = d.data_position := by
  unfold flush_data data_position
  by_cases h : d.pos > d.stream_pos
  · rw [if_pos h]
    by_cases h2 : d.pos ≥ d.dictionary_size
    · simp only [h2, if_true, Nat.add_zero, Nat.mod_mod]
    · simp only [h2, if_false]
  · rw [if_neg h]

section

seal Range_decoder.decode_len Range_decoder.decode_bit Range_decoder.decode_symbol_bit_at
  Range_decoder.normalize LZ_decoder.flush_data Range_decoder.bound Range_decoder.update0
  Range_decoder.update1 bmAt rowAt

/-- The distance of a match is decoded from the arrays `bm_dis` and `bm_align`
only. -/
theorem slot_dis_congr (d d2 : Decoder) (dis_slot : Nat) (rd : Range_decoder)
    (h1 : d2.m.bm_dis = d.m.bm_dis) (h2 : d2.m.bm_align = d.m.bm_align) :
    slot_dis d2 dis_slot rd = slot_dis d dis_slot rd := by
  unfold slot_dis
  rw [h1, h2]

/-- A distance `0xFFFFFFFF` makes `decode_distance` end the iteration with a
marker. -/
theorem decode_distance_marker (c : Lzma_decls) (d : Decoder) (len dis_slot : Nat)
    (rd : Range_decoder) (hd : (slot_dis d dis_slot rd).1 = 0xFFFFFFFF) :
    decode_distance c d len dis_slot rd =
      (Iter.marker len d.lz.flush_data, (slot_dis d dis_slot rd).2.normalize) := by
  unfold slot_dis at hd ⊢
  unfold decode_distance
  by_cases h4 : dis_slot ≥ start_dis_model
  · by_cases h14 : dis_slot < end_dis_model
    · simp only [if_pos h4, if_pos h14, seq3] at hd
      exfalso
      have := modeled_distance_lt _ _ h4 h14
        (decode_tree_reversed_lt rd d.m.bm_dis
          (((2 ||| (dis_slot &&& 1)) <<< ((dis_slot >>> 1) - 1)) % 2 ^ 32 - dis_slot)
          ((dis_slot >>> 1) - 1))
      omega
    · simp only [if_pos h4, if_neg h14, seq2, seq3] at hd ⊢
      rw [if_pos hd]
  · simp only [if_neg h4] at hd
    exfalso
    unfold start_dis_model at h4
    omega

/-- The branch of a fresh match ends the iteration with a marker whenever the
distance it decodes is `0xFFFFFFFF`. -/
theorem decode_match_marker (c : Lzma_decls) (d : Decoder) (ps : Nat) (rd : Range_decoder)
    (hd : (match_len_dis c d ps rd).2.1 = 0xFFFFFFFF) :
    decode_match c d ps rd =
      (Iter.marker (match_len_dis c d ps rd).1 d.lz.flush_data,
        (match_len_dis c d ps rd).2.2.normalize) := by
  unfold match_len_dis at hd ⊢
  unfold decode_match
  simp only [seq3, seq2] at hd ⊢
  have key : ∀ (d2 : Decoder), d2.m.bm_dis = d.m.bm_dis → d2.m.bm_align = d.m.bm_align →
      d2.lz = d.lz → ∀ (len s : Nat) (r : Range_decoder), (slot_dis d s r).1 = 0xFFFFFFFF →
      decode_distance c d2 len s r =
        (Iter.marker len d.lz.flush_data, (slot_dis d s r).2.normalize) := by
    intro d2 e1 e2 e3 len s r h
    rw [← slot_dis_congr d d2 s r e1 e2] at h ⊢
    rw [decode_distance_marker c d2 len s r h, e3]
  refine key _ ?_ ?_ ?_ _ _ _ hd <;> rfl

/-- C19: in the loop of `decode_member`, when the input is not finished, the
1st bit is 1 and the 2nd bit is 0 (a fresh match) and the distance decoded is
`0xFFFFFFFF`, the member ends in this iteration: the value returned is 0 or 3
as `check_trailer` succeeds or fails when the length decoded is
`min_match_len`, and 4 for any other length; the LZ decoder is only flushed,
so no byte is copied: its buffer and its data position are unchanged. -/
theorem marker_ends_member (c : Lzma_decls) (fuel : Nat) (d : Decoder) (rd : Range_decoder)
    (ps : Nat) (b1 b2 : Nat × Bit_model × Range_decoder)
    (hf : rd.finished.1 = false)
    (hps : ps = d.lz.data_position &&& pos_state_mask)
    (hb1 : b1 = rd.finished.2.decode_bit (bm2At d.m.bm_match d.state ps))
    (hb2 : b2 = b1.2.2.decode_bit (bmAt d.m.bm_rep d.state))
    (h1 : b1.1 ≠ 0) (h2 : b2.1 = 0)
    (hd : (match_len_dis c d ps b2.2.2).2.1 = 0xFFFFFFFF) :
    decode_member_loop c (fuel + 1) d rd =
      some
        (if (match_len_dis c d ps b2.2.2).1 = min_match_len then
          (if (d.lz.flush_data.check_trailer (match_len_dis c d ps b2.2.2).2.2.normalize).1 then 0
            else 3)
          else 4,
          d.lz.flush_data,
          if (match_len_dis c d ps b2.2.2).1 = min_match_len then
            (d.lz.flush_data.check_trailer (match_len_dis c d ps b2.2.2).2.2.normalize).2
          else (match_len_dis c d ps b2.2.2).2.2.normalize) ∧
      d.lz.flush_data.buffer = d.lz.buffer ∧
      d.lz.flush_data.data_position = d.lz.data_position := by
  refine ⟨?_, flush_data_buffer d.lz, flush_data_data_position d.lz⟩
  have hit : decode_iter c d rd.finished.2 =
      (Iter.marker (match_len_dis c d ps b2.2.2).1 d.lz.flush_data,
        (match_len_dis c d ps b2.2.2).2.2.normalize) := by
    unfold decode_iter
    simp only [seq3]
    rw [← hps, ← hb1, if_neg h1]
    rw [← hb2, if_neg (by rw [h2]; exact fun h => h rfl)]
    exact decode_match_marker c _ ps b2.2.2 hd
  rw [decode_member_loop]
  simp only [seq2, hf, Bool.false_eq_true, if_false, hit, decode_return]
  by_cases hl : (match_len_dis c d ps b2.2.2).1 = min_match_len
  · simp only [hl, if_true]
    by_cases ht : (d.lz.flush_data.check_trailer (match_len_dis c d ps b2.2.2).2.2.normalize).1 = true
    · simp only [ht, if_true]
    · simp only [ht, if_false]
      simp
  · simp only [hl, if_false]

end

set_option maxRecDepth 20000 in
/-- Witness of C19: the one iteration that decodes `empty_member` finds the End
Of Stream marker and returns 0. -/
theorem marker_ends_member_witness :
    (decode_member_loop sample_decls (0 + 1) (Decoder.new sample_decls small_decoder)
      ((after_header empty_member []).load false).2).map (fun r => r.1) = some 0 := by
  have h := (marker_ends_member sample_decls 0 (Decoder.new sample_decls small_decoder)
    ((after_header empty_member []).load false).2 0 _ _ (by decide) (by decide) rfl rfl
    (by decide) (by decide) (by decide)).1
  rw [h]
  decide

end Lzip

namespace Lzip
open Range_decoder LZ_decoder

theorem avail_trunc (rd rd2 : Range_decoder) (h : Trunc rd rd2) : avail rd2 = avail rd - 1 := by
  unfold avail
  rw [h.pos]
  rcases h.input with ⟨h1, h2, _, h4, _, _⟩ | ⟨h1, h2, h3, _, _⟩
  · rw [h2, h4, List.length_dropLast]
    have : 0 < rd.infd.length := List.length_pos.mpr h1
    omega
  · rw [h1, h2]
    simp only [List.length_nil]
    omega

theorem take_dropLast_of_lt (l : List Nat) (k : Nat) (h : k < l.length) :
    l.dropLast.take k = l.take k := by
  rw [List.dropLast_eq_take, List.take_take]
  congr 1
  omega

theorem drop_dropLast (l : List Nat) (k : Nat) : l.dropLast.drop k = (l.drop k).dropLast := by
  rw [List.dropLast_eq_take, List.dropLast_eq_take, List.drop_take, List.length_drop]
  congr 1
  omega

theorem getD_dropLast (l : List Nat) (i : Nat) (h : i + 1 < l.length) :
    l.dropLast.getD i 0 = l.getD i 0 := by
  rw [List.dropLast_eq_take]
  simp only [List.getD_eq_getElem?_getD, List.getElem?_take]
  rw [if_pos (by omega)]

theorem getD_append_lt (a b : List Nat) (i : Nat) (h : i < a.length) :
    (a ++ b).getD i 0 = a.getD i 0 := by
  simp only [List.getD_eq_getElem?_getD, List.getElem?_append_left h]

theorem finished_lt (rd : Range_decoder) (h : rd.pos < rd.stream_pos) :
    rd.finished = (false, rd) := by
  unfold finished
  rw [if_neg (by omega)]

theorem finished_end (rd : Range_decoder) (h : rd.stream_pos ≤ rd.pos)
    (he : rd.at_stream_end = true) : rd.finished = (true, rd) := by
  unfold finished read_block
  rw [if_pos h]
  simp only [he, Bool.not_true, Bool.false_eq_true, if_false]
  have : ¬ rd.pos < rd.stream_pos := by omega
  simp [this]

theorem finished_read (rd : Range_decoder) (h : rd.stream_pos ≤ rd.pos)
    (he : rd.at_stream_end = false) :
    rd.finished =
      (decide (rd.infd = []),
        { rd with
          buffer := rd.infd.take buffer_size ++ rd.buffer.drop (rd.infd.take buffer_size).length
          infd := rd.infd.drop buffer_size
          stream_pos := (rd.infd.take buffer_size).length
          at_stream_end := decide ((rd.infd.take buffer_size).length < buffer_size)
          partial_member_pos := (rd.partial_member_pos + rd.pos) % 2 ^ 64
          pos := 0 }) := by
  unfold finished read_block
  rw [if_pos h]
  simp only [he, Bool.not_false, if_true]
  congr 1
  cases hi : rd.infd with
  | nil => simp
  | cons a l => simp [buffer_size]

theorem avail_finished (rd : Range_decoder) : avail rd.finished.2 = avail rd := by
  by_cases h : rd.pos < rd.stream_pos
  · rw [finished_lt rd h]
  · cases he : rd.at_stream_end with
    | true => rw [finished_end rd (by omega) he]
    | false =>
      rw [finished_read rd (by omega) he]
      unfold avail
      simp only [List.length_take, List.length_drop]
      omega

theorem sim_finished : Sim2 (fun rd => rd.finished) := by
  intro rd
  refine ⟨Nat.le_of_eq (avail_finished rd), ?_⟩
  intro rd2 hT h2
  simp only [] at h2 ⊢
  rw [avail_finished] at h2
  have hp := hT.pos
  rcases hT.input with ⟨h1, h3, h4, h5, h6, h7⟩ | ⟨h1, h3, h4, h5, h6⟩
  · by_cases h : rd.pos < rd.stream_pos
    · rw [finished_lt rd h, finished_lt rd2 (by omega)]
      exact ⟨rfl, hT⟩
    · rw [finished_read rd (by omega) h6, finished_read rd2 (by omega) h7]
      have hlen : 2 ≤ rd.infd.length := by
        unfold avail at h2
        omega
      have hne : rd.infd.dropLast ≠ [] := by
        intro e
        have := congrArg List.length e
        rw [List.length_dropLast] at this
        simp only [List.length_nil] at this
        omega
      refine ⟨?_, ?_⟩
      · simp only [h3, h1, hne]
      · by_cases hbig : buffer_size < rd.infd.length
        · have e1 : rd.infd.dropLast.take buffer_size = rd.infd.take buffer_size :=
            take_dropLast_of_lt _ _ hbig
          have hl : (rd.infd.take buffer_size).length = buffer_size := by
            rw [List.length_take]
            omega
          refine ⟨hT.code, hT.range, rfl, ?_, ?_, ?_, Or.inl ⟨?_, ?_, ?_, ?_, ?_, ?_⟩⟩
          · simp only [hT.pmp, hp]
          · simp only [List.length_append]
            omega
          · simp only [List.length_append]
            omega
          · intro e
            have := congrArg List.length e
            simp only [List.length_drop, List.length_nil] at this
            omega
          · simp only [h3, drop_dropLast]
          · simp only [h3, e1, h4]
          · simp only [h3, e1]
          · simp only [hl, Nat.lt_irrefl, decide_False]
          · simp only [h3, e1, hl, Nat.lt_irrefl, decide_False]
        · have e1 : rd.infd.take buffer_size = rd.infd := List.take_of_length_le (by omega)
          have e2 : rd.infd.dropLast.take buffer_size = rd.infd.dropLast :=
            List.take_of_length_le (by rw [List.length_dropLast]; omega)
          refine ⟨hT.code, hT.range, rfl, ?_, ?_, ?_, Or.inr ⟨?_, ?_, ?_, ?_, ?_⟩⟩
          · simp only [hT.pmp, hp]
          · simp only [List.length_append]
            omega
          · simp only [List.length_append]
            omega
          · exact List.drop_of_length_le (by omega)
          · simp only [h3]
            exact List.drop_of_length_le (by rw [List.length_dropLast]; omega)
          · simp only [h3, e1, e2, List.length_dropLast]
            omega
          · simp only [h3, e2, List.length_dropLast, decide_eq_true_eq]
            unfold buffer_size at hbig ⊢
            omega
          · intro i hi
            simp only [h3, e1, e2, List.length_dropLast] at hi ⊢
            rw [getD_append_lt _ _ _ (by rw [List.length_dropLast]; omega),
              getD_append_lt _ _ _ (by omega), getD_dropLast _ _ (by omega)]
  · unfold avail at h2
    rw [h1] at h2
    simp only [List.length_nil, Nat.add_zero] at h2
    rw [finished_lt rd (by omega), finished_lt rd2 (by omega)]
    exact ⟨rfl, hT⟩

theorem avail_frame (a b : Range_decoder) (h : Frame a b) : avail b = avail a := by
  obtain ⟨h1, h2, h3, _, _, _⟩ := h
  unfold avail
  rw [h1, h2, h3]

theorem trunc_frame (a a2 b b2 : Range_decoder) (hT : Trunc a a2) (h : Frame a b)
    (h2 : Frame a2 b2) (hc : b2.code = b.code) (hr : b2.range = b.range) : Trunc b b2 := by
  obtain ⟨p1, p2, p3, p4, p5, p6⟩ := h
  obtain ⟨q1, q2, q3, q4, q5, q6⟩ := h2
  refine ⟨hc, hr, ?_, ?_, ?_, ?_, ?_⟩
  · rw [p1, q1, hT.pos]
  · rw [p6, q6, hT.pmp]
  · rw [p2, p4]
    exact hT.buf
  · rw [q2, q4]
    exact hT.buf2
  · rw [p2, p3, p4, p5, q2, q3, q4, q5]
    exact hT.input

theorem simG_bind {T1 α1 T α : Type} (φ1 : T1 → α1) (ψ1 : T1 → Range_decoder) {φ : T → α}
    {ψ : T → Range_decoder} {f : Range_decoder → T1} (K : α1 → Range_decoder → T)
    (G : T1 → T) (hG : ∀ t, G t = K (φ1 t) (ψ1 t)) (h1 : SimG φ1 ψ1 f)
    (h2 : ∀ a, SimG φ ψ (K a)) : SimG φ ψ (fun rd => G (f rd)) := by
  intro rd
  simp only [hG]
  have a := h1 rd
  have b := h2 (φ1 (f rd)) (ψ1 (f rd))
  refine ⟨Nat.le_trans b.1 a.1, ?_⟩
  intro rd2 hT h
  obtain ⟨e, hT1⟩ := a.2 rd2 hT (Nat.le_trans h b.1)
  rw [e]
  exact b.2 _ hT1 h

theorem simG_seq1 {T α : Type} {φ : T → α} {ψ : T → Range_decoder}
    {f : Range_decoder → Range_decoder} {K : Range_decoder → T}
    (h1 : Sim1 f) (h2 : SimG φ ψ K) : SimG φ ψ (fun rd => seq1 (f rd) K) :=
  simG_bind (fun _ => ()) id (fun _ => K) (fun r => seq1 r K) (fun _ => rfl) h1 (fun _ => h2)

theorem simG_seq2 {T α β : Type} {φ : T → α} {ψ : T → Range_decoder}
    {f : Range_decoder → β × Range_decoder} {K : β → Range_decoder → T}
    (h1 : Sim2 f) (h2 : ∀ a, SimG φ ψ (K a)) : SimG φ ψ (fun rd => seq2 (f rd) K) :=
  simG_bind Prod.fst Prod.snd K (fun r => seq2 r K) (fun _ => rfl) h1 h2

theorem simG_seq3 {T α β γ : Type} {φ : T → α} {ψ : T → Range_decoder}
    {f : Range_decoder → β × γ × Range_decoder} {K : β → γ → Range_decoder → T}
    (h1 : Sim3 f) (h2 : ∀ a b, SimG φ ψ (K a b)) : SimG φ ψ (fun rd => seq3 (f rd) K) :=
  simG_bind out3 nxt3 (fun a => K a.1 a.2) (fun r => seq3 r K) (fun _ => rfl) h1
    (fun a => h2 a.1 a.2)

theorem simG_seq4 {T α β γ δ : Type} {φ : T → α} {ψ : T → Range_decoder}
    {f : Range_decoder → β × γ × δ × Range_decoder} {K : β → γ → δ → Range_decoder → T}
    (h1 : Sim4 f) (h2 : ∀ a b c, SimG φ ψ (K a b c)) : SimG φ ψ (fun rd => seq4 (f rd) K) :=
  simG_bind out4 nxt4 (fun a => K a.1 a.2.1 a.2.2) (fun r => seq4 r K) (fun _ => rfl) h1
    (fun a => h2 a.1 a.2.1 a.2.2)

theorem simG_ite {T α : Type} {φ : T → α} {ψ : T → Range_decoder} (c : Prop) [Decidable c]
    {F G : Range_decoder → T} (h1 : c → SimG φ ψ F) (h2 : ¬ c → SimG φ ψ G) :
    SimG φ ψ (fun rd => if c then F rd else G rd) := by
  by_cases h : c
  · simp only [if_pos h]
    exact h1 h
  · simp only [if_neg h]
    exact h2 h

theorem simG_tail {T α : Type} {φ : T → α} {ψ : T → Range_decoder}
    {g : Range_decoder → Range_decoder} (hg : Sim1 g) (t : Range_decoder → T)
    (h1 : ∀ rd, ψ (t rd) = g rd) (h2 : ∀ rd rd2, φ (t rd2) = φ (t rd)) : SimG φ ψ t := by
  intro rd
  rw [h1]
  refine ⟨(hg rd).1, ?_⟩
  intro rd2 hT h
  rw [h1]
  exact ⟨h2 rd rd2, ((hg rd).2 rd2 hT h).2⟩

theorem sim1_id : Sim1 (fun rd => rd) := fun _ => ⟨Nat.le_refl _, fun _ hT _ => ⟨rfl, hT⟩⟩

theorem simG_ret {T α : Type} {φ : T → α} {ψ : T → Range_decoder} (t : Range_decoder → T)
    (h1 : ∀ rd, ψ (t rd) = rd) (h2 : ∀ rd rd2, φ (t rd2) = φ (t rd)) : SimG φ ψ t :=
  simG_tail sim1_id t h1 h2

theorem simG_congr {T α : Type} {φ : T → α} {ψ : T → Range_decoder} {f g : Range_decoder → T}
    (h : SimG φ ψ f) (e : ∀ rd, g rd = f rd) : SimG φ ψ g := by
  have : g = f := funext e
  rw [this]
  exact h

theorem sim_read_byte :
    Sim2 (fun rd : Range_decoder => (rd.buffer.getD rd.pos 0, { rd with pos := rd.pos + 1 })) := by
  intro rd
  refine ⟨?_, ?_⟩
  · unfold avail
    simp only []
    omega
  · intro rd2 hT h
    unfold avail at h
    simp only [] at h ⊢
    have hp := hT.pos
    refine ⟨?_, hT.code, hT.range, by simp only [hp], hT.pmp, hT.buf, hT.buf2, ?_⟩
    · rcases hT.input with ⟨_, _, h4, _, _, _⟩ | ⟨h1, _, h4, _, h6⟩
      · rw [h4, hp]
      · rw [h1] at h
        simp only [List.length_nil, Nat.add_zero] at h
        rw [hp]
        exact h6 _ (by omega)
    · exact hT.input

theorem get_byte_eq (rd : Range_decoder) :
    rd.get_byte = seq2 rd.finished fun fin rd1 =>
      if fin then (0xFF, rd1) else (rd1.buffer.getD rd1.pos 0, { rd1 with pos := rd1.pos + 1 }) :=
  rfl

theorem sim_get_byte : Sim2 (fun rd => rd.get_byte) := by
  refine simG_congr ?_ get_byte_eq
  refine simG_seq2 sim_finished fun fin => simG_ite _ (fun _ => ?_) (fun _ => sim_read_byte)
  exact simG_ret _ (fun _ => rfl) (fun _ _ => rfl)

theorem sim_normalize : Sim1 (fun rd => rd.normalize) := by
  intro rd
  have hg := sim_get_byte rd
  simp only [id] at hg ⊢
  by_cases h : rd.range ≤ 0x00FFFFFF
  · have e : ∀ x : Range_decoder, x.range = rd.range → x.normalize =
        { x.get_byte.2 with
          range := (x.range <<< 8) % 2 ^ 32
          code := ((x.code <<< 8) % 2 ^ 32) ||| x.get_byte.1 } := by
      intro x hx
      unfold Range_decoder.normalize
      rw [if_pos (by rw [hx]; exact h)]
    have f : ∀ x : Range_decoder, avail ({ x.get_byte.2 with
          range := (x.range <<< 8) % 2 ^ 32
          code := ((x.code <<< 8) % 2 ^ 32) ||| x.get_byte.1 } : Range_decoder) =
        avail x.get_byte.2 := fun _ => rfl
    rw [e rd rfl, f]
    refine ⟨hg.1, ?_⟩
    intro rd2 hT h2
    obtain ⟨e1, hT1⟩ := hg.2 rd2 hT h2
    rw [e rd2 hT.range]
    refine ⟨trivial, ?_⟩
    refine trunc_frame _ _ _ _ hT1 ⟨rfl, rfl, rfl, rfl, rfl, rfl⟩ ⟨rfl, rfl, rfl, rfl, rfl, rfl⟩
      ?_ ?_
    · show ((rd2.code <<< 8) % 2 ^ 32) ||| rd2.get_byte.1 = ((rd.code <<< 8) % 2 ^ 32) ||| rd.get_byte.1
      rw [hT.code, e1]
    · show (rd2.range <<< 8) % 2 ^ 32 = (rd.range <<< 8) % 2 ^ 32
      rw [hT.range]
  · have e : ∀ x : Range_decoder, x.range = rd.range → x.normalize = x := by
      intro x hx
      unfold Range_decoder.normalize
      rw [if_neg (by rw [hx]; exact h)]
    rw [e rd rfl]
    refine ⟨Nat.le_refl _, ?_⟩
    intro rd2 hT _
    rw [e rd2 hT.range]
    exact ⟨trivial, hT⟩

end Lzip

namespace Lzip
open Range_decoder LZ_decoder

/-- An operation that calls `normalize` and then works on `code` and `range`
only. -/
theorem simG_after_normalize {T α : Type} {φ : T → α} {ψ : T → Range_decoder}
    (f : Range_decoder → T) (key : ∀ x, Frame x.normalize (ψ (f x)))
    (dep : ∀ x y : Range_decoder, x.normalize.code = y.normalize.code →
      x.normalize.range = y.normalize.range →
      φ (f x) = φ (f y) ∧ (ψ (f x)).code = (ψ (f y)).code ∧ (ψ (f x)).range = (ψ (f y)).range) :
    SimG φ ψ f := by
  intro rd
  have hn := sim_normalize rd
  simp only [id] at hn
  rw [avail_frame _ _ (key rd)]
  refine ⟨hn.1, ?_⟩
  intro rd2 hT h
  obtain ⟨_, hT1⟩ := hn.2 rd2 hT h
  obtain ⟨d1, d2, d3⟩ := dep rd2 rd hT1.code hT1.range
  exact ⟨d1, trunc_frame _ _ _ _ hT1 (key rd) (key rd2) d2 d3⟩

theorem sim_decode_bit (bm : Bit_model) : Sim3 (fun rd => rd.decode_bit bm) := by
  apply simG_after_normalize
  · intro x
    unfold decode_bit nxt3
    simp only []
    split <;> exact ⟨rfl, rfl, rfl, rfl, rfl, rfl⟩
  · intro x y e1 e2
    unfold decode_bit nxt3 out3 bound
    simp only [e1, e2]
    split <;> exact ⟨rfl, rfl, rfl⟩

theorem sim_decode_symbol_bit_at (bm : List Bit_model) (symbol : Nat) :
    Sim3 (fun rd => rd.decode_symbol_bit_at bm symbol) := by
  apply simG_after_normalize
  · intro x
    unfold decode_symbol_bit_at decode_symbol_bit nxt3
    simp only []
    split <;> exact ⟨rfl, rfl, rfl, rfl, rfl, rfl⟩
  · intro x y e1 e2
    unfold decode_symbol_bit_at decode_symbol_bit nxt3 out3 bound
    simp only [e1, e2]
    split <;> exact ⟨rfl, rfl, rfl⟩

theorem sim_decode_symbol_bit_reversed_at (bm : List Bit_model) (base model symbol i : Nat) :
    Sim4 (fun rd => rd.decode_symbol_bit_reversed_at bm base model symbol i) := by
  apply simG_after_normalize
  · intro x
    unfold decode_symbol_bit_reversed_at nxt4 seq1
    simp only []
    split <;> exact ⟨rfl, rfl, rfl, rfl, rfl, rfl⟩
  · intro x y e1 e2
    unfold decode_symbol_bit_reversed_at nxt4 out4 bound seq1
    simp only [e1, e2]
    split <;> exact ⟨rfl, rfl, rfl⟩

theorem sim_decode_direct : Sim2 (fun rd => rd.decode_direct) := by
  apply simG_after_normalize
  · intro x
    unfold decode_direct seq1
    simp only []
    split <;> exact ⟨rfl, rfl, rfl, rfl, rfl, rfl⟩
  · intro x y e1 e2
    unfold decode_direct seq1
    simp only [e1, e2]
    split <;> exact ⟨rfl, rfl, rfl⟩

theorem sim_shift_in : Sim1 (fun rd => rd.shift_in) := by
  intro rd
  have hg := sim_get_byte rd
  unfold shift_in seq2
  simp only [id] at hg ⊢
  refine ⟨hg.1, ?_⟩
  intro rd2 hT h
  obtain ⟨e1, hT1⟩ := hg.2 rd2 hT h
  refine ⟨trivial, ?_⟩
  refine trunc_frame _ _ _ _ hT1 ⟨rfl, rfl, rfl, rfl, rfl, rfl⟩ ⟨rfl, rfl, rfl, rfl, rfl, rfl⟩
    ?_ hT1.range
  show ((rd2.get_byte.2.code <<< 8) % 2 ^ 32) ||| rd2.get_byte.1 =
    ((rd.get_byte.2.code <<< 8) % 2 ^ 32) ||| rd.get_byte.1
  rw [hT1.code, e1]

theorem sim_load (ignore_nonzero : Bool) : Sim2 (fun rd => rd.load ignore_nonzero) := by
  have h0 : Sim2 (fun rd : Range_decoder => ({ rd with code := 0, range := 0xFFFFFFFF }).get_byte) := by
    intro rd
    have hg := sim_get_byte { rd with code := 0, range := 0xFFFFFFFF }
    refine ⟨hg.1, ?_⟩
    intro rd2 hT h
    exact hg.2 { rd2 with code := 0, range := 0xFFFFFFFF }
      (trunc_frame _ _ _ _ hT ⟨rfl, rfl, rfl, rfl, rfl, rfl⟩ ⟨rfl, rfl, rfl, rfl, rfl, rfl⟩ rfl rfl)
      h
  unfold load
  refine simG_seq2 h0 fun b => simG_ite _ (fun _ => ?_) (fun _ => ?_)
  · exact simG_ret _ (fun _ => rfl) (fun _ _ => rfl)
  · have h4 : Sim1 (fun rd : Range_decoder => rd.shift_in.shift_in.shift_in.shift_in) :=
      simG_seq1 (K := fun r => r.shift_in.shift_in.shift_in) sim_shift_in
        (simG_seq1 (K := fun r => r.shift_in.shift_in) sim_shift_in
          (simG_seq1 (K := fun r => r.shift_in) sim_shift_in sim_shift_in))
    exact simG_tail h4 _ (fun _ => rfl) (fun _ _ => rfl)

end Lzip

namespace Lzip
open Range_decoder LZ_decoder

section

seal Range_decoder.normalize Range_decoder.decode_bit Range_decoder.decode_symbol_bit_at
  Range_decoder.decode_symbol_bit

theorem sim_decode_len3 (bm : List Bit_model) (symbol : Nat) :
    Sim3 (fun rd => rd.decode_len3 bm symbol) := by
  refine simG_congr (f := fun rd => seq3 (rd.decode_symbol_bit_at bm symbol) fun bm s rd =>
    seq3 (rd.decode_symbol_bit_at bm s) fun bm s rd => rd.decode_symbol_bit_at bm s) ?_
    (fun _ => rfl)
  exact simG_seq3 (sim_decode_symbol_bit_at _ _) fun _ _ =>
    simG_seq3 (sim_decode_symbol_bit_at _ _) fun _ _ => sim_decode_symbol_bit_at _ _

theorem sim_decode_len (lm : Len_model) (ps : Nat) : Sim3 (fun rd => rd.decode_len lm ps) := by
  refine simG_congr (f := fun rd => seq3 (rd.decode_bit lm.choice1) fun bit1 c1 rd =>
    if bit1 = 0 then
      seq3 (rd.decode_len3 (rowAt lm.bm_low ps) 1) fun bm s rd =>
        ((s &&& 7) + min_match_len + 0,
          { lm with choice1 := c1, bm_low := lm.bm_low.set ps bm }, rd)
    else
      seq3 (rd.decode_bit lm.choice2) fun bit2 c2 rd =>
        if bit2 = 0 then
          seq3 (rd.decode_len3 (rowAt lm.bm_mid ps) 1) fun bm s rd =>
            ((s &&& 7) + min_match_len + len_low_symbols,
              { lm with choice1 := c1, choice2 := c2, bm_mid := lm.bm_mid.set ps bm }, rd)
        else
          seq3 (rd.decode_symbol_bit_at lm.bm_high 1) fun bm s rd =>
          seq3 (rd.decode_symbol_bit_at bm s) fun bm s rd =>
          seq3 (rd.decode_symbol_bit_at bm s) fun bm s rd =>
          seq3 (rd.decode_symbol_bit_at bm s) fun bm s rd =>
          seq3 (rd.decode_symbol_bit_at bm s) fun bm s rd =>
          seq3 (rd.decode_len3 bm s) fun bm s rd =>
            ((s &&& 0xFF) + min_match_len + (len_low_symbols + len_mid_symbols),
              { lm with choice1 := c1, choice2 := c2, bm_high := bm }, rd)) ?_ (fun _ => by rfl)
  repeat' first
    | apply simG_seq3 (sim_decode_bit _)
    | apply simG_seq3 (sim_decode_symbol_bit_at _ _)
    | apply simG_seq3 (sim_decode_len3 _ _)
    | apply simG_ite
    | exact simG_ret _ (fun _ => rfl) (fun _ _ => rfl)
    | intro _

theorem sim_decode_tree6 (bm : List Bit_model) : Sim3 (fun rd => rd.decode_tree6 bm) := by
  unfold decode_tree6
  repeat' first
    | apply simG_seq3 (sim_decode_symbol_bit_at _ _)
    | exact simG_ret _ (fun _ => rfl) (fun _ _ => rfl)
    | intro _

theorem sim_decode_tree8 (bm : List Bit_model) : Sim3 (fun rd => rd.decode_tree8 bm) := by
  unfold decode_tree8
  repeat' first
    | apply simG_seq3 (sim_decode_symbol_bit_at _ _)
    | exact simG_ret _ (fun _ => rfl) (fun _ _ => rfl)
    | intro _

theorem sim_decode_tree_reversed_loop (base n : Nat) :
    ∀ (i : Nat) (bm : List Bit_model) (model symbol : Nat),
      Sim3 (fun rd => decode_tree_reversed_loop base n i bm model symbol rd) := by
  induction n with
  | zero =>
    intro i bm model symbol
    exact simG_ret _ (fun _ => rfl) (fun _ _ => rfl)
  | succ n ih =>
    intro i bm model symbol
    exact simG_congr (simG_seq4 (sim_decode_symbol_bit_reversed_at bm base model symbol i)
      fun a b c => ih (i + 1) a b c) (fun _ => rfl)

theorem sim_decode_tree_reversed (bm : List Bit_model) (base num_bits : Nat) :
    Sim3 (fun rd => rd.decode_tree_reversed bm base num_bits) :=
  sim_decode_tree_reversed_loop base num_bits 0 bm 1 0

theorem sim_decode_tree_reversed4 (bm : List Bit_model) :
    Sim3 (fun rd => rd.decode_tree_reversed4 bm) := by
  unfold decode_tree_reversed4
  repeat' first
    | apply simG_seq4 (sim_decode_symbol_bit_reversed_at _ _ _ _ _)
    | exact simG_ret _ (fun _ => rfl) (fun _ _ => rfl)
    | intro _

theorem sim_decode_matched_rest (fuel : Nat) :
    ∀ (bm : List Bit_model) (symbol : Nat),
      Sim3 (fun rd => decode_matched_rest fuel bm symbol rd) := by
  induction fuel with
  | zero =>
    intro bm symbol
    exact simG_ret _ (fun _ => rfl) (fun _ _ => rfl)
  | succ n ih =>
    intro bm symbol
    exact simG_congr (simG_ite (symbol < 0x100)
      (fun _ => simG_seq3 (sim_decode_symbol_bit_at bm symbol) fun a b => ih a b)
      (fun _ => simG_ret (fun rd => (bm, symbol, rd)) (fun _ => rfl) (fun _ _ => rfl)))
      (fun _ => rfl)

theorem sim_decode_matched_loop (fuel : Nat) :
    ∀ (bm : List Bit_model) (match_byte symbol : Nat),
      Sim3 (fun rd => decode_matched_loop fuel bm match_byte symbol rd) := by
  induction fuel with
  | zero =>
    intro bm match_byte symbol
    exact simG_ret _ (fun _ => rfl) (fun _ _ => rfl)
  | succ n ih =>
    intro bm match_byte symbol
    exact simG_congr (simG_ite (symbol < 0x100)
      (fun _ => simG_seq3 (sim_decode_bit _) fun bit b =>
        simG_ite ((((match_byte <<< 1) % 2 ^ 32) &&& 0x100) >>> 8 ≠ bit)
          (fun _ => sim_decode_matched_rest n _ _) (fun _ => ih _ _ _))
      (fun _ => simG_ret (fun rd => (bm, symbol, rd)) (fun _ => rfl) (fun _ _ => rfl)))
      (fun _ => rfl)

theorem sim_decode_matched (bm : List Bit_model) (match_byte : Nat) :
    Sim3 (fun rd => rd.decode_matched bm match_byte) := by
  unfold decode_matched
  exact simG_seq3 (sim_decode_matched_loop 8 bm match_byte 1) fun _ _ =>
    simG_ret _ (fun _ => rfl) (fun _ _ => rfl)

theorem sim_decode_loop (i : Nat) :
    ∀ symbol : Nat, Sim2 (fun rd => decode_loop i symbol rd) := by
  induction i with
  | zero =>
    intro symbol
    exact simG_ret _ (fun _ => rfl) (fun _ _ => rfl)
  | succ n ih =>
    intro symbol
    exact simG_congr (simG_seq2 sim_decode_direct fun bit => ih _) (fun _ => rfl)

theorem sim_decode (num_bits : Nat) : Sim2 (fun rd => rd.decode num_bits) :=
  sim_decode_loop num_bits 0

end

end Lzip

namespace Lzip
open Range_decoder LZ_decoder

theorem sim2_ret {α : Type} (a : α) : Sim2 (fun rd => (a, rd)) :=
  simG_ret _ (fun _ => rfl) (fun _ _ => rfl)

theorem sim2_ret_normalize {α : Type} (a : α) : Sim2 (fun rd => (a, rd.normalize)) :=
  simG_tail sim_normalize _ (fun _ => rfl) (fun _ _ => rfl)

theorem sim_match_end (c : Lzma_decls) (d : Decoder) (len : Nat) :
    Sim2 (fun rd => match_end c d len rd) := by
  unfold match_end
  simp only []
  exact simG_ite _ (fun _ => sim2_ret _)
    (fun _ => sim2_ret _)

theorem sim_decode_distance (c : Lzma_decls) (d : Decoder) (len dis_slot : Nat) :
    Sim2 (fun rd => decode_distance c d len dis_slot rd) := by
  unfold decode_distance
  simp only []
  apply simG_ite <;> intro _
  · apply simG_ite <;> intro _
    · apply simG_seq3 (sim_decode_tree_reversed _ _ _)
      intro _ _
      exact sim_match_end _ _ _
    · apply simG_seq2 (sim_decode _)
      intro _
      apply simG_seq3 (sim_decode_tree_reversed4 _)
      intro _ _
      apply simG_ite <;> intro _
      · exact sim2_ret_normalize _
      · exact sim_match_end _ _ _
  · exact sim_match_end _ _ _

theorem sim_decode_match (c : Lzma_decls) (d : Decoder) (ps : Nat) :
    Sim2 (fun rd => decode_match c d ps rd) := by
  unfold decode_match
  exact simG_seq3 (sim_decode_len _ _) fun _ _ =>
    simG_seq3 (sim_decode_tree6 _) fun _ _ => sim_decode_distance _ _ _ _

theorem sim_rep_len (c : Lzma_decls) (d : Decoder) (ps : Nat) :
    Sim2 (fun rd => rep_len c d ps rd) := by
  unfold rep_len
  exact simG_seq3 (sim_decode_len _ _) fun _ _ => sim2_ret _

theorem sim_decode_rep (c : Lzma_decls) (d : Decoder) (ps : Nat) :
    Sim2 (fun rd => decode_rep c d ps rd) := by
  unfold decode_rep
  simp only []
  apply simG_seq3 (sim_decode_bit _)
  intro _ _
  apply simG_ite <;> intro _
  · apply simG_seq3 (sim_decode_bit _)
    intro _ _
    apply simG_ite <;> intro _
    · exact sim2_ret _
    · exact sim_rep_len _ _ _
  · apply simG_seq3 (sim_decode_bit _)
    intro _ _
    apply simG_ite <;> intro _
    · exact sim_rep_len _ _ _
    · apply simG_seq3 (sim_decode_bit _)
      intro _ _
      apply simG_ite <;> intro _
      · exact sim_rep_len _ _ _
      · exact sim_rep_len _ _ _

theorem sim_decode_literal (c : Lzma_decls) (d : Decoder) :
    Sim2 (fun rd => decode_literal c d rd) := by
  unfold decode_literal
  apply simG_seq3
  · apply simG_ite <;> intro _
    · exact sim_decode_tree8 _
    · exact sim_decode_matched _ _
  · intro _ _
    exact sim2_ret _

theorem sim_decode_iter (c : Lzma_decls) (d : Decoder) :
    Sim2 (fun rd => decode_iter c d rd) := by
  unfold decode_iter
  simp only []
  apply simG_seq3 (sim_decode_bit _)
  intro _ _
  apply simG_ite <;> intro _
  · exact sim_decode_literal _ _
  · apply simG_seq3 (sim_decode_bit _)
    intro _ _
    apply simG_ite <;> intro _
    · exact sim_decode_rep _ _ _
    · exact sim_decode_match _ _ _

end Lzip

namespace Lzip
open Range_decoder LZ_decoder

theorem slice_eq_of_getD (a b : List Nat) (p m : Nat) (ha : p + m ≤ a.length)
    (hb : p + m ≤ b.length) (h : ∀ i, i < p + m → b.getD i 0 = a.getD i 0) :
    (b.drop p).take m = (a.drop p).take m := by
  apply List.ext_getElem?
  intro i
  rw [List.getElem?_take, List.getElem?_take]
  by_cases hi : i < m
  · rw [if_pos hi, if_pos hi, List.getElem?_drop, List.getElem?_drop]
    have h1 : p + i < a.length := by omega
    have h2 : p + i < b.length := by omega
    have h3 := h (p + i) (by omega)
    rw [List.getD_eq_getElem b 0 h2, List.getD_eq_getElem a 0 h1] at h3
    rw [List.getElem?_eq_getElem h1, List.getElem?_eq_getElem h2, h3]
  · rw [if_neg hi, if_neg hi]

theorem sim_read_chunk (k : Nat) : Sim2 (fun rd => rd.read_chunk k) := by
  intro rd
  unfold read_chunk
  refine ⟨?_, ?_⟩
  · unfold avail
    simp only []
    omega
  · intro rd2 hT h
    unfold avail at h
    simp only [] at h ⊢
    have hp := hT.pos
    have hb := hT.buf
    have hb2 := hT.buf2
    rcases hT.input with ⟨h1, h3, h4, h5, h6, h7⟩ | ⟨h1, h3, h4, h5, h6⟩
    · refine ⟨?_, hT.code, hT.range, ?_, hT.pmp, hT.buf, hT.buf2,
        Or.inl ⟨h1, h3, h4, h5, h6, h7⟩⟩
      · rw [h4, h5, hp]
      · show rd2.pos + min k (rd2.stream_pos - rd2.pos) = rd.pos + min k (rd.stream_pos - rd.pos)
        rw [h5, hp]
    · rw [h1] at h
      simp only [List.length_nil, Nat.add_zero] at h
      have em : min k (rd2.stream_pos - rd2.pos) = min k (rd.stream_pos - rd.pos) := by
        rw [hp]
        omega
      rw [em, hp]
      refine ⟨?_, hT.code, hT.range, rfl, hT.pmp, hT.buf, hT.buf2, Or.inr ⟨h1, h3, h4, h5, h6⟩⟩
      apply slice_eq_of_getD
      · omega
      · omega
      · intro i hi
        exact h6 i (by omega)

theorem sim_read_data_loop (size fuel : Nat) :
    ∀ out : List Nat, Sim2 (fun rd => read_data_loop size fuel out rd) := by
  induction fuel with
  | zero =>
    intro out
    exact sim2_ret _
  | succ n ih =>
    intro out
    refine simG_congr (f := fun rd =>
      if out.length < size then
        seq2 rd.finished fun fin rd1 =>
          if fin then (out, rd1)
          else seq2 (rd1.read_chunk (size - out.length)) fun blk rd2 =>
            read_data_loop size n (out ++ blk) rd2
      else (out, rd)) ?_ (fun _ => by rfl)
    apply simG_ite <;> intro _
    · apply simG_seq2 sim_finished
      intro fin
      apply simG_ite <;> intro _
      · exact sim2_ret _
      · apply simG_seq2 (sim_read_chunk _)
        intro blk
        exact ih _
    · exact sim2_ret _

theorem sim_read_data (size : Nat) : Sim2 (fun rd => rd.read_data size) :=
  sim_read_data_loop size size []

theorem read_chunk_length (rd : Range_decoder) (k : Nat) :
    (rd.read_chunk k).1.length ≤ k ∧
      (rd.read_chunk k).1.length + avail (rd.read_chunk k).2 ≤ avail rd ∧
      (rd.stream_pos ≤ rd.buffer.length →
        (rd.read_chunk k).1.length + avail (rd.read_chunk k).2 = avail rd ∧
        (rd.read_chunk k).2.stream_pos ≤ (rd.read_chunk k).2.buffer.length) := by
  unfold read_chunk avail
  simp only [List.length_take, List.length_drop]
  refine ⟨by omega, by omega, fun h => ⟨by omega, h⟩⟩

theorem finished_buffer (rd : Range_decoder) (h : rd.stream_pos ≤ rd.buffer.length) :
    rd.finished.2.stream_pos ≤ rd.finished.2.buffer.length := by
  by_cases hp : rd.pos < rd.stream_pos
  · rw [finished_lt rd hp]
    exact h
  · cases he : rd.at_stream_end with
    | true =>
      rw [finished_end rd (by omega) he]
      exact h
    | false =>
      rw [finished_read rd (by omega) he]
      simp only [List.length_append]
      omega

theorem read_data_loop_length (size fuel : Nat) :
    ∀ (out : List Nat) (rd : Range_decoder), out.length ≤ size →
      (read_data_loop size fuel out rd).1.length ≤ size ∧
      (read_data_loop size fuel out rd).1.length + avail (read_data_loop size fuel out rd).2 ≤
        out.length + avail rd ∧
      (rd.stream_pos ≤ rd.buffer.length →
        (read_data_loop size fuel out rd).1.length + avail (read_data_loop size fuel out rd).2 =
          out.length + avail rd) := by
  induction fuel with
  | zero =>
    intro out rd h
    exact ⟨h, Nat.le_refl _, fun _ => rfl⟩
  | succ n ih =>
    intro out rd h
    rw [read_data_loop]
    by_cases hs : out.length < size
    · rw [if_pos hs]
      simp only [seq2]
      have ha := avail_finished rd
      cases hf : rd.finished.1 with
      | true =>
        simp only [if_true]
        rw [ha]
        exact ⟨h, Nat.le_refl _, fun _ => rfl⟩
      | false =>
        simp only [Bool.false_eq_true, if_false]
        obtain ⟨c1, c2, c3⟩ := read_chunk_length rd.finished.2 (size - out.length)
        have hl : (out ++ (rd.finished.2.read_chunk (size - out.length)).1).length =
            out.length + (rd.finished.2.read_chunk (size - out.length)).1.length :=
          List.length_append _ _
        obtain ⟨i1, i2, i3⟩ := ih (out ++ (rd.finished.2.read_chunk (size - out.length)).1)
          (rd.finished.2.read_chunk (size - out.length)).2 (by rw [hl]; omega)
        refine ⟨i1, by omega, fun hb => ?_⟩
        obtain ⟨c4, c5⟩ := c3 (finished_buffer rd hb)
        have := i3 c5
        omega
    · rw [if_neg hs]
      exact ⟨h, Nat.le_refl _, fun _ => rfl⟩

theorem read_data_length (rd : Range_decoder) (size : Nat) :
    (rd.read_data size).1.length ≤ size ∧
      (rd.read_data size).1.length + avail (rd.read_data size).2 ≤ avail rd ∧
      (rd.stream_pos ≤ rd.buffer.length →
        (rd.read_data size).1.length + avail (rd.read_data size).2 = avail rd) := by
  have := read_data_loop_length size size [] rd (Nat.zero_le _)
  simpa [read_data] using this

end Lzip

namespace Lzip
open Range_decoder LZ_decoder

theorem decode_member_loop_succ (c : Lzma_decls) (fuel : Nat) (d : Decoder) (rd : Range_decoder) :
    decode_member_loop c (fuel + 1) d rd =
      if rd.finished.1 then some (2, d.lz.flush_data, rd.finished.2)
      else
        match (decode_iter c d rd.finished.2).1 with
        | Iter.again d1 => decode_member_loop c fuel d1 (decode_iter c d rd.finished.2).2
        | Iter.marker len lz => some (decode_return len lz (decode_iter c d rd.finished.2).2)
        | Iter.error lz => some (1, lz, (decode_iter c d rd.finished.2).2) :=
  rfl

theorem check_trailer_true (lz : LZ_decoder) (rd : Range_decoder)
    (h : (lz.check_trailer rd).1 = true) :
    (rd.read_data Lzip_trailer.size).1.length = Lzip_trailer.size := by
  have hl := (read_data_length rd Lzip_trailer.size).1
  unfold check_trailer seq2 at h
  simp only [Bool.not_eq_true', Bool.or_eq_false_iff, decide_eq_false_iff_not] at h
  omega

theorem check_trailer_snd (lz : LZ_decoder) (rd : Range_decoder) :
    (lz.check_trailer rd).2 = (rd.read_data Lzip_trailer.size).2 := rfl

theorem check_trailer_short (lz : LZ_decoder) (rd : Range_decoder)
    (h : (rd.read_data Lzip_trailer.size).1.length < Lzip_trailer.size) :
    (lz.check_trailer rd).1 = false := by
  unfold check_trailer seq2
  simp only [h, decide_True, Bool.true_or, Bool.not_true]

/-- What `decode_return` gives when the value is 0. -/
theorem decode_return_zero (len : Nat) (lz lzf : LZ_decoder) (rd rdf : Range_decoder)
    (h : decode_return len lz rd = (0, lzf, rdf)) :
    len = min_match_len ∧ (lz.check_trailer rd).1 = true ∧ lzf = lz ∧
      rdf = (rd.read_data Lzip_trailer.size).2 := by
  unfold decode_return seq2 at h
  by_cases hl : len = min_match_len
  · rw [if_pos hl] at h
    cases ht : (lz.check_trailer rd).1 with
    | true =>
      rw [ht] at h
      simp only [if_true, Prod.mk.injEq, true_and] at h
      exact ⟨hl, rfl, h.1.symm, h.2.symm⟩
    | false =>
      rw [ht] at h
      simp at h
  · rw [if_neg hl] at h
    simp at h

theorem decode_iter_trunc (c : Lzma_decls) (d : Decoder) (rd rd2 : Range_decoder)
    (hT : Trunc rd rd2) (h : 2 ≤ avail (decode_iter c d rd).2) :
    (decode_iter c d rd2).1 = (decode_iter c d rd).1 ∧
      Trunc (decode_iter c d rd).2 (decode_iter c d rd2).2 :=
  (sim_decode_iter c d rd).2 rd2 hT h

/-- A run of the loop of `decode_member` that returns 0 has consumed at least
the 20 bytes of the trailer. -/
theorem loop_zero_avail (c : Lzma_decls) (fuel : Nat) :
    ∀ (d : Decoder) (rd : Range_decoder) (lzf : LZ_decoder) (rdf : Range_decoder),
      decode_member_loop c fuel d rd = some (0, lzf, rdf) → avail rdf + 20 ≤ avail rd := by
  induction fuel with
  | zero =>
    intro d rd lzf rdf h
    simp [decode_member_loop] at h
  | succ n ih =>
    intro d rd lzf rdf h
    rw [decode_member_loop_succ] at h
    have ha := avail_finished rd
    have hm : avail (decode_iter c d rd.finished.2).2 ≤ avail rd.finished.2 :=
      (sim_decode_iter c d rd.finished.2).1
    cases hf : rd.finished.1 with
    | true =>
      rw [hf] at h
      simp at h
    | false =>
      rw [hf] at h
      simp only [Bool.false_eq_true, if_false] at h
      cases hit : (decode_iter c d rd.finished.2).1 with
      | again d1 =>
        rw [hit] at h
        have := ih _ _ _ _ h
        omega
      | marker len lz =>
        rw [hit] at h
        simp only [Option.some.injEq] at h
        obtain ⟨_, h2, _, h4⟩ := decode_return_zero _ _ _ _ _ h
        have h5 := check_trailer_true _ _ h2
        have h6 := (read_data_length (decode_iter c d rd.finished.2).2 Lzip_trailer.size).2.1
        rw [h5, ← h4] at h6
        unfold Lzip_trailer.size at h6
        omega
      | error lz =>
        rw [hit] at h
        simp at h

/-- The loop of `decode_member` on an input without its last byte, when it
returns 0 on the whole input and leaves nothing of it: the trailer is short
and the value returned is 3. -/
theorem loop_truncated (c : Lzma_decls) (fuel : Nat) :
    ∀ (d : Decoder) (rd rd2 : Range_decoder) (lzf : LZ_decoder) (rdf : Range_decoder),
      Trunc rd rd2 → decode_member_loop c fuel d rd = some (0, lzf, rdf) → avail rdf = 0 →
      ∃ rdf2, decode_member_loop c fuel d rd2 = some (3, lzf, rdf2) := by
  induction fuel with
  | zero =>
    intro d rd rd2 lzf rdf _ h
    simp [decode_member_loop] at h
  | succ n ih =>
    intro d rd rd2 lzf rdf hT h h0
    have hA := loop_zero_avail c (n + 1) d rd lzf rdf h
    rw [decode_member_loop_succ] at h ⊢
    have ha := avail_finished rd
    have hm : avail (decode_iter c d rd.finished.2).2 ≤ avail rd.finished.2 :=
      (sim_decode_iter c d rd.finished.2).1
    obtain ⟨ef, hT1⟩ := (sim_finished rd).2 rd2 hT (by rw [ha]; omega)
    simp only [] at ef hT1
    cases hf : rd.finished.1 with
    | true =>
      rw [hf] at h
      simp at h
    | false =>
      rw [hf] at h
      rw [ef, hf]
      simp only [Bool.false_eq_true, if_false] at h ⊢
      cases hit : (decode_iter c d rd.finished.2).1 with
      | again d1 =>
        rw [hit] at h
        have hA1 := loop_zero_avail c n _ _ _ _ h
        obtain ⟨e1, hT2⟩ := decode_iter_trunc c d rd.finished.2 rd2.finished.2 hT1 (by omega)
        rw [e1, hit]
        exact ih _ _ _ _ _ hT2 h h0
      | marker len lz =>
        rw [hit] at h
        simp only [Option.some.injEq] at h
        obtain ⟨h1, h2, h3, h4⟩ := decode_return_zero _ _ _ _ _ h
        have h5 := check_trailer_true _ _ h2
        have h6 := (read_data_length (decode_iter c d rd.finished.2).2 Lzip_trailer.size).2.1
        rw [h5, ← h4] at h6
        have h7 : 2 ≤ avail (decode_iter c d rd.finished.2).2 := by
          unfold Lzip_trailer.size at h6
          omega
        obtain ⟨e1, hT2⟩ := decode_iter_trunc c d rd.finished.2 rd2.finished.2 hT1 h7
        have h8 := (read_data_length (decode_iter c d rd.finished.2).2 Lzip_trailer.size).2.2
          hT2.buf
        rw [h5, ← h4, h0] at h8
        have h9 := avail_trunc _ _ hT2
        have h10 := (read_data_length (decode_iter c d rd2.finished.2).2 Lzip_trailer.size).2.1
        have h11 : ((decode_iter c d rd2.finished.2).2.read_data Lzip_trailer.size).1.length <
            Lzip_trailer.size := by
          omega
        rw [e1, hit]
        simp only [decode_return, seq2, if_pos h1, check_trailer_short _ _ h11,
          Bool.false_eq_true, if_false, h3]
        exact ⟨_, rfl⟩
      | error lz =>
        rw [hit] at h
        simp at h

theorem trunc_new (M mem : List Nat) (h : M ≠ []) :
    Trunc (Range_decoder.new M mem) (Range_decoder.new M.dropLast mem) :=
  ⟨rfl, rfl, rfl, rfl, Nat.zero_le _, Nat.zero_le _, Or.inl ⟨h, rfl, rfl, rfl, rfl, rfl⟩⟩

end Lzip

namespace Lzip
open Range_decoder LZ_decoder

theorem some_getD {α : Type} (o : Option α) (d : α) (h : o.isSome = true) :
    o = some (o.getD d) := by
  cases o with
  | none => simp at h
  | some x => rfl

theorem after_header_trunc (M mem : List Nat) (h : 2 ≤ avail (after_header M mem)) :
    avail (after_header M mem) ≤ M.length ∧
      Trunc (after_header M mem) (after_header M.dropLast mem) := by
  have hs := sim_read_data Lzip_header.size (Range_decoder.new M mem)
  have hm : avail (after_header M mem) ≤ M.length := by
    have h1 : avail ((Range_decoder.new M mem).read_data Lzip_header.size).2 ≤
        avail (Range_decoder.new M mem) := hs.1
    have h2 : avail (Range_decoder.new M mem) = M.length := by
      simp [avail, Range_decoder.new]
    rw [h2] at h1
    exact h1
  have hne : M ≠ [] := by
    intro e
    rw [e] at hm h
    simp only [List.length_nil] at hm
    omega
  exact ⟨hm, (hs.2 _ (trunc_new M mem hne) h).2⟩

theorem load_trunc (rd rd2 : Range_decoder) (ignore_nonzero : Bool) (hT : Trunc rd rd2)
    (h : 2 ≤ avail (rd.load ignore_nonzero).2) :
    avail (rd.load ignore_nonzero).2 ≤ avail rd ∧
      (rd2.load ignore_nonzero).1 = (rd.load ignore_nonzero).1 ∧
      Trunc (rd.load ignore_nonzero).2 (rd2.load ignore_nonzero).2 :=
  ⟨(sim_load ignore_nonzero rd).1, (sim_load ignore_nonzero rd).2 rd2 hT h⟩

/-- C20, amended: when `decode_member` returns 0 on the member `M` (read from
the file `M` after its header) and leaves no input, then on `M` without its
last byte it decodes the same data and returns 3, the trailer error, not 2:
the decoding reaches the End Of Stream marker as before and `check_trailer`
finds the trailer one byte short. -/
theorem truncated_member_trailer_error (c : Lzma_decls) (fuel : Nat) (lz : LZ_decoder)
    (M mem : List Nat) (ignore_nonzero : Bool) (lzf : LZ_decoder) (rdf : Range_decoder)
    (h : decode_member c fuel lz (after_header M mem) ignore_nonzero = some (0, lzf, rdf))
    (hinfd : rdf.infd = []) (hpos : rdf.stream_pos ≤ rdf.pos) :
    ∃ rd2, decode_member c fuel lz (after_header M.dropLast mem) ignore_nonzero =
      some (3, lzf, rd2) := by
  have h0 : avail rdf = 0 := by
    unfold avail
    rw [hinfd]
    simp only [List.length_nil, Nat.add_zero]
    omega
  unfold decode_member seq2 at h ⊢
  cases hok : ((after_header M mem).load ignore_nonzero).1 with
  | false =>
    rw [hok] at h
    simp at h
  | true =>
    rw [hok] at h
    simp only [Bool.true_eq_false, if_false] at h
    have hA := loop_zero_avail c fuel _ _ _ _ h
    have hl := (sim_load ignore_nonzero (after_header M mem)).1
    have hl2 : avail ((after_header M mem).load ignore_nonzero).2 ≤ avail (after_header M mem) := hl
    obtain ⟨_, hT⟩ := after_header_trunc M mem (by omega)
    obtain ⟨_, e, hT2⟩ := load_trunc _ _ ignore_nonzero hT (by omega)
    rw [e, hok]
    simp only [Bool.true_eq_false, if_false]
    exact loop_truncated c fuel _ _ _ _ _ hT2 h h0

set_option maxRecDepth 20000 in
/-- Counterexample to C20 as stated: `decode_member` returns 0 on
`empty_member`, and on `empty_member` without its last byte it returns 3, not
2. -/
theorem truncated_member_counterexample :
    (decode_member sample_decls 1 small_decoder (after_header empty_member []) false).map
        (fun r => r.1) = some 0 ∧
      (decode_member sample_decls 1 small_decoder (after_header empty_member.dropLast [])
        false).map (fun r => r.1) = some 3 ∧
      ¬ (decode_member sample_decls 1 small_decoder (after_header empty_member.dropLast [])
        false).map (fun r => r.1) = some 2 := by
  decide

set_option maxRecDepth 20000 in
/-- Witness of C20 amended, on `empty_member`. -/
theorem truncated_member_trailer_error_witness :
    ∃ rd2, decode_member sample_decls 1 small_decoder
      (after_header empty_member.dropLast []) false =
        some (3, (empty_member_run.getD (1, small_decoder, Range_decoder.new [] [])).2.1, rd2) := by
  have hs : empty_member_run.isSome = true := by decide
  have h1 : (empty_member_run.getD (1, small_decoder, Range_decoder.new [] [])).1 = 0 := by
    decide
  have h2 : (empty_member_run.getD (1, small_decoder, Range_decoder.new [] [])).2.2.infd = [] := by
    decide
  have h3 : (empty_member_run.getD (1, small_decoder, Range_decoder.new [] [])).2.2.stream_pos ≤
      (empty_member_run.getD (1, small_decoder, Range_decoder.new [] [])).2.2.pos := by
    decide
  have h : decode_member sample_decls 1 small_decoder (after_header empty_member []) false =
      some (0, (empty_member_run.getD (1, small_decoder, Range_decoder.new [] [])).2.1,
        (empty_member_run.getD (1, small_decoder, Range_decoder.new [] [])).2.2) := by
    exact (some_getD _ (1, small_decoder, Range_decoder.new [] []) hs).trans
      (congrArg some (Prod.ext h1 rfl))
  exact truncated_member_trailer_error sample_decls 1 small_decoder empty_member [] false
    _ _ h h2 h3

end Lzip

namespace Lzip
open Range_decoder

theorem normalize_range_cases (rd : Range_decoder) :
    (rd.range ≤ 0x00FFFFFF ∧ rd.normalize.range = (rd.range <<< 8) % 2 ^ 32 ∧
      rd.normalize.code = ((rd.code <<< 8) % 2 ^ 32) ||| rd.get_byte.1) ∨
    (0x00FFFFFF < rd.range ∧ rd.normalize = rd) := by
  unfold Range_decoder.normalize
  by_cases h : rd.range ≤ 0x00FFFFFF
  · rw [if_pos h]; exact Or.inl ⟨h, rfl, rfl⟩
  · rw [if_neg h]; exact Or.inr ⟨by omega, rfl⟩

theorem normalize_range_lt (rd : Range_decoder) (h : rd.range < 2 ^ 32) :
    rd.normalize.range < 2 ^ 32 := by
  rcases normalize_range_cases rd with ⟨_, e, _⟩ | ⟨_, e⟩
  · rw [e]; exact Nat.mod_lt _ (by decide)
  · rw [e]; exact h

theorem normalize_restores (rd : Range_decoder) (h16 : 2 ^ 16 ≤ rd.range) :
    0x00FFFFFF < rd.normalize.range := by
  rcases normalize_range_cases rd with ⟨h, e, _⟩ | ⟨h, e⟩
  · rw [e, Nat.shiftLeft_eq, Nat.mod_eq_of_lt (by omega)]
    omega
  · rw [e]; exact h

theorem bound_eq_product (rd : Range_decoder) (bm : Bit_model) (hr : rd.range < 2 ^ 32)
    (hp1 : 31 ≤ bm.probability) (hp2 : bm.probability ≤ 2017) :
    (rd.range >>> bit_model_total_bits) * bm.probability.toNat < 2 ^ 32 ∧
    rd.bound bm = (rd.range >>> bit_model_total_bits) * bm.probability.toNat ∧
    31 * (rd.range >>> bit_model_total_bits) ≤ rd.bound bm ∧
    rd.bound bm + 31 * (rd.range >>> bit_model_total_bits) ≤ rd.range := by
  have e1 : bm.probability % 2 ^ 32 = bm.probability := by omega
  have hq : rd.range >>> bit_model_total_bits = rd.range / 2048 := by
    unfold bit_model_total_bits
    rw [Nat.shiftRight_eq_div_pow]
  obtain ⟨p, hp⟩ : ∃ p : Nat, bm.probability = (p : Int) := ⟨bm.probability.toNat, by omega⟩
  have hp31 : 31 ≤ p := by omega
  have hp2017 : p ≤ 2017 := by omega
  have hq2 : rd.range / 2048 < 2 ^ 21 := by omega
  have hlt : rd.range / 2048 * p < 2 ^ 32 := by
    calc rd.range / 2048 * p ≤ rd.range / 2048 * 2017 := Nat.mul_le_mul_left _ hp2017
      _ < 2 ^ 32 := by omega
  have hge : 31 * (rd.range / 2048) ≤ rd.range / 2048 * p := by
    rw [Nat.mul_comm 31]; exact Nat.mul_le_mul_left _ hp31
  have hle : rd.range / 2048 * p ≤ rd.range / 2048 * 2017 := Nat.mul_le_mul_left _ hp2017
  unfold Range_decoder.bound
  rw [e1, hq, hp, Int.toNat_ofNat, Nat.mod_eq_of_lt hlt]
  refine ⟨hlt, rfl, hge, ?_⟩
  omega

/-- C28: with a probability in `[31, 2017]` (the interval holds the initial
1024 and both update rules map it into itself) and a range of at least `2^24`
after `normalize`, the product `(range >> 11) * probability` of `decode_bit`
fits in 32 bits; after `decode_bit` and after one iteration of `decode` the
range is at least `2^16` and below `2^32`, so that the one shift by 8 bits of
the next `normalize` gives a range above `0x00FFFFFF`; and `decode_bit` keeps
`code < range`. -/
theorem renormalisation_invariant (rd : Range_decoder) (bm : Bit_model)
    (hp1 : 31 ≤ bm.probability) (hp2 : bm.probability ≤ 2017)
    (hr : rd.range < 2 ^ 32) (hn : 2 ^ 24 ≤ rd.normalize.range) :
    (31 ≤ Bit_model.new.probability ∧ Bit_model.new.probability ≤ 2017) ∧
    (31 ≤ (update0 bm).probability ∧ (update0 bm).probability ≤ 2017) ∧
    (31 ≤ (update1 bm).probability ∧ (update1 bm).probability ≤ 2017) ∧
    (31 ≤ (rd.decode_bit bm).2.1.probability ∧ (rd.decode_bit bm).2.1.probability ≤ 2017) ∧
    (rd.normalize.range >>> bit_model_total_bits) * bm.probability.toNat < 2 ^ 32 ∧
    rd.normalize.bound bm =
      (rd.normalize.range >>> bit_model_total_bits) * bm.probability.toNat ∧
    (2 ^ 16 ≤ (rd.decode_bit bm).2.2.range ∧ (rd.decode_bit bm).2.2.range < 2 ^ 32) ∧
    (2 ^ 16 ≤ rd.decode_direct.2.range ∧ rd.decode_direct.2.range < 2 ^ 32) ∧
    (0x00FFFFFF < (rd.decode_bit bm).2.2.normalize.range ∧
      (rd.decode_bit bm).2.2.normalize.range < 2 ^ 32) ∧
    (0x00FFFFFF < rd.decode_direct.2.normalize.range ∧
      rd.decode_direct.2.normalize.range < 2 ^ 32) ∧
    (rd.normalize.code < rd.normalize.range →
      (rd.decode_bit bm).2.2.code < (rd.decode_bit bm).2.2.range) := by
  have hn2 := normalize_range_lt rd hr
  obtain ⟨b1, b2, b3, b4⟩ := bound_eq_product rd.normalize bm hn2 hp1 hp2
  have hq : rd.normalize.range >>> bit_model_total_bits = rd.normalize.range / 2048 := by
    unfold bit_model_total_bits
    rw [Nat.shiftRight_eq_div_pow]
  have u0 : 31 ≤ (update0 bm).probability ∧ (update0 bm).probability ≤ 2017 := by
    simp only [Range_decoder.update0, asr5_eq, bit_model_total]
    omega
  have u1 : 31 ≤ (update1 bm).probability ∧ (update1 bm).probability ≤ 2017 := by
    simp only [Range_decoder.update1, asr5_eq]
    omega
  have hq13 : 2 ^ 13 ≤ rd.normalize.range / 2048 := by omega
  have hbit : (31 ≤ (rd.decode_bit bm).2.1.probability ∧
        (rd.decode_bit bm).2.1.probability ≤ 2017) ∧
      (2 ^ 16 ≤ (rd.decode_bit bm).2.2.range ∧ (rd.decode_bit bm).2.2.range < 2 ^ 32) ∧
      (rd.normalize.code < rd.normalize.range →
        (rd.decode_bit bm).2.2.code < (rd.decode_bit bm).2.2.range) := by
    unfold Range_decoder.decode_bit
    dsimp only
    by_cases hc : rd.normalize.code < rd.normalize.bound bm
    · rw [if_pos hc]
      refine ⟨u0, ⟨?_, ?_⟩, fun _ => hc⟩
      · show 2 ^ 16 ≤ rd.normalize.bound bm
        omega
      · show rd.normalize.bound bm < 2 ^ 32
        omega
    · rw [if_neg hc]
      have e : (rd.normalize.range + 2 ^ 32 - rd.normalize.bound bm) % 2 ^ 32 =
          rd.normalize.range - rd.normalize.bound bm := by omega
      refine ⟨u1, ⟨?_, ?_⟩, ?_⟩
      · show 2 ^ 16 ≤ (rd.normalize.range + 2 ^ 32 - rd.normalize.bound bm) % 2 ^ 32
        rw [e]; omega
      · show (rd.normalize.range + 2 ^ 32 - rd.normalize.bound bm) % 2 ^ 32 < 2 ^ 32
        rw [e]; omega
      · intro hcr
        show (rd.normalize.code + 2 ^ 32 - rd.normalize.bound bm) % 2 ^ 32 <
          (rd.normalize.range + 2 ^ 32 - rd.normalize.bound bm) % 2 ^ 32
        rw [e]
        omega
  have hdir : 2 ^ 16 ≤ rd.decode_direct.2.range ∧ rd.decode_direct.2.range < 2 ^ 32 := by
    have e : rd.decode_direct.2.range = rd.normalize.range >>> 1 := by
      unfold Range_decoder.decode_direct seq1
      dsimp only
      split <;> rfl
    rw [e, Nat.shiftRight_eq_div_pow]
    omega
  exact ⟨by decide, u0, u1, hbit.1, b1, b2, hbit.2.1, hdir,
    ⟨normalize_restores _ hbit.2.1.1, normalize_range_lt _ hbit.2.1.2⟩,
    ⟨normalize_restores _ hdir.1, normalize_range_lt _ hdir.2⟩, hbit.2.2⟩

theorem renormalisation_invariant_witness :
    (31 ≤ Bit_model.new.probability ∧ Bit_model.new.probability ≤ 2017) ∧
    (2 ^ 16 ≤ ((Range_decoder.new [] []).decode_bit Bit_model.new).2.2.range ∧
      ((Range_decoder.new [] []).decode_bit Bit_model.new).2.2.range < 2 ^ 32) :=
  ⟨(renormalisation_invariant (Range_decoder.new [] []) Bit_model.new (by decide) (by decide)
      (by decide) (by decide)).1,
    (renormalisation_invariant (Range_decoder.new [] []) Bit_model.new (by decide) (by decide)
      (by decide) (by decide)).2.2.2.2.2.2.1⟩
end Lzip

namespace Lzip
open Range_decoder

end Lzip

namespace Lzip
open Range_decoder

theorem shl1_or_bounds (m k : Nat) (h1 : 2 ^ k ≤ m) (h2 : m < 2 ^ (k + 1)) (hk : k + 1 < 32) :
    (2 ^ (k + 1) ≤ (m <<< 1) % 2 ^ 32 ∧ (m <<< 1) % 2 ^ 32 < 2 ^ (k + 2)) ∧
    (2 ^ (k + 1) ≤ ((m <<< 1) % 2 ^ 32) ||| 1 ∧ ((m <<< 1) % 2 ^ 32) ||| 1 < 2 ^ (k + 2)) := by
  have hp : (2 : Nat) ^ (k + 2) ≤ 2 ^ 32 := Nat.pow_le_pow_right (by decide) (by omega)
  have e1 : (2 : Nat) ^ (k + 1) = 2 * 2 ^ k := by rw [Nat.pow_succ]; omega
  have e2 : (2 : Nat) ^ (k + 2) = 4 * 2 ^ k := by rw [Nat.pow_succ, Nat.pow_succ]; omega
  have e : (m <<< 1) % 2 ^ 32 = 2 * m := by
    rw [Nat.shiftLeft_eq, Nat.mod_eq_of_lt (by omega)]
    omega
  have e3 : 2 * m ||| 1 = 2 * m + 1 := by
    have := @Nat.mul_add_lt_is_or 1 1 (by decide) m
    rw [Nat.pow_one] at this
    exact this.symm
  rw [e, e3]
  exact ⟨⟨by omega, by omega⟩, by omega, by omega⟩

theorem reversed_at_model_bounds (rd : Range_decoder) (bm : List Bit_model)
    (base model symbol i : Nat) (h1 : 2 ^ i ≤ model) (h2 : model < 2 ^ (i + 1)) (hi : i + 1 < 32) :
    2 ^ (i + 1) ≤ (rd.decode_symbol_bit_reversed_at bm base model symbol i).2.1 ∧
    (rd.decode_symbol_bit_reversed_at bm base model symbol i).2.1 < 2 ^ (i + 1 + 1) := by
  have h := shl1_or_bounds model i h1 h2 hi
  unfold decode_symbol_bit_reversed_at
  simp only [seq1]
  split
  · exact h.1
  · exact h.2

theorem reversed_indexes_bounds (base : Nat) (n : Nat) :
    ∀ (i : Nat) (bm : List Bit_model) (model symbol : Nat) (rd : Range_decoder),
      2 ^ i ≤ model → model < 2 ^ (i + 1) → i + n < 32 →
      ∀ j ∈ decode_tree_reversed_indexes base n i bm model symbol rd,
        base + 1 ≤ j ∧ j < base + 2 ^ (i + n) := by
  induction n with
  | zero =>
    intro i bm model symbol rd _ _ _ j hj
    simp [decode_tree_reversed_indexes] at hj
  | succ n ih =>
    intro i bm model symbol rd h1 h2 hi j hj
    rw [decode_tree_reversed_indexes] at hj
    rcases List.mem_cons.1 hj with e | hj
    · have hp : (2 : Nat) ^ (i + 1) ≤ 2 ^ (i + (n + 1)) :=
        Nat.pow_le_pow_right (by decide) (by omega)
      have := Nat.two_pow_pos i
      omega
    · have hb := reversed_at_model_bounds rd bm base model symbol i h1 h2 (by omega)
      have := ih (i + 1) _ _ _ _ hb.1 hb.2 (by omega) j hj
      have e : i + 1 + n = i + (n + 1) := by omega
      rw [e] at this
      exact this

theorem symbol_bit_at_bounds (rd : Range_decoder) (bm : List Bit_model) (symbol k : Nat)
    (h1 : 2 ^ k ≤ symbol) (h2 : symbol < 2 ^ (k + 1)) (hk : k + 1 < 32) :
    2 ^ (k + 1) ≤ (rd.decode_symbol_bit_at bm symbol).2.1 ∧
    (rd.decode_symbol_bit_at bm symbol).2.1 < 2 ^ (k + 1 + 1) := by
  have h := shl1_or_bounds symbol k h1 h2 hk
  unfold decode_symbol_bit_at decode_symbol_bit
  dsimp only
  split
  · exact h.1
  · exact h.2

theorem symbol_bit_indexes_bounds (n : Nat) :
    ∀ (k : Nat) (bm : List Bit_model) (symbol : Nat) (rd : Range_decoder),
      2 ^ k ≤ symbol → symbol < 2 ^ (k + 1) → k + n < 32 →
      ∀ j ∈ symbol_bit_indexes n bm symbol rd, 1 ≤ j ∧ j < 2 ^ (k + n) := by
  induction n with
  | zero =>
    intro k bm symbol rd _ _ _ j hj
    simp [symbol_bit_indexes] at hj
  | succ n ih =>
    intro k bm symbol rd h1 h2 hk j hj
    rw [symbol_bit_indexes] at hj
    rcases List.mem_cons.1 hj with e | hj
    · have hp : (2 : Nat) ^ (k + 1) ≤ 2 ^ (k + (n + 1)) :=
        Nat.pow_le_pow_right (by decide) (by omega)
      have := Nat.two_pow_pos k
      omega
    · have hb := symbol_bit_at_bounds rd bm symbol k h1 h2 (by omega)
      have := ih (k + 1) _ _ _ hb.1 hb.2 (by omega) j hj
      have e : k + 1 + n = k + (n + 1) := by omega
      rw [e] at this
      exact this

theorem tree6_indexes_eq (rd : Range_decoder) (bm : List Bit_model) :
    rd.decode_tree6_indexes bm = symbol_bit_indexes 6 bm 1 rd := rfl

theorem tree6_indexes_bounds (rd : Range_decoder) (bm : List Bit_model) :
    ∀ j ∈ rd.decode_tree6_indexes bm, 1 ≤ j ∧ j ≤ 63 := by
  intro j hj
  rw [tree6_indexes_eq] at hj
  have := symbol_bit_indexes_bounds 6 0 bm 1 rd (by decide) (by decide) (by decide) j hj
  have e : (2 : Nat) ^ (0 + 6) = 64 := rfl
  rw [e] at this
  omega

theorem bmAt_set_ne (bm : List Bit_model) (a k : Nat) (v : Bit_model) (h : a ≠ k) :
    bmAt (bm.set a v) k = bmAt bm k := by
  unfold bmAt
  rw [List.getD_eq_getElem?_getD, List.getD_eq_getElem?_getD, List.getElem?_set_ne h]

theorem reversed_at_frame (rd : Range_decoder) (bm : List Bit_model)
    (base model symbol i k : Nat) (h : base + model ≠ k) :
    bmAt (rd.decode_symbol_bit_reversed_at bm base model symbol i).1 k = bmAt bm k ∧
    (rd.decode_symbol_bit_reversed_at bm base model symbol i).1.length = bm.length := by
  unfold decode_symbol_bit_reversed_at
  simp only [seq1]
  split
  · exact ⟨bmAt_set_ne _ _ _ _ h, List.length_set _ _ _⟩
  · exact ⟨bmAt_set_ne _ _ _ _ h, List.length_set _ _ _⟩

theorem reversed_loop_frame (base : Nat) (n : Nat) :
    ∀ (i : Nat) (bm : List Bit_model) (model symbol : Nat) (rd : Range_decoder) (k : Nat),
      k ∉ decode_tree_reversed_indexes base n i bm model symbol rd →
      bmAt (decode_tree_reversed_loop base n i bm model symbol rd).1 k = bmAt bm k ∧
      (decode_tree_reversed_loop base n i bm model symbol rd).1.length = bm.length := by
  induction n with
  | zero =>
    intro i bm model symbol rd k _
    rw [decode_tree_reversed_loop]
    exact ⟨rfl, rfl⟩
  | succ n ih =>
    intro i bm model symbol rd k hk
    rw [decode_tree_reversed_indexes] at hk
    rw [decode_tree_reversed_loop]
    have h1 : base + model ≠ k := fun e => hk (e ▸ List.mem_cons_self _ _)
    have h2 := fun h => hk (List.mem_cons_of_mem _ h)
    have f := reversed_at_frame rd bm base model symbol i k h1
    have g := ih (i + 1) _ _ _ _ k h2
    unfold seq4
    exact ⟨g.1.trans f.1, g.2.trans f.2⟩

set_option maxRecDepth 4000 in
/-- C30: for a slot `dis_slot` from `start_dis_model = 4` to `end_dis_model - 1
= 13`, whatever the input and the bit models, `rep0 - dis_slot` does not wrap
and every element that `decode_tree_reversed( bm_dis + ( rep0 - dis_slot ),
direct_bits )` is given has an index from 1 to 114, inside `bm_dis` of 115
elements (the elements at other indexes and the length are left as they were);
and the six elements that `decode_tree6` is given have indexes from 1 to 63,
inside a row of 64 elements of `bm_dis_slot`. -/
theorem modeled_distance_indexes (c : Lzma_decls) (rd : Range_decoder) (bm : List Bit_model)
    (dis_slot : Nat) (h4 : start_dis_model ≤ dis_slot) (h14 : dis_slot < end_dis_model) :
    dis_slot ≤ ((2 ||| (dis_slot &&& 1)) <<< ((dis_slot >>> 1) - 1)) % 2 ^ 32 ∧
    (∀ j ∈ decode_tree_reversed_indexes
        (((2 ||| (dis_slot &&& 1)) <<< ((dis_slot >>> 1) - 1)) % 2 ^ 32 - dis_slot)
        ((dis_slot >>> 1) - 1) 0 bm 1 0 rd, 1 ≤ j ∧ j ≤ 114) ∧
    (∀ k, k ∉ decode_tree_reversed_indexes
        (((2 ||| (dis_slot &&& 1)) <<< ((dis_slot >>> 1) - 1)) % 2 ^ 32 - dis_slot)
        ((dis_slot >>> 1) - 1) 0 bm 1 0 rd →
      bmAt (rd.decode_tree_reversed bm
        (((2 ||| (dis_slot &&& 1)) <<< ((dis_slot >>> 1) - 1)) % 2 ^ 32 - dis_slot)
        ((dis_slot >>> 1) - 1)).1 k = bmAt bm k) ∧
    (rd.decode_tree_reversed bm
        (((2 ||| (dis_slot &&& 1)) <<< ((dis_slot >>> 1) - 1)) % 2 ^ 32 - dis_slot)
        ((dis_slot >>> 1) - 1)).1.length = bm.length ∧
    (Models.new c).bm_dis.length = 115 ∧
    (∀ j ∈ rd.decode_tree6_indexes bm, 1 ≤ j ∧ j ≤ 63) ∧
    (∀ row ∈ (Models.new c).bm_dis_slot, row.length = 64) := by
  unfold start_dis_model at h4
  unfold end_dis_model at h14
  refine ⟨?_, ?_, ?_, ?_, ?_, tree6_indexes_bounds rd bm, ?_⟩
  · interval_cases dis_slot <;> decide
  · intro j hj
    have h := reversed_indexes_bounds _ ((dis_slot >>> 1) - 1) 0 bm 1 0 rd (by decide) (by decide)
      (by interval_cases dis_slot <;> decide) j hj
    revert h
    interval_cases dis_slot <;> simp <;> omega
  · intro k hk
    exact (reversed_loop_frame _ _ 0 bm 1 0 rd k hk).1
  · exact (reversed_loop_frame _ _ 0 bm 1 0 rd 0 (fun h => by
      have := reversed_indexes_bounds _ ((dis_slot >>> 1) - 1) 0 bm 1 0 rd (by decide) (by decide)
        (by interval_cases dis_slot <;> decide) 0 h
      omega)).2
  · simp [Models.new]
  · intro row hrow
    simp only [Models.new] at hrow
    rw [List.eq_of_mem_replicate hrow]
    simp

set_option maxRecDepth 4000 in
theorem modeled_distance_indexes_witness :
    start_dis_model ≤ 4 ∧ 4 < end_dis_model ∧
    decode_tree_reversed_indexes 0 1 0 [] 1 0 (Range_decoder.new [] []) = [1] ∧
    (1 ≤ 1 ∧ 1 ≤ 114) ∧
    4 ≤ ((2 ||| (4 &&& 1)) <<< ((4 >>> 1) - 1)) % 2 ^ 32 ∧
    (Models.new sample_decls).bm_dis.length = 115 :=
  ⟨by decide, by decide, by decide,
    (modeled_distance_indexes sample_decls (Range_decoder.new [] []) [] 4 (by decide)
      (by decide)).2.1 1 (by decide),
    (modeled_distance_indexes sample_decls (Range_decoder.new [] []) [] 4 (by decide)
      (by decide)).1,
    (modeled_distance_indexes sample_decls (Range_decoder.new [] []) [] 4 (by decide)
      (by decide)).2.2.2.2.1⟩

end Lzip

namespace Lzip
open Extended

theorem empty_metadata_fields (x : Extended) (he : x.empty_metadata = true) :
    x.path_ = [] ∧ x.linkpath_ = [] ∧ x.file_size_ = 0 ∧ x.uid_ = -1 ∧ x.gid_ = -1 ∧
      x.atime_.isvalid = false ∧ x.mtime_.isvalid = false := by
  unfold empty_metadata at he
  simp only [Bool.and_eq_true, decide_eq_true_eq, List.isEmpty_iff, Bool.not_eq_true',
    Bool.not_eq_eq_eq_not, Bool.not_true] at he
  obtain ⟨⟨⟨⟨⟨⟨h1, h2⟩, h3⟩, h4⟩, h5⟩, h6⟩, h7⟩ := he
  exact ⟨h1, h2, h3, h4, h5, h6, h7⟩

theorem calculate_sizes_empty (x : Extended) (he : x.empty_metadata = true) :
    x.calculate_sizes.full_size_ = 1024 ∧ x.calculate_sizes.edsize_ = 22 ∧
    x.calculate_sizes.padded_edsize_ = 512 ∧
    x.calculate_sizes.format_records = some [] := by
  obtain ⟨h1, h2, h3, h4, h5, h6, h7⟩ := empty_metadata_fields x he
  have e : x.calculate_sizes =
      { x with
        linkpath_recsize_ := 0, path_recsize_ := 0, file_size_recsize_ := 0, uid_recsize_ := 0,
        gid_recsize_ := 0, atime_recsize_ := 0, mtime_recsize_ := 0, edsize_ := 22,
        padded_edsize_ := 512, full_size_ := 1024 } := by
    unfold calculate_sizes
    simp [h1, h2, h3, h4, h5, h6, h7, Etime.out_of_ustar_range, max_edata_size, header_size,
      crc_record, round_up]
  rw [e]
  refine ⟨rfl, rfl, rfl, ?_⟩
  simp [format_records, print_record]

theorem format_block_empty (x : Extended) (he : x.empty_metadata = true)
    (h : x.full_size_ ≤ -4) :
    (x.format_block true).1 = 1024 ∧
    (x.format_block true).2.2 =
      poke (poke (poke init_tar_header typeflag_o [tf_extended]) size_o
          (print_octal (size_l - 1) 22)) chksum_o
        (print_octal (chksum_l - 1)
          (ustar_chksum (poke (poke init_tar_header typeflag_o [tf_extended]) size_o
            (print_octal (size_l - 1) 22)))) ++
      (poke crc_record 13 (print_hex 8 (crc32c.windowed_crc crc_record 13 22)) ++
        List.replicate 490 0) := by
  obtain ⟨c1, c2, c3, c4⟩ := calculate_sizes_empty x he
  unfold format_block
  rw [if_pos h]
  simp only [c1, c2, c3, c4]
  have e1 : ¬ ((1024 : Int) ≤ 0) := by decide
  have e2 : ¬ ((!true) = true) := by decide
  have e3 : ¬ (([] ++ crc_record).length ≠ 22) := by decide
  rw [if_neg e1, if_neg e2, if_neg e3]
  exact ⟨rfl, rfl⟩

theorem empty_block_length :
    (poke (poke (poke init_tar_header typeflag_o [tf_extended]) size_o
          (print_octal (size_l - 1) 22)) chksum_o
        (print_octal (chksum_l - 1)
          (ustar_chksum (poke (poke init_tar_header typeflag_o [tf_extended]) size_o
            (print_octal (size_l - 1) 22)))) ++
      (poke crc_record 13 (print_hex 8 (crc32c.windowed_crc crc_record 13 22)) ++
        List.replicate 490 0)).length = 1024 := by
  have h0 := init_tar_header_length
  have h1 : (poke init_tar_header typeflag_o [tf_extended]).length = 512 := by
    rw [poke_length _ _ _ (by rw [h0]; decide), h0]; rfl
  have h2 : (poke (poke init_tar_header typeflag_o [tf_extended]) size_o
      (print_octal (size_l - 1) 22)).length = 512 := by
    rw [poke_length _ _ _ (by rw [h1, print_octal_length]; decide), h1]
  have h3 : (poke crc_record 13 (print_hex 8 (crc32c.windowed_crc crc_record 13 22))).length
      = 22 := by
    rw [poke_length _ _ _ (by rw [print_hex_length]; decide)]; rfl
  rw [List.length_append, List.length_append, List.length_replicate, h3,
    poke_length _ _ _ (by rw [h2, print_octal_length]; decide), h2]

/-- C27: what the code does for an `Extended` object whose metadata are empty,
against the comment of `full_size()` and `format_block` (`Return the size of
the extended block, or 0 if empty`).  It gives 0 from `full_size()` and from
`format_block`, which writes nothing, only while the cached `full_size_` is 0,
as the constructor and `reset()` leave it; the setters invalidate the cache
whatever the value they are given, also an empty one, and once the cache has
been invalidated (`full_size_ <= -4`, as every setter and `parse` leave it)
`calculate_sizes` counts the CRC record alone: `full_size()` gives 1024 and
`format_block` writes a block of 1024 bytes, the extended header followed by
the CRC record and 490 bytes of padding, for an object with no metadata. -/
theorem empty_extended_full_size (x : Extended) (mem_ok : Bool)
    (he : x.empty_metadata = true) :
    (x.full_size_ = 0 → x.full_size = (0, x) ∧ x.format_block mem_ok = (0, x, [])) ∧
    (x.reset.full_size_ = 0 ∧ x.reset.empty_metadata = true) ∧
    (∀ (v : List Nat) (n : Int),
      (x.linkpath v).full_size_ = -4 ∧ (x.path v).full_size_ = -4 ∧
      (x.file_size n).full_size_ = -4 ∧ (x.set_atime n).full_size_ = -4 ∧
      (x.set_mtime n).full_size_ = -4 ∧
      (0 ≤ n → (x.set_uid n).2.full_size_ = -4 ∧ (x.set_gid n).2.full_size_ = -4) ∧
      (x.linkpath []).empty_metadata = true ∧ (x.path []).empty_metadata = true ∧
      (x.file_size 0).empty_metadata = true) ∧
    (x.full_size_ ≤ -4 →
      x.full_size.1 = 1024 ∧ (x.format_block true).1 = 1024 ∧
      (x.format_block true).2.2.length = 1024 ∧
      (x.format_block true).2.2.drop 512 =
        poke crc_record 13 (print_hex 8 (crc32c.windowed_crc crc_record 13 22)) ++
          List.replicate 490 0) := by
  obtain ⟨m1, m2, m3, m4, m5, m6, m7⟩ := empty_metadata_fields x he
  have hr : x.reset.empty_metadata = true := by
    show Extended.init.empty_metadata = true
    decide
  refine ⟨?_, ⟨rfl, hr⟩, ?_, ?_⟩
  · intro h
    constructor
    · have hn : ¬ x.full_size_ ≤ -4 := by omega
      unfold full_size
      simp only [if_neg hn]
      exact Prod.ext h rfl
    · have hn : ¬ x.full_size_ ≤ -4 := by omega
      have hp : x.full_size_ ≤ 0 := by omega
      unfold format_block
      simp only [if_neg hn, if_pos hp]
      exact Prod.ext h rfl
  · intro v n
    refine ⟨rfl, rfl, rfl, rfl, rfl, ?_, ?_, ?_, ?_⟩
    · intro hn
      unfold set_uid set_gid
      simp only [if_pos hn]
      trivial
    · simp [empty_metadata, linkpath, m1, m3, m4, m5, m6, m7]
    · simp [empty_metadata, path, m2, m3, m4, m5, m6, m7]
    · simp [empty_metadata, file_size, m1, m2, m4, m5, m6, m7]
  · intro h
    obtain ⟨f1, f2⟩ := format_block_empty x he h
    refine ⟨?_, f1, ?_, ?_⟩
    · unfold full_size
      rw [if_pos h]
      exact (calculate_sizes_empty x he).1
    · rw [f2]
      exact empty_block_length
    · rw [f2]
      apply List.drop_left'
      have h0 := init_tar_header_length
      have h1 : (poke init_tar_header typeflag_o [tf_extended]).length = 512 := by
        rw [poke_length _ _ _ (by rw [h0]; decide), h0]; rfl
      have h2 : (poke (poke init_tar_header typeflag_o [tf_extended]) size_o
          (print_octal (size_l - 1) 22)).length = 512 := by
        rw [poke_length _ _ _ (by rw [h1, print_octal_length]; decide), h1]
      rw [poke_length _ _ _ (by rw [h2, print_octal_length]; decide), h2]

theorem empty_extended_full_size_witness :
    (Extended.init.file_size 0).empty_metadata = true ∧
    (Extended.init.file_size 0).full_size_ ≤ -4 ∧
    ((Extended.init.file_size 0).full_size.1 = 1024 ∧
      ((Extended.init.file_size 0).format_block true).1 = 1024 ∧
      ((Extended.init.file_size 0).format_block true).2.2.length = 1024 ∧
      ((Extended.init.file_size 0).format_block true).2.2.drop 512 =
        poke crc_record 13 (print_hex 8 (crc32c.windowed_crc crc_record 13 22)) ++
          List.replicate 490 0) :=
  ⟨by decide, by decide,
    (empty_extended_full_size (Extended.init.file_size 0) true (by decide)).2.2.2 (by decide)⟩

/-- After `file_size( 0 )` on a fresh object (the call that
`get_file_size_and_reset` makes), and after `parse` of an empty block, the
metadata are empty, yet `full_size()` gives 1024 and `format_block` gives 1024
with a block of 1024 bytes written. -/
theorem empty_extended_after_setter :
    (Extended.init.file_size 0).empty_metadata = true ∧
    (Extended.init.file_size 0).full_size.1 = 1024 ∧
    ((Extended.init.file_size 0).format_block true).1 = 1024 ∧
    ((Extended.init.file_size 0).format_block true).2.2.length = 1024 ∧
    (Extended.init.parse [] 0 false).1 = true ∧
    (Extended.init.parse [] 0 false).2.empty_metadata = true ∧
    (Extended.init.parse [] 0 false).2.full_size.1 = 1024 := by
  have f := format_block_empty (Extended.init.file_size 0) (by decide) (by decide)
  refine ⟨by decide, by decide, f.1, ?_, by decide, by decide, by decide⟩
  rw [f.2]
  exact empty_block_length

end Lzip

namespace Lzip
open Name_monitor

theorem reserved_loop_iff (m : Name_monitor) (worker_id crc : Nat) (filename : List Nat)
    (n : Nat) : ∀ i, m.reserved_loop worker_id crc filename n i = true ↔
      ∃ j, i ≤ j ∧ j < i + n ∧ m.crc_vector.getD j 0 = crc ∧ crc ≠ 0 ∧ j ≠ worker_id ∧
        m.name_vector.getD j [] = filename := by
  induction n with
  | zero =>
    intro i
    rw [reserved_loop]
    constructor
    · intro h; exact absurd h (by decide)
    · rintro ⟨j, h1, h2, _⟩; omega
  | succ n ih =>
    intro i
    rw [reserved_loop]
    by_cases hc : m.crc_vector.getD i 0 = crc ∧ crc ≠ 0 ∧ i ≠ worker_id ∧
        m.name_vector.getD i [] = filename
    · rw [if_pos hc]
      exact ⟨fun _ => ⟨i, Nat.le_refl _, by omega, hc⟩, fun _ => rfl⟩
    · rw [if_neg hc, ih]
      constructor
      · rintro ⟨j, h1, h2, h3⟩
        exact ⟨j, by omega, by omega, h3⟩
      · rintro ⟨j, h1, h2, h3⟩
        by_cases e : j = i
        · subst e; exact absurd h3 hc
        · exact ⟨j, by omega, by omega, h3⟩

theorem reserve_name_false_iff (m : Name_monitor) (w : Nat) (f : List Nat)
    (hc : m.consistent) :
    (m.reserve_name w f).1 = false ↔ (m.held_by_other w f ∧ crc32c.compute_crc f ≠ 0) := by
  have hl := reserved_loop_iff m w (crc32c.compute_crc f) f m.crc_vector.length 0
  unfold reserve_name
  dsimp only
  by_cases hr : m.reserved_loop w (crc32c.compute_crc f) f m.crc_vector.length 0 = true
  · rw [if_pos hr]
    obtain ⟨j, _, h2, _, h4, h5, h6⟩ := hl.1 hr
    exact ⟨fun _ => ⟨⟨j, by rw [hc.1]; omega, h5, h6⟩, h4⟩, fun _ => rfl⟩
  · rw [if_neg hr]
    constructor
    · intro h; exact Bool.noConfusion h
    · rintro ⟨⟨j, h1, h2, h3⟩, h4⟩
      exfalso
      apply hr
      rw [hl]
      rw [hc.1] at h1
      exact ⟨j, Nat.zero_le _, by omega, by rw [hc.2 j h1, h3], h4, h2, h3⟩

theorem getD_set_eq_nat (l : List Nat) (w i : Nat) (v : Nat) (hw : w < l.length) :
    (l.set w v).getD i 0 = if i = w then v else l.getD i 0 := by
  rw [List.getD_eq_getElem?_getD, List.getD_eq_getElem?_getD, List.getElem?_set]
  by_cases e : w = i
  · subst e
    rw [if_pos rfl, if_pos rfl]
    simp [hw]
  · rw [if_neg e, if_neg (fun h => e h.symm)]

theorem getD_set_eq_name (l : List (List Nat)) (w i : Nat) (v : List Nat) (hw : w < l.length) :
    (l.set w v).getD i [] = if i = w then v else l.getD i [] := by
  rw [List.getD_eq_getElem?_getD, List.getD_eq_getElem?_getD, List.getElem?_set]
  by_cases e : w = i
  · subst e
    rw [if_pos rfl, if_pos rfl]
    simp [hw]
  · rw [if_neg e, if_neg (fun h => e h.symm)]

theorem reserve_name_true (m : Name_monitor) (w : Nat) (f : List Nat)
    (hc : m.consistent) (hw : w < m.crc_vector.length)
    (h : (m.reserve_name w f).1 = true) :
    (m.reserve_name w f).2.name_vector.getD w [] = f ∧
    (m.reserve_name w f).2.crc_vector.getD w 0 = crc32c.compute_crc f ∧
    (∀ i, i ≠ w → (m.reserve_name w f).2.name_vector.getD i [] = m.name_vector.getD i [] ∧
      (m.reserve_name w f).2.crc_vector.getD i 0 = m.crc_vector.getD i 0) ∧
    (m.reserve_name w f).2.name_vector.length = m.name_vector.length ∧
    (m.reserve_name w f).2.crc_vector.length = m.crc_vector.length ∧
    (m.reserve_name w f).2.consistent := by
  have hw2 : w < m.name_vector.length := by rw [hc.1]; exact hw
  unfold reserve_name at h ⊢
  dsimp only at h ⊢
  by_cases hr : m.reserved_loop w (crc32c.compute_crc f) f m.crc_vector.length 0 = true
  · rw [if_pos hr] at h
    exact Bool.noConfusion h
  · rw [if_neg hr]
    dsimp only
    refine ⟨?_, ?_, ?_, List.length_set _ _ _, List.length_set _ _ _, ?_, ?_⟩
    · rw [getD_set_eq_name _ _ _ _ hw2, if_pos rfl]
    · rw [getD_set_eq_nat _ _ _ _ hw, if_pos rfl]
    · intro i hi
      rw [getD_set_eq_name _ _ _ _ hw2, getD_set_eq_nat _ _ _ _ hw, if_neg hi, if_neg hi]
      exact ⟨rfl, rfl⟩
    · show (m.name_vector.set w f).length = (m.crc_vector.set w (crc32c.compute_crc f)).length
      rw [List.length_set, List.length_set]
      exact hc.1
    · intro i hi
      show (m.crc_vector.set w (crc32c.compute_crc f)).getD i 0 =
        crc32c.compute_crc ((m.name_vector.set w f).getD i [])
      have hi2 : i < m.crc_vector.length := by
        have : (m.crc_vector.set w (crc32c.compute_crc f)).length = m.crc_vector.length :=
          List.length_set _ _ _
        rw [← this]
        exact hi
      rw [getD_set_eq_name _ _ _ _ hw2, getD_set_eq_nat _ _ _ _ hw]
      by_cases e : i = w
      · rw [if_pos e, if_pos e]
      · rw [if_neg e, if_neg e]
        exact hc.2 i hi2

theorem new_consistent (n : Nat) : (Name_monitor.new n).consistent := by
  constructor
  · simp [Name_monitor.new]
  · intro i hi
    have h0 : crc32c.compute_crc [] = 0 := by decide
    simp only [Name_monitor.new, List.length_replicate] at hi
    simp only [Name_monitor.new, List.getD_eq_getElem?_getD, List.getElem?_replicate, if_pos hi,
      Option.getD_some, h0]

/-- C22: what `reserve_name` does on a monitor that meets the invariant of the
class (it holds after the constructor and is kept by `reserve_name`), for a
worker `w` of the monitor: it returns false, leaving the monitor as it was,
exactly when some other worker holds the name `f` and the CRC32-C of `f` is not
zero; otherwise it returns true, records `f` (and its CRC) in the slot of `w`
and leaves the other slots and the number of slots as they were.  A name with a
CRC of zero held by another worker is therefore reserved again. -/
theorem reserve_name_contract (m : Name_monitor) (w : Nat) (f : List Nat)
    (hc : m.consistent) (hw : w < m.crc_vector.length) :
    (Name_monitor.new m.crc_vector.length).consistent ∧
    ((m.held_by_other w f ∧ crc32c.compute_crc f ≠ 0) → m.reserve_name w f = (false, m)) ∧
    (¬ (m.held_by_other w f ∧ crc32c.compute_crc f ≠ 0) →
      (m.reserve_name w f).1 = true ∧
      (m.reserve_name w f).2.name_vector.getD w [] = f ∧
      (m.reserve_name w f).2.crc_vector.getD w 0 = crc32c.compute_crc f ∧
      (∀ i, i ≠ w → (m.reserve_name w f).2.name_vector.getD i [] = m.name_vector.getD i [] ∧
        (m.reserve_name w f).2.crc_vector.getD i 0 = m.crc_vector.getD i 0) ∧
      (m.reserve_name w f).2.name_vector.length = m.name_vector.length ∧
      (m.reserve_name w f).2.crc_vector.length = m.crc_vector.length ∧
      (m.reserve_name w f).2.consistent) := by
  have hiff := reserve_name_false_iff m w f hc
  refine ⟨new_consistent _, ?_, ?_⟩
  · intro h
    have h1 := hiff.2 h
    apply Prod.ext h1
    unfold reserve_name at h1 ⊢
    dsimp only at h1 ⊢
    by_cases hr : m.reserved_loop w (crc32c.compute_crc f) f m.crc_vector.length 0 = true
    · rw [if_pos hr]
    · rw [if_neg hr] at h1
      exact Bool.noConfusion h1
  · intro h
    have h1 : (m.reserve_name w f).1 = true := by
      cases hb : (m.reserve_name w f).1
      · exact absurd (hiff.1 hb) h
      · rfl
    exact ⟨h1, reserve_name_true m w f hc hw h1⟩

set_option maxRecDepth 20000 in
theorem reserve_name_contract_witness :
    ((Name_monitor.new 2).reserve_name 0 crc_zero_name).2.held_by_other 1 crc_zero_name ∧
    crc32c.compute_crc crc_zero_name = 0 ∧
    ((Name_monitor.new 2).reserve_name 0 crc_zero_name).1 = true ∧
    (((Name_monitor.new 2).reserve_name 0 crc_zero_name).2.reserve_name 1
      crc_zero_name).2.name_vector = [crc_zero_name, crc_zero_name] ∧
    (((Name_monitor.new 2).reserve_name 0 crc_zero_name).2.reserve_name 1 crc_zero_name).1
      = true :=
  ⟨⟨0, by decide, by decide, by decide⟩, by decide, by decide, by decide,
    ((reserve_name_contract ((Name_monitor.new 2).reserve_name 0 crc_zero_name).2 1 crc_zero_name
      (reserve_name_true (Name_monitor.new 2) 0 crc_zero_name (new_consistent 2) (by decide)
        (by decide)).2.2.2.2.2 (by decide)).2.2 (fun h => h.2 (by decide))).1⟩

end Lzip

namespace Lzip

theorem getD_zero_iff (f : List Nat) (h0 : 0 ∉ f) (i : Nat) :
    f.getD i 0 = 0 ↔ f.length ≤ i := by
  constructor
  · intro h
    by_contra hlt
    have hi : i < f.length := by omega
    rw [List.getD_eq_getElem _ _ hi] at h
    exact h0 (h ▸ List.getElem_mem hi)
  · intro h
    exact List.getD_eq_default _ _ h

theorem dotdot_at_i_facts (f : List Nat) (i : Nat) (h : dotdot_at_i f i = true) :
    f.getD i 0 = 0x2E ∧ f.getD (i + 1) 0 = 0x2E ∧ (i = 0 ∨ f.getD (i - 1) 0 = 0x2F) ∧
      (f.getD (i + 2) 0 = 0 ∨ f.getD (i + 2) 0 = 0x2F) := by
  unfold dotdot_at_i at h
  simp only [Bool.and_eq_true, Bool.or_eq_true, decide_eq_true_eq] at h
  exact ⟨h.1.1.1, h.1.1.2, h.1.2, h.2⟩

theorem dotdot_at_i_lt (f : List Nat) (h0 : 0 ∉ f) (i : Nat) (h : dotdot_at_i f i = true) :
    i + 2 ≤ f.length := by
  have h1 := (dotdot_at_i_facts f i h).2.1
  by_contra hc
  have : f.getD (i + 1) 0 = 0 := (getD_zero_iff f h0 (i + 1)).2 (by omega)
  omega

theorem dotdot_loop_spec (f : List Nat) (h0 : 0 ∉ f) (fuel : Nat) :
    ∀ i p, f.length ≤ i + fuel → p ≤ f.length →
      (∀ j, j < i → dotdot_at_i f j = true → j + 2 ≤ p) →
      (p = 0 ∨ (2 ≤ p ∧ dotdot_at_i f (p - 2) = true)) →
      dotdot_loop f fuel i p ≤ f.length ∧
      (∀ j, dotdot_at_i f j = true → j + 2 ≤ dotdot_loop f fuel i p) ∧
      (dotdot_loop f fuel i p = 0 ∨
        (2 ≤ dotdot_loop f fuel i p ∧ dotdot_at_i f (dotdot_loop f fuel i p - 2) = true)) := by
  induction fuel with
  | zero =>
    intro i p hi hp hinv hp2
    rw [dotdot_loop]
    refine ⟨hp, ?_, hp2⟩
    intro j hj
    have := dotdot_at_i_lt f h0 j hj
    exact hinv j (by omega) hj
  | succ fuel ih =>
    intro i p hi hp hinv hp2
    rw [dotdot_loop]
    by_cases hz : f.getD i 0 = 0
    · rw [if_pos hz]
      refine ⟨hp, ?_, hp2⟩
      intro j hj
      have := dotdot_at_i_lt f h0 j hj
      have := (getD_zero_iff f h0 i).1 hz
      exact hinv j (by omega) hj
    · rw [if_neg hz]
      by_cases hd : dotdot_at_i f i = true
      · rw [if_pos hd]
        have hlt := dotdot_at_i_lt f h0 i hd
        apply ih (i + 1) (i + 2) (by omega) hlt
        · intro j hj hdj
          omega
        · exact Or.inr ⟨by omega, by simpa using hd⟩
      · rw [if_neg hd]
        apply ih (i + 1) p (by omega) hp
        · intro j hj hdj
          by_cases e : j = i
          · subst e; exact absurd hdj hd
          · exact hinv j (by omega) hdj
        · exact hp2

theorem dotslash_loop_spec (f : List Nat) (h0 : 0 ∉ f) (fuel : Nat) :
    ∀ q, f.length ≤ q + fuel → q ≤ f.length →
      q ≤ dotslash_loop f fuel q ∧ dotslash_loop f fuel q ≤ f.length ∧
      f.getD (dotslash_loop f fuel q) 0 ≠ 0x2F ∧
      ¬ (f.getD (dotslash_loop f fuel q) 0 = 0x2E ∧
        f.getD (dotslash_loop f fuel q + 1) 0 = 0x2F) ∧
      (q < dotslash_loop f fuel q → f.getD (dotslash_loop f fuel q - 1) 0 = 0x2F) := by
  induction fuel with
  | zero =>
    intro q hq hq2
    rw [dotslash_loop]
    have hz : f.getD q 0 = 0 := (getD_zero_iff f h0 q).2 (by omega)
    refine ⟨Nat.le_refl _, hq2, by omega, fun h => by omega, fun h => by omega⟩
  | succ fuel ih =>
    intro q hq hq2
    rw [dotslash_loop]
    by_cases hc : f.getD q 0 = 0x2F ∨ (f.getD q 0 = 0x2E ∧ f.getD (q + 1) 0 = 0x2F)
    · rw [if_pos hc]
      have hne : f.getD q 0 ≠ 0 := by
        rcases hc with h | h <;> omega
      have hlt : q < f.length := by
        by_contra hge
        exact hne ((getD_zero_iff f h0 q).2 (by omega))
      obtain ⟨i1, i2, i3, i4, i5⟩ := ih (q + 1) (by omega) hlt
      refine ⟨by omega, i2, i3, i4, ?_⟩
      intro _
      by_cases e : dotslash_loop f fuel (q + 1) = q + 1
      · rw [e] at i3 ⊢
        rcases hc with h | h
        · simpa using h
        · exact absurd h.2 i3
      · exact i5 (by omega)
    · rw [if_neg hc]
      refine ⟨Nat.le_refl _, hq2, fun h => hc (Or.inl h), fun h => hc (Or.inr h),
        fun h => absurd h (Nat.lt_irrefl _)⟩

theorem contains_dotdot_loop_false (g : List Nat) (h : ∀ j, dotdot_at_i g j = false)
    (fuel : Nat) : ∀ i, contains_dotdot_loop g fuel i = false := by
  induction fuel with
  | zero => intro i; rfl
  | succ fuel ih =>
    intro i
    rw [contains_dotdot_loop]
    by_cases hz : g.getD i 0 = 0
    · rw [if_pos hz]
    · rw [if_neg hz, h i]
      exact ih (i + 1)

theorem getD_drop_add (f : List Nat) (p k : Nat) : (f.drop p).getD k 0 = f.getD (p + k) 0 := by
  rw [List.getD_eq_getElem?_getD, List.getD_eq_getElem?_getD, List.getElem?_drop]

theorem remove_leading_dotslash_dotdot_false (f : List Nat) :
    remove_leading_dotslash_dotdot f false = remove_leading_dotslash f := rfl

theorem no_dotdot_after (f : List Nat) (p0 p : Nat)
    (hall : ∀ j, dotdot_at_i f j = true → j + 2 ≤ p0)
    (hp0 : p0 = 0 ∨ (2 ≤ p0 ∧ dotdot_at_i f (p0 - 2) = true))
    (hle : p0 ≤ p) (hprev : p0 < p → f.getD (p - 1) 0 = 0x2F) :
    ∀ j, dotdot_at_i (f.drop p) j = false := by
  intro j
  cases hd : dotdot_at_i (f.drop p) j
  · rfl
  · exfalso
    obtain ⟨d1, d2, d3, d4⟩ := dotdot_at_i_facts _ _ hd
    rw [getD_drop_add] at d1 d2 d4
    have hstart : p + j = 0 ∨ f.getD (p + j - 1) 0 = 0x2F := by
      rcases d3 with e | e
      · subst e
        by_cases hp : p0 < p
        · exact Or.inr (hprev hp)
        · have hpe : p = p0 := by omega
          rcases hp0 with z | ⟨z1, z2⟩
          · left; omega
          · exfalso
            obtain ⟨_, _, _, c4⟩ := dotdot_at_i_facts _ _ z2
            have e2 : p0 - 2 + 2 = p + 0 := by omega
            rw [e2] at c4
            omega
      · rw [getD_drop_add] at e
        have hj : j ≠ 0 := by
          intro hj
          subst hj
          have e4 : f.getD (p + 0) 0 = 0x2F := e
          rw [d1] at e4
          exact absurd e4 (by decide)
        right
        have e3 : p + j - 1 = p + (j - 1) := by omega
        rw [e3]
        exact e
    have hf : dotdot_at_i f (p + j) = true := by
      unfold dotdot_at_i
      simp only [Bool.and_eq_true, Bool.or_eq_true, decide_eq_true_eq]
      exact ⟨⟨⟨d1, d2⟩, hstart⟩, d4⟩
    have := hall (p + j) hf
    omega

theorem prefix_one_getD (a : Nat) (r : List Nat) (h : [a] <+: r) : r.getD 0 0 = a := by
  obtain ⟨t, rfl⟩ := h
  rfl

theorem prefix_two_getD (a b : Nat) (r : List Nat) (h : [a, b] <+: r) :
    r.getD 0 0 = a ∧ r.getD 1 0 = b := by
  obtain ⟨t, rfl⟩ := h
  exact ⟨rfl, rfl⟩

/-- C23: for a file name `f` (a C string: no NUL inside), the name `r` that
`remove_leading_dotslash( f, &prefix, true )` returns does not begin with `/`
nor with `./` and `contains_dotdot( r )` is false; and either `prefix ++ r` is
`f`, or `r` is `.` and `prefix` is `f` (everything was removed). -/
theorem remove_leading_dotslash_clean (f : List Nat) (h0 : 0 ∉ f) :
    ¬ [0x2F] <+: (remove_leading_dotslash_dotdot f true).1 ∧
    ¬ [0x2E, 0x2F] <+: (remove_leading_dotslash_dotdot f true).1 ∧
    contains_dotdot (remove_leading_dotslash_dotdot f true).1 = false ∧
    ((remove_leading_dotslash_dotdot f true).2 ++ (remove_leading_dotslash_dotdot f true).1 = f ∨
      ((remove_leading_dotslash_dotdot f true).1 = [0x2E] ∧
        (remove_leading_dotslash_dotdot f true).2 = f)) := by
  obtain ⟨a1, a2, a3⟩ := dotdot_loop_spec f h0 f.length 0 0 (by omega) (Nat.zero_le _)
    (fun j hj => absurd hj (Nat.not_lt_zero _)) (Or.inl rfl)
  obtain ⟨b1, b2, b3, b4, b5⟩ := dotslash_loop_spec f h0 f.length
    (dotdot_loop f f.length 0 0) (by omega) a1
  have hnd := no_dotdot_after f _ _ a2 a3 b1 b5
  unfold remove_leading_dotslash_dotdot
  simp only [if_true]
  generalize dotslash_loop f f.length (dotdot_loop f f.length 0 0) = p at b1 b2 b3 b4 b5 hnd
  by_cases hc : f.getD p 0 = 0 ∧ f.getD 0 0 ≠ 0
  · rw [if_pos hc]
    have hp : f.length ≤ p := (getD_zero_iff f h0 p).1 hc.1
    have hp0 : p ≠ 0 := by
      intro e
      rw [e] at hc
      exact hc.2 hc.1
    have n1 : ¬ [0x2F] <+: [0x2E] := by decide
    have n2 : ¬ [0x2E, 0x2F] <+: [0x2E] := by decide
    have n3 : contains_dotdot [0x2E] = false := by decide
    refine ⟨n1, n2, n3, Or.inr ⟨rfl, ?_⟩⟩
    show (if p ≠ 0 then f.take p else []) = f
    rw [if_pos hp0]
    exact List.take_of_length_le hp
  · rw [if_neg hc]
    refine ⟨?_, ?_, ?_, Or.inl ?_⟩
    · intro h
      have := prefix_one_getD _ _ h
      rw [getD_drop_add] at this
      exact b3 this
    · intro h
      have := prefix_two_getD _ _ _ h
      rw [getD_drop_add, getD_drop_add] at this
      exact b4 this
    · exact contains_dotdot_loop_false _ hnd _ _
    · show (if p ≠ 0 then f.take p else []) ++ f.drop p = f
      by_cases hp0 : p = 0
      · subst hp0
        simp
      · rw [if_pos hp0]
        exact List.take_append_drop p f

set_option maxRecDepth 4000 in
theorem remove_leading_dotslash_clean_witness :
    remove_leading_dotslash_dotdot [0x2F, 0x61, 0x2F, 0x2E, 0x2E, 0x2F, 0x2E, 0x2F, 0x62] true
      = ([0x62], [0x2F, 0x61, 0x2F, 0x2E, 0x2E, 0x2F, 0x2E, 0x2F]) ∧
    contains_dotdot (remove_leading_dotslash_dotdot
      [0x2F, 0x61, 0x2F, 0x2E, 0x2E, 0x2F, 0x2E, 0x2F, 0x62] true).1 = false :=
  ⟨by decide,
    (remove_leading_dotslash_clean [0x2F, 0x61, 0x2F, 0x2E, 0x2E, 0x2F, 0x2E, 0x2F, 0x62]
      (by decide)).2.2.1⟩

end Lzip

namespace Lzip
open Fec_index

theorem fec_check_image_valid (c : Fec_decls) (img : List Nat) (m n : Nat)
    (h : Fec_packet.check_image c img m = some n) (hn : 2 < n) :
    c.isvalid_fbs (c.fec_fec_block_size img) = true := by
  unfold Fec_packet.check_image at h
  dsimp only at h
  split at h
  · simp only [Option.some.injEq] at h; omega
  split at h
  · simp only [Option.some.injEq] at h; omega
  split at h
  · simp only [Option.some.injEq] at h; omega
  · rename_i h1
    cases hv : c.isvalid_fbs (c.fec_fec_block_size img)
    · exact absurd (Or.inl hv) h1
    · rfl

theorem chksum_check_image_valid (c : Fec_decls) (img : List Nat) (m n : Nat)
    (h : Chksum_packet.check_image c img m = some n) (hn : 2 < n) :
    c.isvalid_fbs (c.chksum_fec_block_size img) = true := by
  unfold Chksum_packet.check_image at h
  dsimp only at h
  split at h
  · simp only [Option.some.injEq] at h; omega
  split at h
  · simp only [Option.some.injEq] at h; omega
  split at h
  · simp only [Option.some.injEq] at h; omega
  split at h
  · simp only [Option.some.injEq] at h; omega
  · rename_i h1
    cases hv : c.isvalid_fbs (c.chksum_fec_block_size img)
    · exact absurd (Or.inr hv) h1
    · rfl

theorem fbsAgree_of (c : Fec_decls) (x y : Fec_index) (hI : FbsAgree c x)
    (hv : y.fec_vector = x.fec_vector)
    (hf : y.fec_block_size_ = x.fec_block_size_ ∨ c.isvalid_fbs x.fec_block_size_ = false) :
    FbsAgree c y := by
  intro p hp
  rw [hv] at hp
  have := hI p hp
  rcases hf with e | e
  · rw [e]; exact this
  · rw [e] at this; exact absurd this.2 (by decide)

theorem parse_size_spec (c : Fec_decls) (x : Fec_index) (image : List Nat) :
    (x.parse_size c image).2.fec_vector = x.fec_vector ∧
    (x.parse_size c image).2.fecdata_ = x.fecdata_ ∧
    (x.parse_size c image).2.fecdata_size_ = x.fecdata_size_ ∧
    (x.parse_size c image).2.fec_block_size_ = x.fec_block_size_ ∧
    ((x.parse_size c image).1 = true → (x.parse_size c image).2.retval_ = x.retval_) ∧
    ((x.parse_size c image).1 = false →
      (x.parse_size c image).2.retval_ = 1 ∨ (x.parse_size c image).2.retval_ = 2) := by
  unfold parse_size
  split_ifs <;> simp

theorem parse_fbs_spec (c : Fec_decls) (x : Fec_index) (image : List Nat) :
    (x.parse_fbs c image).2.fec_vector = x.fec_vector ∧
    (x.parse_fbs c image).2.fecdata_ = x.fecdata_ ∧
    (x.parse_fbs c image).2.fecdata_size_ = x.fecdata_size_ ∧
    ((x.parse_fbs c image).2.fec_block_size_ = x.fec_block_size_ ∨
      c.isvalid_fbs x.fec_block_size_ = false) ∧
    ((x.parse_fbs c image).1 = true → (x.parse_fbs c image).2.retval_ = x.retval_) ∧
    ((x.parse_fbs c image).1 = false → (x.parse_fbs c image).2.retval_ = 2) := by
  unfold parse_fbs
  split_ifs with h1 h2
  · simp [h1]
  · simp
  · simp

theorem parse_array_spec (c : Fec_decls) (x : Fec_index) (image : List Nat) (ie : Bool) :
    (x.parse_array c image ie).2.fec_vector = x.fec_vector ∧
    (x.parse_array c image ie).2.fecdata_ = x.fecdata_ ∧
    (x.parse_array c image ie).2.fecdata_size_ = x.fecdata_size_ ∧
    (x.parse_array c image ie).2.fec_block_size_ = x.fec_block_size_ ∧
    ((x.parse_array c image ie).1 = true → (x.parse_array c image ie).2.retval_ = x.retval_) ∧
    ((x.parse_array c image ie).1 = false → (x.parse_array c image ie).2.retval_ = 2) := by
  unfold parse_array
  split_ifs <;> simp

theorem parse_packet_spec (c : Fec_decls) (x : Fec_index) (image : List Nat)
    (ignore_errors : Bool) :
    (x.parse_packet c image ignore_errors).2.fec_vector = x.fec_vector ∧
    (x.parse_packet c image ignore_errors).2.fecdata_ = x.fecdata_ ∧
    (x.parse_packet c image ignore_errors).2.fecdata_size_ = x.fecdata_size_ ∧
    ((x.parse_packet c image ignore_errors).2.fec_block_size_ = x.fec_block_size_ ∨
      c.isvalid_fbs x.fec_block_size_ = false) ∧
    ((x.parse_packet c image ignore_errors).1 = true →
      (x.parse_packet c image ignore_errors).2.retval_ = x.retval_) ∧
    ((x.parse_packet c image ignore_errors).1 = false →
      (x.parse_packet c image ignore_errors).2.retval_ = 1 ∨
      (x.parse_packet c image ignore_errors).2.retval_ = 2) := by
  obtain ⟨a1, a2, a3, a4, a5, a6⟩ := parse_size_spec c x image
  obtain ⟨b1, b2, b3, b4, b5, b6⟩ := parse_fbs_spec c (x.parse_size c image).2 image
  obtain ⟨c1, c2, c3, c4, c5, c6⟩ :=
    parse_array_spec c ((x.parse_size c image).2.parse_fbs c image).2 image ignore_errors
  unfold parse_packet
  by_cases h1 : (x.parse_size c image).1 = false
  · rw [if_pos h1]
    exact ⟨a1, a2, a3, Or.inl a4, fun h => a5 h, fun h => a6 h⟩
  · rw [if_neg h1]
    have h1t : (x.parse_size c image).1 = true := by
      cases hb : (x.parse_size c image).1
      · exact absurd hb h1
      · rfl
    by_cases h2 : ((x.parse_size c image).2.parse_fbs c image).1 = false
    · rw [if_pos h2]
      refine ⟨b1.trans a1, b2.trans a2, b3.trans a3, ?_, ?_, fun h => Or.inr (b6 h)⟩
      · rw [a4] at b4; exact b4
      · intro h; rw [h] at h2; exact absurd h2 (by decide)
    · rw [if_neg h2]
      have h2t : ((x.parse_size c image).2.parse_fbs c image).1 = true := by
        cases hb : ((x.parse_size c image).2.parse_fbs c image).1
        · exact absurd hb h2
        · rfl
      refine ⟨c1.trans (b1.trans a1), c2.trans (b2.trans a2), c3.trans (b3.trans a3), ?_, ?_,
        fun h => Or.inr (c6 h)⟩
      · rw [a4] at b4
        rcases b4 with e | e
        · exact Or.inl (c4.trans e)
        · exact Or.inr e
      · intro h
        exact (c5 h).trans ((b5 h2t).trans (a5 h1t))

theorem skip_loop_ge (c : Fec_decls) (x : Fec_index) (fuel : Nat) :
    ∀ pos, pos ≤ skip_loop c x fuel pos := by
  induction fuel with
  | zero => intro pos; exact Nat.le_refl _
  | succ fuel ih =>
    intro pos
    rw [skip_loop]
    split
    · exact Nat.le_trans (Nat.le_succ pos) (ih (pos + 1))
    · exact Nat.le_succ pos

theorem skip_loop_gt (c : Fec_decls) (x : Fec_index) (fuel pos : Nat) (h : 0 < fuel) :
    pos < skip_loop c x fuel pos := by
  cases fuel with
  | zero => exact absurd h (Nat.lt_irrefl 0)
  | succ fuel =>
    rw [skip_loop]
    split
    · exact Nat.lt_of_lt_of_le (Nat.lt_succ_self pos) (skip_loop_ge c x fuel (pos + 1))
    · exact Nat.lt_succ_self pos

theorem skip_loop_exit (c : Fec_decls) (x : Fec_index) (fuel : Nat) :
    ∀ pos, x.fecdata_size_ ≤ pos + fuel → 0 < fuel →
      ¬ (skip_loop c x fuel pos < x.fecdata_size_ ∧
        x.fecdata_.getD (skip_loop c x fuel pos) 0 ≠ c.fec_magic0) := by
  induction fuel with
  | zero => intro pos _ h; exact absurd h (Nat.lt_irrefl 0)
  | succ fuel ih =>
    intro pos hp _
    rw [skip_loop]
    by_cases hc : pos + 1 < x.fecdata_size_ ∧ x.fecdata_.getD (pos + 1) 0 ≠ c.fec_magic0
    · rw [if_pos hc]
      exact ih (pos + 1) (by omega) (by omega)
    · rw [if_neg hc]
      exact hc

theorem scan_fec_ok (c : Fec_decls) (ie : Bool) (pos : Nat) (x : Fec_index) (s : Scan)
    (hI : FbsAgree c x) (hpos : pos < x.fecdata_size_)
    (h : scan_fec c ie pos x = some s) : ScanOk c pos x s := by
  unfold scan_fec at h
  cases hci : Fec_packet.check_image c (x.fecdata_.drop pos) (x.fecdata_size_ - pos) with
  | none => rw [hci] at h; exact absurd h (by simp)
  | some n =>
    rw [hci] at h
    dsimp only at h
    by_cases h2 : n > 2
    · rw [if_pos h2] at h
      have hv := fec_check_image_valid c _ _ n hci h2
      by_cases hval : c.isvalid_fbs x.fec_block_size_ = false
      · rw [if_pos hval] at h
        cases h
        refine ⟨?_, rfl, by omega, rfl, rfl⟩
        intro p hp
        rcases List.mem_append.1 hp with hp1 | hp1
        · have := (hI p hp1).2
          rw [hval] at this
          exact absurd this (by decide)
        · rw [List.mem_singleton.1 hp1]
          exact ⟨rfl, hv⟩
      · rw [if_neg hval] at h
        have hvt : c.isvalid_fbs x.fec_block_size_ = true := by
          cases hb : c.isvalid_fbs x.fec_block_size_
          · exact absurd hb hval
          · rfl
        by_cases hne : x.fec_block_size_ ≠ c.fec_fec_block_size (x.fecdata_.drop pos)
        · rw [if_pos hne] at h
          cases h
          exact Or.inr rfl
        · rw [if_neg hne] at h
          cases h
          refine ⟨?_, rfl, by omega, rfl, rfl⟩
          intro p hp
          rcases List.mem_append.1 hp with hp1 | hp1
          · exact hI p hp1
          · rw [List.mem_singleton.1 hp1]
            exact ⟨(not_not.1 hne).symm, hvt⟩
    · rw [if_neg h2] at h
      by_cases h3 : n ≠ 0 ∧ ie = true
      · rw [if_pos h3] at h
        cases h
        exact ⟨hI, rfl, by omega, rfl, rfl⟩
      · rw [if_neg h3] at h
        by_cases h4 : n = 1
        · rw [if_pos h4] at h; cases h; exact Or.inr rfl
        · rw [if_neg h4] at h
          by_cases h5 : n = 2
          · rw [if_pos h5] at h; cases h; exact Or.inr rfl
          · rw [if_neg h5] at h
            by_cases h6 : ie = true
            · rw [if_pos h6] at h
              cases h
              exact ⟨hI, rfl, skip_loop_gt c x _ pos (by omega), rfl, rfl⟩
            · rw [if_neg h6] at h
              cases h
              exact Or.inr rfl

theorem scan_step_ok (c : Fec_decls) (ie : Bool) (pos : Nat) (x : Fec_index) (s : Scan)
    (hI : FbsAgree c x) (hpos : pos < x.fecdata_size_)
    (h : scan_step c ie pos x = some s) : ScanOk c pos x s := by
  unfold scan_step at h
  cases hci : Chksum_packet.check_image c (x.fecdata_.drop pos) (x.fecdata_size_ - pos) with
  | none => rw [hci] at h; exact absurd h (by simp)
  | some n =>
    rw [hci] at h
    dsimp only at h
    obtain ⟨p1, p2, p3, p4, p5, p6⟩ := parse_packet_spec c x (x.fecdata_.drop pos) ie
    by_cases h2 : n > 2
    · rw [if_pos h2] at h
      by_cases hp : (x.parse_packet c (x.fecdata_.drop pos) ie).1 = false
      · rw [if_pos hp] at h
        cases h
        exact p6 hp
      · rw [if_neg hp] at h
        have hpt : (x.parse_packet c (x.fecdata_.drop pos) ie).1 = true := by
          cases hb : (x.parse_packet c (x.fecdata_.drop pos) ie).1
          · exact absurd hb hp
          · rfl
        cases h
        refine ⟨?_, p5 hpt, by omega, p3, p2⟩
        exact fbsAgree_of c x _ hI p1 p4
    · rw [if_neg h2] at h
      by_cases h3 : n ≠ 0 ∧ ie = true
      · rw [if_pos h3] at h
        cases h
        exact ⟨hI, rfl, by omega, rfl, rfl⟩
      · rw [if_neg h3] at h
        by_cases h4 : n = 1
        · rw [if_pos h4] at h; cases h; exact Or.inr rfl
        · rw [if_neg h4] at h
          by_cases h5 : n = 2
          · rw [if_pos h5] at h; cases h; exact Or.inr rfl
          · rw [if_neg h5] at h
            exact scan_fec_ok c ie pos x s hI hpos h

theorem scan_loop_ok (c : Fec_decls) (ie : Bool) (fuel : Nat) :
    ∀ (pos : Nat) (x : Fec_index) (b : Bool) (y : Fec_index),
      FbsAgree c x → x.retval_ = 0 → scan_loop c ie fuel pos x = some (b, y) →
      (b = true → FbsAgree c y ∧ y.retval_ = 0) ∧ (b = false → y.retval_ = 1 ∨ y.retval_ = 2) := by
  induction fuel with
  | zero =>
    intro pos x b y hI h0 h
    rw [scan_loop] at h
    cases h
    exact ⟨fun _ => ⟨hI, h0⟩, fun hb => absurd hb (by decide)⟩
  | succ fuel ih =>
    intro pos x b y hI h0 h
    rw [scan_loop] at h
    by_cases hpos : pos < x.fecdata_size_
    · rw [if_pos hpos] at h
      cases hs : scan_step c ie pos x with
      | none => rw [hs] at h; exact absurd h (by simp)
      | some s =>
        rw [hs] at h
        have hok := scan_step_ok c ie pos x s hI hpos hs
        cases s with
        | ret x1 =>
          cases h
          exact ⟨fun hb => absurd hb (by decide), fun _ => hok⟩
        | next pos1 x1 =>
          exact ih pos1 x1 b y hok.1 (hok.2.1.trans h0) h
    · rw [if_neg hpos] at h
      cases h
      exact ⟨fun _ => ⟨hI, h0⟩, fun hb => absurd hb (by decide)⟩

/-- The loop of the constructor is given enough iterations: with more of them
it gives the same result. -/
theorem scan_loop_fuel (c : Fec_decls) (ie : Bool) (fuel : Nat) :
    ∀ (k pos : Nat) (x : Fec_index), FbsAgree c x → x.fecdata_size_ ≤ pos + fuel →
      scan_loop c ie (fuel + k) pos x = scan_loop c ie fuel pos x := by
  induction fuel with
  | zero =>
    intro k pos x _ hp
    cases k with
    | zero => rfl
    | succ k =>
      rw [Nat.zero_add, scan_loop, scan_loop, if_neg (by omega)]
  | succ fuel ih =>
    intro k pos x hI hp
    have e : fuel + 1 + k = (fuel + k) + 1 := by omega
    rw [e, scan_loop, scan_loop]
    by_cases hpos : pos < x.fecdata_size_
    · rw [if_pos hpos, if_pos hpos]
      cases hs : scan_step c ie pos x with
      | none => rfl
      | some s =>
        have hok := scan_step_ok c ie pos x s hI hpos hs
        cases s with
        | ret x1 => rfl
        | next pos1 x1 =>
          have h4 := hok.2.2.2.1
          exact ih k pos1 x1 hok.1 (by have := hok.2.2.1; omega)
    · rw [if_neg hpos, if_neg hpos]

theorem getD_set_bool (l : List Bool) (w i : Nat) (v : Bool) (hw : w < l.length) :
    (l.set w v).getD i false = if i = w then v else l.getD i false := by
  rw [List.getD_eq_getElem?_getD, List.getD_eq_getElem?_getD, List.getElem?_set]
  by_cases e : w = i
  · subst e
    rw [if_pos rfl, if_pos rfl]
    simp [hw]
  · rw [if_neg e, if_neg (fun h => e h.symm)]

theorem fbn_loop_some (c : Fec_decls) (max_k : Nat) (ps : List (List Nat)) :
    ∀ (bv bv2 : List Bool), bv.length = max_k → fbn_loop c max_k ps bv = some bv2 →
      (ps.map c.fec_block_number).Nodup ∧
      ∀ p ∈ ps, c.fec_block_number p < max_k ∧ bv.getD (c.fec_block_number p) false = false := by
  induction ps with
  | nil =>
    intro bv bv2 _ _
    exact ⟨List.nodup_nil, fun p hp => absurd hp (List.not_mem_nil p)⟩
  | cons p ps ih =>
    intro bv bv2 hl h
    rw [fbn_loop] at h
    by_cases h1 : c.fec_block_number p ≥ max_k
    · rw [if_pos h1] at h; exact absurd h (by simp)
    rw [if_neg h1] at h
    by_cases h2 : bv.getD (c.fec_block_number p) false = true
    · rw [if_pos h2] at h; exact absurd h (by simp)
    rw [if_neg h2] at h
    have h2f : bv.getD (c.fec_block_number p) false = false := by
      cases hb : bv.getD (c.fec_block_number p) false
      · rfl
      · exact absurd hb h2
    have hlt : c.fec_block_number p < bv.length := by omega
    obtain ⟨i1, i2⟩ := ih (bv.set (c.fec_block_number p) true) bv2
      (by rw [List.length_set]; exact hl) h
    have hnot : ∀ q ∈ ps, c.fec_block_number q ≠ c.fec_block_number p := by
      intro q hq e
      have := (i2 q hq).2
      rw [getD_set_bool _ _ _ _ hlt, if_pos e] at this
      exact absurd this (by decide)
    constructor
    · rw [List.map_cons, List.nodup_cons]
      refine ⟨?_, i1⟩
      intro hmem
      obtain ⟨q, hq, e⟩ := List.mem_map.1 hmem
      exact hnot q hq e
    · intro q hq
      rcases List.mem_cons.1 hq with e | hq1
      · rw [e]; exact ⟨by omega, h2f⟩
      · refine ⟨(i2 q hq1).1, ?_⟩
        have := (i2 q hq1).2
        rw [getD_set_bool _ _ _ _ hlt, if_neg (hnot q hq1)] at this
        exact this

theorem final_checks_retval (c : Fec_decls) (ie : Bool) (x y : Fec_index)
    (h : final_checks c ie x = some y) :
    (y.retval_ = 2 ∧ y.fec_vector = x.fec_vector) ∨
    (y = x ∧ x.fec_blocks ≤ x.prodata_blocks ∧ c.isvalid_fbs x.fec_block_size_ = true ∧
      ∃ bv, fbn_loop c (if x.gf16_ then max_k16 else max_k8) (x.fec_vector.take x.fec_blocks)
        (List.replicate (if x.gf16_ then max_k16 else max_k8) false) = some bv) := by
  unfold final_checks at h
  by_cases h1 : x.prodata_size_ ≤ 0
  · rw [if_pos h1] at h; cases h; exact Or.inl ⟨rfl, rfl⟩
  rw [if_neg h1] at h
  by_cases h2 : x.fec_blocks ≤ 0 ∧ ie = false
  · rw [if_pos h2] at h; cases h; exact Or.inl ⟨rfl, rfl⟩
  rw [if_neg h2] at h
  by_cases h3 : x.has_array = false ∧ ie = false
  · rw [if_pos h3] at h; cases h; exact Or.inl ⟨rfl, rfl⟩
  rw [if_neg h3] at h
  by_cases h4 : x.fec_blocks > x.prodata_blocks
  · rw [if_pos h4] at h; cases h; exact Or.inl ⟨rfl, rfl⟩
  rw [if_neg h4] at h
  by_cases h5 : c.isvalid_fbs x.fec_block_size_ = false
  · rw [if_pos h5] at h; exact absurd h (by simp)
  rw [if_neg h5] at h
  dsimp only at h
  cases hf : fbn_loop c (if x.gf16_ then max_k16 else max_k8) (x.fec_vector.take x.fec_blocks)
      (List.replicate (if x.gf16_ then max_k16 else max_k8) false) with
  | none =>
    rw [hf] at h
    cases h
    exact Or.inl ⟨rfl, rfl⟩
  | some bv =>
    rw [hf] at h
    cases h
    refine Or.inr ⟨rfl, by omega, ?_, bv, rfl⟩
    cases hb : c.isvalid_fbs x.fec_block_size_
    · exact absurd hb h5
    · rfl

theorem new_cases (c : Fec_decls) (fecfile : Option (List Nat)) (ie is_lz : Bool)
    (x : Fec_index) (h : Fec_index.new c fecfile ie is_lz = some x) :
    (x.retval_ = 1 ∨ x.retval_ = 2) ∨
    ∃ y, FbsAgree c y ∧ y.retval_ = 0 ∧ final_checks c ie y = some x := by
  unfold Fec_index.new at h
  dsimp only at h
  cases fecfile with
  | none => cases h; exact Or.inl (Or.inl rfl)
  | some data =>
    dsimp only at h
    by_cases h1 : data.length ≤ 0
    · rw [if_pos h1] at h; cases h; exact Or.inl (Or.inr rfl)
    rw [if_neg h1] at h
    by_cases h2 : data.length ≥ c.fec_magic_l ∧ c.check_fec_magic data = false
    · rw [if_pos h2] at h; cases h; exact Or.inl (Or.inr rfl)
    rw [if_neg h2] at h
    by_cases h3 : data.length < c.chksum_min_packet_size
    · rw [if_pos h3] at h; cases h; exact Or.inl (Or.inr rfl)
    rw [if_neg h3] at h
    by_cases h4 : c.check_version data = false
    · rw [if_pos h4] at h; cases h; exact Or.inl (Or.inr rfl)
    rw [if_neg h4] at h
    obtain ⟨x0, hx0⟩ : ∃ x0 : Fec_index, x0 =
        { Fec_index.init is_lz with fecdata_ := data, fecdata_size_ := data.length } :=
      ⟨_, rfl⟩
    rw [← hx0] at h
    have hI : FbsAgree c x0 := by
      intro p hp
      rw [hx0] at hp
      exact absurd hp (List.not_mem_nil p)
    have h00 : x0.retval_ = 0 := by rw [hx0]; rfl
    cases hs : scan_loop c ie data.length 0 x0 with
    | none => rw [hs] at h; exact absurd h (by simp)
    | some r =>
      rw [hs] at h
      obtain ⟨b, y⟩ := r
      have hok := scan_loop_ok c ie data.length 0 x0 b y hI h00 hs
      cases b with
      | false =>
        dsimp only at h
        cases h
        exact Or.inl (hok.2 rfl)
      | true =>
        dsimp only at h
        exact Or.inr ⟨y, (hok.1 rfl).1, (hok.1 rfl).2, h⟩

theorem final_checks_pass (c : Fec_decls) (ie : Bool) (y z : Fec_index)
    (hlen : y.fec_vector.length < 2 ^ 32) (h : final_checks c ie y = some z) :
    (z.retval_ = 2 ∧ z.fec_vector = y.fec_vector) ∨
    (z = y ∧ (y.fec_vector.map c.fec_block_number).Nodup ∧
      (∀ p ∈ y.fec_vector, c.fec_block_number p < (if y.gf16_ then 2 ^ 15 else 2 ^ 7)) ∧
      y.fec_vector.length ≤ ceil_divide y.prodata_size_ y.fec_block_size_ ∧
      c.isvalid_fbs y.fec_block_size_ = true) := by
  rcases final_checks_retval c ie y z h with h2 | ⟨e, h1, h3, bv, h4⟩
  · exact Or.inl h2
  · right
    have hb : y.fec_blocks = y.fec_vector.length := Nat.mod_eq_of_lt hlen
    rw [hb, List.take_length] at h4
    rw [hb] at h1
    have hk : ∀ b : Bool, (if b then max_k16 else max_k8) = (if b then 2 ^ 15 else 2 ^ 7) := by
      intro b; cases b <;> rfl
    obtain ⟨n1, n2⟩ := fbn_loop_some c _ y.fec_vector _ bv (List.length_replicate _ _) h4
    refine ⟨e, n1, ?_, ?_, h3⟩
    · intro p hp
      rw [← hk]
      exact (n2 p hp).1
    · have : y.prodata_blocks ≤ ceil_divide y.prodata_size_ y.fec_block_size_ := Nat.mod_le _ _
      omega

/-- C21: an index whose construction ends with `retval() == 0` (and holds fewer
than `2^32` fec packets, `fec_blocks()` being an `unsigned`) has fec packets
with pairwise distinct block numbers, each below `max_k` (`2^15` with GF(2^16),
else `2^7`), no more of them than `ceil( prodata_size / fec_block_size )`, all
of the fec block size of the index, which is a valid one.  The return value is
0, 1 or 2, and a violation gives 2: the checks at the end of the constructor do
so for a repeated block number, one not below `max_k`, or too many packets; the
loop does so for a fec packet whose fec block size differs from the valid one
of the index, and `parse_packet` for such a chksum packet. -/
theorem fec_index_invariant (c : Fec_decls) (fecfile : Option (List Nat))
    (ignore_errors is_lz : Bool) (x : Fec_index)
    (hx : Fec_index.new c fecfile ignore_errors is_lz = some x)
    (hlen : x.fec_vector.length < 2 ^ 32) :
    (x.retval_ = 0 ∨ x.retval_ = 1 ∨ x.retval_ = 2) ∧
    (x.retval_ = 0 →
      (x.fec_vector.map c.fec_block_number).Nodup ∧
      (∀ p ∈ x.fec_vector, c.fec_block_number p < (if x.gf16_ then 2 ^ 15 else 2 ^ 7)) ∧
      x.fec_vector.length ≤ ceil_divide x.prodata_size_ x.fec_block_size_ ∧
      (∀ p ∈ x.fec_vector, c.fec_fec_block_size p = x.fec_block_size_) ∧
      c.isvalid_fbs x.fec_block_size_ = true) ∧
    (∀ y z : Fec_index, y.fec_vector.length < 2 ^ 32 → y.retval_ = 0 →
      final_checks c ignore_errors y = some z →
      (¬ (y.fec_vector.map c.fec_block_number).Nodup ∨
        (∃ p ∈ y.fec_vector, (if y.gf16_ then 2 ^ 15 else 2 ^ 7) ≤ c.fec_block_number p) ∨
        ceil_divide y.prodata_size_ y.fec_block_size_ < y.fec_vector.length) →
      z.retval_ = 2) ∧
    (∀ (y : Fec_index) (pos n : Nat), c.isvalid_fbs y.fec_block_size_ = true →
      Fec_packet.check_image c (y.fecdata_.drop pos) (y.fecdata_size_ - pos) = some n → 2 < n →
      c.fec_fec_block_size (y.fecdata_.drop pos) ≠ y.fec_block_size_ →
      scan_fec c ignore_errors pos y = some (Scan.ret { y with retval_ := 2 })) ∧
    (∀ (y : Fec_index) (image : List Nat),
      c.isvalid_fbs (y.parse_size c image).2.fec_block_size_ = true →
      c.chksum_fec_block_size image ≠ (y.parse_size c image).2.fec_block_size_ →
      (y.parse_size c image).1 = true →
      (y.parse_packet c image ignore_errors).1 = false ∧
      (y.parse_packet c image ignore_errors).2.retval_ = 2) := by
  refine ⟨?_, ?_, ?_, ?_, ?_⟩
  · rcases new_cases c fecfile ignore_errors is_lz x hx with h | ⟨y, _, h0, hf⟩
    · exact Or.inr h
    · rcases final_checks_retval c ignore_errors y x hf with h2 | ⟨e, _⟩
      · exact Or.inr (Or.inr h2.1)
      · left; rw [e]; exact h0
  · intro h0
    rcases new_cases c fecfile ignore_errors is_lz x hx with h | ⟨y, hI, _, hf⟩
    · omega
    · have hv : x.fec_vector = y.fec_vector := by
        rcases final_checks_retval c ignore_errors y x hf with h2 | ⟨e, _⟩
        · exact h2.2
        · rw [e]
      rcases final_checks_pass c ignore_errors y x (by rw [← hv]; exact hlen) hf with
        h2 | ⟨e, n1, n2, n3, n4⟩
      · omega
      · subst e
        exact ⟨n1, n2, n3, fun p hp => (hI p hp).1, n4⟩
  · intro y z hl _ hf hviol
    rcases final_checks_pass c ignore_errors y z hl hf with h2 | ⟨_, n1, n2, n3, _⟩
    · exact h2.1
    · exfalso
      rcases hviol with v | ⟨p, hp, v⟩ | v
      · exact v n1
      · have := n2 p hp
        omega
      · omega
  · intro y pos n hval hci hn hne
    unfold scan_fec
    rw [hci]
    dsimp only
    rw [if_pos hn, if_neg (by rw [hval]; decide), if_pos (fun e => hne e.symm)]
  · intro y image hval hne hs
    unfold parse_packet
    have hf : ((y.parse_size c image).2.parse_fbs c image) =
        (false, { (y.parse_size c image).2 with retval_ := 2 }) := by
      unfold parse_fbs
      rw [if_neg (by rw [hval]; decide), if_pos (fun e => hne e.symm)]
    rw [if_neg (by rw [hs]; decide), hf]
    exact ⟨rfl, rfl⟩

set_option maxRecDepth 20000 in
theorem fec_index_invariant_witness :
    ((Fec_index.new sample_fec_decls (some sample_fec_file) false false).map
      (fun x => (x.retval_, x.fec_vector.length, x.prodata_size_, x.fec_block_size_)))
      = some (0, 1, 2, 1) ∧
    ((((Fec_index.new sample_fec_decls (some sample_fec_file) false false).getD
      (Fec_index.init false)).fec_vector.map sample_fec_decls.fec_block_number).Nodup ∧
      ((Fec_index.new sample_fec_decls (some sample_fec_file) false false).getD
        (Fec_index.init false)).fec_vector.length ≤ 2) :=
  ⟨by decide,
    ((fec_index_invariant sample_fec_decls (some sample_fec_file) false false
      ((Fec_index.new sample_fec_decls (some sample_fec_file) false false).getD
        (Fec_index.init false))
      (some_getD _ _ (by decide)) (by decide)).2.1 (by decide)).1,
    by decide⟩

end Lzip

namespace Lzip

theorem bursted_loop_iff (prodata : List Nat) (b : Nat) (fuel : Nat) :
    ∀ j count, b ≤ j + fuel → count ≤ 6 → count + 1 ≤ j →
      (∀ t, t ≤ count → prodata.getD (j - 1 - t) 0 = prodata.getD (j - 1) 0) →
      (bursted_loop prodata b fuel j count = true ↔
        ∃ k, j - 1 - count ≤ k ∧ k + 8 ≤ b ∧
          ∀ t, t < 8 → prodata.getD (k + t) 0 = prodata.getD k 0) := by
  induction fuel with
  | zero =>
    intro j count hb hc hj _
    rw [bursted_loop]
    constructor
    · intro h; exact absurd h (by decide)
    · rintro ⟨k, h1, h2, _⟩; omega
  | succ fuel ih =>
    intro j count hb hc hj heq
    rw [bursted_loop]
    by_cases hjb : j < b
    · rw [if_pos hjb]
      by_cases hne : prodata.getD j 0 ≠ prodata.getD (j - 1) 0
      · rw [if_pos hne, ih (j + 1) 0 (by omega) (by omega) (by omega)
          (fun t ht => by
            have : t = 0 := by omega
            subst this
            rfl)]
        constructor
        · rintro ⟨k, h1, h2, h3⟩
          exact ⟨k, by omega, h2, h3⟩
        · rintro ⟨k, h1, h2, h3⟩
          by_cases hk : j ≤ k
          · exact ⟨k, by omega, h2, h3⟩
          · exfalso
            have e1 := h3 (j - k) (by omega)
            have e2 := h3 (j - 1 - k) (by omega)
            have a1 : k + (j - k) = j := by omega
            have a2 : k + (j - 1 - k) = j - 1 := by omega
            rw [a1] at e1
            rw [a2] at e2
            exact hne (e1.trans e2.symm)
      · rw [if_neg hne]
        have hjeq : prodata.getD j 0 = prodata.getD (j - 1) 0 := not_not.1 hne
        by_cases h7 : count + 1 ≥ 8 - 1
        · rw [if_pos h7]
          have hc6 : count = 6 := by omega
          subst hc6
          refine ⟨fun _ => ⟨j - 1 - 6, Nat.le_refl _, by omega, ?_⟩, fun _ => rfl⟩
          intro t ht
          have hk : ∀ s, s ≤ 7 → prodata.getD (j - 1 - 6 + s) 0 = prodata.getD (j - 1) 0 := by
            intro s hs
            by_cases h7s : s = 7
            · subst h7s
              have : j - 1 - 6 + 7 = j := by omega
              rw [this]
              exact hjeq
            · have := heq (6 - s) (by omega)
              have e : j - 1 - (6 - s) = j - 1 - 6 + s := by omega
              rw [e] at this
              exact this
          have := hk 0 (by omega)
          rw [Nat.add_zero] at this
          rw [hk t (by omega), this]
        · rw [if_neg h7]
          have e : j + 1 - 1 - (count + 1) = j - 1 - count := by omega
          rw [ih (j + 1) (count + 1) (by omega) (by omega) (by omega)
            (fun t ht => by
              rw [Nat.add_sub_cancel]
              by_cases h0 : t = 0
              · subst h0; rfl
              · have := heq (t - 1) (by omega)
                have e2 : j - 1 - (t - 1) = j - t := by omega
                rw [e2] at this
                rw [this, hjeq]), e]
    · rw [if_neg hjb]
      constructor
      · intro h; exact absurd h (by decide)
      · rintro ⟨k, h1, h2, _⟩; omega

theorem has_run_iff (prodata : List Nat) (a b : Nat) :
    spec_has_run prodata a b ↔
      ∃ k, a ≤ k ∧ k + 8 ≤ b ∧ ∀ t, t < 8 → prodata.getD (k + t) 0 = prodata.getD k 0 := by
  constructor
  · rintro ⟨k, n, h1, h2, h3, h4⟩
    exact ⟨k, h2, by omega, fun t ht => h4 t (by omega)⟩
  · rintro ⟨k, h1, h2, h3⟩
    exact ⟨k, 8, Nat.le_refl _, h1, h2, h3⟩

/-- C24: `bursted_data_block` returns true exactly when the window that starts
4 bytes before the block `i` (at the start of the block when that is below 4)
and ends at `min( block_end + 4, mmapped_size )` contains a run of at least 8
consecutive identical bytes; `block_end + 4` is taken not to leave 64 bits. -/
theorem bursted_data_block_iff (x : Fec_index) (prodata : List Nat) (mmapped_size i : Nat)
    (hp : x.prodata_size_ + 4 < 2 ^ 64) :
    bursted_data_block x prodata mmapped_size i = true ↔
      spec_has_run prodata (spec_window_start x i) (spec_window_end x mmapped_size i) := by
  have hend : x.block_end i ≤ x.prodata_size_ := Nat.min_le_right _ _
  have e1 : (x.block_end i + 8 / 2) % 2 ^ 64 = x.block_end i + 4 :=
    Nat.mod_eq_of_lt (by omega)
  have e2 : (if x.block_pos i ≥ 8 / 2 then x.block_pos i - 8 / 2 else x.block_pos i) =
      spec_window_start x i := by
    unfold spec_window_start
    by_cases h : x.block_pos i < 4
    · rw [if_pos h, if_neg (by omega)]
    · rw [if_neg h, if_pos (by omega)]
  unfold bursted_data_block
  dsimp only
  rw [e1, e2, has_run_iff]
  have := bursted_loop_iff prodata (min (x.block_end i + 4) mmapped_size)
    (min (x.block_end i + 4) mmapped_size - (spec_window_start x i + 1))
    (spec_window_start x i + 1) 0 (by omega) (by omega) (by omega)
    (fun t ht => by
      have : t = 0 := by omega
      subst this
      rfl)
  rw [this]
  unfold spec_window_end
  constructor
  · rintro ⟨k, h1, h2, h3⟩
    exact ⟨k, by omega, h2, h3⟩
  · rintro ⟨k, h1, h2, h3⟩
    exact ⟨k, by omega, h2, h3⟩

theorem bursted_data_block_iff_witness :
    bursted_data_block { Fec_index.init true with fec_block_size_ := 16, prodata_size_ := 32 }
      (List.replicate 8 9 ++ List.range 24) 32 0 = true ∧
    bursted_data_block { Fec_index.init true with fec_block_size_ := 16, prodata_size_ := 32 }
      (List.replicate 8 9 ++ List.range 24) 32 1 = false ∧
    spec_has_run (List.replicate 8 9 ++ List.range 24)
      (spec_window_start { Fec_index.init true with fec_block_size_ := 16, prodata_size_ := 32 } 0)
      (spec_window_end { Fec_index.init true with fec_block_size_ := 16, prodata_size_ := 32 }
        32 0) :=
  ⟨by decide, by decide,
    (bursted_data_block_iff { Fec_index.init true with fec_block_size_ := 16, prodata_size_ := 32 }
      (List.replicate 8 9 ++ List.range 24) 32 0 (by decide)).1 (by decide)⟩

end Lzip

namespace Lzip

theorem write_blocks_all (write_ok : Nat → Bool) (bs : List (List Nat)) :
    ∀ col, (write_blocks write_ok bs col).1 = true →
      (write_blocks write_ok bs col).2 = bs.flatten := by
  induction bs with
  | nil => intro col _; rfl
  | cons b bs ih =>
    intro col h
    rw [write_blocks] at h ⊢
    by_cases hw : write_ok col = true
    · rw [if_pos hw] at h ⊢
      rw [List.flatten_cons]
      exact congrArg (fun l => b ++ l) (ih (col + 1) h)
    · rw [if_neg hw] at h
      exact absurd h (by decide)

theorem write_blocks_ok (write_ok : Nat → Bool) (hw : ∀ col, write_ok col = true)
    (bs : List (List Nat)) : ∀ col, (write_blocks write_ok bs col).1 = true := by
  induction bs with
  | nil => intro col; rfl
  | cons b bs ih =>
    intro col
    rw [write_blocks, if_pos (hw col)]
    exact ih (col + 1)

theorem set_retval_pos (retval : Int) : set_retval retval 1 ≠ 0 := by
  unfold set_retval
  split <;> omega

theorem finish_copy_next (close_ok : Bool) (retval1 r : Int) (written w : List Nat)
    (h : finish_copy close_ok retval1 written = Fec_outcome.next r (some w)) :
    retval1 = 0 ∧ r = 0 ∧ w = written := by
  unfold finish_copy at h
  by_cases hc : retval1 = 0 ∧ close_ok = false
  · rw [if_pos hc, if_pos (set_retval_pos retval1)] at h
    exact Fec_outcome.noConfusion h
  · rw [if_neg hc] at h
    by_cases h0 : retval1 ≠ 0
    · rw [if_pos h0] at h
      exact Fec_outcome.noConfusion h
    · rw [if_neg h0] at h
      injection h with h1 h2
      injection h2 with h2
      exact ⟨not_not.1 h0, by rw [← h1]; exact not_not.1 h0, h2.symm⟩

theorem write_copy_next (write_ok : Nat → Bool) (close_ok : Bool) (blocks : List (List Nat))
    (retval r : Int) (w : List Nat)
    (h : write_copy write_ok close_ok blocks retval = Fec_outcome.next r (some w)) :
    w = blocks.flatten := by
  unfold write_copy at h
  obtain ⟨h1, _, h3⟩ := finish_copy_next _ _ _ _ _ h
  by_cases hw : (write_blocks write_ok blocks 0).1 = true
  · rw [h3]
    exact write_blocks_all write_ok blocks 0 hw
  · rw [if_neg hw] at h1
    exact absurd h1 (set_retval_pos retval)

theorem write_copy_ok (write_ok : Nat → Bool) (hw : ∀ col, write_ok col = true)
    (blocks : List (List Nat)) :
    write_copy write_ok true blocks 0 = Fec_outcome.next 0 (some blocks.flatten) := by
  have h1 := write_blocks_ok write_ok hw blocks 0
  unfold write_copy finish_copy
  rw [if_pos h1, write_blocks_all write_ok blocks 0 h1]
  rfl

/-- C25: in `fec_test` with repair enabled, for one protected file and its
index.  When bad blocks were found, a repaired copy is written only if the
digest of the blocks written equals the stored one, and if `repair_prodata`
gives nothing or the digest recomputed by `check_md5_2` differs, the program
ends with status 2, nothing being kept.  But when no bad block was found
although the protected data mismatch (their digest differs from the stored
one), nothing is recomputed: with the index of a file in lzip format or with a
CRC array, and the output written without error, the copy written is made of
the blocks of the file as they are, and the loop goes on with `retval` 0. -/
theorem fec_test_repair_md5 (c : Fec_decls) (x : Fec_index) (file : List Nat)
    (repair to_stdout to_file outfd_open open_ok close_ok : Bool) (write_ok : Nat → Bool)
    (retval : Int) (hrepair : repair = true) :
    (∀ r w, fec_test_file c x file repair to_stdout to_file outfd_open open_ok close_ok write_ok
        retval = Fec_outcome.next r (some w) →
      (found_bad_blocks c x file).length % 2 ^ 32 ≠ 0 → c.md5 w = x.prodata_md5_) ∧
    ((found_bad_blocks c x file).length % 2 ^ 32 ≠ 0 →
      ((repair_prodata c x (found_bad_blocks c x file) (mapped_prodata x file)).isNone = true ∨
        check_md5_2 c (mapped_prodata x file)
          ((repair_prodata c x (found_bad_blocks c x file) (mapped_prodata x file)).getD [])
          (found_bad_blocks c x file) x.prodata_size_ x.fec_block_size_ x.prodata_md5_ = false) →
      fec_test_file c x file repair to_stdout to_file outfd_open open_ok close_ok write_ok retval
        = Fec_outcome.fail 2) ∧
    (found_bad_blocks c x file = [] → file_mismatch c x file = true →
      (x.is_lz_ = true ∨ x.has_array = true) → open_ok = true → close_ok = true →
      (∀ col, write_ok col = true) → retval = 0 →
      fec_test_file c x file repair to_stdout to_file outfd_open open_ok close_ok write_ok retval
        = Fec_outcome.next 0 (some (repaired_blocks (mapped_prodata x file) [] []
            x.prodata_blocks 0 x.prodata_size_ x.fec_block_size_ x.prodata_blocks 0 0).flatten)) := by
  subst hrepair
  refine ⟨?_, ?_, ?_⟩
  · intro r w h hbad
    have hd : file_dstbuf c x file =
        repair_prodata c x (found_bad_blocks c x file) (mapped_prodata x file) := by
      unfold file_dstbuf
      rw [if_pos hbad]
    unfold fec_test_file at h
    rw [if_neg (fun h1 => absurd h1.2 (by decide))] at h
    by_cases h2 : true = true ∧ (file_mismatch c x file = true ∨ size_dif x file > 0)
    · rw [if_pos h2] at h
      unfold repair_file at h
      split at h
      · exact Fec_outcome.noConfusion h
      split at h
      · exact Fec_outcome.noConfusion h
      · rename_i hchk
        split at h
        · exact Fec_outcome.noConfusion h
        split at h
        · exact Fec_outcome.noConfusion h
        · have hw := write_copy_next _ _ _ _ _ _ h
          have hm : check_md5_2 c (mapped_prodata x file) ((file_dstbuf c x file).getD [])
              (found_bad_blocks c x file) x.prodata_size_ x.fec_block_size_ x.prodata_md5_
              = true := by
            cases hb : check_md5_2 c (mapped_prodata x file) ((file_dstbuf c x file).getD [])
              (found_bad_blocks c x file) x.prodata_size_ x.fec_block_size_ x.prodata_md5_
            · exact absurd ⟨hbad, Or.inr hb⟩ hchk
            · rfl
          unfold check_md5_2 at hm
          rw [decide_eq_true_eq] at hm
          rw [hw, hm]
          rfl
    · rw [if_neg h2] at h
      injection h with _ h3
      exact Option.noConfusion h3
  · intro hbad hfail
    have hd : file_dstbuf c x file =
        repair_prodata c x (found_bad_blocks c x file) (mapped_prodata x file) := by
      unfold file_dstbuf
      rw [if_pos hbad]
    have hmis : file_mismatch c x file = true := by
      unfold file_mismatch check_prodata
      simp only [if_pos hbad]
      rfl
    unfold fec_test_file
    rw [if_neg (fun h1 => absurd h1.2 (by decide)), if_pos ⟨rfl, Or.inl hmis⟩]
    unfold repair_file
    by_cases h1 : x.is_lz_ = false ∧ x.has_array = false ∧ file_mismatch c x file = true
    · rw [if_pos h1]
    · rw [if_neg h1, hd, if_pos ⟨hbad, hfail⟩]
  · intro hbad hmis hlz hopen hclose hw hret
    subst hopen hclose hret
    have hd : file_dstbuf c x file = none := by
      unfold file_dstbuf
      rw [hbad]
      rfl
    unfold fec_test_file
    rw [if_neg (fun h1 => absurd h1.2 (by decide)), if_pos ⟨rfl, Or.inl hmis⟩]
    unfold repair_file
    rw [if_neg (fun h1 => by
      rcases hlz with e | e
      · rw [e] at h1; exact absurd h1.1 (by decide)
      · rw [e] at h1; exact absurd h1.2.1 (by decide))]
    rw [hbad, hd]
    rw [if_neg (fun h1 => absurd h1.1 (by decide)), if_neg (fun h1 => absurd h1.2.2 (by decide)),
      if_neg (fun h1 => absurd h1.2.2 (by decide))]
    exact write_copy_ok write_ok hw _

set_option maxRecDepth 20000 in
theorem fec_test_repair_md5_witness :
    sample_index_no_array.retval_ = 0 ∧
    sample_index_no_array.prodata_md5_ = [0, 0] ∧
    found_bad_blocks sample_fec_decls sample_index_no_array [5, 7] = [] ∧
    found_md5 sample_fec_decls sample_index_no_array [5, 7] = some [5, 7] ∧
    fec_test_file sample_fec_decls sample_index_no_array [5, 7] true false false false true true
      (fun _ => true) 0 = Fec_outcome.next 0
        (some (repaired_blocks (mapped_prodata sample_index_no_array [5, 7]) [] []
          sample_index_no_array.prodata_blocks 0 sample_index_no_array.prodata_size_
          sample_index_no_array.fec_block_size_ sample_index_no_array.prodata_blocks 0 0).flatten) ∧
    (repaired_blocks (mapped_prodata sample_index_no_array [5, 7]) [] []
      sample_index_no_array.prodata_blocks 0 sample_index_no_array.prodata_size_
      sample_index_no_array.fec_block_size_ sample_index_no_array.prodata_blocks 0 0).flatten
      = [5, 7] ∧
    sample_fec_decls.md5 [5, 7] ≠ sample_index_no_array.prodata_md5_ :=
  ⟨by decide, by decide, by decide, by decide,
    (fec_test_repair_md5 sample_fec_decls sample_index_no_array [5, 7] true false false false
      true true (fun _ => true) 0 rfl).2.2 (by decide) (by decide) (Or.inl (by decide)) rfl rfl
      (fun _ => rfl) rfl,
    by decide, by decide⟩

end Lzip

namespace Lzip
open Packet_courier

theorem allData_nil : AllData [] := fun _ h => absurd h (List.not_mem_nil _)

theorem allData_cons (d : List Nat) (b : List Opacket) (hb : AllData b) :
    AllData (Opacket.mk (some d) :: b) := by
  intro o ho
  rcases List.mem_cons.mp ho with h | h
  · rw [h]; rfl
  · exact hb o h

theorem loop_encode_loop_data {E : Type} (c : Lzlib_decls E) (finish : Bool) (ibuf : List Nat)
    (fuel : Nat) :
    ∀ (ipos : Nat) (obuf : List Nat) (encoder : E),
      AllData (loop_encode_loop c finish ibuf fuel ipos obuf encoder).1 := by
  induction fuel with
  | zero =>
    intro ipos obuf encoder
    rw [loop_encode_loop]
    exact allData_nil
  | succ fuel ih =>
    intro ipos obuf encoder
    rw [loop_encode_loop]
    split
    · exact allData_nil
    · split
      · exact allData_nil
      · split
        · exact allData_nil
        · split
          · split
            · exact allData_nil
            · split
              · exact allData_cons _ _ allData_nil
              · exact allData_cons _ _ (ih _ _ _)
          · exact ih _ _ _

theorem loop_encode_data {E : Type} (c : Lzlib_decls E) (fuel : Nat) (finish : Bool)
    (ibuf obuf : List Nat) (encoder : E) :
    AllData (loop_encode c fuel finish ibuf obuf encoder).1 := by
  unfold loop_encode
  split
  · exact allData_nil
  · exact loop_encode_loop_data c finish ibuf fuel 0 obuf encoder

theorem loop_encode_loop_finish {E : Type} (c : Lzlib_decls E) (ibuf : List Nat) (fuel : Nat) :
    ∀ (ipos : Nat) (obuf : List Nat) (encoder : E) (p : List Nat × E),
      (loop_encode_loop c true ibuf fuel ipos obuf encoder).2 = some p →
      p.1 = [] ∧ ∃ e2, 0 ≤ (c.LZ_compress_restart_member e2).1 ∧
        p.2 = (c.LZ_compress_restart_member e2).2 := by
  induction fuel with
  | zero =>
    intro ipos obuf encoder p h
    rw [loop_encode_loop] at h
    exact absurd h (by simp)
  | succ fuel ih =>
    intro ipos obuf encoder p h
    rw [loop_encode_loop] at h
    split at h
    · exact absurd h (by simp)
    · split at h
      · rename_i hc
        exact absurd hc.2 (by decide)
      · split at h
        · exact absurd h (by simp)
        · split at h
          · split at h
            · exact absurd h (by simp)
            · split at h
              · split at h
                · rename_i hr
                  injection h with h
                  rw [← h]
                  exact ⟨rfl, _, hr.1, rfl⟩
                · exact absurd h (by simp)
              · exact ih _ _ _ p h
          · exact ih _ _ _ p h

theorem loop_encode_finish {E : Type} (c : Lzlib_decls E) (fuel : Nat) (ibuf obuf : List Nat)
    (encoder : E) (p : List Nat × E)
    (h : (loop_encode c fuel true ibuf obuf encoder).2 = some p) :
    p.1 = [] ∧ ∃ e2, 0 ≤ (c.LZ_compress_restart_member e2).1 ∧
      p.2 = (c.LZ_compress_restart_member e2).2 := by
  unfold loop_encode at h
  split at h
  · exact absurd h (by simp)
  · exact loop_encode_loop_finish c ibuf fuel 0 obuf encoder p h

theorem bind_congr {E : Type} (r1 r2 : Encoded E) (f1 f2 : List Nat → E → Encoded E)
    (hr : r1 = r2) (hf : ∀ q, r2.2 = some q → f1 q.1 q.2 = f2 q.1 q.2) :
    r1.bind f1 = r2.bind f2 := by
  rw [hr]
  unfold Encoded.bind
  cases h : r2.2 with
  | none => rfl
  | some q =>
    dsimp only
    rw [hf q h]

/-- The bound on the number of iterations of the loop on the data of a file is
never reached: any two bounds not below `rest` give the same. -/
theorem encode_file_chunks {E : Type} (c : Lzlib_decls E) (fuel file_size : Nat) (n : Nat) :
    ∀ (m rest : Nat) (content obuf : List Nat) (encoder : E), rest ≤ n → rest ≤ m →
      encode_file c fuel file_size n rest content obuf encoder =
        encode_file c fuel file_size m rest content obuf encoder := by
  induction n with
  | zero =>
    intro m rest content obuf encoder hn _
    have h0 : ¬ rest > 0 := by omega
    cases m with
    | zero => rfl
    | succ m => rw [encode_file, encode_file, if_neg h0, if_neg h0]
  | succ n ih =>
    intro m rest content obuf encoder hn hm
    cases m with
    | zero =>
      have h0 : ¬ rest > 0 := by omega
      rw [encode_file, encode_file, if_neg h0, if_neg h0]
    | succ m =>
      rw [encode_file, encode_file]
      by_cases h1 : rest > 0
      · rw [if_pos h1, if_pos h1]
        by_cases h2 : content.length < min rest (32 * header_size)
        · rw [if_pos h2, if_pos h2]
        · rw [if_neg h2, if_neg h2]
          have hs : header_size = 512 := rfl
          refine bind_congr _ _ _ _ rfl (fun q _ => ih m _ _ _ _ ?_ ?_)
          · rw [hs]; omega
          · rw [hs]; omega
      · rw [if_neg h1, if_neg h1]

theorem cworker_token_cases {E : Type} (env : Create_env E) (fuel : Nat) (st : Cworker E)
    (hR : Restart_fresh env) (hg : st.good env) :
    (AllData (cworker_token env fuel st).1 ∧ (cworker_token env fuel st).2 = none) ∨
    (∃ d st1, AllData d ∧ (cworker_token env fuel st).1 = d ++ [Opacket.mk none] ∧
      (cworker_token env fuel st).2 = some st1 ∧ st1.fresh env) := by
  unfold cworker_token
  by_cases hf : st.flushed = true
  · rw [if_pos hf]
    exact Or.inr ⟨[], st, allData_nil, rfl, rfl, hg hf⟩
  · rw [if_neg hf]
    cases he : st.encoder with
    | none => exact Or.inl ⟨allData_nil, rfl⟩
    | some e =>
      dsimp only
      have hd := loop_encode_data env.lz fuel true [] st.data e
      cases hl : (loop_encode env.lz fuel true [] st.data e).2 with
      | none =>
        refine Or.inl ⟨?_, rfl⟩
        rw [List.append_nil]
        exact hd
      | some p =>
        obtain ⟨h1, e2, h2, h3⟩ := loop_encode_finish env.lz fuel [] st.data e p hl
        refine Or.inr ⟨_, _, hd, rfl, rfl, rfl, h1, Or.inr ?_⟩
        show some p.2 = _
        rw [h3]
        exact hR e2 h2

theorem cworker_member_good {E : Type} (env : Create_env E) (fuel : Nat) (st st1 : Cworker E)
    (ip : Ipacket) (h : (cworker_member env fuel st ip).2 = some st1) (hg : st.good env) :
    st1.good env := by
  unfold cworker_member at h
  split at h
  · injection h with h
    rw [← h]
    exact hg
  · split at h
    · exact absurd h (by simp)
    · split at h
      · exact absurd h (by simp)
      · cases hm : (encode_member env fuel ip st.data _).2 with
        | none =>
          rw [hm] at h
          exact absurd h (by simp)
        | some p =>
          rw [hm] at h
          injection h with h
          rw [← h]
          intro hf
          exact absurd hf Bool.false_ne_true

theorem fresh_good {E : Type} (env : Create_env E) (st : Cworker E) (h : st.fresh env) :
    st.good env := fun _ => h

theorem cworker_body_good {E : Type} (env : Create_env E) (fuel : Nat) (st st1 : Cworker E)
    (ip : Ipacket) (hR : Restart_fresh env) (h : (cworker_body env fuel st ip).2 = some st1)
    (hg : st.good env) : st1.good env := by
  unfold cworker_body at h
  split at h
  · rcases cworker_token_cases env fuel st hR hg with ⟨_, h2⟩ | ⟨d, st2, _, _, h2, h3⟩
    · rw [h2] at h
      exact absurd h (by simp)
    · rw [h2] at h
      injection h with h
      rw [← h]
      exact fresh_good env st2 h3
  · exact cworker_member_good env fuel st st1 ip h hg

theorem run_cons_none {E : Type} (env : Create_env E) (fuel : Nat) (st : Cworker E)
    (ip : Ipacket) (t : List Ipacket) (h : (cworker_body env fuel st ip).2 = none) :
    cworker_run env fuel st (ip :: t) = ((cworker_body env fuel st ip).1, none) := by
  rw [cworker_run]
  simp only [h]

theorem run_cons_some {E : Type} (env : Create_env E) (fuel : Nat) (st st1 : Cworker E)
    (ip : Ipacket) (t : List Ipacket) (h : (cworker_body env fuel st ip).2 = some st1) :
    cworker_run env fuel st (ip :: t) =
      ((cworker_body env fuel st ip).1 ++ (cworker_run env fuel st1 t).1,
        (cworker_run env fuel st1 t).2) := by
  rw [cworker_run]
  simp only [h]

theorem run_good {E : Type} (env : Create_env E) (fuel : Nat) (hR : Restart_fresh env)
    (l : List Ipacket) :
    ∀ (st st1 : Cworker E), st.good env → (cworker_run env fuel st l).2 = some st1 →
      st1.good env := by
  induction l with
  | nil =>
    intro st st1 hg h
    rw [cworker_run] at h
    injection h with h
    rw [← h]
    exact hg
  | cons ip t ih =>
    intro st st1 hg h
    cases hb : (cworker_body env fuel st ip).2 with
    | none =>
      rw [run_cons_none env fuel st ip t hb] at h
      exact absurd h (by simp)
    | some st2 =>
      rw [run_cons_some env fuel st st2 ip t hb] at h
      exact ih st2 st1 (cworker_body_good env fuel st st2 ip hR hb hg) h
end Lzip
